import Mathlib

/-!
# LAGraph: batched betweenness centrality and the binary reader

A shallow embedding of `LAGraph_VertexCentrality_Betweenness`
(`Experimental2/Algorithm/LAGraph_VertexCentrality_Betweenness.c`) and of
`LAGraph_BinRead`, and proofs about them.

* A `GrB_Matrix` is a pair of dimensions with, per position, a stored entry or nothing.
  The FP64 values are exact rationals: the transcription computes in exact arithmetic.
  The forward sweep is repeated with every sum rounded to the nearest double
  (`bfs_stage_fp64`), which is what decides how far the path counts are exact.
* GraphBLAS is an external library.  The operations the function calls are written out
  with the meaning the GraphBLAS C API gives them (structural masks, replace,
  accumulators, the PLUS_FIRST semiring), including the index and dimension checks that
  make a call report an error.
* The function itself is transcribed statement by statement; a `GrB_TRY` that sees an
  error ends the call.  The sparsity hints (`GxB_set`) have no meaning and are left out.
  In this first transcription allocation succeeds and `S` is a list.
* A second transcription, "the function with its resources", adds what the first leaves
  out: calls that fail for want of memory or any other outside reason, the array `S`
  with its `n+1` slots and NULL sentinel, and the handle `*centrality` through
  LAGRAPH_FREE_ALL.  Without such failures it ends as the first does.
* Shortest paths are defined independently, by enumerating walks.
* The triangle counting methods, whose source is absent, are modelled from the formulas
  the tests attach to them.
* `LAGraph_BinRead` (`Experimental2/Utility/LAGraph_BinRead.c`) is transcribed over a file
  of bytes; the allocator, the import routines and the constants of the engine are
  parameters.

Layout: the embedding, the notions used in the statements, the lemmas, and last the
properties `C1` .. `C25`.
-/

namespace LAGraph

/-! ## The engine: matrices and the operations used -/

/-- Error codes an engine call can report in this development. -/
inductive GrB_Info where
  | GrB_INVALID_INDEX
  | GrB_DIMENSION_MISMATCH
  | GrB_OUT_OF_MEMORY
  | GrB_NULL_POINTER
deriving DecidableEq, Repr

deriving instance DecidableEq for Except

/-- GrB_Matrix: `nrows`-by-`ncols`; `rows[i][j]` is the stored entry at `(i,j)`, if any. -/
structure Matrix (α : Type) where
  nrows : Nat
  ncols : Nat
  rows : List (List (Option α))
deriving DecidableEq, Repr

/-- GrB_Vector: one optional entry per index. -/
abbrev GrB_Vector := List (Option ℚ)

variable {α β μ : Type}

/-- The entry stored at `(i,j)`; nothing outside the dimensions. -/
def Matrix.get (M : Matrix α) (i j : Nat) : Option α :=
  if i < M.nrows ∧ j < M.ncols then (M.rows.getD i []).getD j none else none

/-- Whether `(i,j)` is in the pattern of `M`. -/
def Matrix.has (M : Matrix α) (i j : Nat) : Bool :=
  (M.get i j).isSome

/-- The `r`-by-`c` matrix whose entry at `(i,j)` is `f i j`. -/
def Matrix.build (r c : Nat) (f : Nat → Nat → Option α) : Matrix α :=
  ⟨r, c, (List.range r).map fun i => (List.range c).map fun j => f i j⟩

/-- GrB_Matrix_nvals: the number of stored entries. -/
def GrB_Matrix_nvals (M : Matrix α) : Nat :=
  ((List.range M.nrows).map fun i =>
    ((List.range M.ncols).filter fun j => M.has i j).length).sum

/-- GrB_Matrix_new: an empty `r`-by-`c` matrix.  A dimension may be zero, as in
SuiteSparse:GraphBLAS, the engine the function is written for (it calls `GxB_set` and
uses `GxB_PLUS_FIRST_FP64`). -/
def GrB_Matrix_new (r c : Nat) : Matrix α :=
  Matrix.build r c fun _ _ => none

/-- GrB_Matrix_setElement: `C(i,j) = x`; an index outside the matrix is an error. -/
def GrB_Matrix_setElement (C : Matrix α) (x : α) (i j : Nat) : Except GrB_Info (Matrix α) :=
  if i < C.nrows ∧ j < C.ncols then
    .ok (Matrix.build C.nrows C.ncols fun a b => if a = i ∧ b = j then some x else C.get a b)
  else .error .GrB_INVALID_INDEX

/-- The descriptor settings that occur: every mask is structural; `replace` clears the
output outside the mask, `comp` complements the mask, `tran0`/`tran1` transpose the
first/second input. -/
structure GrB_Descriptor where
  replace : Bool
  comp : Bool
  tran0 : Bool
  tran1 : Bool
deriving DecidableEq, Repr

/-- The descriptors the function passes: NULL (all defaults), RS = replace + structural
mask, C = complemented mask, T0 / T1 = first / second input transposed. -/
def GrB_DESC_NULL : GrB_Descriptor := ⟨false, false, false, false⟩
def GrB_DESC_RS : GrB_Descriptor := ⟨true, false, false, false⟩
def GrB_DESC_RSC : GrB_Descriptor := ⟨true, true, false, false⟩
def GrB_DESC_RST1 : GrB_Descriptor := ⟨true, false, false, true⟩
def GrB_DESC_RSCT1 : GrB_Descriptor := ⟨true, true, false, true⟩
def GrB_DESC_T0 : GrB_Descriptor := ⟨false, false, true, false⟩

/-- Whether the (structural, possibly complemented) mask lets `(i,j)` be written.
A NULL mask lets every position be written. -/
def mask_allows (Mask : Option (Matrix μ)) (desc : GrB_Descriptor) (i j : Nat) : Bool :=
  match Mask with
  | none => true
  | some M => M.has i j != desc.comp

/-- Whether the dimensions of a mask, when there is one, are those of the output. -/
def mask_fits (Mask : Option (Matrix μ)) (r c : Nat) : Bool :=
  match Mask with
  | none => true
  | some M => decide (M.nrows = r ∧ M.ncols = c)

/-- Step `Z = accum (C, T)` of an engine operation at one position. -/
def accum_entry (accum : Option (ℚ → ℚ → ℚ)) (c t : Option ℚ) : Option ℚ :=
  match accum with
  | none => t
  | some f =>
    match c, t with
    | some x, some y => some (f x y)
    | some x, none => some x
    | none, y => y

/-- Step `C<Mask> = Z` of an engine operation at one position: inside the mask the
entry becomes that of `Z`; outside it is deleted under `replace` and kept otherwise. -/
def write_entry (allowed replace : Bool) (c z : Option ℚ) : Option ℚ :=
  if allowed then z else if replace then none else c

/-- The product `A(i,k) * B(k,j)` under FIRST: the value `A(i,k)`, present when both
`A(i,k)` and `B(k,j)` are stored.  The values of `B` play no part. -/
def plus_first_term (A : Matrix ℚ) (Bhas : Nat → Nat → Bool) (i j k : Nat) : Option ℚ :=
  match A.get i k with
  | some a => if Bhas k j then some a else none
  | none => none

/-- The entry `(i,j)` of `A*B` in the GxB_PLUS_FIRST_FP64 semiring: the sum of `A(i,k)`
over the `k` with both `A(i,k)` and `B(k,j)` stored; no entry when there is no such `k`.
The sum is the exact one; `plus_first_dot_fp64` is the sum in doubles. -/
def plus_first_dot (A : Matrix ℚ) (Bhas : Nat → Nat → Bool) (i j : Nat) : Option ℚ :=
  let terms := (List.range A.ncols).filterMap (plus_first_term A Bhas i j)
  if terms.isEmpty then none else some terms.sum

/-- Number of rows of an input matrix, transposed when `tran` is set. -/
def Matrix.nrows_t (B : Matrix β) (tran : Bool) : Nat :=
  if tran then B.ncols else B.nrows

/-- Number of columns of an input matrix, transposed when `tran` is set. -/
def Matrix.ncols_t (B : Matrix β) (tran : Bool) : Nat :=
  if tran then B.nrows else B.ncols

/-- Pattern of an input matrix, transposed when `tran` is set. -/
def Matrix.has_t (B : Matrix β) (tran : Bool) (k l : Nat) : Bool :=
  if tran then B.has l k else B.has k l

/-- GrB_mxm with the GxB_PLUS_FIRST_FP64 semiring and no accumulator:
`C<Mask> = A*B` (or `A*B'` under `tran1`). -/
def GrB_mxm (C : Matrix ℚ) (Mask : Option (Matrix μ)) (A : Matrix ℚ) (B : Matrix β)
    (desc : GrB_Descriptor) : Except GrB_Info (Matrix ℚ) :=
  if C.nrows = A.nrows ∧ C.ncols = B.ncols_t desc.tran1 ∧ A.ncols = B.nrows_t desc.tran1
      ∧ mask_fits Mask C.nrows C.ncols then
    .ok (Matrix.build C.nrows C.ncols fun i j =>
      write_entry (mask_allows Mask desc i j) desc.replace (C.get i j)
        (plus_first_dot A (B.has_t desc.tran1) i j))
  else .error .GrB_DIMENSION_MISMATCH

/-- The entry of `A .op B` at a position: present where both operands are. -/
def ewise_entry (op : ℚ → ℚ → ℚ) (a b : Option ℚ) : Option ℚ :=
  match a, b with
  | some x, some y => some (op x y)
  | _, _ => none

/-- GrB_eWiseMult: `C<Mask> = accum (C, A .op B)`, where `A .op B` has an entry exactly
where both `A` and `B` have one. -/
def GrB_eWiseMult (C : Matrix ℚ) (Mask : Option (Matrix μ)) (accum : Option (ℚ → ℚ → ℚ))
    (op : ℚ → ℚ → ℚ) (A B : Matrix ℚ) (desc : GrB_Descriptor) : Except GrB_Info (Matrix ℚ) :=
  if C.nrows = A.nrows ∧ C.ncols = A.ncols ∧ C.nrows = B.nrows ∧ C.ncols = B.ncols
      ∧ mask_fits Mask C.nrows C.ncols then
    .ok (Matrix.build C.nrows C.ncols fun i j =>
      write_entry (mask_allows Mask desc i j) desc.replace (C.get i j)
        (accum_entry accum (C.get i j) (ewise_entry op (A.get i j) (B.get i j))))
  else .error .GrB_DIMENSION_MISMATCH

/-- GrB_assign of a matrix to all rows and columns (GrB_ALL, GrB_ALL), no mask:
`C = accum (C, A)`. -/
def GrB_assign (C : Matrix ℚ) (accum : Option (ℚ → ℚ → ℚ)) (A : Matrix ℚ) :
    Except GrB_Info (Matrix ℚ) :=
  if C.nrows = A.nrows ∧ C.ncols = A.ncols then
    .ok (Matrix.build C.nrows C.ncols fun i j => accum_entry accum (C.get i j) (A.get i j))
  else .error .GrB_DIMENSION_MISMATCH

/-- GrB_assign of a scalar to all rows and columns, no mask, no accumulator: every
position of `C` holds `x`. -/
def GrB_assign_scalar (C : Matrix ℚ) (x : ℚ) : Matrix ℚ :=
  Matrix.build C.nrows C.ncols fun _ _ => some x

/-- GrB_Vector_new: an empty vector of size `n`. -/
def GrB_Vector_new (n : Nat) : GrB_Vector :=
  (List.range n).map fun _ => none

/-- GrB_assign of a scalar to all indices of a vector. -/
def GrB_Vector_assign_scalar (w : GrB_Vector) (x : ℚ) : GrB_Vector :=
  (List.range w.length).map fun _ => some x

/-- The entry of an input matrix, transposed when `tran` is set. -/
def Matrix.get_t (B : Matrix β) (tran : Bool) (k l : Nat) : Option β :=
  if tran then B.get l k else B.get k l

/-- GrB_reduce of a matrix to a vector with the PLUS monoid, no mask:
`w = accum (w, t)` where `t(j)` is the sum of the entries of row `j` of `A` (of `A'`
under `tran0`), and has no entry when that row is empty. -/
def GrB_reduce (w : GrB_Vector) (accum : Option (ℚ → ℚ → ℚ)) (A : Matrix ℚ)
    (desc : GrB_Descriptor) : Except GrB_Info GrB_Vector :=
  if w.length = A.nrows_t desc.tran0 then
    .ok ((List.range w.length).map fun j =>
      let terms := (List.range (A.ncols_t desc.tran0)).filterMap fun i => A.get_t desc.tran0 j i
      accum_entry accum (w.getD j none) (if terms.isEmpty then none else some terms.sum))
  else .error .GrB_DIMENSION_MISMATCH

/-- Modelled from the spec: LAGraph_Pattern is not among the sources; by the spec it
"extracts the structural footprint (presence/absence) of source into a boolean matrix". -/
def LAGraph_Pattern (M : Matrix α) : Matrix Bool :=
  Matrix.build M.nrows M.ncols fun i j => if M.has i j then some true else none

/-! ## The graph handle -/

/-- Modelled from the spec: the kinds of graph (LAGraph.h is not among the sources); the
function only asks whether the kind is LAGRAPH_ADJACENCY_UNDIRECTED, for which the
transpose "may alias the forward pattern". -/
inductive LAGraph_Kind where
  | LAGRAPH_ADJACENCY_UNDIRECTED
  | LAGRAPH_ADJACENCY_DIRECTED
  | LAGRAPH_KIND_UNKNOWN
deriving DecidableEq, Repr

/-- Modelled from the spec: a cached boolean property of a graph (LAGraph.h is not among
the sources): known true, known false, or not known. -/
inductive LAGraph_BooleanProperty where
  | LAGRAPH_TRUE
  | LAGRAPH_FALSE
  | LAGRAPH_BOOLEAN_UNKNOWN
deriving DecidableEq, Repr

/-- The fields of LAGraph_Graph the function reads; `AT = none` is a NULL `G->AT`. -/
structure LAGraph_Graph (α : Type) where
  A : Matrix α
  AT : Option (Matrix α)
  kind : LAGraph_Kind
  A_pattern_is_symmetric : LAGraph_BooleanProperty

/-! ## LAGraph_VertexCentrality_Betweenness -/

/-- Modelled from the spec: LG_CHECK and GrB_TRY are macros of LG_internal.h, which is
not among the sources.  By the spec "all failures abort the computation immediately (no
partial results returned)": a failing LG_CHECK ends the call with its error id and
message (`lg_check`), a failing GrB_TRY ends it with the error of the engine call
(`grb_try`), and neither hands back a vector.  `returned_ok` is `return (0)` with
`*centrality` set. -/
inductive Outcome where
  | returned_ok (centrality : GrB_Vector)
  | lg_check (error_id : Int) (msg : String)
  | grb_try (info : GrB_Info)
deriving DecidableEq, Repr

/-- Whether the returned status is nonzero. -/
def Outcome.status_nonzero : Outcome → Bool
  | .returned_ok _ => false
  | .lg_check error_id _ => error_id != 0
  | .grb_try _ => true

/-- The vector handed back in `*centrality`, when there is one. -/
def Outcome.centrality : Outcome → Option GrB_Vector
  | .returned_ok c => some c
  | .lg_check _ _ => none
  | .grb_try _ => none

/-- The direction policy of a run: `adaptive` is what the source does; the other two
force one branch at every step. -/
inductive Policy where
  | adaptive
  | always_push
  | always_pull
deriving DecidableEq, Repr

/-- The direction taken under a policy, given what the heuristic of the source says. -/
def Policy.choose (p : Policy) (heuristic : Bool) : Bool :=
  match p with
  | .adaptive => heuristic
  | .always_push => false
  | .always_pull => true

/-- The loop `for (i = 0 ; i < ns ; i++)` setting `paths (i,s(i)) = 1` and
`frontier (i,s(i)) = 1`; `i` is the index of the first source of `sources`. -/
def init_sources : List Nat → Nat → Matrix ℚ → Matrix ℚ → Except GrB_Info (Matrix ℚ × Matrix ℚ)
  | [], _, paths, frontier => .ok (paths, frontier)
  | s :: rest, i, paths, frontier => do
    let paths ← GrB_Matrix_setElement paths 1 i s
    let frontier ← GrB_Matrix_setElement frontier 1 i s
    init_sources rest (i + 1) paths frontier

/-- The variables of the breadth-first search stage. -/
structure BFSState where
  frontier : Matrix ℚ
  paths : Matrix ℚ
  S : List (Matrix Bool)
  depth : Nat
  frontier_size : Nat
  last_frontier_size : Nat
  last_was_pull : Bool
deriving DecidableEq, Repr

/-- The forward `do_pull`: pull if the frontier is more than 10% dense, or more than 6%
dense and the last step was a pull.  The comparisons of doubles are made on exact
rationals. -/
def forward_do_pull (frontier_size ns n : Nat) (last_was_pull : Bool) : Bool :=
  let frontier_density : ℚ := (frontier_size : ℚ) / ((ns * n : Nat) : ℚ)
  decide (frontier_density > 10 / 100) || (decide (frontier_density > 6 / 100) && last_was_pull)

/-- One pass through the body of the breadth-first search loop. -/
def bfs_step (p : Policy) (A AT : Matrix α) (ns n : Nat) (st : BFSState) :
    Except GrB_Info BFSState := do
  -- S [depth] = pattern of frontier
  let Sd := LAGraph_Pattern st.frontier
  -- paths += frontier
  let paths ← GrB_assign st.paths (some (· + ·)) st.frontier
  -- growing = frontier_size > last_frontier_size is computed here and never read
  let do_pull := p.choose (forward_do_pull st.frontier_size ns n st.last_was_pull)
  let frontier ←
    if do_pull then
      -- frontier<!paths> = frontier*AT'
      GrB_mxm st.frontier (some paths) st.frontier AT GrB_DESC_RSCT1
    else
      -- frontier<!paths> = frontier*A
      GrB_mxm st.frontier (some paths) st.frontier A GrB_DESC_RSC
  pure { frontier := frontier, paths := paths, S := st.S ++ [Sd], depth := st.depth + 1,
         frontier_size := GrB_Matrix_nvals frontier,
         last_frontier_size := st.frontier_size, last_was_pull := do_pull }

/-- The loop `for (depth = 0 ; frontier_size > 0 && depth < n ; depth++)`.  The first
argument bounds the number of passes; `n` passes always suffice since `depth` counts
them. -/
def bfs_loop (p : Policy) (A AT : Matrix α) (ns n : Nat) :
    Nat → BFSState → Except GrB_Info BFSState
  | 0, st => .ok st
  | fuel + 1, st =>
    if st.frontier_size > 0 ∧ st.depth < n then
      (bfs_step p A AT ns n st).bind (bfs_loop p A AT ns n fuel)
    else .ok st

/-- The initialisations: `paths` and `frontier` hold the sources, then the initial
frontier `frontier<!paths> = frontier*A` is formed; the result is the state in which the
loop is entered. -/
def bfs_init (A : Matrix α) (sources : List Nat) : Except GrB_Info BFSState := do
  let ns := sources.length
  let n := A.nrows
  let paths : Matrix ℚ := GrB_Matrix_new ns n
  let frontier : Matrix ℚ := GrB_Matrix_new ns n
  let (paths, frontier) ← init_sources sources 0 paths frontier
  -- Initial frontier: frontier<!paths>= frontier*A
  let frontier ← GrB_mxm frontier (some paths) frontier A GrB_DESC_RSC
  pure { frontier := frontier, paths := paths, S := [], depth := 0,
         frontier_size := GrB_Matrix_nvals frontier, last_frontier_size := 0,
         last_was_pull := false }

/-- Initialisation and breadth-first search stage: everything up to the end of the
forward loop. -/
def bfs_stage (p : Policy) (A AT : Matrix α) (sources : List Nat) :
    Except GrB_Info BFSState :=
  (bfs_init A sources).bind (bfs_loop p A AT sources.length A.nrows A.nrows)

/-- The variables of the backward sweep. -/
structure BCState where
  bc_update : Matrix ℚ
  W : Matrix ℚ
deriving DecidableEq, Repr

/-- The backward `do_pull`: pull if W is more than 10% dense and nnz(W)/nnz(S[i-1]) > 1,
or if W is more than 1% dense and nnz(W)/nnz(S[i-1]) > 10.  The comparisons of doubles
are made on exact rationals. -/
def backward_do_pull (wsize ssize ns n : Nat) : Bool :=
  let w_density : ℚ := (wsize : ℚ) / ((ns * n : Nat) : ℚ)
  let w_to_s_ratio : ℚ := (wsize : ℚ) / (ssize : ℚ)
  (decide (w_density > 1 / 10) && decide (w_to_s_ratio > 1)) ||
    (decide (w_density > 1 / 100) && decide (w_to_s_ratio > 10))

/-- The level pattern `S [i]`. -/
def level (S : List (Matrix Bool)) (i : Nat) : Matrix Bool :=
  S.getD i (Matrix.build 0 0 fun _ _ => none)

/-- One pass through the body of the backward loop, at index `i`. -/
def bc_step (p : Policy) (A AT : Matrix α) (paths : Matrix ℚ) (S : List (Matrix Bool))
    (ns n : Nat) (i : Nat) (st : BCState) : Except GrB_Info BCState := do
  -- W<S[i]> = bc_update ./ paths
  let W ← GrB_eWiseMult st.W (some (level S i)) none (· / ·) st.bc_update paths GrB_DESC_RS
  let wsize := GrB_Matrix_nvals W
  let ssize := GrB_Matrix_nvals (level S (i - 1))
  let do_pull := p.choose (backward_do_pull wsize ssize ns n)
  let W ←
    if do_pull then
      -- W<S[i−1]> = W * A'
      GrB_mxm W (some (level S (i - 1))) W A GrB_DESC_RST1
    else
      -- W<S[i−1]> = W * AT
      GrB_mxm W (some (level S (i - 1))) W AT GrB_DESC_RS
  -- bc_update += W .* paths
  let bc_update ← GrB_eWiseMult st.bc_update (none : Option (Matrix Bool)) (some (· + ·))
    (· * ·) W paths GrB_DESC_NULL
  pure { bc_update := bc_update, W := W }

/-- The loop `for (i = depth-1 ; i > 0 ; i--)`, entered at index `i`. -/
def bc_loop (p : Policy) (A AT : Matrix α) (paths : Matrix ℚ) (S : List (Matrix Bool))
    (ns n : Nat) : Nat → BCState → Except GrB_Info BCState
  | 0, st => .ok st
  | i + 1, st => (bc_step p A AT paths S ns n (i + 1) st).bind (bc_loop p A AT paths S ns n i)

/-- The state in which the backward loop is entered: `bc_update = ones (ns, n)` and an
empty `W`. -/
def bc_init (ns n : Nat) : BCState :=
  { bc_update := GrB_assign_scalar (GrB_Matrix_new ns n) 1, W := GrB_Matrix_new ns n }

/-- The finalisation: `centrality = -ns`, then `centrality (i) += sum (bc_update (:,i))`. -/
def finalize (ns n : Nat) (bc_update : Matrix ℚ) : Except GrB_Info GrB_Vector :=
  GrB_reduce (GrB_Vector_assign_scalar (GrB_Vector_new n) (-(ns : ℚ))) (some (· + ·)) bc_update
    GrB_DESC_T0

/-- The betweenness centrality computation phase and the finalisation, from the state
the forward loop ended in. -/
def bc_stage (p : Policy) (A AT : Matrix α) (ns : Nat) (fwd : BFSState) :
    Except GrB_Info GrB_Vector :=
  (bc_loop p A AT fwd.paths fwd.S ns A.nrows (fwd.depth - 1) (bc_init ns A.nrows)).bind
    fun st => finalize ns A.nrows st.bc_update

/-- Everything after the input checks, once `A` and `AT` are fixed: initialisations,
breadth-first search stage, backward sweep and finalisation. -/
def compute (p : Policy) (A AT : Matrix α) (sources : List Nat) : Except GrB_Info GrB_Vector :=
  (bfs_stage p A AT sources).bind (bc_stage p A AT sources.length)

/-- How the call ends once the input checks have passed: `return (0)` when every engine
call succeeded, the GrB_TRY exit otherwise. -/
def Outcome.of_compute : Except GrB_Info GrB_Vector → Outcome
  | .ok c => .returned_ok c
  | .error info => .grb_try info

/-- The matrix the function uses as `AT`: `G->A` itself when the graph is undirected or
the pattern of `G->A` is known to be symmetric, `G->AT` (possibly NULL) otherwise. -/
def select_AT (G : LAGraph_Graph α) : Option (Matrix α) :=
  if G.kind = .LAGRAPH_ADJACENCY_UNDIRECTED ∨ G.A_pattern_is_symmetric = .LAGRAPH_TRUE then
    -- A and A' have the same pattern
    some G.A
  else
    -- A and A' differ
    G.AT

/-- The whole function under a direction policy.  `LAGraph_CheckGraph` is the graph
check (its source is not among the sources; it is a parameter, a nonzero result is a
failed check); `centrality_is_NULL` says whether the output pointer is NULL; `sources`
holds `sources [0..ns-1]`. -/
def LAGraph_VertexCentrality_Betweenness_with (p : Policy)
    (LAGraph_CheckGraph : LAGraph_Graph α → Int) (centrality_is_NULL : Bool)
    (G : LAGraph_Graph α) (sources : List Nat) : Outcome :=
  if centrality_is_NULL then .lg_check (-1) "centrality is NULL"
  else if LAGraph_CheckGraph G ≠ 0 then .lg_check (-1) "graph is invalid"
  else
    match select_AT G with
    | none => .lg_check (-1) "G->AT is required"
    | some AT => Outcome.of_compute (compute p G.A AT sources)

/-- LAGraph_VertexCentrality_Betweenness: the function as written, with the adaptive
push/pull decision. -/
def LAGraph_VertexCentrality_Betweenness
    (LAGraph_CheckGraph : LAGraph_Graph α → Int) (centrality_is_NULL : Bool)
    (G : LAGraph_Graph α) (sources : List Nat) : Outcome :=
  LAGraph_VertexCentrality_Betweenness_with .adaptive LAGraph_CheckGraph centrality_is_NULL
    G sources

/-! ## Notions used to state the properties -/

/-- Two matrices have the same pattern: the same dimensions and the same stored
positions, whatever the stored values. -/
def same_pattern (A : Matrix α) (B : Matrix β) : Prop :=
  A.nrows = B.nrows ∧ A.ncols = B.ncols ∧ ∀ i j, A.has i j = B.has i j

/-- The pattern of `AT` is the transpose of the pattern of `A`. -/
def transpose_pattern (A AT : Matrix α) : Prop :=
  AT.nrows = A.ncols ∧ AT.ncols = A.nrows ∧ ∀ i j, AT.has i j = A.has j i

/-- Two matrices have the same dimensions and the same stored positions off the
diagonal. -/
def same_off_diagonal (A : Matrix α) (B : Matrix β) : Prop :=
  A.nrows = B.nrows ∧ A.ncols = B.ncols ∧ ∀ i j, i ≠ j → A.has i j = B.has i j

/-- The forward state without the record of the last direction taken. -/
def BFSState.forget (st : BFSState) : BFSState :=
  { st with last_was_pull := false }

/-- No position is stored in two consecutive level patterns. -/
def consecutive_disjoint (S : List (Matrix Bool)) : Prop :=
  ∀ d i j, (level S d).has i j = true → (level S (d + 1)).has i j = false

/-- Every entry of `F` lies in the pattern of `P`. -/
def covers (P F : Matrix ℚ) : Prop :=
  ∀ i j, P.has i j = false → F.get i j = none

/-- The undirected path graph 0-1-2-3-4. -/
def path5 : LAGraph_Graph Bool :=
  { A := Matrix.build 5 5 fun i j => if i + 1 = j ∨ j + 1 = i then some true else none
    AT := none
    kind := .LAGRAPH_ADJACENCY_UNDIRECTED
    A_pattern_is_symmetric := .LAGRAPH_BOOLEAN_UNKNOWN }

/-- The graph with one vertex and no edges. -/
def single_vertex : LAGraph_Graph Bool :=
  { A := Matrix.build 1 1 fun _ _ => none
    AT := none
    kind := .LAGRAPH_ADJACENCY_UNDIRECTED
    A_pattern_is_symmetric := .LAGRAPH_BOOLEAN_UNKNOWN }

/-- The undirected star with hub 0 and the `n` leaves `1..n`. -/
def star (n : Nat) : LAGraph_Graph Bool :=
  { A := Matrix.build (n + 1) (n + 1) fun i j =>
      if (i = 0 ∧ 0 < j) ∨ (j = 0 ∧ 0 < i) then some true else none
    AT := none
    kind := .LAGRAPH_ADJACENCY_UNDIRECTED
    A_pattern_is_symmetric := .LAGRAPH_BOOLEAN_UNKNOWN }

/-- The distance from `s` to `t` in a star: 0 to itself, 1 between hub and leaf, 2
between two leaves. -/
def star_level (s t : Nat) : Nat :=
  if t = s then 0 else if s = 0 ∨ t = 0 then 1 else 2

/-- A directed graph on two vertices with the single edge 0 -> 1 stored with value `w`,
`G->AT` present; `loops` adds the self-edges (0,0) and (1,1). -/
def one_edge (w : ℚ) (loops : Bool) : LAGraph_Graph ℚ :=
  { A := Matrix.build 2 2 fun i j =>
      if (i = 0 ∧ j = 1) ∨ (loops = true ∧ i = j) then some w else none
    AT := some (Matrix.build 2 2 fun i j =>
      if (j = 0 ∧ i = 1) ∨ (loops = true ∧ i = j) then some w else none)
    kind := .LAGRAPH_ADJACENCY_DIRECTED
    A_pattern_is_symmetric := .LAGRAPH_FALSE }

/-! ## Shortest paths, by enumeration -/

/-- The walks with `k` edges from `s` to `t` in the graph on the vertices `0..n-1` with
edges `adj`, each as its sequence of vertices, the last vertex first: a walk with no
edge is `[s]`; a walk with `k+1` edges to `t` is a walk with `k` edges to some `u` with
an edge `u -> t`, followed by `t`. -/
def walksTo (adj : Nat → Nat → Bool) (n s : Nat) : Nat → Nat → List (List Nat)
  | 0, t => if t = s then [[s]] else []
  | k + 1, t =>
    ((List.range n).filter fun u => adj u t).flatMap fun u =>
      (walksTo adj n s k u).map fun p => t :: p

/-- The distance from `s` to `t`: the least number of edges of a walk from `s` to `t`,
searched below `n` (a shortest walk repeats no vertex). -/
def dist? (adj : Nat → Nat → Bool) (n s t : Nat) : Option Nat :=
  (List.range n).find? fun k => !(walksTo adj n s k t).isEmpty

/-- Whether `t` can be reached from `s`. -/
def reachable (adj : Nat → Nat → Bool) (n s t : Nat) : Bool :=
  (dist? adj n s t).isSome

/-- The shortest paths from `s` to `t`: the walks whose number of edges is the distance. -/
def shortest_paths (adj : Nat → Nat → Bool) (n s t : Nat) : List (List Nat) :=
  match dist? adj n s t with
  | some d => walksTo adj n s d t
  | none => []

/-- sigma(s,t): the number of shortest paths from `s` to `t`. -/
def sigma (adj : Nat → Nat → Bool) (n s t : Nat) : Nat :=
  (shortest_paths adj n s t).length

/-- sigma(s,t | v): the number of shortest paths from `s` to `t` that pass through `v`. -/
def sigma_through (adj : Nat → Nat → Bool) (n s t v : Nat) : Nat :=
  ((shortest_paths adj n s t).filter fun p => decide (v ∈ p)).length

/-- The dependency of the source `s` on `v`: the sum over all `t` reachable from `s`
with `t != s`, `t != v`, `v != s` of `sigma(s,t | v) / sigma(s,t)`. -/
def dependency (adj : Nat → Nat → Bool) (n s v : Nat) : ℚ :=
  ((List.range n).map fun t =>
    if reachable adj n s t = true ∧ t ≠ s ∧ t ≠ v ∧ v ≠ s then
      (sigma_through adj n s t v : ℚ) / (sigma adj n s t : ℚ)
    else 0).sum

/-- The betweenness centrality of `v` restricted to the given sources: the sum of the
dependencies of the sources on `v`. -/
def betweenness (adj : Nat → Nat → Bool) (n : Nat) (sources : List Nat) (v : Nat) : ℚ :=
  (sources.map fun s => dependency adj n s v).sum

/-- The number of walks with `k` edges from `s` to `t`. -/
def walk_count (adj : Nat → Nat → Bool) (n s k t : Nat) : Nat :=
  (walksTo adj n s k t).length

/-- The number of walks with `k` edges from `s` to `t` that pass through `v`. -/
def through_count (adj : Nat → Nat → Bool) (n s v k t : Nat) : Nat :=
  ((walksTo adj n s k t).filter fun p => decide (v ∈ p)).length

/-- `t` is first reached from `s` by walks with exactly `k` edges. -/
def first_at (adj : Nat → Nat → Bool) (n s k t : Nat) : Prop :=
  0 < walk_count adj n s k t ∧ ∀ j, j < k → walk_count adj n s j t = 0

instance first_at_decidable (adj : Nat → Nat → Bool) (n s k t : Nat) :
    Decidable (first_at adj n s k t) := by
  unfold first_at
  infer_instance

/-- sigma(s,t | v) / sigma(s,t): the share of the shortest paths from `s` to `t` that
pass through `v` (zero when `t` cannot be reached). -/
def pair_dependency (adj : Nat → Nat → Bool) (n s v t : Nat) : ℚ :=
  (sigma_through adj n s t v : ℚ) / (sigma adj n s t : ℚ)

/-- The sum of the pair dependencies of `v` over all end points `t` other than `v`. -/
def dependency_sum (adj : Nat → Nat → Bool) (n s v : Nat) : ℚ :=
  ∑ t ∈ Finset.range n, if t ≠ v then pair_dependency adj n s v t else 0

/-- For `v` first reached with `L+1` edges and an edge `u -> v`: the share of the
shortest paths to `v` that arrive through `u`, itself first reached with `L` edges. -/
def edge_share (adj : Nat → Nat → Bool) (n s L u v : Nat) : ℚ :=
  if first_at adj n s (L + 1) v ∧ adj u v = true then
    (walk_count adj n s L u : ℚ) / (walk_count adj n s (L + 1) v : ℚ)
  else 0

/-! ## Invariants of the two sweeps -/

/-- The inputs the correctness statements are about: a square `A`, an `AT` with the
transposed pattern, and sources that are vertices. -/
structure WellFormed (A AT : Matrix α) (sources : List Nat) : Prop where
  square : A.ncols = A.nrows
  transposed : transpose_pattern A AT
  in_range : ∀ s, s ∈ sources → s < A.nrows

/-- `P` is `ns`-by-`n` and row `i` holds, for every vertex first reached from
`sources[i]` within `m` edges, the number of its shortest walks, and nothing else. -/
def holds_upto (A : Matrix α) (sources : List Nat) (m : Nat) (P : Matrix ℚ) : Prop :=
  P.nrows = sources.length ∧ P.ncols = A.nrows ∧
    ∀ i t, i < sources.length → t < A.nrows →
      (∀ k, k ≤ m → first_at A.has A.nrows (sources.getD i 0) k t →
        P.get i t = some (walk_count A.has A.nrows (sources.getD i 0) k t : ℚ))
      ∧ ((∀ k, k ≤ m → walk_count A.has A.nrows (sources.getD i 0) k t = 0) →
        P.get i t = none)

/-- `F` is `ns`-by-`n` and row `i` holds exactly the vertices first reached from
`sources[i]` with `m` edges, each with the number of its walks with `m` edges. -/
def holds_level (A : Matrix α) (sources : List Nat) (m : Nat) (F : Matrix ℚ) : Prop :=
  F.nrows = sources.length ∧ F.ncols = A.nrows ∧
    ∀ i t, i < sources.length → t < A.nrows →
      F.get i t = if first_at A.has A.nrows (sources.getD i 0) m t then
        some (walk_count A.has A.nrows (sources.getD i 0) m t : ℚ) else none

/-- `S` is `ns`-by-`n` and row `i` stores exactly the vertices first reached from
`sources[i]` with `m` edges. -/
def pattern_level (A : Matrix α) (sources : List Nat) (m : Nat) (S : Matrix Bool) : Prop :=
  S.nrows = sources.length ∧ S.ncols = A.nrows ∧
    ∀ i t, i < sources.length → t < A.nrows →
      (S.has i t = true ↔ first_at A.has A.nrows (sources.getD i 0) m t)

/-- The state of the forward loop after `d` passes: `paths` holds the levels `0..d`,
`frontier` the level `d+1`, and `S[j]` is the pattern of level `j+1` for `j < d`. -/
structure FwdInv (A : Matrix α) (sources : List Nat) (d : Nat) (st : BFSState) : Prop where
  depth_eq : st.depth = d
  S_length : st.S.length = d
  paths_ok : holds_upto A sources d st.paths
  frontier_ok : holds_level A sources (d + 1) st.frontier
  size_eq : st.frontier_size = GrB_Matrix_nvals st.frontier
  S_ok : ∀ j, j < d → pattern_level A sources (j + 1) (level st.S j)

/-- `bc` is `ns`-by-`n` and full; in row `i` a vertex first reached from `sources[i]`
with `lo` edges or more holds one plus its dependency sum, every other vertex holds 1. -/
def bc_holds (A : Matrix α) (sources : List Nat) (lo : Nat) (bc : Matrix ℚ) : Prop :=
  bc.nrows = sources.length ∧ bc.ncols = A.nrows ∧
    ∀ r u, r < sources.length → u < A.nrows →
      (∀ L, lo ≤ L → first_at A.has A.nrows (sources.getD r 0) L u →
        bc.get r u = some (1 + dependency_sum A.has A.nrows (sources.getD r 0) u))
      ∧ ((∀ L, lo ≤ L → ¬ first_at A.has A.nrows (sources.getD r 0) L u) →
        bc.get r u = some 1)

/-- `W` after the masked division at level `m`: row `i` holds, for the vertices first
reached from `sources[i]` with `m` edges, one plus the dependency sum divided by the
number of shortest paths. -/
def ratio_level (A : Matrix α) (sources : List Nat) (m : Nat) (W : Matrix ℚ) : Prop :=
  W.nrows = sources.length ∧ W.ncols = A.nrows ∧
    ∀ r v, r < sources.length → v < A.nrows →
      W.get r v = if first_at A.has A.nrows (sources.getD r 0) m v then
        some ((1 + dependency_sum A.has A.nrows (sources.getD r 0) v)
          / (walk_count A.has A.nrows (sources.getD r 0) m v : ℚ)) else none

/-- What a vertex `u` gathers from its successors first reached with `m+1` edges:
the sum of their ratios `(1 + dependency sum) / number of shortest paths`. -/
def gather_sum (adj : Nat → Nat → Bool) (n s m u : Nat) : ℚ :=
  ∑ v ∈ Finset.range n,
    if adj u v = true then
      (if first_at adj n s (m + 1) v then
        (1 + dependency_sum adj n s v) / (walk_count adj n s (m + 1) v : ℚ) else 0)
    else 0

/-- `W` after the masked product at level `m`: row `i` has entries only at vertices
first reached from `sources[i]` with `m` edges, holding what the vertex gathers; a
vertex of that level without entry gathers nothing. -/
def gathered_level (A : Matrix α) (sources : List Nat) (m : Nat) (W : Matrix ℚ) : Prop :=
  W.nrows = sources.length ∧ W.ncols = A.nrows ∧
    ∀ r u, r < sources.length → u < A.nrows →
      (¬ first_at A.has A.nrows (sources.getD r 0) m u → W.get r u = none)
      ∧ (first_at A.has A.nrows (sources.getD r 0) m u →
          W.get r u = some (gather_sum A.has A.nrows (sources.getD r 0) m u)
          ∨ (W.get r u = none ∧ gather_sum A.has A.nrows (sources.getD r 0) m u = 0))

/-- Every stored entry of `M` is at least 1. -/
def entries_ge_one (M : Matrix ℚ) : Prop :=
  ∀ i j x, M.get i j = some x → 1 ≤ x

/-- No position is stored in two different level patterns. -/
def pairwise_disjoint (S : List (Matrix Bool)) : Prop :=
  ∀ d d2 i j, d ≠ d2 → (level S d).has i j = true → (level S d2).has i j = false

/-- What holds of the forward state on every input, well formed or not: the frontier
avoids `paths`, every recorded level lies in the pattern of `paths`, the recorded levels
are pairwise disjoint and non-empty, one per pass, and the entries of `paths` and of the
frontier are at least 1. -/
structure FwdSafe (st : BFSState) : Prop where
  fresh : ∀ i j, st.frontier.has i j = true → st.paths.has i j = false
  recorded : ∀ d i j, (level st.S d).has i j = true → st.paths.has i j = true
  disjoint : pairwise_disjoint st.S
  paths_pos : entries_ge_one st.paths
  frontier_pos : entries_ge_one st.frontier
  nonempty : ∀ d, d < st.S.length → 0 < GrB_Matrix_nvals (level st.S d)
  size_eq : st.frontier_size = GrB_Matrix_nvals st.frontier
  S_length : st.S.length = st.depth

/-- Whether a call succeeded with a result that passes the test `P`. -/
def ok_and {ε σ : Type} (e : Except ε σ) (P : σ → Bool) : Bool :=
  match e with
  | .ok s => P s
  | .error _ => false

/-- The first `k` passes of the backward loop entered at index `i`: the passes at the
indices `i`, `i-1`, ..., `i-k+1`.  The whole loop is `k = i`. -/
def bc_run (p : Policy) (A AT : Matrix α) (paths : Matrix ℚ) (S : List (Matrix Bool))
    (ns n : Nat) : Nat → Nat → BCState → Except GrB_Info BCState
  | _, 0, st => .ok st
  | i, k + 1, st =>
    (bc_step p A AT paths S ns n i st).bind (bc_run p A AT paths S ns n (i - 1) k)

/-- Every position of `M` holds an entry. -/
def matrix_full (M : Matrix ℚ) : Prop :=
  ∀ r v, r < M.nrows → v < M.ncols → M.has r v = true

/-! ## The function with its resources

The same function once more, now with what the first transcription leaves out: every
call made under GrB_TRY, LAGraph_TRY or LG_CHECK may fail (an allocation that fails, or
any other engine error), the array `S` is the block of `n+1` slots LAGraph_Malloc hands
out, and the handle `*centrality` is followed through LAGRAPH_FREE_ALL on every exit. -/

/-- A slot of the array `S`: never written since LAGraph_Malloc, NULL, or a level
pattern. -/
inductive Slot where
  | unwritten
  | null
  | pattern (M : Matrix Bool)
deriving DecidableEq, Repr

/-- The calls made under GrB_TRY, LAGraph_TRY or LG_CHECK (S == NULL), each named by its
place in the function; a call inside a loop carries the loop index. -/
inductive Site where
  | nrows
  | new_paths
  | new_frontier
  | set_paths
  | setElement_paths (i : Nat)
  | setElement_frontier (i : Nat)
  | mxm_initial
  | malloc_S
  | nvals_initial
  | pattern (depth : Nat)
  | assign_paths (depth : Nat)
  | set_frontier (depth : Nat)
  | mxm_frontier (depth : Nat)
  | nvals_frontier (depth : Nat)
  | free_frontier
  | new_bc_update
  | assign_bc_update
  | new_W
  | div_W (i : Nat)
  | set_W (i : Nat)
  | mxm_W (i : Nat)
  | update_bc (i : Nat)
  | vector_new
  | vector_assign
  | reduce
deriving DecidableEq, Repr

/-- The check that ended a call early. -/
inductive Failure where
  | lg_check (error_id : Int) (msg : String)
  | grb_try (info : GrB_Info)
  | lagraph_try (info : GrB_Info)
deriving DecidableEq, Repr

/-- Modelled from the spec: GrB_TRY is a macro of LG_internal.h, which is not among the
sources; by the spec "all failures abort the computation immediately".  `fault` is what
the engine reports at this place when the call fails for a reason outside the model (no
memory, for one), `call` is the call as modelled; either error ends the function. -/
def GrB_TRY {σ : Type} (fault : Option GrB_Info) (call : Except GrB_Info σ) : Except Failure σ :=
  match fault with
  | some info => .error (.grb_try info)
  | none =>
    match call with
    | .ok x => .ok x
    | .error info => .error (.grb_try info)

/-- Modelled from the spec: LAGraph_TRY is a macro of LG_internal.h, which is not among
the sources; a failing LAGraph call ends the function as a failing engine call does. -/
def LAGraph_TRY {σ : Type} (fault : Option GrB_Info) (result : σ) : Except Failure σ :=
  match fault with
  | some info => .error (.lagraph_try info)
  | none => .ok result

/-- The loop setting `paths (i,s(i)) = 1` and `frontier (i,s(i)) = 1`, each call under
GrB_TRY. -/
def init_sources_detail (fault : Site → Option GrB_Info) :
    List Nat → Nat → Matrix ℚ → Matrix ℚ → Except Failure (Matrix ℚ × Matrix ℚ)
  | [], _, paths, frontier => .ok (paths, frontier)
  | s :: rest, i, paths, frontier =>
    (GrB_TRY (fault (.setElement_paths i)) (GrB_Matrix_setElement paths 1 i s)).bind fun paths =>
    (GrB_TRY (fault (.setElement_frontier i)) (GrB_Matrix_setElement frontier 1 i s)).bind
      fun frontier => init_sources_detail fault rest (i + 1) paths frontier

/-- The forward state together with the array `S` as it is in memory and the indices of
`S` written so far. -/
structure BFSDetail where
  st : BFSState
  S_array : List Slot
  writes : List Nat
deriving DecidableEq, Repr

/-- The initialisations, with the allocation of `S`: `n+1` slots, none of them written,
then `S [0] = NULL`. -/
def bfs_init_detail (fault : Site → Option GrB_Info) (A : Matrix α) (sources : List Nat) :
    Except Failure BFSDetail :=
  let ns := sources.length
  (GrB_TRY (fault .nrows) (.ok A.nrows)).bind fun n =>
  (GrB_TRY (fault .new_paths) (.ok (GrB_Matrix_new ns n))).bind fun paths =>
  (GrB_TRY (fault .new_frontier) (.ok (GrB_Matrix_new ns n))).bind fun frontier =>
  (GrB_TRY (fault .set_paths) (.ok ())).bind fun _ =>
  (init_sources_detail fault sources 0 paths frontier).bind fun pf =>
  -- Initial frontier: frontier<!paths>= frontier*A
  (GrB_TRY (fault .mxm_initial) (GrB_mxm pf.2 (some pf.1) pf.2 A GrB_DESC_RSC)).bind
    fun frontier =>
  -- S = LAGraph_Malloc (n+1, ...) ; LG_CHECK (S == NULL, -1, "out of memory")
  (if (fault .malloc_S).isSome then
      (Except.error (.lg_check (-1) "out of memory") : Except Failure (List Slot))
    else .ok (List.replicate (n + 1) Slot.unwritten)).bind fun S =>
  -- S [0] = NULL
  let S := S.set 0 .null
  (GrB_TRY (fault .nvals_initial) (.ok (GrB_Matrix_nvals frontier))).bind fun frontier_size =>
  .ok { st := { frontier := frontier, paths := pf.1, S := [], depth := 0,
                frontier_size := frontier_size, last_frontier_size := 0,
                last_was_pull := false },
        S_array := S, writes := [0] }

/-- One pass through the body of the breadth-first search loop, with the two writes to
the array: `S [depth+1] = NULL`, then `S [depth]` receives the pattern. -/
def bfs_step_detail (fault : Site → Option GrB_Info) (p : Policy) (A AT : Matrix α)
    (ns n : Nat) (d : BFSDetail) : Except Failure BFSDetail :=
  let depth := d.st.depth
  -- S [depth+1] = NULL
  let S := d.S_array.set (depth + 1) .null
  -- LAGraph_TRY (LAGraph_Pattern (&(S [depth]), frontier, msg))
  (LAGraph_TRY (fault (.pattern depth)) (LAGraph_Pattern d.st.frontier)).bind fun Sd =>
  let S := S.set depth (.pattern Sd)
  -- paths += frontier
  (GrB_TRY (fault (.assign_paths depth))
    (GrB_assign d.st.paths (some (· + ·)) d.st.frontier)).bind fun paths =>
  let do_pull := p.choose (forward_do_pull d.st.frontier_size ns n d.st.last_was_pull)
  (GrB_TRY (fault (.set_frontier depth)) (.ok ())).bind fun _ =>
  (GrB_TRY (fault (.mxm_frontier depth))
    (if do_pull then
      -- frontier<!paths> = frontier*AT'
      GrB_mxm d.st.frontier (some paths) d.st.frontier AT GrB_DESC_RSCT1
    else
      -- frontier<!paths> = frontier*A
      GrB_mxm d.st.frontier (some paths) d.st.frontier A GrB_DESC_RSC)).bind fun frontier =>
  (GrB_TRY (fault (.nvals_frontier depth)) (.ok (GrB_Matrix_nvals frontier))).bind
    fun frontier_size =>
  .ok { st := { frontier := frontier, paths := paths, S := d.st.S ++ [Sd],
                depth := depth + 1, frontier_size := frontier_size,
                last_frontier_size := d.st.frontier_size, last_was_pull := do_pull },
        S_array := S, writes := d.writes ++ [depth + 1, depth] }

/-- The loop `for (depth = 0 ; frontier_size > 0 && depth < n ; depth++)`; the first
argument bounds the number of passes. -/
def bfs_loop_detail (fault : Site → Option GrB_Info) (p : Policy) (A AT : Matrix α)
    (ns n : Nat) : Nat → BFSDetail → Except Failure BFSDetail
  | 0, d => .ok d
  | fuel + 1, d =>
    if d.st.frontier_size > 0 ∧ d.st.depth < n then
      (bfs_step_detail fault p A AT ns n d).bind (bfs_loop_detail fault p A AT ns n fuel)
    else .ok d

/-- Initialisation and breadth-first search stage. -/
def bfs_stage_detail (fault : Site → Option GrB_Info) (p : Policy) (A AT : Matrix α)
    (sources : List Nat) : Except Failure BFSDetail :=
  (bfs_init_detail fault A sources).bind
    (bfs_loop_detail fault p A AT sources.length A.nrows A.nrows)

/-- The release loop of LAGRAPH_FREE_WORK, `for (i = 0 ; i < n ; i++)
{ if (S [i] == NULL) break ; GrB_free (&(S [i])) ; }`, entered at index `i` with
`fuel = n - i` passes left: the indices it frees, or nothing if it reads a slot that was
never written or lies outside the array. -/
def release_loop (S : List Slot) : Nat → Nat → Option (List Nat)
  | 0, _ => some []
  | fuel + 1, i =>
    match S.get? i with
    | none => none
    | some .unwritten => none
    | some .null => some []
    | some (.pattern _) => (release_loop S fuel (i + 1)).map fun l => i :: l

/-- One pass through the body of the backward loop, each call under GrB_TRY; the two
GrB_Matrix_nvals are not. -/
def bc_step_detail (fault : Site → Option GrB_Info) (p : Policy) (A AT : Matrix α)
    (paths : Matrix ℚ) (S : List (Matrix Bool)) (ns n : Nat) (i : Nat) (st : BCState) :
    Except Failure BCState :=
  -- W<S[i]> = bc_update ./ paths
  (GrB_TRY (fault (.div_W i))
    (GrB_eWiseMult st.W (some (level S i)) none (· / ·) st.bc_update paths GrB_DESC_RS)).bind
    fun W =>
  let wsize := GrB_Matrix_nvals W
  let ssize := GrB_Matrix_nvals (level S (i - 1))
  let do_pull := p.choose (backward_do_pull wsize ssize ns n)
  (GrB_TRY (fault (.set_W i)) (.ok ())).bind fun _ =>
  (GrB_TRY (fault (.mxm_W i))
    (if do_pull then
      -- W<S[i−1]> = W * A'
      GrB_mxm W (some (level S (i - 1))) W A GrB_DESC_RST1
    else
      -- W<S[i−1]> = W * AT
      GrB_mxm W (some (level S (i - 1))) W AT GrB_DESC_RS)).bind fun W =>
  -- bc_update += W .* paths
  (GrB_TRY (fault (.update_bc i))
    (GrB_eWiseMult st.bc_update (none : Option (Matrix Bool)) (some (· + ·)) (· * ·) W paths
      GrB_DESC_NULL)).bind fun bc_update =>
  .ok { bc_update := bc_update, W := W }

/-- The loop `for (i = depth-1 ; i > 0 ; i--)`, entered at index `i`. -/
def bc_loop_detail (fault : Site → Option GrB_Info) (p : Policy) (A AT : Matrix α)
    (paths : Matrix ℚ) (S : List (Matrix Bool)) (ns n : Nat) :
    Nat → BCState → Except Failure BCState
  | 0, st => .ok st
  | i + 1, st =>
    (bc_step_detail fault p A AT paths S ns n (i + 1) st).bind
      (bc_loop_detail fault p A AT paths S ns n i)

/-- Everything between the input checks and the finalisation: the forward stage, the
release of the frontier, the creation of `bc_update` and `W`, and the backward loop; the
result is the final `bc_update`. -/
def compute_detail (fault : Site → Option GrB_Info) (p : Policy) (A AT : Matrix α)
    (sources : List Nat) : Except Failure (Matrix ℚ) :=
  let ns := sources.length
  let n := A.nrows
  (bfs_stage_detail fault p A AT sources).bind fun fwd =>
  (GrB_TRY (fault .free_frontier) (.ok ())).bind fun _ =>
  (GrB_TRY (fault .new_bc_update) (.ok (GrB_Matrix_new ns n : Matrix ℚ))).bind fun bc_update =>
  (GrB_TRY (fault .assign_bc_update) (.ok (GrB_assign_scalar bc_update 1))).bind
    fun bc_update =>
  (GrB_TRY (fault .new_W) (.ok (GrB_Matrix_new ns n : Matrix ℚ))).bind fun W =>
  (bc_loop_detail fault p A AT fwd.st.paths fwd.st.S ns n (fwd.st.depth - 1)
    { bc_update := bc_update, W := W }).bind fun st =>
  .ok st.bc_update

/-- The effect of LAGRAPH_FREE_ALL on the handle `*centrality`: after LAGRAPH_FREE_WORK,
`GrB_free (centrality)` frees the vector, if there is one, and sets the handle to NULL. -/
def LAGRAPH_FREE_ALL (_centrality : Option GrB_Vector) : Option GrB_Vector :=
  none

/-- What the caller has when the call returns: the check that failed (`none` is
`return (0)`) and the handle `*centrality`. -/
structure Exit where
  failure : Option Failure
  centrality : Option GrB_Vector
deriving DecidableEq, Repr

/-- Whether the returned status is nonzero. -/
def Exit.status_nonzero (e : Exit) : Bool :=
  match e.failure with
  | none => false
  | some (.lg_check error_id _) => error_id != 0
  | some (.grb_try _) => true
  | some (.lagraph_try _) => true

/-- Modelled from the spec: the exit taken by a failing LG_CHECK, GrB_TRY or LAGraph_TRY
(macros of LG_internal.h, which is not among the sources).  By the spec "every exit path
- success or failure - releases all call-scoped matrices" and no partial result is
returned: the macro runs LAGRAPH_FREE_ALL, which the function defines for it, and
returns the status. -/
def Exit.fail (f : Failure) (centrality : Option GrB_Vector) : Exit :=
  { failure := some f, centrality := LAGRAPH_FREE_ALL centrality }

/-- The finalisation with the handle: GrB_Vector_new sets `*centrality`, the two calls
that follow work on it, and a failure of any of the three leaves through
LAGRAPH_FREE_ALL. -/
def finalize_detail (fault : Site → Option GrB_Info) (ns n : Nat) (bc_update : Matrix ℚ)
    (centrality : Option GrB_Vector) : Exit :=
  -- GrB_TRY (GrB_Vector_new (centrality, GrB_FP64, n))
  match GrB_TRY (fault .vector_new) (.ok (GrB_Vector_new n)) with
  | .error f => Exit.fail f centrality
  | .ok c0 =>
    -- GrB_TRY (GrB_assign (*centrality, NULL, NULL, -ns, GrB_ALL, n, NULL))
    match GrB_TRY (fault .vector_assign) (.ok (GrB_Vector_assign_scalar c0 (-(ns : ℚ)))) with
    | .error f => Exit.fail f (some c0)
    | .ok c1 =>
      -- GrB_TRY (GrB_reduce (*centrality, NULL, GrB_PLUS_FP64, ..., bc_update, GrB_DESC_T0))
      match GrB_TRY (fault .reduce) (GrB_reduce c1 (some (· + ·)) bc_update GrB_DESC_T0) with
      | .error f => Exit.fail f (some c1)
      | .ok c2 =>
        -- LAGRAPH_FREE_WORK ; return (0)
        { failure := none, centrality := some c2 }

/-- The whole function with its resources, under a direction policy.  `fault` says which
calls fail for a reason outside the model; the other arguments are those of
`LAGraph_VertexCentrality_Betweenness_with`.  With a NULL output pointer there is no
handle to speak of. -/
def LAGraph_VertexCentrality_Betweenness_detail (fault : Site → Option GrB_Info) (p : Policy)
    (LAGraph_CheckGraph : LAGraph_Graph α → Int) (centrality_is_NULL : Bool)
    (G : LAGraph_Graph α) (sources : List Nat) : Exit :=
  if centrality_is_NULL then
    { failure := some (.lg_check (-1) "centrality is NULL"), centrality := none }
  else
    -- (*centrality) = NULL
    let centrality : Option GrB_Vector := none
    if LAGraph_CheckGraph G ≠ 0 then Exit.fail (.lg_check (-1) "graph is invalid") centrality
    else
      match select_AT G with
      | none => Exit.fail (.lg_check (-1) "G->AT is required") centrality
      | some AT =>
        match compute_detail fault p G.A AT sources with
        | .error f => Exit.fail f centrality
        | .ok bc_update => finalize_detail fault sources.length G.A.nrows bc_update centrality

/-- The exit that corresponds to an outcome of the first transcription. -/
def Exit.of_outcome : Outcome → Exit
  | .returned_ok c => { failure := none, centrality := some c }
  | .lg_check error_id msg => { failure := some (.lg_check error_id msg), centrality := none }
  | .grb_try info => { failure := some (.grb_try info), centrality := none }

/-- No call fails for a reason outside the model. -/
def no_fault : Site → Option GrB_Info :=
  fun _ => none

/-- The array `S` after `depth` passes of the forward loop: `n+1` slots, the slots below
`depth` hold the recorded patterns, the slot `depth` holds NULL, and every index written
so far is at most `n`. -/
structure ArrayInv (n : Nat) (d : BFSDetail) : Prop where
  size : d.S_array.length = n + 1
  depth_le : d.st.depth ≤ n
  recorded : ∀ j, j < d.st.depth → d.S_array.get? j = some (.pattern (level d.st.S j))
  sentinel : d.S_array.get? d.st.depth = some .null
  writes_le : ∀ w, w ∈ d.writes → w ≤ n
  S_length : d.st.S.length = d.st.depth

/-! ## Triangle counting

`LAGraph_TriangleCount_Methods` is exercised by `src/test/test_TriangleCount.c`; its
source is not among the sources.  The six methods are modelled from the formulas the
tests attach to their names, on the adjacency pattern of the graph. -/

/-- Modelled from the spec: the methods of LAGraph_TriangleCount_Methods, named in the
tests "LAGraph_TriangleCount_Burkhardt = 1", "LAGraph_TriangleCount_Cohen = 2",
"LAGraph_TriangleCount_Sandia = 3", "LAGraph_TriangleCount_Sandia2 = 4",
"LAGraph_TriangleCount_SandiaDot = 5", "LAGraph_TriangleCount_SandiaDot2 = 6". -/
inductive LAGraph_TriangleCount_Method where
  | Burkhardt
  | Cohen
  | Sandia
  | Sandia2
  | SandiaDot
  | SandiaDot2
deriving DecidableEq, Repr

/-- Modelled from the spec: the presort options; the tests pass
"LAGraph_TriangleCount_AutoSort" and the values 0, 1 and 2 ("for (int presort = 0 ;
presort <= 2 ; presort++)"): no sort, ascending degree, automatic; descending degree is
the fourth option. -/
inductive LAGraph_TriangleCount_Presort where
  | NoSort
  | Ascending
  | Descending
  | AutoSort
deriving DecidableEq, Repr

/-- Modelled from the spec: `L`, the strictly lower triangular part of the adjacency
pattern. -/
def tril (adj : Nat → Nat → Bool) (i j : Nat) : Bool :=
  decide (j < i) && adj i j

/-- Modelled from the spec: `U`, the strictly upper triangular part of the adjacency
pattern. -/
def triu (adj : Nat → Nat → Bool) (i j : Nat) : Bool :=
  decide (i < j) && adj i j

/-- Modelled from the spec: the transpose `X'` of a pattern. -/
def transposed (X : Nat → Nat → Bool) (i j : Nat) : Bool :=
  X j i

/-- Modelled from the spec: the entry `(i,j)` of the product `X*Y` of two patterns on `n`
vertices, the number of `k` with `X(i,k)` and `Y(k,j)`. -/
def product_entry (n : Nat) (X Y : Nat → Nat → Bool) (i j : Nat) : Nat :=
  ∑ k ∈ Finset.range n, if X i k && Y k j then 1 else 0

/-- Modelled from the spec: "sum (sum ((X * Y) .* M))", the sum of the entries of `X*Y` at
the positions of the pattern `M`. -/
def masked_product_sum (n : Nat) (X Y M : Nat → Nat → Bool) : Nat :=
  ∑ i ∈ Finset.range n, ∑ j ∈ Finset.range n, if M i j then product_entry n X Y i j else 0

/-- Modelled from the spec: the count of each method, by the formula the tests give:
"sum (sum ((A^2) .* A)) / 6", "sum (sum ((L * U) .* A)) / 2", "sum (sum ((L * L) .* L))",
"sum (sum ((U * U) .* U))", "sum (sum ((L * U') .* L))", "sum (sum ((U * L') .* U))". -/
def count_by_method (n : Nat) (adj : Nat → Nat → Bool) : LAGraph_TriangleCount_Method → Nat
  | .Burkhardt => masked_product_sum n adj adj adj / 6
  | .Cohen => masked_product_sum n (tril adj) (triu adj) adj / 2
  | .Sandia => masked_product_sum n (tril adj) (tril adj) (tril adj)
  | .Sandia2 => masked_product_sum n (triu adj) (triu adj) (triu adj)
  | .SandiaDot => masked_product_sum n (tril adj) (transposed (triu adj)) (tril adj)
  | .SandiaDot2 => masked_product_sum n (triu adj) (transposed (tril adj)) (triu adj)

/-- The degree of a vertex. -/
def degree (n : Nat) (adj : Nat → Nat → Bool) (i : Nat) : Nat :=
  ((List.range n).filter fun j => adj i j).length

/-- Modelled from the spec: the order in which a presort puts the vertices: as they are,
or sorted by degree; the automatic option takes what the rule `auto` (not among the
sources) picks for the graph and the method, no sort when it picks nothing definite. -/
def presort_order (auto : Nat → (Nat → Nat → Bool) → LAGraph_TriangleCount_Method →
      LAGraph_TriangleCount_Presort)
    (n : Nat) (adj : Nat → Nat → Bool) (method : LAGraph_TriangleCount_Method) :
    LAGraph_TriangleCount_Presort → List Nat
  | .NoSort => List.range n
  | .Ascending => (List.range n).mergeSort fun a b => decide (degree n adj a ≤ degree n adj b)
  | .Descending => (List.range n).mergeSort fun a b => decide (degree n adj b ≤ degree n adj a)
  | .AutoSort =>
    match auto n adj method with
    | .Ascending =>
      (List.range n).mergeSort fun a b => decide (degree n adj a ≤ degree n adj b)
    | .Descending =>
      (List.range n).mergeSort fun a b => decide (degree n adj b ≤ degree n adj a)
    | _ => List.range n

/-- The adjacency pattern with the vertices renumbered: vertex `i` of the result is
vertex `order[i]` of the graph. -/
def relabel (order : List Nat) (adj : Nat → Nat → Bool) (i j : Nat) : Bool :=
  adj (order.getD i 0) (order.getD j 0)

/-- Modelled from the spec: LAGraph_TriangleCount_Methods on the pattern of `G->A`: the
vertices are put in the order of the presort, then the method counts by its formula. -/
def LAGraph_TriangleCount_Methods
    (auto : Nat → (Nat → Nat → Bool) → LAGraph_TriangleCount_Method →
      LAGraph_TriangleCount_Presort)
    (G : LAGraph_Graph α) (method : LAGraph_TriangleCount_Method)
    (presort : LAGraph_TriangleCount_Presort) : Nat :=
  count_by_method G.A.nrows
    (relabel (presort_order auto G.A.nrows G.A.has method presort) G.A.has) method

/-- The number of triangles of the graph on the vertices `0..n-1` with edges `adj`: the
number of triples `i < j < k` of pairwise adjacent vertices. -/
def triangle_count (n : Nat) (adj : Nat → Nat → Bool) : Nat :=
  ∑ i ∈ Finset.range n, ∑ j ∈ Finset.range n, ∑ k ∈ Finset.range n,
    if i < j ∧ j < k ∧ adj i j = true ∧ adj j k = true ∧ adj i k = true then 1 else 0

/-- The sum of `F i j k` over all triples of vertices. -/
def sum3 (n : Nat) (F : Nat → Nat → Nat → Nat) : Nat :=
  ∑ i ∈ Finset.range n, ∑ j ∈ Finset.range n, ∑ k ∈ Finset.range n, F i j k

/-- Whether `i`, `j`, `k` are pairwise adjacent, as 0 or 1. -/
def adjacent3 (adj : Nat → Nat → Bool) (i j k : Nat) : Nat :=
  if adj i j = true ∧ adj j k = true ∧ adj i k = true then 1 else 0

/-- Whether `i < j < k` and the three are pairwise adjacent, as 0 or 1. -/
def ordered3 (adj : Nat → Nat → Bool) (i j k : Nat) : Nat :=
  if i < j ∧ j < k ∧ adj i j = true ∧ adj j k = true ∧ adj i k = true then 1 else 0

/-- The complete graph on three vertices. -/
def triangle3 : LAGraph_Graph Bool :=
  { A := Matrix.build 3 3 fun i j => if i ≠ j then some true else none
    AT := none
    kind := .LAGRAPH_ADJACENCY_UNDIRECTED
    A_pattern_is_symmetric := .LAGRAPH_BOOLEAN_UNKNOWN }

/-! ## Sizes seen by the two sweeps -/

/-- The matrices of the forward state are `ns`-by-`n`. -/
def FwdDims (ns n : Nat) (st : BFSState) : Prop :=
  st.frontier.nrows = ns ∧ st.frontier.ncols = n ∧ st.paths.nrows = ns ∧ st.paths.ncols = n

/-- The entry `v` of the vector a call hands back; 0 when there is none. -/
def Outcome.entry (o : Outcome) (v : Nat) : ℚ :=
  match o with
  | .returned_ok c => (c.getD v none).getD 0
  | _ => 0

/-! ## The forward sweep in double precision

`paths` and `frontier` are GrB_FP64 matrices, and GxB_PLUS_FIRST_FP64 and GrB_PLUS_FP64
add doubles: every sum is the double nearest to the exact sum.  The definitions of this
section repeat the forward sweep with that rounding; they differ from `GrB_mxm`,
`bfs_init`, `bfs_step`, `bfs_loop` and `bfs_stage` in nothing else. -/

/-- The power `2^e` for an integer `e`. -/
def pow2 (e : Int) : ℚ :=
  if 0 ≤ e then ((2 ^ e.toNat : Nat) : ℚ) else 1 / ((2 ^ (-e).toNat : Nat) : ℚ)

/-- The position of the leading binary digit of `n > 0`, the `e` with
`2^e ≤ n < 2^(e+1)`, found by halving; `fuel` bounds the number of halvings. -/
def log2_halving : Nat → Nat → Nat
  | 0, _ => 0
  | fuel + 1, n => if n < 2 then 0 else log2_halving fuel (n / 2) + 1

/-- The binary exponent of a positive rational `a`: the `e` with `2^e ≤ a < 2^(e+1)`. -/
def floor_log2 (a : ℚ) : Int :=
  let e0 : Int :=
    (log2_halving a.num.natAbs a.num.natAbs : Int) - (log2_halving a.den a.den : Int)
  if a < pow2 e0 then e0 - 1 else e0

/-- The integer nearest to `q`; the even one of the two when `q` lies half way. -/
def round_half_even (q : ℚ) : Int :=
  let f : Int := ⌊q⌋
  if q - f < 1 / 2 then f
  else if 1 / 2 < q - f then f + 1
  else if f % 2 = 0 then f else f + 1

/-- The double nearest to `q` (IEEE 754 binary64, round to nearest, ties to even): `q`
written with 53 significant bits.  The exponent is not bounded: overflow and subnormal
numbers are left out. -/
def fp64_round (q : ℚ) : ℚ :=
  let ulp := pow2 (floor_log2 |q| - 52)
  (round_half_even (q / ulp) : ℚ) * ulp

/-- GrB_PLUS_FP64: the sum of two doubles, a double. -/
def GrB_PLUS_FP64 (x y : ℚ) : ℚ :=
  fp64_round (x + y)

/-- The sum of the terms of a dot product with GrB_PLUS_FP64, the terms added in the
order of the index `k`; nothing when there is no term. -/
def fp64_sum : List ℚ → Option ℚ
  | [] => none
  | t :: ts => some (ts.foldl GrB_PLUS_FP64 t)

/-- The entry `(i,j)` of `A*B` in the GxB_PLUS_FIRST_FP64 semiring, in doubles. -/
def plus_first_dot_fp64 (A : Matrix ℚ) (Bhas : Nat → Nat → Bool) (i j : Nat) : Option ℚ :=
  fp64_sum ((List.range A.ncols).filterMap (plus_first_term A Bhas i j))

/-- GrB_mxm with the GxB_PLUS_FIRST_FP64 semiring and no accumulator, in doubles. -/
def GrB_mxm_fp64 (C : Matrix ℚ) (Mask : Option (Matrix μ)) (A : Matrix ℚ) (B : Matrix β)
    (desc : GrB_Descriptor) : Except GrB_Info (Matrix ℚ) :=
  if C.nrows = A.nrows ∧ C.ncols = B.ncols_t desc.tran1 ∧ A.ncols = B.nrows_t desc.tran1
      ∧ mask_fits Mask C.nrows C.ncols then
    .ok (Matrix.build C.nrows C.ncols fun i j =>
      write_entry (mask_allows Mask desc i j) desc.replace (C.get i j)
        (plus_first_dot_fp64 A (B.has_t desc.tran1) i j))
  else .error .GrB_DIMENSION_MISMATCH

/-- One pass through the body of the breadth-first search loop, in doubles. -/
def bfs_step_fp64 (p : Policy) (A AT : Matrix α) (ns n : Nat) (st : BFSState) :
    Except GrB_Info BFSState := do
  -- S [depth] = pattern of frontier
  let Sd := LAGraph_Pattern st.frontier
  -- paths += frontier
  let paths ← GrB_assign st.paths (some GrB_PLUS_FP64) st.frontier
  let do_pull := p.choose (forward_do_pull st.frontier_size ns n st.last_was_pull)
  let frontier ←
    if do_pull then
      -- frontier<!paths> = frontier*AT'
      GrB_mxm_fp64 st.frontier (some paths) st.frontier AT GrB_DESC_RSCT1
    else
      -- frontier<!paths> = frontier*A
      GrB_mxm_fp64 st.frontier (some paths) st.frontier A GrB_DESC_RSC
  pure { frontier := frontier, paths := paths, S := st.S ++ [Sd], depth := st.depth + 1,
         frontier_size := GrB_Matrix_nvals frontier,
         last_frontier_size := st.frontier_size, last_was_pull := do_pull }

/-- The loop `for (depth = 0 ; frontier_size > 0 && depth < n ; depth++)`, in doubles. -/
def bfs_loop_fp64 (p : Policy) (A AT : Matrix α) (ns n : Nat) :
    Nat → BFSState → Except GrB_Info BFSState
  | 0, st => .ok st
  | fuel + 1, st =>
    if st.frontier_size > 0 ∧ st.depth < n then
      (bfs_step_fp64 p A AT ns n st).bind (bfs_loop_fp64 p A AT ns n fuel)
    else .ok st

/-- The initialisations, in doubles: the entries set are the double 1. -/
def bfs_init_fp64 (A : Matrix α) (sources : List Nat) : Except GrB_Info BFSState := do
  let ns := sources.length
  let n := A.nrows
  let paths : Matrix ℚ := GrB_Matrix_new ns n
  let frontier : Matrix ℚ := GrB_Matrix_new ns n
  let (paths, frontier) ← init_sources sources 0 paths frontier
  -- Initial frontier: frontier<!paths>= frontier*A
  let frontier ← GrB_mxm_fp64 frontier (some paths) frontier A GrB_DESC_RSC
  pure { frontier := frontier, paths := paths, S := [], depth := 0,
         frontier_size := GrB_Matrix_nvals frontier, last_frontier_size := 0,
         last_was_pull := false }

/-- Initialisation and breadth-first search stage, in doubles. -/
def bfs_stage_fp64 (p : Policy) (A AT : Matrix α) (sources : List Nat) :
    Except GrB_Info BFSState :=
  (bfs_init_fp64 A sources).bind (bfs_loop_fp64 p A AT sources.length A.nrows A.nrows)

/-- The double the sweep holds for a vertex `t` first reached from `s` with `k` edges: 1
at the source, and beyond it the sum with GrB_PLUS_FP64, in the order of the index, of
the doubles held for the vertices first reached with `k-1` edges that have an edge to
`t`.  Without the rounding this is the number of walks with `k` edges from `s` to `t`. -/
def fp64_walks (adj : Nat → Nat → Bool) (n s : Nat) : Nat → Nat → ℚ
  | 0, t => if t = s then 1 else 0
  | k + 1, t =>
    (fp64_sum ((List.range n).filterMap fun u =>
      if adj u t = true ∧ first_at adj n s k u then some (fp64_walks adj n s k u)
      else none)).getD 0

/-- The matrix `P` is `ns`-by-`n` and row `i` holds, for every vertex first reached from
`sources[i]` within `m` edges, the double `fp64_walks`, and nothing else. -/
def holds_upto_fp64 (A : Matrix α) (sources : List Nat) (m : Nat) (P : Matrix ℚ) : Prop :=
  P.nrows = sources.length ∧ P.ncols = A.nrows ∧
    ∀ i t, i < sources.length → t < A.nrows →
      (∀ k, k ≤ m → first_at A.has A.nrows (sources.getD i 0) k t →
        P.get i t = some (fp64_walks A.has A.nrows (sources.getD i 0) k t))
      ∧ ((∀ k, k ≤ m → walk_count A.has A.nrows (sources.getD i 0) k t = 0) →
        P.get i t = none)

/-- The matrix `F` is `ns`-by-`n` and row `i` holds exactly the vertices first reached
from `sources[i]` with `m` edges, each with the double `fp64_walks`. -/
def holds_level_fp64 (A : Matrix α) (sources : List Nat) (m : Nat) (F : Matrix ℚ) : Prop :=
  F.nrows = sources.length ∧ F.ncols = A.nrows ∧
    ∀ i t, i < sources.length → t < A.nrows →
      F.get i t = if first_at A.has A.nrows (sources.getD i 0) m t then
        some (fp64_walks A.has A.nrows (sources.getD i 0) m t) else none

/-- The invariant of the forward loop in doubles, at depth `d`. -/
structure FwdInv_fp64 (A : Matrix α) (sources : List Nat) (d : Nat) (st : BFSState) : Prop where
  depth_eq : st.depth = d
  paths_ok : holds_upto_fp64 A sources d st.paths
  frontier_ok : holds_level_fp64 A sources (d + 1) st.frontier
  size_eq : st.frontier_size = GrB_Matrix_nvals st.frontier

/-- Whether `u -> v` is an edge of the layered graph with `L` layers of three vertices:
vertex 0 points to the first layer `1, 2, 3`, every vertex of a layer to every vertex of
the next, and the last layer to the vertex `3L+1`. -/
def layered_adj (L : Nat) (u v : Nat) : Bool :=
  if u = 0 then decide (1 ≤ v ∧ v ≤ 3)
  else if u ≤ 3 * (L - 1) then decide ((v - 1) / 3 = (u - 1) / 3 + 1 ∧ v ≤ 3 * L)
  else if u ≤ 3 * L then decide (v = 3 * L + 1)
  else false

/-- The adjacency matrix of the layered graph on `3L+2` vertices. -/
def layered (L : Nat) : Matrix Bool :=
  Matrix.build (3 * L + 2) (3 * L + 2) fun u v => if layered_adj L u v then some true else none

/-- The transpose of `layered L`. -/
def layered_T (L : Nat) : Matrix Bool :=
  Matrix.build (3 * L + 2) (3 * L + 2) fun u v => if layered_adj L v u then some true else none

/-- The vertices with an edge to `t` in the layered graph, in increasing order. -/
def layered_pred (L t : Nat) : List Nat :=
  if t = 0 then []
  else if t ≤ 3 then [0]
  else if t ≤ 3 * L then [3 * ((t - 1) / 3) - 2, 3 * ((t - 1) / 3) - 1, 3 * ((t - 1) / 3)]
  else if t = 3 * L + 1 then [3 * L - 2, 3 * L - 1, 3 * L]
  else []

/-- The number of walks with `k` edges from vertex 0 to `t` in the layered graph: one
walk with no edge to vertex 0, `3^(k-1)` walks to each vertex of layer `k`, `3^L` walks
with `L+1` edges to the last vertex, and no other. -/
def layered_walks (L k t : Nat) : Nat :=
  if k = 0 then (if t = 0 then 1 else 0)
  else if k ≤ L then (if 3 * (k - 1) < t ∧ t ≤ 3 * k then 3 ^ (k - 1) else 0)
  else if k = L + 1 then (if t = 3 * L + 1 then 3 ^ L else 0)
  else 0

/-! ## LAGraph_BinRead

`Experimental2/Utility/LAGraph_BinRead.c`: the file is a sequence of bytes read front to
back by `fread`; integers are little-endian, `GrB_Index` and `size_t` take 8 bytes,
`int32_t` and the enum `GxB_Format_Value` take 4.  The import routines of the engine, the
allocator and the constants of `GraphBLAS.h` and `LG_internal.h` are not among the
sources and are parameters. -/

/-- The types a typecode stands for (`switch (typecode)`). -/
inductive GrB_Type where
  | GrB_BOOL
  | GrB_INT8
  | GrB_INT16
  | GrB_INT32
  | GrB_INT64
  | GrB_UINT8
  | GrB_UINT16
  | GrB_UINT32
  | GrB_UINT64
  | GrB_FP32
  | GrB_FP64
  | GxB_FC32
  | GxB_FC64
deriving DecidableEq, Repr

/-- The eight import routines the function chooses from. -/
inductive ImportRoutine where
  | HyperCSC
  | HyperCSR
  | CSC
  | CSR
  | BitmapC
  | BitmapR
  | FullC
  | FullR
deriving DecidableEq, Repr

/-- The ten scalars read after the header; `hyper` is kept as the 8 bytes of the
double. -/
structure BinScalars where
  fmt : Int
  kind : Int
  hyper : Nat
  nrows : Nat
  ncols : Nat
  nonempty : Int
  nvec : Nat
  nvals : Nat
  typecode : Int
  typesize : Nat
deriving DecidableEq, Repr

/-- The arrays read from the file, as bytes, with the number of items of each. -/
structure BinArrays where
  Ap_len : Nat
  Ah_len : Nat
  Ab_len : Nat
  Ai_len : Nat
  Ax_len : Nat
  Ap : List (Fin 256)
  Ah : List (Fin 256)
  Ab : List (Fin 256)
  Ai : List (Fin 256)
  Ax : List (Fin 256)
deriving DecidableEq, Repr

/-- Everything the function has in hand when it closes the file.  `type` is `none` when
the `switch (typecode)` has assigned nothing to it. -/
structure BinContents where
  scalars : BinScalars
  type : Option GrB_Type
  arrays : BinArrays
deriving DecidableEq, Repr

/-- The call of an import routine: the routine and what it is given. -/
structure BinImport where
  routine : ImportRoutine
  contents : BinContents
deriving DecidableEq, Repr

/-- What lies outside the sources: the length LAGRAPH_BIN_HEADER of the header, the
constants of `GraphBLAS.h`, whether `LAGraph_Malloc (nitems, size_of_item)` returns a
block, what an import routine reports (`none`: GrB_SUCCESS), and what
`GxB_set (*A, GxB_HYPER_SWITCH, hyper)` reports, `*A` being the imported matrix or still
NULL (`none`) when no import routine was called. -/
structure BinEnv where
  LAGRAPH_BIN_HEADER : Nat
  GxB_BY_ROW : Int
  GxB_BY_COL : Int
  GxB_SPARSE : Int
  GxB_BITMAP : Int
  GxB_FULL : Int
  LAGraph_Malloc : Nat → Nat → Bool
  GxB_Matrix_import : BinImport → Option GrB_Info
  GxB_set_hyper : Option BinImport → Option GrB_Info

/-- Modelled from the spec: LG_CHECK is a macro of LG_internal.h, which is not among the
sources.  Its first argument is the condition of the error, as its uses show
(`A == NULL`, `f == NULL`, `result != n`, `!ok || Ax == NULL`): when the condition holds
the function ends with the status, when it does not the function goes on. -/
def LG_CHECK (error_condition : Bool) (error_id : Int) (msg : String) : Except Failure Unit :=
  if error_condition then .error (.lg_check error_id msg) else .ok ()

/-- The call `fread (p, s, n, f)` on the rest `f` of the file: the number of whole items
delivered, their bytes, and the rest of the file.  No item is delivered when `s` or `n`
is 0. -/
def fread (f : List (Fin 256)) (s n : Nat) : Nat × List (Fin 256) × List (Fin 256) :=
  let items := if s = 0 then 0 else min n (f.length / s)
  (items, f.take (items * s), f.drop (items * s))

/-- The macro FREAD: `fread`, then `LG_CHECK (result != n, -1, "file I/O error")`. -/
def FREAD (f : List (Fin 256)) (s n : Nat) :
    Except Failure (List (Fin 256) × List (Fin 256)) :=
  let result := fread f s n
  (LG_CHECK (result.1 != n) (-1) "file I/O error").bind fun _ => .ok result.2

/-- The unsigned integer stored in little-endian bytes. -/
def le_nat : List (Fin 256) → Nat
  | [] => 0
  | b :: bs => b.val + 256 * le_nat bs

/-- The signed integer (two's complement) stored in `w` little-endian bytes. -/
def le_int (w : Nat) (bs : List (Fin 256)) : Int :=
  if le_nat bs < 2 ^ (8 * w - 1) then (le_nat bs : Int) else (le_nat bs : Int) - 2 ^ (8 * w)

/-- The ten reads of the scalar content, in the order of the source. -/
def read_scalars (f : List (Fin 256)) : Except Failure (BinScalars × List (Fin 256)) :=
  (FREAD f 4 1).bind fun fmt =>
  (FREAD fmt.2 4 1).bind fun kind =>
  (FREAD kind.2 8 1).bind fun hyper =>
  (FREAD hyper.2 8 1).bind fun nrows =>
  (FREAD nrows.2 8 1).bind fun ncols =>
  (FREAD ncols.2 8 1).bind fun nonempty =>
  (FREAD nonempty.2 8 1).bind fun nvec =>
  (FREAD nvec.2 8 1).bind fun nvals =>
  (FREAD nvals.2 4 1).bind fun typecode =>
  (FREAD typecode.2 8 1).bind fun typesize =>
  .ok ({ fmt := le_int 4 fmt.1, kind := le_int 4 kind.1, hyper := le_nat hyper.1,
         nrows := le_nat nrows.1, ncols := le_nat ncols.1, nonempty := le_int 8 nonempty.1,
         nvec := le_nat nvec.1, nvals := le_nat nvals.1, typecode := le_int 4 typecode.1,
         typesize := le_nat typesize.1 }, typesize.2)

/-- The `switch (typecode)`: the type of the entries.  The default case is
`LG_CHECK (false, -1, "unknown type")`, after which `type` is still unassigned. -/
def type_of_typecode (typecode : Int) : Except Failure (Option GrB_Type) :=
  if typecode = 0 then .ok (some .GrB_BOOL)
  else if typecode = 1 then .ok (some .GrB_INT8)
  else if typecode = 2 then .ok (some .GrB_INT16)
  else if typecode = 3 then .ok (some .GrB_INT32)
  else if typecode = 4 then .ok (some .GrB_INT64)
  else if typecode = 5 then .ok (some .GrB_UINT8)
  else if typecode = 6 then .ok (some .GrB_UINT16)
  else if typecode = 7 then .ok (some .GrB_UINT32)
  else if typecode = 8 then .ok (some .GrB_UINT64)
  else if typecode = 9 then .ok (some .GrB_FP32)
  else if typecode = 10 then .ok (some .GrB_FP64)
  else if typecode = 11 then .ok (some .GxB_FC32)
  else if typecode = 12 then .ok (some .GxB_FC64)
  else (LG_CHECK false (-1) "unknown type").bind fun _ => .ok none

/-- `is_hyper = (kind == 1)`. -/
def is_hyper (sc : BinScalars) : Bool :=
  decide (sc.kind = 1)

/-- `is_sparse = (kind == 0 || kind == GxB_SPARSE)`. -/
def is_sparse (env : BinEnv) (sc : BinScalars) : Bool :=
  decide (sc.kind = 0 ∨ sc.kind = env.GxB_SPARSE)

/-- `is_bitmap = (kind == GxB_BITMAP)`. -/
def is_bitmap (env : BinEnv) (sc : BinScalars) : Bool :=
  decide (sc.kind = env.GxB_BITMAP)

/-- `is_full = (kind == GxB_FULL)`. -/
def is_full (env : BinEnv) (sc : BinScalars) : Bool :=
  decide (sc.kind = env.GxB_FULL)

/-- The lengths of the arrays and whether the index arrays could be allocated (`ok`).
The lengths are `GrB_Index` values: `nvec+1` and `nrows*ncols` wrap around at `2^64`.
The last branch is `LG_CHECK (false, -1, "unknown matrix format")`, after which the
lengths are the zeros they were declared with and `ok` is still true. -/
def array_lengths (env : BinEnv) (sc : BinScalars) :
    Except Failure (Nat × Nat × Nat × Nat × Nat × Bool) :=
  if is_hyper sc then
    let Ap_len := (sc.nvec + 1) % 2 ^ 64
    .ok (Ap_len, sc.nvec, 0, sc.nvals, sc.nvals,
      env.LAGraph_Malloc Ap_len 8 && env.LAGraph_Malloc sc.nvec 8
        && env.LAGraph_Malloc sc.nvals 8)
  else if is_sparse env sc then
    let Ap_len := (sc.nvec + 1) % 2 ^ 64
    .ok (Ap_len, 0, 0, sc.nvals, sc.nvals,
      env.LAGraph_Malloc Ap_len 8 && env.LAGraph_Malloc sc.nvals 8)
  else if is_bitmap env sc then
    let Ab_len := (sc.nrows * sc.ncols) % 2 ^ 64
    .ok (0, 0, Ab_len, 0, Ab_len, env.LAGraph_Malloc Ab_len 1)
  else if is_full env sc then
    .ok (0, 0, 0, 0, (sc.nrows * sc.ncols) % 2 ^ 64, true)
  else (LG_CHECK false (-1) "unknown matrix format").bind fun _ => .ok (0, 0, 0, 0, 0, true)

/-- The reads of the index arrays and of the bitmap: those of the kind of the matrix;
the result is `Ap`, `Ah`, `Ai`, `Ab` and the rest of the file. -/
def read_index_arrays (env : BinEnv) (sc : BinScalars) (Ap_len Ah_len Ab_len Ai_len : Nat)
    (f : List (Fin 256)) :
    Except Failure (List (Fin 256) × List (Fin 256) × List (Fin 256) × List (Fin 256)
      × List (Fin 256)) :=
  if is_hyper sc then
    (FREAD f 8 Ap_len).bind fun Ap =>
    (FREAD Ap.2 8 Ah_len).bind fun Ah =>
    (FREAD Ah.2 8 Ai_len).bind fun Ai =>
    .ok (Ap.1, Ah.1, Ai.1, [], Ai.2)
  else if is_sparse env sc then
    (FREAD f 8 Ap_len).bind fun Ap =>
    (FREAD Ap.2 8 Ai_len).bind fun Ai =>
    .ok (Ap.1, [], Ai.1, [], Ai.2)
  else if is_bitmap env sc then
    (FREAD f 1 Ab_len).bind fun Ab =>
    .ok ([], [], [], Ab.1, Ab.2)
  else .ok ([], [], [], [], f)

/-- The function from the header to `fclose (f)`: the reads and the checks between
them. -/
def BinRead_contents (env : BinEnv) (f : List (Fin 256)) : Except Failure BinContents :=
  -- read the header (and ignore it)
  (FREAD f 1 env.LAGRAPH_BIN_HEADER).bind fun header =>
  -- read the scalar content
  (read_scalars header.2).bind fun sf =>
  let sc := sf.1
  (type_of_typecode sc.typecode).bind fun type =>
  -- allocate the array content
  (array_lengths env sc).bind fun len =>
  let Ap_len := len.1
  let Ah_len := len.2.1
  let Ab_len := len.2.2.1
  let Ai_len := len.2.2.2.1
  let Ax_len := len.2.2.2.2.1
  let ok := len.2.2.2.2.2
  -- Ax = LAGraph_Malloc (Ax_len, typesize, &Ax_size)
  -- LG_CHECK (!ok || Ax == NULL, -1, "out of memory")
  (LG_CHECK (!ok || !env.LAGraph_Malloc Ax_len sc.typesize) (-1) "out of memory").bind fun _ =>
  -- read the array content
  (read_index_arrays env sc Ap_len Ah_len Ab_len Ai_len sf.2).bind fun idx =>
  (FREAD idx.2.2.2.2 sc.typesize Ax_len).bind fun Ax =>
  .ok { scalars := sc, type := type,
        arrays := { Ap_len := Ap_len, Ah_len := Ah_len, Ab_len := Ab_len, Ai_len := Ai_len,
                    Ax_len := Ax_len, Ap := idx.1, Ah := idx.2.1, Ab := idx.2.2.2.1,
                    Ai := idx.2.2.1, Ax := Ax.1 } }

/-- The choice of the import routine from `fmt` and the kind.  The last branch is
`LG_CHECK (false, -1, "unknown format")`, after which no routine has been called. -/
def import_routine (env : BinEnv) (sc : BinScalars) : Except Failure (Option ImportRoutine) :=
  if sc.fmt = env.GxB_BY_COL ∧ is_hyper sc = true then .ok (some .HyperCSC)
  else if sc.fmt = env.GxB_BY_ROW ∧ is_hyper sc = true then .ok (some .HyperCSR)
  else if sc.fmt = env.GxB_BY_COL ∧ is_sparse env sc = true then .ok (some .CSC)
  else if sc.fmt = env.GxB_BY_ROW ∧ is_sparse env sc = true then .ok (some .CSR)
  else if sc.fmt = env.GxB_BY_COL ∧ is_bitmap env sc = true then .ok (some .BitmapC)
  else if sc.fmt = env.GxB_BY_ROW ∧ is_bitmap env sc = true then .ok (some .BitmapR)
  else if sc.fmt = env.GxB_BY_COL ∧ is_full env sc = true then .ok (some .FullC)
  else if sc.fmt = env.GxB_BY_ROW ∧ is_full env sc = true then .ok (some .FullR)
  else (LG_CHECK false (-1) "unknown format").bind fun _ => .ok none

/-- The call of the chosen import routine under GrB_TRY, which sets `*A`; with no
routine chosen `*A` stays NULL, as `(*A) = NULL` has left it. -/
def import_matrix (env : BinEnv) (c : BinContents) :
    Option ImportRoutine → Except Failure (Option BinImport)
  | some routine =>
    (GrB_TRY (env.GxB_Matrix_import { routine := routine, contents := c }) (.ok ())).bind
      fun _ => .ok (some { routine := routine, contents := c })
  | none => .ok none

/-- The import of the matrix and the setting of its hyper switch,
`GrB_TRY (GxB_set (*A, GxB_HYPER_SWITCH, hyper))`, then `return (0)`. -/
def BinRead_import (env : BinEnv) (c : BinContents) : Except Failure (Option BinImport) :=
  (import_routine env c.scalars).bind fun routine =>
  (import_matrix env c routine).bind fun A =>
  (GrB_TRY (env.GxB_set_hyper A) (.ok ())).bind fun _ =>
  .ok A

/-- LAGraph_BinRead.  `A_is_NULL` and `filename_is_NULL` say whether the pointers are
NULL, `file` is what `fopen` gives: the bytes of the file, or nothing when it cannot be
opened.  `.ok` is `return (0)`, with `*A`: the import that made the matrix, or `none`
when `*A` is NULL. -/
def LAGraph_BinRead (env : BinEnv) (A_is_NULL filename_is_NULL : Bool)
    (file : Option (List (Fin 256))) : Except Failure (Option BinImport) :=
  (LG_CHECK A_is_NULL (-1) "&A is NULL").bind fun _ =>
  (LG_CHECK filename_is_NULL (-1) "filename is NULL").bind fun _ =>
  -- f = fopen (filename, "r")
  (LG_CHECK file.isNone (-1) "cannot open file").bind fun _ =>
  (BinRead_contents env (file.getD [])).bind (BinRead_import env)

/-- The status the caller gets from an exit of LAGraph_BinRead through `return (0)` or
through an LG_CHECK; a GrB_TRY exit returns a status that is not 0. -/
def returns (r : Except Failure (Option BinImport)) (status : Int) : Prop :=
  match r with
  | .ok _ => status = 0
  | .error (.lg_check error_id _) => status = error_id
  | .error (.grb_try _) => False
  | .error (.lagraph_try _) => False

/-- The scalars of a file: what the ten reads after the header deliver, when the file is
long enough for them. -/
def scalars_of (env : BinEnv) (f : List (Fin 256)) : Option BinScalars :=
  match (FREAD f 1 env.LAGRAPH_BIN_HEADER).bind fun header => read_scalars header.2 with
  | .ok sf => some sf.1
  | .error _ => none

/-- The number of bytes of the arrays implied by the kind: `Ap` and `Ai` (and `Ah` when
hypersparse) of 8-byte indices, `Ab` of bytes, and `Ax` of `typesize`-byte entries; 0
for an unknown kind. -/
def array_bytes (env : BinEnv) (sc : BinScalars) : Nat :=
  if is_hyper sc then
    8 * ((sc.nvec + 1) % 2 ^ 64) + 8 * sc.nvec + 8 * sc.nvals + sc.typesize * sc.nvals
  else if is_sparse env sc then
    8 * ((sc.nvec + 1) % 2 ^ 64) + 8 * sc.nvals + sc.typesize * sc.nvals
  else if is_bitmap env sc then
    (sc.nrows * sc.ncols) % 2 ^ 64 + sc.typesize * ((sc.nrows * sc.ncols) % 2 ^ 64)
  else if is_full env sc then
    sc.typesize * ((sc.nrows * sc.ncols) % 2 ^ 64)
  else 0

/-- An environment with the constants of SuiteSparse:GraphBLAS, a header of 4 bytes, an
allocator that never fails, import routines that succeed, and a `GxB_set` that succeeds
on a matrix and reports GrB_NULL_POINTER on NULL. -/
def example_env : BinEnv :=
  { LAGRAPH_BIN_HEADER := 4
    GxB_BY_ROW := 0
    GxB_BY_COL := 1
    GxB_SPARSE := 2
    GxB_BITMAP := 4
    GxB_FULL := 8
    LAGraph_Malloc := fun _ _ => true
    GxB_Matrix_import := fun _ => none
    GxB_set_hyper := fun A => if A.isSome then none else some .GrB_NULL_POINTER }

/-- A file for `example_env`: a header of 4 bytes, the ten scalars with the given `fmt`,
`kind` and `typecode` (each below 128), zero `hyper`, `nrows`, `ncols`, `nonempty`,
`nvec` and `nvals`, `typesize = 1`, and no array content. -/
def scalar_file (fmt kind typecode : Fin 256) : List (Fin 256) :=
  List.replicate 4 0 ++ [fmt, 0, 0, 0] ++ [kind, 0, 0, 0]
    ++ List.replicate 48 0 ++ [typecode, 0, 0, 0] ++ ([1, 0, 0, 0, 0, 0, 0, 0] : List (Fin 256))

/-- The file of an empty full matrix by row: `fmt = 0`, `kind = 8`, `typecode = 0`. -/
def empty_full_file : List (Fin 256) :=
  scalar_file 0 8 0

/-- The environment `example_env` with an engine that answers as `imp` and `set` say. -/
def engine_env (imp : BinImport → Option GrB_Info) (set : Option BinImport → Option GrB_Info) :
    BinEnv :=
  { example_env with GxB_Matrix_import := imp, GxB_set_hyper := set }

/-- What the function has in hand after reading `scalar_file fmt kind typecode` with the
type `type`. -/
def scalar_contents (fmt kind typecode : Int) (type : Option GrB_Type) : BinContents :=
  { scalars := { fmt := fmt, kind := kind, hyper := 0, nrows := 0, ncols := 0, nonempty := 0,
                 nvec := 0, nvals := 0, typecode := typecode, typesize := 1 }
    type := type
    arrays := { Ap_len := 0, Ah_len := 0, Ab_len := 0, Ai_len := 0, Ax_len := 0,
                Ap := [], Ah := [], Ab := [], Ai := [], Ax := [] } }

/-- A step that can end early only through an LG_CHECK with status -1. -/
def only_minus_one {σ : Type} (r : Except Failure σ) : Prop :=
  ∀ e, r = .error e → ∃ msg, e = .lg_check (-1) msg

/-- The typecode, the kind and the format are ones the function knows. -/
def known_scalars (env : BinEnv) (sc : BinScalars) : Prop :=
  (0 ≤ sc.typecode ∧ sc.typecode ≤ 12)
    ∧ (sc.kind = 0 ∨ sc.kind = 1 ∨ sc.kind = env.GxB_SPARSE ∨ sc.kind = env.GxB_BITMAP
        ∨ sc.kind = env.GxB_FULL)
    ∧ (sc.fmt = env.GxB_BY_ROW ∨ sc.fmt = env.GxB_BY_COL)

/-! ## Theorems -/

theorem Matrix.get_build (r c : Nat) (f : Nat → Nat → Option α) (i j : Nat) :
    (Matrix.build r c f).get i j = if i < r ∧ j < c then f i j else none := by
  unfold Matrix.get Matrix.build
  by_cases h : i < r ∧ j < c
  · obtain ⟨hi, hj⟩ := h
    simp [hi, hj, List.getD_eq_getElem?_getD]
  · simp [h]

theorem Matrix.get_of_not_lt (M : Matrix α) (i j : Nat) (h : ¬ (i < M.nrows ∧ j < M.ncols)) :
    M.get i j = none := by
  unfold Matrix.get
  simp [h]

theorem Matrix.has_lt {M : Matrix α} {i j : Nat} (h : M.has i j = true) :
    i < M.nrows ∧ j < M.ncols := by
  by_contra hc
  simp [Matrix.has, Matrix.get_of_not_lt M i j hc] at h

theorem Matrix.build_congr {r c : Nat} {f g : Nat → Nat → Option α}
    (h : ∀ i, i < r → ∀ j, j < c → f i j = g i j) : Matrix.build r c f = Matrix.build r c g := by
  unfold Matrix.build
  congr 1
  apply List.map_congr_left
  intro i hi
  apply List.map_congr_left
  intro j hj
  exact h i (List.mem_range.mp hi) j (List.mem_range.mp hj)

theorem pattern_has (M : Matrix α) (i j : Nat) : (LAGraph_Pattern M).has i j = M.has i j := by
  unfold LAGraph_Pattern
  by_cases h : i < M.nrows ∧ j < M.ncols
  · cases hg : M.get i j <;> simp [Matrix.has, Matrix.get_build, h, hg]
  · have h2 : M.get i j = none := Matrix.get_of_not_lt M i j h
    simp [Matrix.has, Matrix.get_build, h, h2]

theorem plus_first_dot_congr (F : Matrix ℚ) (B B2 : Nat → Nat → Bool) (i j : Nat)
    (h : ∀ k, F.has i k = true → B k j = B2 k j) :
    plus_first_dot F B i j = plus_first_dot F B2 i j := by
  have : plus_first_term F B i j = plus_first_term F B2 i j := by
    funext k
    unfold plus_first_term
    cases hk : F.get i k with
    | none => rfl
    | some a =>
      have := h k (by simp [Matrix.has, hk])
      simp [this]
  unfold plus_first_dot
  rw [this]

theorem mxm_off_diagonal (C : Matrix ℚ) (Mask : Option (Matrix μ)) (F : Matrix ℚ)
    {A : Matrix α} {A2 : Matrix β} (hA : same_off_diagonal A A2) (desc : GrB_Descriptor)
    (hF : ∀ i j, mask_allows Mask desc i j = true → F.get i j = none) :
    GrB_mxm C Mask F A desc = GrB_mxm C Mask F A2 desc := by
  obtain ⟨h1, h2, h3⟩ := hA
  have key : Matrix.build C.nrows C.ncols (fun i j =>
      write_entry (mask_allows Mask desc i j) desc.replace (C.get i j)
        (plus_first_dot F (A.has_t desc.tran1) i j))
      = Matrix.build C.nrows C.ncols (fun i j =>
      write_entry (mask_allows Mask desc i j) desc.replace (C.get i j)
        (plus_first_dot F (A2.has_t desc.tran1) i j)) := by
    apply Matrix.build_congr
    intro i _ j _
    cases hm : mask_allows Mask desc i j with
    | false => simp [write_entry]
    | true =>
      have hij := hF i j hm
      congr 1
      apply plus_first_dot_congr
      intro k hk
      have hkj : k ≠ j := by
        rintro rfl
        simp [Matrix.has, hij] at hk
      unfold Matrix.has_t
      cases desc.tran1
      · simp [h3 k j hkj]
      · simp [h3 j k (Ne.symm hkj)]
  unfold GrB_mxm Matrix.nrows_t Matrix.ncols_t
  simp only [h1, h2, key]

theorem assign_covers {P F P2 : Matrix ℚ} {f : ℚ → ℚ → ℚ}
    (h : GrB_assign P (some f) F = .ok P2) : covers P2 F := by
  unfold GrB_assign at h
  split at h
  · rename_i hd
    cases h
    intro i j hij
    by_cases hr : i < P.nrows ∧ j < P.ncols
    · simp only [Matrix.has, Matrix.get_build, hr, and_self, if_true] at hij
      cases hp : P.get i j <;> cases hf : F.get i j <;> simp [accum_entry, hp, hf] at hij ⊢
    · apply Matrix.get_of_not_lt
      rw [← hd.1, ← hd.2]
      exact hr
  · cases h

theorem mxm_masked {C F R : Matrix ℚ} {M : Option (Matrix μ)} {B : Matrix β}
    {desc : GrB_Descriptor} (hr : desc.replace = true)
    (h : GrB_mxm C M F B desc = .ok R) (i j : Nat) (hij : R.has i j = true) :
    mask_allows M desc i j = true := by
  unfold GrB_mxm at h
  split at h
  · cases h
    by_contra hm
    have hm2 : mask_allows M desc i j = false := by simpa using hm
    have hlt := Matrix.has_lt hij
    simp only [Matrix.build] at hlt
    simp [Matrix.has, Matrix.get_build, hlt, write_entry, hm2, hr] at hij
  · cases h

theorem eWiseMult_masked {C A B R : Matrix ℚ} {M : Option (Matrix μ)} {accum : Option (ℚ → ℚ → ℚ)}
    {op : ℚ → ℚ → ℚ} {desc : GrB_Descriptor} (hr : desc.replace = true)
    (h : GrB_eWiseMult C M accum op A B desc = .ok R) (i j : Nat) (hij : R.has i j = true) :
    mask_allows M desc i j = true := by
  unfold GrB_eWiseMult at h
  split at h
  · cases h
    by_contra hm
    have hm2 : mask_allows M desc i j = false := by simpa using hm
    have hlt := Matrix.has_lt hij
    simp only [Matrix.build] at hlt
    simp [Matrix.has, Matrix.get_build, hlt, write_entry, hm2, hr] at hij
  · cases h

theorem setElement_ncols {C C2 : Matrix α} {x : α} {i j : Nat}
    (h : GrB_Matrix_setElement C x i j = .ok C2) : C2.ncols = C.ncols ∧ C2.nrows = C.nrows ∧ j < C.ncols := by
  unfold GrB_Matrix_setElement at h
  split at h
  · rename_i hc
    cases h
    exact ⟨rfl, rfl, hc.2⟩
  · cases h

theorem init_sources_error (sources : List Nat) :
    ∀ (i : Nat) (paths frontier : Matrix ℚ),
      (∃ s ∈ sources, paths.ncols ≤ s) →
      init_sources sources i paths frontier = .error .GrB_INVALID_INDEX := by
  induction sources with
  | nil => intro i paths frontier h; simp at h
  | cons s rest ih =>
    intro i paths frontier h
    unfold init_sources
    cases h1 : GrB_Matrix_setElement paths 1 i s with
    | error e =>
      have : e = .GrB_INVALID_INDEX := by
        unfold GrB_Matrix_setElement at h1
        split at h1 <;> cases h1
        rfl
      subst this
      rfl
    | ok paths2 =>
      obtain ⟨hc, -, hs⟩ := setElement_ncols h1
      cases h2 : GrB_Matrix_setElement frontier 1 i s with
      | error e =>
        have : e = .GrB_INVALID_INDEX := by
          unfold GrB_Matrix_setElement at h2
          split at h2 <;> cases h2
          rfl
        subst this
        rfl
      | ok frontier2 =>
        have hrest : ∃ s ∈ rest, paths2.ncols ≤ s := by
          obtain ⟨s', hs', hle⟩ := h
          rcases List.mem_cons.mp hs' with rfl | hmem
          · omega
          · exact ⟨s', hmem, by rw [hc]; exact hle⟩
        have := ih (i + 1) paths2 frontier2 hrest
        simp only [bind, Except.bind, this]

theorem mxm_same_pattern (C : Matrix ℚ) (Mask : Option (Matrix μ)) (F : Matrix ℚ)
    {B : Matrix α} {B2 : Matrix β} (h : same_pattern B B2) (desc : GrB_Descriptor) :
    GrB_mxm C Mask F B desc = GrB_mxm C Mask F B2 desc := by
  obtain ⟨h1, h2, h3⟩ := h
  unfold GrB_mxm Matrix.nrows_t Matrix.ncols_t Matrix.has_t
  simp only [h1, h2, h3]

theorem bfs_step_same_pattern (p : Policy) {A AT : Matrix α} {A2 AT2 : Matrix β}
    (hA : same_pattern A A2) (hAT : same_pattern AT AT2) (ns n : Nat) (st : BFSState) :
    bfs_step p A AT ns n st = bfs_step p A2 AT2 ns n st := by
  unfold bfs_step
  simp only [mxm_same_pattern _ _ _ hA, mxm_same_pattern _ _ _ hAT]

theorem bfs_loop_same_pattern (p : Policy) {A AT : Matrix α} {A2 AT2 : Matrix β}
    (hA : same_pattern A A2) (hAT : same_pattern AT AT2) (ns n : Nat) (fuel : Nat) :
    ∀ st : BFSState, bfs_loop p A AT ns n fuel st = bfs_loop p A2 AT2 ns n fuel st := by
  induction fuel with
  | zero => intro st; rfl
  | succ k ih =>
    intro st
    unfold bfs_loop
    rw [bfs_step_same_pattern p hA hAT]
    have : bfs_loop p A AT ns n k = bfs_loop p A2 AT2 ns n k := funext ih
    rw [this]

theorem bfs_stage_same_pattern (p : Policy) {A AT : Matrix α} {A2 AT2 : Matrix β}
    (hA : same_pattern A A2) (hAT : same_pattern AT AT2) (sources : List Nat) :
    bfs_stage p A AT sources = bfs_stage p A2 AT2 sources := by
  unfold bfs_stage bfs_init
  have : bfs_loop p A AT sources.length A2.nrows A2.nrows
      = bfs_loop p A2 AT2 sources.length A2.nrows A2.nrows :=
    funext (bfs_loop_same_pattern p hA hAT _ _ _)
  simp only [mxm_same_pattern _ _ _ hA, hA.1, this]

theorem bc_step_same_pattern (p : Policy) {A AT : Matrix α} {A2 AT2 : Matrix β}
    (hA : same_pattern A A2) (hAT : same_pattern AT AT2) (paths : Matrix ℚ)
    (S : List (Matrix Bool)) (ns n i : Nat) (st : BCState) :
    bc_step p A AT paths S ns n i st = bc_step p A2 AT2 paths S ns n i st := by
  unfold bc_step
  simp only [mxm_same_pattern _ _ _ hA, mxm_same_pattern _ _ _ hAT]

theorem bc_loop_same_pattern (p : Policy) {A AT : Matrix α} {A2 AT2 : Matrix β}
    (hA : same_pattern A A2) (hAT : same_pattern AT AT2) (paths : Matrix ℚ)
    (S : List (Matrix Bool)) (ns n : Nat) (i : Nat) :
    ∀ st : BCState, bc_loop p A AT paths S ns n i st = bc_loop p A2 AT2 paths S ns n i st := by
  induction i with
  | zero => intro st; rfl
  | succ k ih =>
    intro st
    unfold bc_loop
    rw [bc_step_same_pattern p hA hAT]
    have : bc_loop p A AT paths S ns n k = bc_loop p A2 AT2 paths S ns n k := funext ih
    rw [this]

theorem compute_same_pattern (p : Policy) {A AT : Matrix α} {A2 AT2 : Matrix β}
    (hA : same_pattern A A2) (hAT : same_pattern AT AT2) (sources : List Nat) :
    compute p A AT sources = compute p A2 AT2 sources := by
  unfold compute
  rw [bfs_stage_same_pattern p hA hAT]
  congr 1
  funext fwd
  unfold bc_stage
  rw [bc_loop_same_pattern p hA hAT, hA.1]

theorem mxm_pull_eq_push (C : Matrix ℚ) (Mask : Option (Matrix μ)) (F : Matrix ℚ)
    {A AT : Matrix α} (h : transpose_pattern A AT) :
    GrB_mxm C Mask F AT GrB_DESC_RSCT1 = GrB_mxm C Mask F A GrB_DESC_RSC := by
  obtain ⟨h1, h2, h3⟩ := h
  unfold GrB_mxm Matrix.nrows_t Matrix.ncols_t Matrix.has_t GrB_DESC_RSCT1 GrB_DESC_RSC
  simp only [h1, h2, h3, if_true, Bool.false_eq_true, if_false]
  rfl

theorem mxm_back_pull_eq_push (C : Matrix ℚ) (Mask : Option (Matrix μ)) (F : Matrix ℚ)
    {A AT : Matrix α} (h : transpose_pattern A AT) :
    GrB_mxm C Mask F A GrB_DESC_RST1 = GrB_mxm C Mask F AT GrB_DESC_RS := by
  obtain ⟨h1, h2, h3⟩ := h
  unfold GrB_mxm Matrix.nrows_t Matrix.ncols_t Matrix.has_t GrB_DESC_RST1 GrB_DESC_RS
  simp only [h1, h2, h3, if_true, Bool.false_eq_true, if_false]
  rfl

theorem forget_fields {st st2 : BFSState} (hst : st.forget = st2.forget) :
    st.frontier = st2.frontier ∧ st.paths = st2.paths ∧ st.S = st2.S ∧ st.depth = st2.depth
      ∧ st.frontier_size = st2.frontier_size := by
  refine ⟨?_, ?_, ?_, ?_, ?_⟩
  · simpa [BFSState.forget] using congrArg BFSState.frontier hst
  · simpa [BFSState.forget] using congrArg BFSState.paths hst
  · simpa [BFSState.forget] using congrArg BFSState.S hst
  · simpa [BFSState.forget] using congrArg BFSState.depth hst
  · simpa [BFSState.forget] using congrArg BFSState.frontier_size hst

theorem bfs_step_forget (p q : Policy) {A AT : Matrix α} (h : transpose_pattern A AT)
    (ns n : Nat) (st st2 : BFSState) (hst : st.forget = st2.forget) :
    (bfs_step p A AT ns n st).map BFSState.forget
      = (bfs_step q A AT ns n st2).map BFSState.forget := by
  obtain ⟨e1, e2, e3, e4, e5⟩ := forget_fields hst
  unfold bfs_step
  simp only [mxm_pull_eq_push _ _ _ h, ite_self, e1, e2, e3, e4, e5]
  cases GrB_assign st2.paths (some fun x1 x2 => x1 + x2) st2.frontier with
  | error e => rfl
  | ok paths =>
    simp only [bind, Except.bind]
    cases GrB_mxm st2.frontier (some paths) st2.frontier A GrB_DESC_RSC with
    | error e => rfl
    | ok fr => rfl

theorem bfs_loop_forget (p q : Policy) {A AT : Matrix α} (h : transpose_pattern A AT)
    (ns n : Nat) (fuel : Nat) :
    ∀ st st2 : BFSState, st.forget = st2.forget →
      (bfs_loop p A AT ns n fuel st).map BFSState.forget
        = (bfs_loop q A AT ns n fuel st2).map BFSState.forget := by
  induction fuel with
  | zero => intro st st2 hst; simpa [bfs_loop, Except.map] using hst
  | succ k ih =>
    intro st st2 hst
    obtain ⟨-, -, -, e4, e5⟩ := forget_fields hst
    unfold bfs_loop
    rw [e4, e5]
    split
    · have hs := bfs_step_forget p q h ns n st st2 hst
      cases h1 : bfs_step p A AT ns n st with
      | error e =>
        cases h2 : bfs_step q A AT ns n st2 with
        | error e2 =>
          rw [h1, h2] at hs
          simpa [Except.map, Except.bind] using hs
        | ok s2 => rw [h1, h2] at hs; simp [Except.map] at hs
      | ok s1 =>
        cases h2 : bfs_step q A AT ns n st2 with
        | error e2 => rw [h1, h2] at hs; simp [Except.map] at hs
        | ok s2 =>
          rw [h1, h2] at hs
          simp only [Except.map, Except.ok.injEq] at hs
          simpa [Except.bind] using ih s1 s2 hs
    · simpa [Except.map] using hst

theorem bc_step_policy (p q : Policy) {A AT : Matrix α} (h : transpose_pattern A AT)
    (paths : Matrix ℚ) (S : List (Matrix Bool)) (ns n i : Nat) (st : BCState) :
    bc_step p A AT paths S ns n i st = bc_step q A AT paths S ns n i st := by
  unfold bc_step
  simp only [mxm_back_pull_eq_push _ _ _ h, ite_self]

theorem bc_loop_policy (p q : Policy) {A AT : Matrix α} (h : transpose_pattern A AT)
    (paths : Matrix ℚ) (S : List (Matrix Bool)) (ns n : Nat) (i : Nat) :
    ∀ st : BCState, bc_loop p A AT paths S ns n i st = bc_loop q A AT paths S ns n i st := by
  induction i with
  | zero => intro st; rfl
  | succ k ih =>
    intro st
    unfold bc_loop
    rw [bc_step_policy p q h, funext ih]

theorem bc_stage_policy (p q : Policy) {A AT : Matrix α} (h : transpose_pattern A AT)
    (ns : Nat) (fwd fwd2 : BFSState) (hf : fwd.forget = fwd2.forget) :
    bc_stage p A AT ns fwd = bc_stage q A AT ns fwd2 := by
  obtain ⟨-, e2, e3, e4, -⟩ := forget_fields hf
  unfold bc_stage
  rw [bc_loop_policy p q h, e2, e3, e4]

theorem bfs_stage_forget (p q : Policy) {A AT : Matrix α} (h : transpose_pattern A AT)
    (sources : List Nat) :
    (bfs_stage p A AT sources).map BFSState.forget
      = (bfs_stage q A AT sources).map BFSState.forget := by
  unfold bfs_stage
  cases bfs_init A sources with
  | error e => rfl
  | ok st0 => exact bfs_loop_forget p q h _ _ _ st0 st0 rfl

theorem compute_policy (p q : Policy) {A AT : Matrix α} (h : transpose_pattern A AT)
    (sources : List Nat) : compute p A AT sources = compute q A AT sources := by
  have hs := bfs_stage_forget p q h sources
  unfold compute
  cases h1 : bfs_stage p A AT sources with
  | error e =>
    cases h2 : bfs_stage q A AT sources with
    | error e2 =>
      rw [h1, h2] at hs
      simpa [Except.map, Except.bind] using hs
    | ok s2 => rw [h1, h2] at hs; simp [Except.map] at hs
  | ok s1 =>
    cases h2 : bfs_stage q A AT sources with
    | error e2 => rw [h1, h2] at hs; simp [Except.map] at hs
    | ok s2 =>
      rw [h1, h2] at hs
      simp only [Except.map, Except.ok.injEq] at hs
      simpa [Except.bind] using bc_stage_policy p q h _ s1 s2 hs

theorem level_append_lt (S : List (Matrix Bool)) (M : Matrix Bool) (d : Nat) (h : d < S.length) :
    level (S ++ [M]) d = level S d := by
  unfold level
  simp [List.getD_eq_getElem?_getD, List.getElem?_append_left h]

theorem level_append_eq (S : List (Matrix Bool)) (M : Matrix Bool) :
    level (S ++ [M]) S.length = M := by
  unfold level
  simp [List.getD_eq_getElem?_getD]

theorem level_ge (S : List (Matrix Bool)) (d : Nat) (h : S.length ≤ d) (i j : Nat) :
    (level S d).has i j = false := by
  unfold level
  rw [List.getD_eq_getElem?_getD, List.getElem?_eq_none h]
  simp [Matrix.has, Matrix.get_build]

/-- The forward invariant behind the self-edge property: recorded levels are pairwise
disjoint when consecutive, and the frontier avoids the last recorded level. -/
theorem bfs_step_disjoint (p : Policy) (A AT : Matrix α) (ns n : Nat) (st st2 : BFSState)
    (h1 : consecutive_disjoint st.S)
    (h2 : ∀ i j, st.frontier.has i j = true → (level st.S (st.S.length - 1)).has i j = false)
    (hs : bfs_step p A AT ns n st = .ok st2) :
    consecutive_disjoint st2.S
      ∧ ∀ i j, st2.frontier.has i j = true → (level st2.S (st2.S.length - 1)).has i j = false := by
  unfold bfs_step at hs
  cases ha : GrB_assign st.paths (some fun x1 x2 => x1 + x2) st.frontier with
  | error e => rw [ha] at hs; cases hs
  | ok paths =>
    rw [ha] at hs
    simp only [bind, Except.bind] at hs
    have hcov := assign_covers ha
    have hfront : ∀ (fr : Matrix ℚ) (B : Matrix α) (desc : GrB_Descriptor),
        desc.replace = true → desc.comp = true →
        GrB_mxm st.frontier (some paths) st.frontier B desc = .ok fr →
        ∀ i j, fr.has i j = true → st.frontier.has i j = false := by
      intro fr B desc hr hc hm i j hij
      have := mxm_masked hr hm i j hij
      simp only [mask_allows, hc] at this
      have hp : paths.has i j = false := by
        cases hpp : paths.has i j <;> simp [hpp] at this ⊢
      simp [Matrix.has, hcov i j hp]
    have main : ∀ fr : Matrix ℚ, (∀ i j, fr.has i j = true → st.frontier.has i j = false) →
        ∀ lw : Bool,
        st2 = { frontier := fr, paths := paths, S := st.S ++ [LAGraph_Pattern st.frontier],
                depth := st.depth + 1, frontier_size := GrB_Matrix_nvals fr,
                last_frontier_size := st.frontier_size, last_was_pull := lw } →
        consecutive_disjoint st2.S
          ∧ ∀ i j, st2.frontier.has i j = true →
              (level st2.S (st2.S.length - 1)).has i j = false := by
      intro fr hfr lw hst
      subst hst
      constructor
      · intro d i j hd
        rcases Nat.lt_trichotomy (d + 1) st.S.length with hlt | heq | hgt
        · rw [level_append_lt _ _ _ hlt]
          rw [level_append_lt _ _ _ (by omega)] at hd
          exact h1 d i j hd
        · rw [level_append_lt _ _ _ (by omega)] at hd
          rw [heq, level_append_eq, pattern_has]
          have hd' : d = st.S.length - 1 := by omega
          rw [hd'] at hd
          cases hf : st.frontier.has i j
          · rfl
          · rw [h2 i j hf] at hd; cases hd
        · apply level_ge
          simp
          omega
      · intro i j hij
        simp only [List.length_append, List.length_singleton, Nat.add_sub_cancel]
        rw [level_append_eq, pattern_has]
        exact hfr i j hij
    split at hs
    · cases hm : GrB_mxm st.frontier (some paths) st.frontier AT GrB_DESC_RSCT1 with
      | error e => rw [hm] at hs; cases hs
      | ok fr =>
        rw [hm] at hs
        simp only [pure, Except.pure, Except.ok.injEq] at hs
        exact main fr (hfront fr AT _ rfl rfl hm) _ hs.symm
    · cases hm : GrB_mxm st.frontier (some paths) st.frontier A GrB_DESC_RSC with
      | error e => rw [hm] at hs; cases hs
      | ok fr =>
        rw [hm] at hs
        simp only [pure, Except.pure, Except.ok.injEq] at hs
        exact main fr (hfront fr A _ rfl rfl hm) _ hs.symm

theorem bfs_loop_disjoint (p : Policy) (A AT : Matrix α) (ns n : Nat) (fuel : Nat) :
    ∀ st st2 : BFSState, consecutive_disjoint st.S →
      (∀ i j, st.frontier.has i j = true → (level st.S (st.S.length - 1)).has i j = false) →
      bfs_loop p A AT ns n fuel st = .ok st2 → consecutive_disjoint st2.S := by
  induction fuel with
  | zero =>
    intro st st2 h1 _ hs
    simp only [bfs_loop, Except.ok.injEq] at hs
    subst hs
    exact h1
  | succ k ih =>
    intro st st2 h1 h2 hs
    unfold bfs_loop at hs
    split at hs
    · cases hstep : bfs_step p A AT ns n st with
      | error e => rw [hstep] at hs; cases hs
      | ok s1 =>
        rw [hstep] at hs
        obtain ⟨g1, g2⟩ := bfs_step_disjoint p A AT ns n st s1 h1 h2 hstep
        exact ih s1 st2 g1 g2 hs
    · simp only [Except.ok.injEq] at hs
      subst hs
      exact h1

theorem bfs_stage_disjoint (p : Policy) (A AT : Matrix α) (sources : List Nat) (st : BFSState)
    (h : bfs_stage p A AT sources = .ok st) : consecutive_disjoint st.S := by
  unfold bfs_stage at h
  cases hi : bfs_init A sources with
  | error e => rw [hi] at h; cases h
  | ok st0 =>
    rw [hi] at h
    have hS : st0.S = [] := by
      unfold bfs_init at hi
      simp only [bind, Except.bind] at hi
      split at hi
      · cases hi
      · split at hi
        · cases hi
        · simp only [pure, Except.pure, Except.ok.injEq] at hi
          rw [← hi]
    apply bfs_loop_disjoint p A AT _ _ _ st0 st _ _ h
    · intro d i j hd
      rw [hS] at hd
      rw [level_ge [] d (by simp)] at hd
      cases hd
    · intro i j _
      rw [hS]
      exact level_ge [] _ (by simp) i j

theorem bfs_step_off_diagonal (p : Policy) {A AT : Matrix α} {A2 AT2 : Matrix β}
    (hA : same_off_diagonal A A2) (hAT : same_off_diagonal AT AT2) (ns n : Nat) (st : BFSState) :
    bfs_step p A AT ns n st = bfs_step p A2 AT2 ns n st := by
  unfold bfs_step
  cases ha : GrB_assign st.paths (some fun x1 x2 => x1 + x2) st.frontier with
  | error e => rfl
  | ok paths =>
    have hcov := assign_covers ha
    have hF : ∀ desc : GrB_Descriptor, desc.comp = true →
        ∀ i j, mask_allows (some paths) desc i j = true → st.frontier.get i j = none := by
      intro desc hc i j hm
      simp only [mask_allows, hc] at hm
      apply hcov
      cases hpp : paths.has i j <;> simp [hpp] at hm ⊢
    simp only [bind, Except.bind]
    rw [mxm_off_diagonal st.frontier (some paths) st.frontier hAT GrB_DESC_RSCT1
          (hF _ rfl),
        mxm_off_diagonal st.frontier (some paths) st.frontier hA GrB_DESC_RSC (hF _ rfl)]

theorem bfs_loop_off_diagonal (p : Policy) {A AT : Matrix α} {A2 AT2 : Matrix β}
    (hA : same_off_diagonal A A2) (hAT : same_off_diagonal AT AT2) (ns n : Nat) (fuel : Nat) :
    ∀ st : BFSState, bfs_loop p A AT ns n fuel st = bfs_loop p A2 AT2 ns n fuel st := by
  induction fuel with
  | zero => intro st; rfl
  | succ k ih =>
    intro st
    unfold bfs_loop
    rw [bfs_step_off_diagonal p hA hAT, funext ih]

theorem setElement_get {C C2 : Matrix α} {x : α} {i j : Nat}
    (h : GrB_Matrix_setElement C x i j = .ok C2) :
    C2 = Matrix.build C.nrows C.ncols fun a b => if a = i ∧ b = j then some x else C.get a b := by
  unfold GrB_Matrix_setElement at h
  split at h
  · cases h; rfl
  · cases h

theorem init_sources_covers (sources : List Nat) :
    ∀ (i : Nat) (P F P2 F2 : Matrix ℚ), covers P F → P.nrows = F.nrows → P.ncols = F.ncols →
      init_sources sources i P F = .ok (P2, F2) → covers P2 F2 := by
  induction sources with
  | nil =>
    intro i P F P2 F2 hc _ _ h
    simp only [init_sources, Except.ok.injEq, Prod.mk.injEq] at h
    rw [← h.1, ← h.2]
    exact hc
  | cons s rest ih =>
    intro i P F P2 F2 hc hr hcl h
    unfold init_sources at h
    cases h1 : GrB_Matrix_setElement P 1 i s with
    | error e => rw [h1] at h; cases h
    | ok P1 =>
      cases h2 : GrB_Matrix_setElement F 1 i s with
      | error e => rw [h1, h2] at h; cases h
      | ok F1 =>
        rw [h1, h2] at h
        simp only [bind, Except.bind] at h
        have e1 := setElement_get h1
        have e2 := setElement_get h2
        apply ih (i + 1) P1 F1 P2 F2 _ _ _ h
        · intro a b hab
          subst e1 e2
          rw [Matrix.get_build]
          by_cases hlt : a < P.nrows ∧ b < P.ncols
          · simp only [Matrix.has, Matrix.get_build, hlt, and_self, if_true] at hab
            rw [← hr, ← hcl]
            simp only [hlt, and_self, if_true]
            by_cases hab2 : a = i ∧ b = s
            · simp [hab2] at hab
            · simp only [hab2, if_false] at hab ⊢
              apply hc
              simp [Matrix.has, hab]
          · rw [← hr, ← hcl]
            simp [hlt]
        · subst e1 e2; exact hr
        · subst e1 e2; exact hcl

theorem bfs_init_unfold (A : Matrix α) (sources : List Nat) :
    bfs_init A sources
      = (init_sources sources 0 (GrB_Matrix_new sources.length A.nrows)
          (GrB_Matrix_new sources.length A.nrows)).bind fun pf =>
        (GrB_mxm pf.2 (some pf.1) pf.2 A GrB_DESC_RSC).bind fun frontier =>
          .ok { frontier := frontier, paths := pf.1, S := [], depth := 0,
                frontier_size := GrB_Matrix_nvals frontier, last_frontier_size := 0,
                last_was_pull := false } := by
  rfl

theorem bfs_init_off_diagonal {A : Matrix α} {A2 : Matrix β}
    (hA : same_off_diagonal A A2) (sources : List Nat) :
    bfs_init A sources = bfs_init A2 sources := by
  rw [bfs_init_unfold, bfs_init_unfold, ← hA.1]
  cases hi : init_sources sources 0 (GrB_Matrix_new sources.length A.nrows)
      (GrB_Matrix_new sources.length A.nrows) with
  | error e => rfl
  | ok pf =>
    obtain ⟨P, F⟩ := pf
    have hcov : covers P F := by
      apply init_sources_covers sources 0 _ _ P F _ rfl rfl hi
      intro i j _
      simp [GrB_Matrix_new, Matrix.get_build]
    have hF : ∀ i j, mask_allows (some P) GrB_DESC_RSC i j = true → F.get i j = none := by
      intro i j hm
      simp only [mask_allows, GrB_DESC_RSC] at hm
      apply hcov
      cases hpp : P.has i j <;> simp [hpp] at hm ⊢
    simp only [Except.bind]
    rw [mxm_off_diagonal F (some P) F hA GrB_DESC_RSC hF]

theorem bfs_stage_off_diagonal (p : Policy) {A AT : Matrix α} {A2 AT2 : Matrix β}
    (hA : same_off_diagonal A A2) (hAT : same_off_diagonal AT AT2) (sources : List Nat) :
    bfs_stage p A AT sources = bfs_stage p A2 AT2 sources := by
  unfold bfs_stage
  rw [bfs_init_off_diagonal hA, ← hA.1, funext (bfs_loop_off_diagonal p hA hAT _ _ _)]

theorem bc_step_off_diagonal (p : Policy) {A AT : Matrix α} {A2 AT2 : Matrix β}
    (hA : same_off_diagonal A A2) (hAT : same_off_diagonal AT AT2) (paths : Matrix ℚ)
    (S : List (Matrix Bool)) (hS : consecutive_disjoint S) (ns n i : Nat) (st : BCState) :
    bc_step p A AT paths S ns n (i + 1) st = bc_step p A2 AT2 paths S ns n (i + 1) st := by
  unfold bc_step
  cases hw : GrB_eWiseMult st.W (some (level S (i + 1))) none (fun x1 x2 => x1 / x2)
      st.bc_update paths GrB_DESC_RS with
  | error e => rfl
  | ok W =>
    have hWS : ∀ r v, W.has r v = true → (level S (i + 1)).has r v = true := by
      intro r v hrv
      have := eWiseMult_masked (by rfl) hw r v hrv
      simpa [mask_allows, GrB_DESC_RS] using this
    have hF : ∀ desc : GrB_Descriptor, desc.comp = false →
        ∀ r u, mask_allows (some (level S (i + 1 - 1))) desc r u = true → W.get r u = none := by
      intro desc hc r u hm
      simp only [mask_allows, hc, Nat.add_sub_cancel] at hm
      have hl : (level S i).has r u = true := by
        cases hpp : (level S i).has r u <;> simp [hpp] at hm ⊢
      have hd := hS i r u hl
      cases hg : W.get r u with
      | none => rfl
      | some x =>
        have := hWS r u (by simp [Matrix.has, hg])
        rw [hd] at this
        cases this
    simp only [bind, Except.bind]
    rw [mxm_off_diagonal W (some (level S (i + 1 - 1))) W hA GrB_DESC_RST1 (hF _ rfl),
        mxm_off_diagonal W (some (level S (i + 1 - 1))) W hAT GrB_DESC_RS (hF _ rfl)]

theorem bc_loop_off_diagonal (p : Policy) {A AT : Matrix α} {A2 AT2 : Matrix β}
    (hA : same_off_diagonal A A2) (hAT : same_off_diagonal AT AT2) (paths : Matrix ℚ)
    (S : List (Matrix Bool)) (hS : consecutive_disjoint S) (ns n : Nat) (i : Nat) :
    ∀ st : BCState, bc_loop p A AT paths S ns n i st = bc_loop p A2 AT2 paths S ns n i st := by
  induction i with
  | zero => intro st; rfl
  | succ k ih =>
    intro st
    unfold bc_loop
    rw [bc_step_off_diagonal p hA hAT paths S hS, funext ih]

theorem compute_off_diagonal (p : Policy) {A AT : Matrix α} {A2 AT2 : Matrix β}
    (hA : same_off_diagonal A A2) (hAT : same_off_diagonal AT AT2) (sources : List Nat) :
    compute p A AT sources = compute p A2 AT2 sources := by
  unfold compute
  rw [← bfs_stage_off_diagonal p hA hAT]
  cases hb : bfs_stage p A AT sources with
  | error e => rfl
  | ok fwd =>
    have hS := bfs_stage_disjoint p A AT sources fwd hb
    simp only [Except.bind]
    unfold bc_stage
    rw [bc_loop_off_diagonal p hA hAT _ _ hS, hA.1]

/-! ### Sums over lists and ranges -/

theorem list_sum_map_range {M : Type} [AddCommMonoid M] (f : Nat → M) (n : Nat) :
    ((List.range n).map f).sum = ∑ k ∈ Finset.range n, f k := by
  induction n with
  | zero => simp
  | succ m ih =>
    rw [List.range_succ, List.map_append, List.sum_append, ih, Finset.sum_range_succ]
    simp

theorem list_sum_filter_range {M : Type} [AddCommMonoid M] (p : Nat → Bool) (f : Nat → M)
    (n : Nat) :
    (((List.range n).filter p).map f).sum = ∑ k ∈ Finset.range n, if p k = true then f k else 0 := by
  induction n with
  | zero => simp
  | succ m ih =>
    rw [List.range_succ, List.filter_append, List.map_append, List.sum_append, ih,
      Finset.sum_range_succ]
    cases hp : p m <;> simp [List.filter, hp]

theorem length_filter_flatMap {γ δ : Type} (l : List γ) (f : γ → List δ) (q : δ → Bool) :
    ((l.flatMap f).filter q).length = (l.map fun u => ((f u).filter q).length).sum := by
  induction l with
  | nil => simp
  | cons a l ih => simp [List.flatMap_cons, List.filter_append, ih]

/-! ### Walk counts -/

section walks
variable (adj : Nat → Nat → Bool) (n s : Nat)

theorem walk_count_zero (t : Nat) : walk_count adj n s 0 t = if t = s then 1 else 0 := by
  unfold walk_count walksTo
  split <;> simp

theorem walk_count_succ (k t : Nat) :
    walk_count adj n s (k + 1) t
      = ∑ u ∈ Finset.range n, if adj u t = true then walk_count adj n s k u else 0 := by
  unfold walk_count
  rw [walksTo, List.length_flatMap, ← list_sum_filter_range]
  congr 1
  apply List.map_congr_left
  intro u _
  simp

theorem through_count_zero (v t : Nat) :
    through_count adj n s v 0 t = if t = s ∧ v = s then 1 else 0 := by
  unfold through_count walksTo
  by_cases h : t = s
  · by_cases hv : v = s
    · simp [h, hv]
    · simp [h, hv]
  · simp [h]

theorem through_count_succ (v k t : Nat) :
    through_count adj n s v (k + 1) t
      = if t = v then walk_count adj n s (k + 1) t
        else ∑ u ∈ Finset.range n, if adj u t = true then through_count adj n s v k u else 0 := by
  unfold through_count
  rw [walksTo, length_filter_flatMap]
  by_cases h : t = v
  · rw [if_pos h]
    unfold walk_count
    rw [walksTo, List.length_flatMap]
    congr 1
    apply List.map_congr_left
    intro u _
    simp [List.filter_map, h]
  · rw [if_neg h, ← list_sum_filter_range]
    congr 1
    apply List.map_congr_left
    intro u _
    simp only [List.filter_map, List.length_map]
    congr 1
    apply List.filter_congr
    intro p _
    simp [Ne.symm h]

theorem through_count_le (v k t : Nat) :
    through_count adj n s v k t ≤ walk_count adj n s k t := by
  unfold through_count walk_count
  exact List.length_filter_le _ _

end walks

section levels
variable (adj : Nat → Nat → Bool) (n s : Nat)

theorem walk_count_edge {k u t : Nat} (hu : u < n) (he : adj u t = true)
    (hp : 0 < walk_count adj n s k u) : 0 < walk_count adj n s (k + 1) t := by
  rw [walk_count_succ]
  have h1 : (if adj u t = true then walk_count adj n s k u else 0)
      ≤ ∑ u ∈ Finset.range n, if adj u t = true then walk_count adj n s k u else 0 :=
    Finset.single_le_sum (f := fun u => if adj u t = true then walk_count adj n s k u else 0)
      (fun _ _ => Nat.zero_le _) (Finset.mem_range.mpr hu)
  rw [if_pos he] at h1
  omega

theorem walk_count_pred {k t : Nat} (hp : 0 < walk_count adj n s (k + 1) t) :
    ∃ u, u < n ∧ adj u t = true ∧ 0 < walk_count adj n s k u := by
  rw [walk_count_succ] at hp
  by_contra hc
  have : ∑ u ∈ Finset.range n, (if adj u t = true then walk_count adj n s k u else 0) = 0 := by
    apply Finset.sum_eq_zero
    intro u hu
    by_cases he : adj u t = true
    · rw [if_pos he]
      by_contra hne
      exact hc ⟨u, Finset.mem_range.mp hu, he, Nat.pos_of_ne_zero hne⟩
    · rw [if_neg he]
  omega

theorem first_at_pred {k t : Nat} (h : first_at adj n s (k + 1) t) :
    ∃ u, u < n ∧ adj u t = true ∧ first_at adj n s k u := by
  obtain ⟨u, hu, he, hp⟩ := walk_count_pred adj n s h.1
  refine ⟨u, hu, he, hp, ?_⟩
  intro j hj
  by_contra hne
  have := walk_count_edge adj n s hu he (Nat.pos_of_ne_zero hne)
  have h0 := h.2 (j + 1) (by omega)
  omega

theorem first_at_unique {k k2 t : Nat} (h : first_at adj n s k t) (h2 : first_at adj n s k2 t) :
    k = k2 := by
  rcases Nat.lt_trichotomy k k2 with hlt | heq | hgt
  · have := h2.2 k hlt
    have := h.1
    omega
  · exact heq
  · have := h.2 k2 hgt
    have := h2.1
    omega

theorem first_at_of_pos {k t : Nat} (hp : 0 < walk_count adj n s k t) :
    ∃ j, j ≤ k ∧ first_at adj n s j t := by
  induction k using Nat.strong_induction_on with
  | _ k ih =>
    by_cases h : ∀ j, j < k → walk_count adj n s j t = 0
    · exact ⟨k, le_refl k, hp, h⟩
    · push_neg at h
      obtain ⟨j, hj, hne⟩ := h
      obtain ⟨i, hi, hf⟩ := ih j hj (Nat.pos_of_ne_zero hne)
      exact ⟨i, by omega, hf⟩

theorem first_at_zero_iff (t : Nat) : first_at adj n s 0 t ↔ t = s := by
  unfold first_at
  rw [walk_count_zero]
  by_cases h : t = s <;> simp [h]

theorem first_at_below {k t : Nat} (h : first_at adj n s k t) (ht : t < n) :
    ∀ j, j ≤ k → ∃ u, u < n ∧ first_at adj n s j u := by
  induction k generalizing t with
  | zero =>
    intro j hj
    have : j = 0 := by omega
    subst this
    exact ⟨t, ht, h⟩
  | succ k ih =>
    intro j hj
    rcases Nat.lt_or_ge j (k + 1) with hlt | hge
    · obtain ⟨u, hu, -, hf⟩ := first_at_pred adj n s h
      exact ih hf hu j (by omega)
    · have : j = k + 1 := by omega
      subst this
      exact ⟨t, ht, h⟩

/-- A vertex first reached by walks with `k` edges has `k < n`: the levels below it are
inhabited by distinct vertices. -/
theorem first_at_lt {k t : Nat} (h : first_at adj n s k t) (ht : t < n) : k < n := by
  have hb := first_at_below adj n s h ht
  choose f hf using hb
  have hinj : Set.InjOn (fun j => if hj : j ≤ k then f j hj else 0) (Finset.range (k + 1)) := by
    intro a ha b hb hab
    have ha' : a ≤ k := by simpa [Nat.lt_succ_iff] using ha
    have hb' : b ≤ k := by simpa [Nat.lt_succ_iff] using hb
    simp only [ha', hb', dif_pos] at hab
    have h1 := (hf a ha').2
    have h2 := (hf b hb').2
    rw [hab] at h1
    exact first_at_unique adj n s h1 h2
  have hmaps : ∀ a ∈ Finset.range (k + 1),
      (fun j => if hj : j ≤ k then f j hj else 0) a ∈ Finset.range n := by
    intro a ha
    have ha' : a ≤ k := by simpa [Nat.lt_succ_iff] using ha
    simp only [ha', dif_pos, Finset.mem_range]
    exact (hf a ha').1
  have := Finset.card_le_card_of_injOn _ hmaps hinj
  simp at this
  omega

end levels

section dist
variable (adj : Nat → Nat → Bool) (n s : Nat)

theorem walksTo_isEmpty (k t : Nat) :
    (!(walksTo adj n s k t).isEmpty) = true ↔ 0 < walk_count adj n s k t := by
  unfold walk_count
  cases walksTo adj n s k t <;> simp

theorem dist?_eq_some_iff (t k : Nat) :
    dist? adj n s t = some k ↔ k < n ∧ first_at adj n s k t := by
  unfold dist? first_at
  rw [List.find?_range_eq_some]
  constructor
  · rintro ⟨h1, h2, h3⟩
    refine ⟨List.mem_range.mp h2, (walksTo_isEmpty adj n s k t).mp h1, ?_⟩
    intro j hj
    have := h3 j hj
    by_contra hne
    have hp := (walksTo_isEmpty adj n s j t).mpr (Nat.pos_of_ne_zero hne)
    rw [hp] at this
    simp at this
  · rintro ⟨h1, h2, h3⟩
    refine ⟨(walksTo_isEmpty adj n s k t).mpr h2, List.mem_range.mpr h1, ?_⟩
    intro j hj
    have h0 := h3 j hj
    cases hb : (!(walksTo adj n s j t).isEmpty) with
    | false => rfl
    | true =>
      have := (walksTo_isEmpty adj n s j t).mp hb
      omega

theorem dist?_eq_none_iff (t : Nat) :
    dist? adj n s t = none ↔ ∀ k, k < n → walk_count adj n s k t = 0 := by
  unfold dist?
  rw [List.find?_range_eq_none]
  constructor
  · intro h k hk
    have := h k hk
    by_contra hne
    have hp := (walksTo_isEmpty adj n s k t).mpr (Nat.pos_of_ne_zero hne)
    rw [hp] at this
    simp at this
  · intro h k hk
    have h0 := h k hk
    cases hb : (!(walksTo adj n s k t).isEmpty) with
    | false => rfl
    | true =>
      have := (walksTo_isEmpty adj n s k t).mp hb
      omega

theorem sigma_of_first_at {k t : Nat} (h : first_at adj n s k t) (ht : t < n) :
    sigma adj n s t = walk_count adj n s k t
      ∧ ∀ v, sigma_through adj n s t v = through_count adj n s v k t := by
  have hk := first_at_lt adj n s h ht
  have hd := (dist?_eq_some_iff adj n s t k).mpr ⟨hk, h⟩
  unfold sigma sigma_through shortest_paths walk_count through_count
  rw [hd]
  exact ⟨rfl, fun _ => rfl⟩

theorem reachable_iff (t : Nat) :
    reachable adj n s t = true ↔ ∃ k, k < n ∧ first_at adj n s k t := by
  unfold reachable
  rw [Option.isSome_iff_exists]
  constructor
  · rintro ⟨k, hk⟩
    exact ⟨k, (dist?_eq_some_iff adj n s t k).mp hk⟩
  · rintro ⟨k, hk⟩
    exact ⟨k, (dist?_eq_some_iff adj n s t k).mpr hk⟩

/-- Level step: a vertex not reached within `m` edges gets, from the vertices first
reached with exactly `m` edges, exactly its walks with `m+1` edges. -/
theorem level_step_sum {m t : Nat} (h : ∀ j, j ≤ m → walk_count adj n s j t = 0) :
    (∑ u ∈ Finset.range n,
        if adj u t = true then (if first_at adj n s m u then walk_count adj n s m u else 0)
        else 0)
      = walk_count adj n s (m + 1) t := by
  rw [walk_count_succ]
  apply Finset.sum_congr rfl
  intro u hu
  by_cases he : adj u t = true
  · simp only [he, if_true]
    by_cases hf : first_at adj n s m u
    · rw [if_pos hf]
    · rw [if_neg hf]
      by_contra hne
      apply hf
      refine ⟨Nat.pos_of_ne_zero (Ne.symm hne), ?_⟩
      intro j hj
      by_contra hne2
      have := walk_count_edge adj n s (Finset.mem_range.mp hu) he (Nat.pos_of_ne_zero hne2)
      have := h (j + 1) (by omega)
      omega
  · simp [he]

theorem level_step_iff {m t : Nat} (h : ∀ j, j ≤ m → walk_count adj n s j t = 0) :
    (∃ u, u < n ∧ first_at adj n s m u ∧ adj u t = true) ↔ first_at adj n s (m + 1) t := by
  constructor
  · rintro ⟨u, hu, hf, he⟩
    refine ⟨walk_count_edge adj n s hu he hf.1, ?_⟩
    intro j hj
    exact h j (by omega)
  · intro hf
    obtain ⟨u, hu, he, hfu⟩ := first_at_pred adj n s hf
    exact ⟨u, hu, hfu, he⟩

end dist

/-! ### The engine operations, entry by entry -/

theorem filterMap_sum (l : List Nat) (g : Nat → Option ℚ) :
    (l.filterMap g).sum = (l.map fun k => (g k).getD 0).sum := by
  induction l with
  | nil => rfl
  | cons a l ih =>
    cases h : g a <;> simp [List.filterMap_cons, h, ih]

theorem plus_first_term_getD (F : Matrix ℚ) (B : Nat → Nat → Bool) (i j k : Nat) :
    (plus_first_term F B i j k).getD 0 = if B k j = true then (F.get i k).getD 0 else 0 := by
  unfold plus_first_term
  cases F.get i k <;> cases B k j <;> simp

theorem plus_first_term_eq_none (F : Matrix ℚ) (B : Nat → Nat → Bool) (i j k : Nat) :
    plus_first_term F B i j k = none ↔ ¬ (F.has i k = true ∧ B k j = true) := by
  unfold plus_first_term Matrix.has
  cases F.get i k <;> cases B k j <;> simp

theorem plus_first_dot_none (F : Matrix ℚ) (B : Nat → Nat → Bool) (i j : Nat)
    (h : ∀ k, k < F.ncols → ¬ (F.has i k = true ∧ B k j = true)) :
    plus_first_dot F B i j = none := by
  unfold plus_first_dot
  have : (List.range F.ncols).filterMap (plus_first_term F B i j) = [] := by
    rw [List.filterMap_eq_nil_iff]
    intro k hk
    exact (plus_first_term_eq_none F B i j k).mpr (h k (List.mem_range.mp hk))
  simp [this]

theorem plus_first_dot_some (F : Matrix ℚ) (B : Nat → Nat → Bool) (i j : Nat)
    (h : ∃ k, k < F.ncols ∧ F.has i k = true ∧ B k j = true) :
    plus_first_dot F B i j
      = some (∑ k ∈ Finset.range F.ncols, if B k j = true then (F.get i k).getD 0 else 0) := by
  unfold plus_first_dot
  have hne : (List.range F.ncols).filterMap (plus_first_term F B i j) ≠ [] := by
    intro hnil
    rw [List.filterMap_eq_nil_iff] at hnil
    obtain ⟨k, hk, hF, hB⟩ := h
    exact (plus_first_term_eq_none F B i j k).mp (hnil k (List.mem_range.mpr hk)) ⟨hF, hB⟩
  have hE : ((List.range F.ncols).filterMap (plus_first_term F B i j)).isEmpty = false := by
    cases hl : (List.range F.ncols).filterMap (plus_first_term F B i j) with
    | nil => exact absurd hl hne
    | cons a l => rfl
  simp only [hE, Bool.false_eq_true, if_false]
  rw [filterMap_sum, list_sum_map_range]
  congr 1
  apply Finset.sum_congr rfl
  intro k _
  exact plus_first_term_getD F B i j k

theorem nvals_eq_zero_iff (M : Matrix α) :
    GrB_Matrix_nvals M = 0 ↔ ∀ i j, M.has i j = false := by
  unfold GrB_Matrix_nvals
  rw [List.sum_eq_zero_iff]
  constructor
  · intro h i j
    by_cases hlt : i < M.nrows ∧ j < M.ncols
    · have := h (((List.range M.ncols).filter fun j => M.has i j).length)
        (List.mem_map.mpr ⟨i, List.mem_range.mpr hlt.1, rfl⟩)
      rw [List.length_eq_zero, List.filter_eq_nil_iff] at this
      have := this j (List.mem_range.mpr hlt.2)
      simpa using this
    · simp [Matrix.has, Matrix.get_of_not_lt M i j hlt]
  · intro h x hx
    obtain ⟨i, _, rfl⟩ := List.mem_map.mp hx
    rw [List.length_eq_zero, List.filter_eq_nil_iff]
    intro j _
    simp [h i j]

theorem mxm_ok (C : Matrix ℚ) (M : Matrix μ) (F : Matrix ℚ) (B : Matrix β)
    (desc : GrB_Descriptor) (h1 : C.nrows = F.nrows) (h2 : C.ncols = B.ncols_t desc.tran1)
    (h3 : F.ncols = B.nrows_t desc.tran1) (h4 : M.nrows = C.nrows) (h5 : M.ncols = C.ncols) :
    GrB_mxm C (some M) F B desc
      = .ok (Matrix.build C.nrows C.ncols fun i j =>
          write_entry (M.has i j != desc.comp) desc.replace (C.get i j)
            (plus_first_dot F (B.has_t desc.tran1) i j)) := by
  unfold GrB_mxm
  rw [if_pos]
  · rfl
  · refine ⟨h1, h2, h3, ?_⟩
    simp [mask_fits, h4, h5]

theorem assign_ok (C : Matrix ℚ) (accum : Option (ℚ → ℚ → ℚ)) (A : Matrix ℚ)
    (h1 : C.nrows = A.nrows) (h2 : C.ncols = A.ncols) :
    GrB_assign C accum A
      = .ok (Matrix.build C.nrows C.ncols fun i j => accum_entry accum (C.get i j) (A.get i j)) := by
  unfold GrB_assign
  rw [if_pos ⟨h1, h2⟩]

theorem eWiseMult_ok (C : Matrix ℚ) (Mask : Option (Matrix μ)) (accum : Option (ℚ → ℚ → ℚ))
    (op : ℚ → ℚ → ℚ) (A B : Matrix ℚ) (desc : GrB_Descriptor)
    (h1 : C.nrows = A.nrows) (h2 : C.ncols = A.ncols) (h3 : C.nrows = B.nrows)
    (h4 : C.ncols = B.ncols) (h5 : mask_fits Mask C.nrows C.ncols = true) :
    GrB_eWiseMult C Mask accum op A B desc
      = .ok (Matrix.build C.nrows C.ncols fun i j =>
          write_entry (mask_allows Mask desc i j) desc.replace (C.get i j)
            (accum_entry accum (C.get i j) (ewise_entry op (A.get i j) (B.get i j)))) := by
  unfold GrB_eWiseMult
  rw [if_pos ⟨h1, h2, h3, h4, h5⟩]

/-! ### The forward sweep -/

theorem holds_upto_none_of_get {A : Matrix α} {sources : List Nat} {m : Nat} {P : Matrix ℚ}
    (hP : holds_upto A sources m P) {i t : Nat} (hi : i < sources.length) (ht : t < A.nrows)
    (hg : P.get i t = none) :
    ∀ k, k ≤ m → walk_count A.has A.nrows (sources.getD i 0) k t = 0 := by
  intro k hk
  by_contra hne
  obtain ⟨j, hj, hf⟩ := first_at_of_pos A.has A.nrows (sources.getD i 0) (Nat.pos_of_ne_zero hne)
  have := (hP.2.2 i t hi ht).1 j (by omega) hf
  rw [hg] at this
  cases this

theorem accumulate_level {A : Matrix α} {sources : List Nat} {m : Nat} {P F : Matrix ℚ}
    (hP : holds_upto A sources m P) (hF : holds_level A sources (m + 1) F) :
    ∃ P2, GrB_assign P (some (· + ·)) F = .ok P2 ∧ holds_upto A sources (m + 1) P2 := by
  obtain ⟨hPr, hPc, hPe⟩ := hP
  obtain ⟨hFr, hFc, hFe⟩ := hF
  refine ⟨_, assign_ok P _ F (by rw [hPr, hFr]) (by rw [hPc, hFc]), hPr, hPc, ?_⟩
  intro i t hi ht
  have hlt : i < P.nrows ∧ t < P.ncols := by rw [hPr, hPc]; exact ⟨hi, ht⟩
  rw [Matrix.get_build, if_pos hlt, hFe i t hi ht]
  constructor
  · intro k hk hf
    rcases Nat.lt_or_ge k (m + 1) with hlt2 | hge
    · have hne : ¬ first_at A.has A.nrows (sources.getD i 0) (m + 1) t := by
        intro hf2
        have := first_at_unique _ _ _ hf hf2
        omega
      rw [if_neg hne, (hPe i t hi ht).1 k (by omega) hf]
      rfl
    · have hk2 : k = m + 1 := by omega
      subst hk2
      rw [if_pos hf, (hPe i t hi ht).2 (fun j hj => hf.2 j (by omega))]
      rfl
  · intro h0
    have hne : ¬ first_at A.has A.nrows (sources.getD i 0) (m + 1) t := by
      intro hf2
      have := hf2.1
      have := h0 (m + 1) (le_refl _)
      omega
    rw [if_neg hne, (hPe i t hi ht).2 (fun j hj => h0 j (by omega))]
    rfl

theorem holds_level_has {A : Matrix α} {sources : List Nat} {m : Nat} {F : Matrix ℚ}
    (hF : holds_level A sources m F) {i t : Nat} (hi : i < sources.length) (ht : t < A.nrows) :
    F.has i t = true ↔ first_at A.has A.nrows (sources.getD i 0) m t := by
  show (F.get i t).isSome = true ↔ _
  rw [hF.2.2 i t hi ht]
  by_cases h : first_at A.has A.nrows (sources.getD i 0) m t
  · rw [if_pos h]; simpa using h
  · rw [if_neg h]; simpa using h

theorem holds_level_getD {A : Matrix α} {sources : List Nat} {m : Nat} {F : Matrix ℚ}
    (hF : holds_level A sources m F) {i t : Nat} (hi : i < sources.length) (ht : t < A.nrows) :
    (F.get i t).getD 0
      = ((if first_at A.has A.nrows (sources.getD i 0) m t then
            walk_count A.has A.nrows (sources.getD i 0) m t else 0 : Nat) : ℚ) := by
  rw [hF.2.2 i t hi ht]
  split <;> simp

theorem expand_level {A AT : Matrix α} {sources : List Nat} (hwf : WellFormed A AT sources)
    {m : Nat} {P F : Matrix ℚ}
    (hP : holds_upto A sources m P) (hF : holds_level A sources m F) :
    ∃ F2, GrB_mxm F (some P) F A GrB_DESC_RSC = .ok F2 ∧ holds_level A sources (m + 1) F2 := by
  have hPr := hP.1
  have hPc := hP.2.1
  have hFr := hF.1
  have hFc := hF.2.1
  refine ⟨_, mxm_ok F P F A GrB_DESC_RSC rfl ?_ ?_ (by rw [hPr, hFr]) (by rw [hPc, hFc]),
    hFr, hFc, ?_⟩
  · simp [Matrix.ncols_t, GrB_DESC_RSC, hFc, hwf.square]
  · simp [Matrix.nrows_t, GrB_DESC_RSC, hFc]
  intro i t hi ht
  have hlt : i < F.nrows ∧ t < F.ncols := by rw [hFr, hFc]; exact ⟨hi, ht⟩
  rw [Matrix.get_build, if_pos hlt]
  have hBt : ∀ k, A.has_t false k t = A.has k t := by
    intro k; simp [Matrix.has_t]
  have hdesc : GrB_DESC_RSC.tran1 = false := rfl
  rw [hdesc]
  by_cases hf : first_at A.has A.nrows (sources.getD i 0) (m + 1) t
  · rw [if_pos hf]
    have h0 : ∀ j, j ≤ m → walk_count A.has A.nrows (sources.getD i 0) j t = 0 :=
      fun j hj => hf.2 j (by omega)
    have hPg := (hP.2.2 i t hi ht).2 h0
    have hex := (level_step_iff A.has A.nrows (sources.getD i 0) h0).mpr hf
    have hdot := plus_first_dot_some F (A.has_t false) i t (by
      obtain ⟨u, hu, hfu, he⟩ := hex
      refine ⟨u, by rw [hFc]; exact hu, (holds_level_has hF hi hu).mpr hfu, ?_⟩
      rw [hBt]; exact he)
    rw [hdot]
    simp only [Matrix.has, hPg, write_entry, GrB_DESC_RSC, Option.isSome_none, bne_iff_ne, ne_eq,
      Bool.false_eq_true, not_false_eq_true, if_true]
    congr 1
    rw [hFc, ← level_step_sum A.has A.nrows (sources.getD i 0) h0, Nat.cast_sum]
    apply Finset.sum_congr rfl
    intro u hu
    have hu' := Finset.mem_range.mp hu
    simp only [hBt, holds_level_getD hF hi hu']
    split <;> simp
  · rw [if_neg hf]
    cases hPg : P.get i t with
    | some x => simp [Matrix.has, hPg, write_entry, GrB_DESC_RSC]
    | none =>
      have h0 := holds_upto_none_of_get hP hi ht hPg
      have hdot := plus_first_dot_none F (A.has_t false) i t (by
        rintro k hk ⟨hFk, hBk⟩
        rw [hFc] at hk
        apply hf
        apply (level_step_iff A.has A.nrows (sources.getD i 0) h0).mp
        refine ⟨k, hk, (holds_level_has hF hi hk).mp hFk, ?_⟩
        rw [hBt] at hBk; exact hBk)
      rw [hdot]
      simp [write_entry, GrB_DESC_RSC]

theorem pattern_of_level {A : Matrix α} {sources : List Nat} {m : Nat} {F : Matrix ℚ}
    (hF : holds_level A sources m F) : pattern_level A sources m (LAGraph_Pattern F) := by
  refine ⟨hF.1, hF.2.1, ?_⟩
  intro i t hi ht
  rw [pattern_has]
  exact holds_level_has hF hi ht

theorem setElement_ok (C : Matrix ℚ) (x : ℚ) (i j : Nat) (hi : i < C.nrows) (hj : j < C.ncols) :
    GrB_Matrix_setElement C x i j
      = .ok (Matrix.build C.nrows C.ncols fun a b =>
          if a = i ∧ b = j then some x else C.get a b) := by
  unfold GrB_Matrix_setElement
  rw [if_pos ⟨hi, hj⟩]

theorem setElement_build_get (C : Matrix ℚ) (x : ℚ) (i j : Nat) (hi : i < C.nrows)
    (hj : j < C.ncols) (a b : Nat) :
    (Matrix.build C.nrows C.ncols fun a b => if a = i ∧ b = j then some x else C.get a b).get a b
      = if a = i ∧ b = j then some x else C.get a b := by
  rw [Matrix.get_build]
  by_cases hlt : a < C.nrows ∧ b < C.ncols
  · rw [if_pos hlt]
  · rw [if_neg hlt]
    have hne : ¬ (a = i ∧ b = j) := by
      rintro ⟨rfl, rfl⟩
      exact hlt ⟨hi, hj⟩
    rw [if_neg hne, Matrix.get_of_not_lt C a b hlt]

theorem init_get_cons (s : Nat) (rest : List Nat) (i0 a b : Nat) (x : Option ℚ) :
    (if i0 + 1 ≤ a ∧ a < i0 + 1 + rest.length ∧ b = rest.getD (a - (i0 + 1)) 0 then
        some (1 : ℚ)
      else if a = i0 ∧ b = s then some 1 else x)
      = if i0 ≤ a ∧ a < i0 + (s :: rest).length ∧ b = (s :: rest).getD (a - i0) 0 then some 1
        else x := by
  rcases Nat.lt_trichotomy a i0 with hlt | heq | hgt
  · have c1 : ¬ (i0 + 1 ≤ a ∧ a < i0 + 1 + rest.length ∧ b = rest.getD (a - (i0 + 1)) 0) := by
      omega
    have c2 : ¬ (i0 ≤ a ∧ a < i0 + (s :: rest).length ∧ b = (s :: rest).getD (a - i0) 0) := by
      omega
    have c3 : ¬ (a = i0 ∧ b = s) := by omega
    rw [if_neg c1, if_neg c2, if_neg c3]
  · subst heq
    have c1 : ¬ (a + 1 ≤ a ∧ a < a + 1 + rest.length ∧ b = rest.getD (a - (a + 1)) 0) := by
      omega
    rw [if_neg c1]
    simp only [le_refl, List.length_cons, Nat.sub_self, List.getD_cons_zero, true_and]
    by_cases hb : b = s
    · simp [hb]
    · simp [hb]
  · have c3 : ¬ (a = i0 ∧ b = s) := by omega
    rw [if_neg c3]
    have hsub : a - i0 = (a - (i0 + 1)) + 1 := by omega
    have hget : (s :: rest).getD (a - i0) 0 = rest.getD (a - (i0 + 1)) 0 := by
      rw [hsub, List.getD_cons_succ]
    rw [hget]
    simp only [List.length_cons]
    have hiff : (i0 + 1 ≤ a ∧ a < i0 + 1 + rest.length ∧ b = rest.getD (a - (i0 + 1)) 0)
        ↔ (i0 ≤ a ∧ a < i0 + (rest.length + 1) ∧ b = rest.getD (a - (i0 + 1)) 0) := by
      constructor
      · rintro ⟨x1, x2, x3⟩; exact ⟨by omega, by omega, x3⟩
      · rintro ⟨x1, x2, x3⟩; exact ⟨by omega, by omega, x3⟩
    simp only [hiff]

/-- The loop over the sources on in-range sources: row `i0 + k` of both matrices gets
the single entry 1 at the `k`-th source, everything else is kept. -/
theorem init_sources_ok (ns n : Nat) (l : List Nat) :
    ∀ (i0 : Nat) (P F : Matrix ℚ), P.nrows = ns → P.ncols = n → F.nrows = ns → F.ncols = n →
      i0 + l.length ≤ ns → (∀ s, s ∈ l → s < n) →
      ∃ P2 F2, init_sources l i0 P F = .ok (P2, F2)
        ∧ P2.nrows = ns ∧ P2.ncols = n ∧ F2.nrows = ns ∧ F2.ncols = n
        ∧ (∀ a b, P2.get a b
            = if i0 ≤ a ∧ a < i0 + l.length ∧ b = l.getD (a - i0) 0 then some 1 else P.get a b)
        ∧ (∀ a b, F2.get a b
            = if i0 ≤ a ∧ a < i0 + l.length ∧ b = l.getD (a - i0) 0 then some 1
              else F.get a b) := by
  induction l with
  | nil =>
    intro i0 P F h1 h2 h3 h4 _ _
    refine ⟨P, F, rfl, h1, h2, h3, h4, ?_, ?_⟩ <;>
    · intro a b
      have : ¬ (i0 ≤ a ∧ a < i0 + ([] : List Nat).length ∧ b = ([] : List Nat).getD (a - i0) 0) := by
        simp only [List.length_nil]
        omega
      rw [if_neg this]
  | cons s rest ih =>
    intro i0 P F h1 h2 h3 h4 hlen hmem
    have hi0 : i0 < ns := by simp only [List.length_cons] at hlen; omega
    have hs : s < n := hmem s (List.mem_cons_self _ _)
    obtain ⟨P2, F2, hrun, g1, g2, g3, g4, gP, gF⟩ :=
      ih (i0 + 1)
        (Matrix.build P.nrows P.ncols fun a b => if a = i0 ∧ b = s then some 1 else P.get a b)
        (Matrix.build F.nrows F.ncols fun a b => if a = i0 ∧ b = s then some 1 else F.get a b)
        h1 h2 h3 h4 (by simp only [List.length_cons] at hlen; omega)
        (fun x hx => hmem x (List.mem_cons_of_mem _ hx))
    refine ⟨P2, F2, ?_, g1, g2, g3, g4, ?_, ?_⟩
    · unfold init_sources
      rw [setElement_ok P 1 i0 s (by rw [h1]; exact hi0) (by rw [h2]; exact hs),
        setElement_ok F 1 i0 s (by rw [h3]; exact hi0) (by rw [h4]; exact hs)]
      exact hrun
    · intro a b
      rw [gP a b, setElement_build_get P 1 i0 s (by rw [h1]; exact hi0) (by rw [h2]; exact hs)]
      exact init_get_cons s rest i0 a b _
    · intro a b
      rw [gF a b, setElement_build_get F 1 i0 s (by rw [h3]; exact hi0) (by rw [h4]; exact hs)]
      exact init_get_cons s rest i0 a b _

theorem new_get (r c i j : Nat) : (GrB_Matrix_new r c : Matrix ℚ).get i j = none := by
  unfold GrB_Matrix_new
  rw [Matrix.get_build]
  split <;> rfl

theorem walk_count_zero_cast (adj : Nat → Nat → Bool) (n s : Nat) :
    (walk_count adj n s 0 s : ℚ) = 1 := by
  rw [walk_count_zero]
  simp

theorem init_sources_levels {A AT : Matrix α} {sources : List Nat}
    (hwf : WellFormed A AT sources) :
    ∃ P F, init_sources sources 0 (GrB_Matrix_new sources.length A.nrows)
        (GrB_Matrix_new sources.length A.nrows) = .ok (P, F)
      ∧ holds_upto A sources 0 P ∧ holds_level A sources 0 F := by
  obtain ⟨P, F, hrun, g1, g2, g3, g4, gP, gF⟩ :=
    init_sources_ok sources.length A.nrows sources 0
      (GrB_Matrix_new sources.length A.nrows) (GrB_Matrix_new sources.length A.nrows)
      rfl rfl rfl rfl (by omega) hwf.in_range
  refine ⟨P, F, hrun, ⟨g1, g2, ?_⟩, ⟨g3, g4, ?_⟩⟩
  · intro i t hi ht
    rw [gP i t, new_get]
    constructor
    · intro k hk hf
      have hk0 : k = 0 := by omega
      subst hk0
      have hts := (first_at_zero_iff A.has A.nrows (sources.getD i 0) t).mp hf
      rw [if_pos ⟨Nat.zero_le _, by omega, by simpa using hts⟩, hts, walk_count_zero_cast]
    · intro h0
      have h00 := h0 0 (le_refl 0)
      rw [walk_count_zero] at h00
      have hne : t ≠ sources.getD i 0 := by
        intro heq
        rw [if_pos heq] at h00
        cases h00
      rw [if_neg]
      rintro ⟨-, -, h3⟩
      exact hne (by simpa using h3)
  · intro i t hi ht
    rw [gF i t, new_get]
    by_cases hf : first_at A.has A.nrows (sources.getD i 0) 0 t
    · have hts := (first_at_zero_iff A.has A.nrows (sources.getD i 0) t).mp hf
      rw [if_pos hf, if_pos ⟨Nat.zero_le _, by omega, by simpa using hts⟩, hts,
        walk_count_zero_cast]
    · rw [if_neg hf, if_neg]
      rintro ⟨-, -, h3⟩
      apply hf
      apply (first_at_zero_iff A.has A.nrows (sources.getD i 0) t).mpr
      simpa using h3

theorem bfs_init_inv {A AT : Matrix α} {sources : List Nat} (hwf : WellFormed A AT sources) :
    ∃ st0, bfs_init A sources = .ok st0 ∧ FwdInv A sources 0 st0 := by
  obtain ⟨P, F, hrun, hP, hF⟩ := init_sources_levels hwf
  obtain ⟨F2, hm, hF2⟩ := expand_level hwf hP hF
  refine ⟨{ frontier := F2, paths := P, S := [], depth := 0,
            frontier_size := GrB_Matrix_nvals F2, last_frontier_size := 0,
            last_was_pull := false }, ?_, ?_⟩
  · rw [bfs_init_unfold, hrun]
    simp only [Except.bind, hm]
  · exact ⟨rfl, rfl, hP, hF2, rfl, fun j hj => absurd hj (Nat.not_lt_zero j)⟩

theorem bfs_step_inv (p : Policy) {A AT : Matrix α} {sources : List Nat}
    (hwf : WellFormed A AT sources) {d : Nat} {st : BFSState} (h : FwdInv A sources d st) :
    ∃ st2, bfs_step p A AT sources.length A.nrows st = .ok st2
      ∧ FwdInv A sources (d + 1) st2 := by
  obtain ⟨P2, ha, hP2⟩ := accumulate_level h.paths_ok h.frontier_ok
  obtain ⟨F2, hm, hF2⟩ := expand_level hwf hP2 h.frontier_ok
  refine ⟨{ frontier := F2, paths := P2, S := st.S ++ [LAGraph_Pattern st.frontier],
            depth := st.depth + 1, frontier_size := GrB_Matrix_nvals F2,
            last_frontier_size := st.frontier_size,
            last_was_pull := p.choose (forward_do_pull st.frontier_size sources.length A.nrows
              st.last_was_pull) }, ?_, ?_⟩
  · unfold bfs_step
    simp only [mxm_pull_eq_push _ _ _ hwf.transposed, ite_self, ha, bind, Except.bind, hm]
    rfl
  · refine ⟨by simp [h.depth_eq], by simp [h.S_length], hP2, hF2, rfl, ?_⟩
    intro j hj
    show pattern_level A sources (j + 1) (level (st.S ++ [LAGraph_Pattern st.frontier]) j)
    rcases Nat.lt_or_ge j d with hlt | hge
    · rw [level_append_lt _ _ _ (by rw [h.S_length]; exact hlt)]
      exact h.S_ok j hlt
    · have hjd : j = st.S.length := by rw [h.S_length]; omega
      rw [hjd, level_append_eq]
      have : st.S.length + 1 = d + 1 := by rw [h.S_length]
      rw [this]
      exact pattern_of_level h.frontier_ok

theorem bfs_loop_inv (p : Policy) {A AT : Matrix α} {sources : List Nat}
    (hwf : WellFormed A AT sources) (fuel : Nat) :
    ∀ (d : Nat) (st : BFSState), FwdInv A sources d st → d + fuel = A.nrows →
      ∃ st2 d2, bfs_loop p A AT sources.length A.nrows fuel st = .ok st2
        ∧ FwdInv A sources d2 st2 ∧ d2 ≤ A.nrows ∧ (st2.frontier_size = 0 ∨ d2 = A.nrows) := by
  induction fuel with
  | zero =>
    intro d st h hd
    exact ⟨st, d, rfl, h, by omega, Or.inr (by omega)⟩
  | succ k ih =>
    intro d st h hd
    unfold bfs_loop
    by_cases hg : st.frontier_size > 0 ∧ st.depth < A.nrows
    · rw [if_pos hg]
      obtain ⟨st1, hs, h1⟩ := bfs_step_inv p hwf h
      rw [hs]
      exact ih (d + 1) st1 h1 (by omega)
    · rw [if_neg hg]
      refine ⟨st, d, rfl, h, by omega, Or.inl ?_⟩
      have hdep := h.depth_eq
      by_contra hne
      apply hg
      exact ⟨Nat.pos_of_ne_zero hne, by omega⟩

theorem bfs_stage_inv (p : Policy) {A AT : Matrix α} {sources : List Nat}
    (hwf : WellFormed A AT sources) :
    ∃ st d, bfs_stage p A AT sources = .ok st
      ∧ FwdInv A sources d st ∧ d ≤ A.nrows ∧ (st.frontier_size = 0 ∨ d = A.nrows) := by
  obtain ⟨st0, hi, h0⟩ := bfs_init_inv hwf
  obtain ⟨st2, d2, hl, h2, hle, hend⟩ := bfs_loop_inv p hwf A.nrows 0 st0 h0 (by omega)
  refine ⟨st2, d2, ?_, h2, hle, hend⟩
  unfold bfs_stage
  rw [hi]
  exact hl

/-- When the forward loop is left, no vertex is first reached beyond the recorded
depth. -/
theorem no_level_beyond {A : Matrix α} {sources : List Nat} {d : Nat} {st : BFSState}
    (h : FwdInv A sources d st) (hend : st.frontier_size = 0 ∨ d = A.nrows)
    {i t k : Nat} (hi : i < sources.length) (ht : t < A.nrows)
    (hf : first_at A.has A.nrows (sources.getD i 0) k t) : k ≤ d := by
  rcases hend with h0 | hn
  · by_contra hgt
    obtain ⟨u, hu, hfu⟩ := first_at_below A.has A.nrows (sources.getD i 0) hf ht (d + 1) (by omega)
    have hhas := (holds_level_has h.frontier_ok hi hu).mpr hfu
    rw [h.size_eq] at h0
    rw [(nvals_eq_zero_iff st.frontier).mp h0 i u] at hhas
    cases hhas
  · have := first_at_lt A.has A.nrows (sources.getD i 0) hf ht
    omega

/-! ### Walks through a vertex -/

section through
variable (adj : Nat → Nat → Bool) (n s : Nat)

theorem through_count_eq_zero (v : Nat) :
    ∀ k t, (∀ j, j ≤ k → walk_count adj n s j v = 0) → through_count adj n s v k t = 0 := by
  intro k
  induction k with
  | zero =>
    intro t h
    have h0 := h 0 (le_refl 0)
    rw [walk_count_zero] at h0
    rw [through_count_zero]
    have hv : v ≠ s := by
      intro hvs
      rw [if_pos hvs] at h0
      cases h0
    simp [hv]
  | succ k ih =>
    intro t h
    rw [through_count_succ]
    by_cases htv : t = v
    · rw [if_pos htv, htv]
      exact h (k + 1) (le_refl _)
    · rw [if_neg htv]
      apply Finset.sum_eq_zero
      intro u _
      rw [ih u (fun j hj => h j (by omega))]
      simp

theorem through_count_level {k v : Nat} (hv : first_at adj n s k v) (t : Nat) :
    through_count adj n s v k t = if t = v then walk_count adj n s k v else 0 := by
  cases k with
  | zero =>
    have hvs := (first_at_zero_iff adj n s v).mp hv
    subst hvs
    rw [through_count_zero, walk_count_zero]
    by_cases ht : t = v <;> simp [ht]
  | succ k =>
    rw [through_count_succ]
    by_cases htv : t = v
    · rw [if_pos htv, if_pos htv, htv]
    · rw [if_neg htv, if_neg htv]
      apply Finset.sum_eq_zero
      intro u _
      rw [through_count_eq_zero adj n s v k u (fun j hj => hv.2 j (by omega))]
      simp

theorem walk_count_pos_iff_first_at {k x t : Nat} (hx : x < n) (he : adj x t = true)
    (ht : first_at adj n s (k + 1) t) :
    0 < walk_count adj n s k x ↔ first_at adj n s k x := by
  constructor
  · intro hp
    refine ⟨hp, ?_⟩
    intro j hj
    by_contra hne
    have := walk_count_edge adj n s hx he (Nat.pos_of_ne_zero hne)
    have := ht.2 (j + 1) (by omega)
    omega
  · intro h
    exact h.1

/-- The walks through `u` to a deeper vertex `t` split over the successors of `u` on the
next level. -/
theorem through_count_split {L u : Nat} (hu : first_at adj n s L u) (hun : u < n) :
    ∀ e t, t < n → first_at adj n s (L + 1 + e) t →
      (through_count adj n s u (L + 1 + e) t : ℚ)
        = ∑ v ∈ Finset.range n,
            edge_share adj n s L u v * (through_count adj n s v (L + 1 + e) t : ℚ) := by
  intro e
  induction e with
  | zero =>
    intro t ht hft
    have htu : t ≠ u := by
      intro h
      rw [h] at hft
      have := first_at_unique adj n s hft hu
      omega
    simp only [Nat.add_zero]
    rw [through_count_succ, if_neg htu]
    have h1 : (∑ x ∈ Finset.range n,
        if adj x t = true then through_count adj n s u L x else 0)
        = if adj u t = true then walk_count adj n s L u else 0 := by
      rw [Finset.sum_eq_single u]
      · rw [through_count_level adj n s hu u, if_pos rfl]
      · intro x _ hxu
        rw [through_count_level adj n s hu x, if_neg hxu]
        simp
      · intro h
        exact absurd (Finset.mem_range.mpr hun) h
    rw [h1, Finset.sum_eq_single t]
    · rw [through_count_level adj n s hft t, if_pos rfl]
      unfold edge_share
      have hc : (walk_count adj n s (L + 1) t : ℚ) ≠ 0 := by
        have := hft.1
        exact_mod_cast (Nat.pos_iff_ne_zero.mp this)
      by_cases he : adj u t = true
      · rw [if_pos he, if_pos ⟨hft, he⟩]
        field_simp
      · rw [if_neg he, if_neg (fun h => he h.2)]
        simp
    · intro v _ hvt
      by_cases hv : first_at adj n s (L + 1) v ∧ adj u v = true
      · rw [through_count_level adj n s hv.1 t, if_neg (Ne.symm hvt)]
        simp
      · unfold edge_share
        rw [if_neg hv]
        simp
    · intro h
      exact absurd (Finset.mem_range.mpr ht) h
  | succ e ih =>
    intro t ht hft
    have htu : t ≠ u := by
      intro h
      rw [h] at hft
      have := first_at_unique adj n s hft hu
      omega
    have hk : L + 1 + (e + 1) = (L + 1 + e) + 1 := by omega
    rw [hk] at hft ⊢
    rw [through_count_succ, if_neg htu]
    have hx : ∀ x, x ∈ Finset.range n →
        ((if adj x t = true then through_count adj n s u (L + 1 + e) x else 0 : Nat) : ℚ)
          = ∑ v ∈ Finset.range n, edge_share adj n s L u v *
              ((if adj x t = true then through_count adj n s v (L + 1 + e) x else 0 : Nat) : ℚ) := by
      intro x hxr
      have hxn := Finset.mem_range.mp hxr
      by_cases he : adj x t = true
      · simp only [he, if_true]
        by_cases hfx : first_at adj n s (L + 1 + e) x
        · exact ih x hxn hfx
        · have hc0 : walk_count adj n s (L + 1 + e) x = 0 := by
            by_contra hne
            exact hfx ((walk_count_pos_iff_first_at adj n s hxn he hft).mp
              (Nat.pos_of_ne_zero hne))
          have hz : ∀ v, through_count adj n s v (L + 1 + e) x = 0 := by
            intro v
            have := through_count_le adj n s v (L + 1 + e) x
            omega
          rw [hz u]
          simp [hz]
      · simp [he]
    rw [Nat.cast_sum, Finset.sum_congr rfl hx, Finset.sum_comm]
    apply Finset.sum_congr rfl
    intro v _
    rw [← Finset.mul_sum]
    by_cases hv : first_at adj n s (L + 1) v ∧ adj u v = true
    · have htv : t ≠ v := by
        intro h
        rw [h] at hft
        have := first_at_unique adj n s hft hv.1
        omega
      rw [through_count_succ, if_neg htv, Nat.cast_sum]
    · unfold edge_share
      rw [if_neg hv]
      simp

end through

/-! ### Pair dependencies and the accumulation identity -/

section brandes
variable (adj : Nat → Nat → Bool) (n s : Nat)

theorem pair_dependency_of_first_at {k t : Nat} (h : first_at adj n s k t) (ht : t < n)
    (v : Nat) :
    pair_dependency adj n s v t
      = (through_count adj n s v k t : ℚ) / (walk_count adj n s k t : ℚ) := by
  unfold pair_dependency
  obtain ⟨h1, h2⟩ := sigma_of_first_at adj n s h ht
  rw [h1, h2 v]

theorem pair_dependency_unreachable {t : Nat} (h : reachable adj n s t = false) (v : Nat) :
    pair_dependency adj n s v t = 0 := by
  unfold pair_dependency sigma_through shortest_paths
  unfold reachable at h
  cases hd : dist? adj n s t with
  | none => simp
  | some d => rw [hd] at h; cases h

theorem reachable_or (t : Nat) :
    reachable adj n s t = false ∨ ∃ k, k < n ∧ first_at adj n s k t := by
  cases h : reachable adj n s t with
  | false => exact Or.inl rfl
  | true => exact Or.inr ((reachable_iff adj n s t).mp h)

/-- No shortest path to `t` passes through a vertex that is not reached within the
distance of `t`. -/
theorem pair_dependency_deeper {k t v : Nat} (h : first_at adj n s k t) (ht : t < n)
    (hv : ∀ j, j ≤ k → walk_count adj n s j v = 0) : pair_dependency adj n s v t = 0 := by
  rw [pair_dependency_of_first_at adj n s h ht, through_count_eq_zero adj n s v k t hv]
  simp

theorem pair_dependency_same_level {k t v : Nat} (h : first_at adj n s k t) (ht : t < n)
    (hv : first_at adj n s k v) (hne : t ≠ v) : pair_dependency adj n s v t = 0 := by
  rw [pair_dependency_of_first_at adj n s h ht, through_count_level adj n s hv t, if_neg hne]
  simp

theorem pair_dependency_self {k v : Nat} (hv : first_at adj n s k v) (hvn : v < n) :
    pair_dependency adj n s v v = 1 := by
  rw [pair_dependency_of_first_at adj n s hv hvn, through_count_level adj n s hv v, if_pos rfl]
  have : (walk_count adj n s k v : ℚ) ≠ 0 := by
    exact_mod_cast (Nat.pos_iff_ne_zero.mp hv.1)
  field_simp

theorem edge_share_ne_zero {L u v : Nat} (h : edge_share adj n s L u v ≠ 0) :
    first_at adj n s (L + 1) v ∧ adj u v = true := by
  unfold edge_share at h
  by_contra hc
  rw [if_neg hc] at h
  exact h rfl

/-- The pair dependency of `u` on any other end point is the weighted sum of the pair
dependencies of its successors on the next level. -/
theorem pair_dependency_split {L u : Nat} (hu : first_at adj n s L u) (hun : u < n)
    {t : Nat} (ht : t < n) (htu : t ≠ u) :
    pair_dependency adj n s u t
      = ∑ v ∈ Finset.range n, edge_share adj n s L u v * pair_dependency adj n s v t := by
  rcases reachable_or adj n s t with hr | ⟨k, hk, hft⟩
  · rw [pair_dependency_unreachable adj n s hr]
    symm
    apply Finset.sum_eq_zero
    intro v _
    rw [pair_dependency_unreachable adj n s hr]
    simp
  · rcases Nat.lt_or_ge L k with hlt | hge
    · obtain ⟨e, he⟩ : ∃ e, k = L + 1 + e := ⟨k - (L + 1), by omega⟩
      subst he
      rw [pair_dependency_of_first_at adj n s hft ht,
        through_count_split adj n s hu hun e t ht hft, Finset.sum_div]
      apply Finset.sum_congr rfl
      intro v _
      rw [pair_dependency_of_first_at adj n s hft ht, mul_div_assoc]
    · have hL : pair_dependency adj n s u t = 0 := by
        rcases Nat.lt_or_ge k L with hlt2 | hge2
        · exact pair_dependency_deeper adj n s hft ht (fun j hj => hu.2 j (by omega))
        · have hkL : k = L := by omega
          subst hkL
          exact pair_dependency_same_level adj n s hft ht hu htu
      rw [hL]
      symm
      apply Finset.sum_eq_zero
      intro v _
      by_cases hv : edge_share adj n s L u v = 0
      · rw [hv]; simp
      · have hfv := (edge_share_ne_zero adj n s hv).1
        rw [pair_dependency_deeper adj n s hft ht (fun j hj => hfv.2 j (by omega))]
        simp

/-- The accumulation identity: the dependency of a vertex is gathered from its
successors on the next level. -/
theorem dependency_sum_split {L u : Nat} (hu : first_at adj n s L u) (hun : u < n) :
    dependency_sum adj n s u
      = ∑ v ∈ Finset.range n, edge_share adj n s L u v * (1 + dependency_sum adj n s v) := by
  unfold dependency_sum
  have h1 : ∀ t, t ∈ Finset.range n →
      (if t ≠ u then pair_dependency adj n s u t else 0)
        = ∑ v ∈ Finset.range n, edge_share adj n s L u v *
            (if t ≠ u then pair_dependency adj n s v t else 0) := by
    intro t ht
    by_cases htu : t ≠ u
    · simp only [htu, ne_eq, not_false_eq_true, if_true]
      exact pair_dependency_split adj n s hu hun (Finset.mem_range.mp ht) htu
    · simp [htu]
  rw [Finset.sum_congr rfl h1, Finset.sum_comm]
  apply Finset.sum_congr rfl
  intro v hv
  rw [← Finset.mul_sum]
  by_cases hz : edge_share adj n s L u v = 0
  · rw [hz]; simp
  · have hfv := (edge_share_ne_zero adj n s hz).1
    have hvn := Finset.mem_range.mp hv
    congr 1
    have hvu : pair_dependency adj n s v u = 0 :=
      pair_dependency_deeper adj n s hu hun (fun j hj => hfv.2 j (by omega))
    have h2 : ∀ t, t ∈ Finset.range n →
        (if t ≠ u then pair_dependency adj n s v t else 0)
          = (if t = v then 1 else 0) + (if t ≠ v then pair_dependency adj n s v t else 0) := by
      intro t _
      by_cases htv : t = v
      · subst htv
        have hne : t ≠ u := by
          intro h
          rw [h] at hfv
          have := first_at_unique adj n s hfv hu
          omega
        simp [hne, pair_dependency_self adj n s hfv hvn]
      · by_cases htu : t = u
        · subst htu
          simp [htv, hvu]
        · simp [htv, htu]
    rw [Finset.sum_congr rfl h2, Finset.sum_add_distrib]
    congr 1
    rw [Finset.sum_ite_eq' (Finset.range n) v (fun _ => (1 : ℚ))]
    simp [hvn]

theorem dependency_eq_sum {v : Nat} (hvs : v ≠ s) :
    dependency adj n s v = dependency_sum adj n s v := by
  unfold dependency dependency_sum
  rw [list_sum_map_range]
  apply Finset.sum_congr rfl
  intro t ht
  have htn := Finset.mem_range.mp ht
  by_cases htv : t = v
  · simp [htv]
  · by_cases hr : reachable adj n s t = true
    · by_cases hts : t = s
      · have h0 : first_at adj n s 0 t := (first_at_zero_iff adj n s t).mpr hts
        have hz : pair_dependency adj n s v t = 0 := by
          apply pair_dependency_deeper adj n s h0 htn
          intro j hj
          have hj0 : j = 0 := by omega
          subst hj0
          rw [walk_count_zero, if_neg hvs]
        rw [hts] at hz
        simp [hts, hz]
      · simp only [hr, hts, htv, hvs, ne_eq, not_false_eq_true, and_self, if_true]
        rfl
    · have hr2 : reachable adj n s t = false := by simpa using hr
      simp [hr2, htv, pair_dependency_unreachable adj n s hr2]

theorem dependency_self (v : Nat) : dependency adj n v v = 0 := by
  unfold dependency
  apply List.sum_eq_zero
  intro x hx
  obtain ⟨t, _, rfl⟩ := List.mem_map.mp hx
  simp

theorem dependency_unreachable {v : Nat} (hs : s < n) (hv : reachable adj n s v = false) :
    dependency adj n s v = 0 := by
  have hvs : v ≠ s := by
    intro h
    subst h
    have : reachable adj n v v = true := by
      rw [reachable_iff]
      exact ⟨0, by omega, (first_at_zero_iff adj n v v).mpr rfl⟩
    rw [this] at hv
    cases hv
  rw [dependency_eq_sum adj n s hvs]
  unfold dependency_sum
  apply Finset.sum_eq_zero
  intro t ht
  have htn := Finset.mem_range.mp ht
  by_cases htv : t = v
  · simp [htv]
  · simp only [htv, ne_eq, not_false_eq_true, if_true]
    rcases reachable_or adj n s t with hr | ⟨k, hk, hft⟩
    · exact pair_dependency_unreachable adj n s hr v
    · apply pair_dependency_deeper adj n s hft htn
      intro j hj
      by_contra hne
      obtain ⟨i, hi, hfi⟩ := first_at_of_pos adj n s (Nat.pos_of_ne_zero hne)
      have : reachable adj n s v = true := by
        rw [reachable_iff]
        exact ⟨i, by omega, hfi⟩
      rw [this] at hv
      cases hv

end brandes

/-! ### The backward sweep -/

theorem ratio_step {A : Matrix α} {sources : List Nat} {m d : Nat} {W bc paths : Matrix ℚ}
    {S : Matrix Bool} (hS : pattern_level A sources m S) (hbc : bc_holds A sources m bc)
    (hP : holds_upto A sources d paths) (hmd : m ≤ d)
    (hW : W.nrows = sources.length ∧ W.ncols = A.nrows) :
    ∃ W1, GrB_eWiseMult W (some S) none (· / ·) bc paths GrB_DESC_RS = .ok W1
      ∧ ratio_level A sources m W1 := by
  refine ⟨_, eWiseMult_ok W (some S) none _ bc paths GrB_DESC_RS
      (by rw [hW.1, hbc.1]) (by rw [hW.2, hbc.2.1]) (by rw [hW.1, hP.1]) (by rw [hW.2, hP.2.1])
      (by simp [mask_fits, hS.1, hS.2.1, hW.1, hW.2]), hW.1, hW.2, ?_⟩
  intro r v hr hv
  have hlt : r < W.nrows ∧ v < W.ncols := by rw [hW.1, hW.2]; exact ⟨hr, hv⟩
  rw [Matrix.get_build, if_pos hlt]
  by_cases hf : first_at A.has A.nrows (sources.getD r 0) m v
  · rw [if_pos hf]
    have h1 := (hS.2.2 r v hr hv).mpr hf
    have h2 := (hbc.2.2 r v hr hv).1 m (le_refl m) hf
    have h3 := (hP.2.2 r v hr hv).1 m hmd hf
    simp [mask_allows, GrB_DESC_RS, h1, write_entry, accum_entry, h2, h3, ewise_entry]
  · rw [if_neg hf]
    have h1 : S.has r v = false := by
      cases hh : S.has r v
      · rfl
      · exact absurd ((hS.2.2 r v hr hv).mp hh) hf
    simp [mask_allows, GrB_DESC_RS, h1, write_entry]

theorem ratio_level_has {A : Matrix α} {sources : List Nat} {m : Nat} {W : Matrix ℚ}
    (hW : ratio_level A sources m W) {r v : Nat} (hr : r < sources.length) (hv : v < A.nrows) :
    W.has r v = true ↔ first_at A.has A.nrows (sources.getD r 0) m v := by
  show (W.get r v).isSome = true ↔ _
  rw [hW.2.2 r v hr hv]
  by_cases h : first_at A.has A.nrows (sources.getD r 0) m v
  · rw [if_pos h]; simpa using h
  · rw [if_neg h]; simpa using h

theorem ratio_level_getD {A : Matrix α} {sources : List Nat} {m : Nat} {W : Matrix ℚ}
    (hW : ratio_level A sources m W) {r v : Nat} (hr : r < sources.length) (hv : v < A.nrows) :
    (W.get r v).getD 0
      = if first_at A.has A.nrows (sources.getD r 0) m v then
          (1 + dependency_sum A.has A.nrows (sources.getD r 0) v)
            / (walk_count A.has A.nrows (sources.getD r 0) m v : ℚ) else 0 := by
  rw [hW.2.2 r v hr hv]
  split <;> simp

/-- What a vertex `u` of level `m` gathers, times the number of shortest paths to `u`,
is the dependency sum of `u`. -/
theorem gather_eq_dependency {A : Matrix α} {sources : List Nat} {m r u : Nat}
    (hu : u < A.nrows) (hf : first_at A.has A.nrows (sources.getD r 0) m u) :
    gather_sum A.has A.nrows (sources.getD r 0) m u
        * (walk_count A.has A.nrows (sources.getD r 0) m u : ℚ)
      = dependency_sum A.has A.nrows (sources.getD r 0) u := by
  unfold gather_sum
  rw [dependency_sum_split A.has A.nrows (sources.getD r 0) hf hu, Finset.sum_mul]
  apply Finset.sum_congr rfl
  intro v _
  unfold edge_share
  by_cases he : A.has u v = true
  · by_cases hfv : first_at A.has A.nrows (sources.getD r 0) (m + 1) v
    · rw [if_pos he, if_pos hfv, if_pos ⟨hfv, he⟩]
      ring
    · rw [if_pos he, if_neg hfv, if_neg (fun h => hfv h.1)]
      ring
  · rw [if_neg he, if_neg (fun h => he h.2)]
    ring

theorem gather_step {A AT : Matrix α} {sources : List Nat} (hwf : WellFormed A AT sources)
    {m : Nat} {W1 : Matrix ℚ} {S : Matrix Bool}
    (hW : ratio_level A sources (m + 1) W1) (hS : pattern_level A sources m S) :
    ∃ W2, GrB_mxm W1 (some S) W1 AT GrB_DESC_RS = .ok W2 ∧ gathered_level A sources m W2 := by
  obtain ⟨hT1, hT2, hT3⟩ := hwf.transposed
  refine ⟨_, mxm_ok W1 S W1 AT GrB_DESC_RS rfl ?_ ?_ (by rw [hS.1, hW.1]) (by rw [hS.2.1, hW.2.1]),
    hW.1, hW.2.1, ?_⟩
  · simp [Matrix.ncols_t, GrB_DESC_RS, hW.2.1, hT2]
  · simp [Matrix.nrows_t, GrB_DESC_RS, hW.2.1, hT1, hwf.square]
  intro r u hr hu
  have hlt : r < W1.nrows ∧ u < W1.ncols := by rw [hW.1, hW.2.1]; exact ⟨hr, hu⟩
  rw [Matrix.get_build, if_pos hlt]
  have hBt : ∀ k, AT.has_t false k u = A.has u k := by
    intro k; simp [Matrix.has_t, hT3]
  have hdesc : GrB_DESC_RS.tran1 = false := rfl
  rw [hdesc]
  constructor
  · intro hf
    have h1 : S.has r u = false := by
      cases hh : S.has r u
      · rfl
      · exact absurd ((hS.2.2 r u hr hu).mp hh) hf
    simp [h1, write_entry, GrB_DESC_RS]
  · intro hf
    have h1 := (hS.2.2 r u hr hu).mpr hf
    have hsum : (∑ k ∈ Finset.range W1.ncols,
        if AT.has_t false k u = true then (W1.get r k).getD 0 else 0)
        = gather_sum A.has A.nrows (sources.getD r 0) m u := by
      unfold gather_sum
      rw [hW.2.1]
      apply Finset.sum_congr rfl
      intro v hv
      rw [hBt v, ratio_level_getD hW hr (Finset.mem_range.mp hv)]
    by_cases hex : ∃ k, k < W1.ncols ∧ W1.has r k = true ∧ AT.has_t false k u = true
    · left
      rw [plus_first_dot_some W1 (AT.has_t false) r u hex, hsum]
      simp [h1, write_entry, GrB_DESC_RS]
    · right
      have hnone := plus_first_dot_none W1 (AT.has_t false) r u (by
        intro k hk hc
        exact hex ⟨k, hk, hc.1, hc.2⟩)
      rw [hnone]
      refine ⟨by simp [h1, write_entry, GrB_DESC_RS], ?_⟩
      unfold gather_sum
      apply Finset.sum_eq_zero
      intro v hv
      have hvn := Finset.mem_range.mp hv
      by_cases he : A.has u v = true
      · rw [if_pos he]
        by_cases hfv : first_at A.has A.nrows (sources.getD r 0) (m + 1) v
        · exfalso
          apply hex
          refine ⟨v, by rw [hW.2.1]; exact hvn, (ratio_level_has hW hr hvn).mpr hfv, ?_⟩
          rw [hBt]; exact he
        · rw [if_neg hfv]
      · rw [if_neg he]

theorem update_step {A : Matrix α} {sources : List Nat} {m d : Nat} {W2 bc paths : Matrix ℚ}
    (hW : gathered_level A sources m W2) (hbc : bc_holds A sources (m + 1) bc)
    (hP : holds_upto A sources d paths) (hmd : m ≤ d) :
    ∃ bc2, GrB_eWiseMult bc (none : Option (Matrix Bool)) (some (· + ·)) (· * ·) W2 paths
        GrB_DESC_NULL = .ok bc2
      ∧ bc_holds A sources m bc2 := by
  refine ⟨_, eWiseMult_ok bc (none : Option (Matrix Bool)) _ _ W2 paths GrB_DESC_NULL
      (by rw [hbc.1, hW.1]) (by rw [hbc.2.1, hW.2.1]) (by rw [hbc.1, hP.1])
      (by rw [hbc.2.1, hP.2.1]) rfl, hbc.1, hbc.2.1, ?_⟩
  intro r u hr hu
  have hlt : r < bc.nrows ∧ u < bc.ncols := by rw [hbc.1, hbc.2.1]; exact ⟨hr, hu⟩
  rw [Matrix.get_build, if_pos hlt]
  simp only [mask_allows, write_entry, if_true]
  by_cases hf : first_at A.has A.nrows (sources.getD r 0) m u
  · have hb1 : bc.get r u = some 1 := by
      apply (hbc.2.2 r u hr hu).2
      intro L hL hfL
      have := first_at_unique _ _ _ hf hfL
      omega
    have hp := (hP.2.2 r u hr hu).1 m hmd hf
    have hval : ∀ x : Option ℚ,
        (x = some (gather_sum A.has A.nrows (sources.getD r 0) m u)
          ∨ (x = none ∧ gather_sum A.has A.nrows (sources.getD r 0) m u = 0)) →
        accum_entry (some (· + ·)) (some 1)
          (ewise_entry (· * ·) x (some (walk_count A.has A.nrows (sources.getD r 0) m u : ℚ)))
          = some (1 + dependency_sum A.has A.nrows (sources.getD r 0) u) := by
      intro x hx
      rw [← gather_eq_dependency hu hf]
      rcases hx with hx | ⟨hx, h0⟩
      · rw [hx]; rfl
      · rw [hx, h0]
        simp [ewise_entry, accum_entry]
    constructor
    · intro L _ _
      rw [hb1, hp]
      exact hval _ ((hW.2.2 r u hr hu).2 hf)
    · intro hno
      exact absurd hf (hno m (le_refl m))
  · have hw := (hW.2.2 r u hr hu).1 hf
    rw [hw]
    constructor
    · intro L hL hfL
      have hLm : m + 1 ≤ L := by
        rcases Nat.lt_or_ge m L with h | h
        · exact h
        · have : L = m := by omega
          subst this
          exact absurd hfL hf
      rw [(hbc.2.2 r u hr hu).1 L hLm hfL]
      rfl
    · intro hno
      rw [(hbc.2.2 r u hr hu).2 (fun L hL => hno L (by omega))]
      rfl

theorem bc_step_inv (p : Policy) {A AT : Matrix α} {sources : List Nat}
    (hwf : WellFormed A AT sources) {d : Nat} {fwd : BFSState} (hfwd : FwdInv A sources d fwd)
    {i : Nat} (hi : i + 1 < d) {st : BCState}
    (hbc : bc_holds A sources (i + 2) st.bc_update)
    (hW : st.W.nrows = sources.length ∧ st.W.ncols = A.nrows) :
    ∃ st2, bc_step p A AT fwd.paths fwd.S sources.length A.nrows (i + 1) st = .ok st2
      ∧ bc_holds A sources (i + 1) st2.bc_update
      ∧ (st2.W.nrows = sources.length ∧ st2.W.ncols = A.nrows) := by
  obtain ⟨W1, h1, hW1⟩ := ratio_step (hfwd.S_ok (i + 1) hi) hbc hfwd.paths_ok (by omega) hW
  obtain ⟨W2, h2, hW2⟩ := gather_step hwf hW1 (hfwd.S_ok i (by omega))
  obtain ⟨bc2, h3, hbc2⟩ := update_step hW2 hbc hfwd.paths_ok (by omega : i + 1 ≤ d)
  refine ⟨{ bc_update := bc2, W := W2 }, ?_, hbc2, hW2.1, hW2.2.1⟩
  unfold bc_step
  simp only [mxm_back_pull_eq_push _ _ _ hwf.transposed, ite_self, h1, bind, Except.bind,
    Nat.add_sub_cancel, h2, h3]
  rfl

theorem bc_loop_inv (p : Policy) {A AT : Matrix α} {sources : List Nat}
    (hwf : WellFormed A AT sources) {d : Nat} {fwd : BFSState} (hfwd : FwdInv A sources d fwd)
    (i : Nat) :
    ∀ st : BCState, (i = 0 ∨ i < d) → bc_holds A sources (i + 1) st.bc_update →
      (st.W.nrows = sources.length ∧ st.W.ncols = A.nrows) →
      ∃ st2, bc_loop p A AT fwd.paths fwd.S sources.length A.nrows i st = .ok st2
        ∧ bc_holds A sources 1 st2.bc_update := by
  induction i with
  | zero =>
    intro st _ hbc _
    exact ⟨st, rfl, hbc⟩
  | succ i ih =>
    intro st hi hbc hW
    have hid : i + 1 < d := by omega
    obtain ⟨st1, hs, hbc1, hW1⟩ := bc_step_inv p hwf hfwd hid hbc hW
    obtain ⟨st2, hl, hbc2⟩ := ih st1 (by omega) hbc1 hW1
    refine ⟨st2, ?_, hbc2⟩
    unfold bc_loop
    rw [hs]
    exact hl

/-- A vertex on the last level has no dependency. -/
theorem dependency_sum_last {A : Matrix α} {sources : List Nat} {d : Nat} {fwd : BFSState}
    (hfwd : FwdInv A sources d fwd) (hend : fwd.frontier_size = 0 ∨ d = A.nrows)
    {r u : Nat} (hr : r < sources.length)
    (hf : first_at A.has A.nrows (sources.getD r 0) d u) :
    dependency_sum A.has A.nrows (sources.getD r 0) u = 0 := by
  unfold dependency_sum
  apply Finset.sum_eq_zero
  intro t ht
  have htn := Finset.mem_range.mp ht
  by_cases htu : t = u
  · simp [htu]
  · simp only [htu, ne_eq, not_false_eq_true, if_true]
    rcases reachable_or A.has A.nrows (sources.getD r 0) t with hr0 | ⟨k, _, hft⟩
    · exact pair_dependency_unreachable _ _ _ hr0 u
    · have hkd := no_level_beyond hfwd hend hr htn hft
      rcases Nat.lt_or_ge k d with hlt | hge
      · exact pair_dependency_deeper _ _ _ hft htn (fun j hj => hf.2 j (by omega))
      · have : k = d := by omega
        subst this
        exact pair_dependency_same_level _ _ _ hft htn hf htu

theorem bc_init_holds {A : Matrix α} {sources : List Nat} {d : Nat} {fwd : BFSState}
    (hfwd : FwdInv A sources d fwd) (hend : fwd.frontier_size = 0 ∨ d = A.nrows) :
    bc_holds A sources (d - 1 + 1) (bc_init sources.length A.nrows).bc_update := by
  refine ⟨rfl, rfl, ?_⟩
  intro r u hr hu
  have hget : (bc_init sources.length A.nrows).bc_update.get r u = some 1 := by
    show (Matrix.build sources.length A.nrows fun _ _ => some (1 : ℚ)).get r u = some 1
    rw [Matrix.get_build, if_pos ⟨hr, hu⟩]
  rw [hget]
  constructor
  · intro L hL hf
    have hLd := no_level_beyond hfwd hend hr hu hf
    have : L = d := by omega
    subst this
    rw [dependency_sum_last hfwd hend hr hf]
    simp
  · intro _
    rfl

theorem bc_final {A AT : Matrix α} {sources : List Nat} (hwf : WellFormed A AT sources)
    {bc : Matrix ℚ} (hbc : bc_holds A sources 1 bc) {r u : Nat} (hr : r < sources.length)
    (hu : u < A.nrows) :
    bc.get r u = some (1 + dependency A.has A.nrows (sources.getD r 0) u) := by
  have hs : sources.getD r 0 < A.nrows := by
    apply hwf.in_range
    rw [List.getD_eq_getElem _ _ hr]
    exact List.getElem_mem _
  rcases reachable_or A.has A.nrows (sources.getD r 0) u with hr0 | ⟨k, hk, hf⟩
  · rw [dependency_unreachable _ _ _ hs hr0, (hbc.2.2 r u hr hu).2]
    · simp
    · intro L _ hfL
      have := (reachable_iff A.has A.nrows (sources.getD r 0) u).mpr
        ⟨L, first_at_lt _ _ _ hfL hu, hfL⟩
      rw [this] at hr0
      cases hr0
  · cases k with
    | zero =>
      have hus := (first_at_zero_iff _ _ _ u).mp hf
      rw [hus, dependency_self, (hbc.2.2 r (sources.getD r 0) hr hs).2]
      · simp
      · intro L hL hfL
        have hf0 : first_at A.has A.nrows (sources.getD r 0) 0 (sources.getD r 0) :=
          (first_at_zero_iff _ _ _ _).mpr rfl
        have := first_at_unique _ _ _ hf0 hfL
        omega
    | succ k =>
      have hus : u ≠ sources.getD r 0 := by
        intro h
        have h0 := (first_at_zero_iff A.has A.nrows (sources.getD r 0) u).mpr h
        have := first_at_unique _ _ _ hf h0
        omega
      rw [dependency_eq_sum _ _ _ hus]
      exact (hbc.2.2 r u hr hu).1 (k + 1) (by omega) hf

theorem list_sum_map_getD (l : List Nat) (f : Nat → ℚ) :
    (l.map f).sum = ∑ r ∈ Finset.range l.length, f (l.getD r 0) := by
  induction l with
  | nil => simp
  | cons a l ih =>
    rw [List.map_cons, List.sum_cons, List.length_cons, Finset.sum_range_succ', ih]
    simp only [List.getD_cons_succ, List.getD_cons_zero]
    ring

theorem betweenness_eq (adj : Nat → Nat → Bool) (n : Nat) (sources : List Nat) (v : Nat) :
    betweenness adj n sources v
      = ∑ r ∈ Finset.range sources.length, dependency adj n (sources.getD r 0) v := by
  unfold betweenness
  exact list_sum_map_getD sources _

theorem finalize_ok {A AT : Matrix α} {sources : List Nat} (hwf : WellFormed A AT sources)
    {bc : Matrix ℚ} (hbc : bc_holds A sources 1 bc) :
    finalize sources.length A.nrows bc
      = .ok ((List.range A.nrows).map fun v => some (betweenness A.has A.nrows sources v)) := by
  unfold finalize GrB_reduce
  have hlen : (GrB_Vector_assign_scalar (GrB_Vector_new A.nrows) (-(sources.length : ℚ))).length
      = A.nrows := by
    simp [GrB_Vector_assign_scalar, GrB_Vector_new]
  have hr : bc.nrows_t GrB_DESC_T0.tran0 = bc.ncols := rfl
  have hc : bc.ncols_t GrB_DESC_T0.tran0 = bc.nrows := rfl
  have hg : ∀ j i, bc.get_t GrB_DESC_T0.tran0 j i = bc.get i j := fun _ _ => rfl
  rw [if_pos (by rw [hlen, hr, hbc.2.1]), hlen]
  congr 1
  apply List.map_congr_left
  intro v hv
  have hvn := List.mem_range.mp hv
  have hw : (GrB_Vector_assign_scalar (GrB_Vector_new A.nrows) (-(sources.length : ℚ))).getD v none
      = some (-(sources.length : ℚ)) := by
    simp [GrB_Vector_assign_scalar, GrB_Vector_new, List.getD_eq_getElem?_getD, hvn]
  have hsum : ((List.range bc.nrows).filterMap fun i => bc.get i v).sum
      = (sources.length : ℚ) + betweenness A.has A.nrows sources v := by
    rw [filterMap_sum, list_sum_map_range, hbc.1, betweenness_eq]
    have : ∀ r, r ∈ Finset.range sources.length →
        (bc.get r v).getD 0 = 1 + dependency A.has A.nrows (sources.getD r 0) v := by
      intro r hr
      rw [bc_final hwf hbc (Finset.mem_range.mp hr) hvn]
      rfl
    rw [Finset.sum_congr rfl this, Finset.sum_add_distrib]
    simp
  simp only [hw, hc, hg]
  by_cases hE : ((List.range bc.nrows).filterMap fun i => bc.get i v).isEmpty = true
  · rw [if_pos hE]
    have hnil : ((List.range bc.nrows).filterMap fun i => bc.get i v) = [] :=
      List.isEmpty_iff.mp hE
    have h0 : sources.length = 0 := by
      by_contra hne
      rw [List.filterMap_eq_nil_iff] at hnil
      have := hnil 0 (List.mem_range.mpr (by rw [hbc.1]; omega))
      rw [bc_final hwf hbc (Nat.pos_of_ne_zero hne) hvn] at this
      cases this
    rw [hnil] at hsum
    simp only [List.sum_nil, h0, Nat.cast_zero, zero_add] at hsum
    simp [accum_entry, h0, ← hsum]
  · rw [if_neg hE, hsum]
    simp [accum_entry]

/-- The whole computation on well-formed inputs, under any direction policy. -/
theorem compute_correct (p : Policy) {A AT : Matrix α} {sources : List Nat}
    (hwf : WellFormed A AT sources) :
    compute p A AT sources
      = .ok ((List.range A.nrows).map fun v => some (betweenness A.has A.nrows sources v)) := by
  obtain ⟨fwd, d, hstage, hfwd, _, hend⟩ := bfs_stage_inv p hwf
  have hidx : (d - 1 = 0 ∨ d - 1 < d) := by omega
  obtain ⟨st2, hloop, hbc⟩ := bc_loop_inv p hwf hfwd (d - 1) (bc_init sources.length A.nrows)
    hidx (bc_init_holds hfwd hend) ⟨rfl, rfl⟩
  unfold compute
  rw [hstage]
  show bc_stage p A AT sources.length fwd = _
  unfold bc_stage
  rw [hfwd.depth_eq, hloop]
  exact finalize_ok hwf hbc

/-- The paths matrix when the forward loop is left. -/
theorem final_paths {A : Matrix α} {sources : List Nat} {d : Nat} {st : BFSState}
    (h : FwdInv A sources d st) (hend : st.frontier_size = 0 ∨ d = A.nrows)
    {i t : Nat} (hi : i < sources.length) (ht : t < A.nrows) :
    st.paths.get i t
      = if reachable A.has A.nrows (sources.getD i 0) t = true then
          some (sigma A.has A.nrows (sources.getD i 0) t : ℚ) else none := by
  rcases reachable_or A.has A.nrows (sources.getD i 0) t with hr | ⟨k, hk, hf⟩
  · rw [hr]
    simp only [Bool.false_eq_true, if_false]
    apply (h.paths_ok.2.2 i t hi ht).2
    intro k _
    by_contra hne
    obtain ⟨j, _, hfj⟩ := first_at_of_pos A.has A.nrows (sources.getD i 0)
      (Nat.pos_of_ne_zero hne)
    have := (reachable_iff A.has A.nrows (sources.getD i 0) t).mpr
      ⟨j, first_at_lt _ _ _ hfj ht, hfj⟩
    rw [this] at hr
    cases hr
  · rw [(reachable_iff A.has A.nrows (sources.getD i 0) t).mpr ⟨k, hk, hf⟩, if_pos rfl,
      (sigma_of_first_at _ _ _ hf ht).1]
    exact (h.paths_ok.2.2 i t hi ht).1 k (no_level_beyond h hend hi ht hf) hf

/-- Reachability, searched below `n`, is the existence of a walk of any length. -/
theorem reachable_iff_walk (adj : Nat → Nat → Bool) (n s t : Nat) (ht : t < n) :
    reachable adj n s t = true ↔ ∃ k, walksTo adj n s k t ≠ [] := by
  rw [reachable_iff]
  constructor
  · rintro ⟨k, _, hf⟩
    refine ⟨k, ?_⟩
    intro hnil
    have := hf.1
    unfold walk_count at this
    rw [hnil] at this
    cases this
  · rintro ⟨k, hne⟩
    have hp : 0 < walk_count adj n s k t := by
      unfold walk_count
      exact List.length_pos.mpr hne
    obtain ⟨j, _, hfj⟩ := first_at_of_pos adj n s hp
    exact ⟨j, first_at_lt adj n s hfj ht, hfj⟩

theorem sigma_self (adj : Nat → Nat → Bool) (n s : Nat) (hs : s < n) : sigma adj n s s = 1 := by
  have hf : first_at adj n s 0 s := (first_at_zero_iff adj n s s).mpr rfl
  rw [(sigma_of_first_at adj n s hf hs).1, walk_count_zero, if_pos rfl]

/-! ### The star graph -/

theorem star_has (n u v : Nat) :
    (star n).A.has u v = true
      ↔ (u < n + 1 ∧ v < n + 1) ∧ ((u = 0 ∧ 0 < v) ∨ (v = 0 ∧ 0 < u)) := by
  show ((star n).A.get u v).isSome = true ↔ _
  unfold star
  simp only [Matrix.get_build]
  by_cases h : u < n + 1 ∧ v < n + 1
  · rw [if_pos h]
    by_cases h2 : (u = 0 ∧ 0 < v) ∨ (v = 0 ∧ 0 < u)
    · rw [if_pos h2]; simp [h, h2]
    · rw [if_neg h2]; simp [h2]
  · rw [if_neg h]; simp [h]

theorem star_well_formed (n : Nat) :
    WellFormed (star n).A (star n).A (List.range (n + 1)) := by
  refine ⟨rfl, ?_, ?_⟩
  · refine ⟨rfl, rfl, ?_⟩
    intro i j
    have h1 := star_has n i j
    have h2 := star_has n j i
    cases ha : (star n).A.has i j <;> cases hb : (star n).A.has j i
    · rfl
    · rw [ha] at h1; rw [hb] at h2
      have := h2.mp rfl
      have hc : (i < n + 1 ∧ j < n + 1) ∧ ((i = 0 ∧ 0 < j) ∨ (j = 0 ∧ 0 < i)) :=
        ⟨⟨this.1.2, this.1.1⟩, this.2.symm⟩
      have := h1.mpr hc
      cases this
    · rw [ha] at h1; rw [hb] at h2
      have := h1.mp rfl
      have hc : (j < n + 1 ∧ i < n + 1) ∧ ((j = 0 ∧ 0 < i) ∨ (i = 0 ∧ 0 < j)) :=
        ⟨⟨this.1.2, this.1.1⟩, this.2.symm⟩
      have := h2.mpr hc
      cases this
    · rfl
  · intro s hs
    exact List.mem_range.mp hs

theorem range_getD (n r : Nat) (h : r < n) : (List.range n).getD r 0 = r := by
  rw [List.getD_eq_getElem _ _ (by simpa using h)]
  simp

theorem walk_count_one (adj : Nat → Nat → Bool) (n s t : Nat) (hs : s < n) :
    walk_count adj n s 1 t = if adj s t = true then 1 else 0 := by
  rw [walk_count_succ, Finset.sum_eq_single s]
  · rw [walk_count_zero, if_pos rfl]
  · intro u _ hus
    rw [walk_count_zero, if_neg hus]
    simp
  · intro h
    exact absurd (Finset.mem_range.mpr hs) h

theorem star_first_at (n s t : Nat) (hs : s < n + 1) (ht : t < n + 1) :
    first_at (star n).A.has (n + 1) s (star_level s t) t := by
  unfold star_level
  by_cases hts : t = s
  · rw [if_pos hts]
    exact (first_at_zero_iff _ _ _ _).mpr hts
  · rw [if_neg hts]
    have hc0 : walk_count (star n).A.has (n + 1) s 0 t = 0 := by
      rw [walk_count_zero, if_neg hts]
    by_cases h0 : s = 0 ∨ t = 0
    · rw [if_pos h0]
      have hadj : (star n).A.has s t = true := by
        rw [star_has]
        refine ⟨⟨hs, ht⟩, ?_⟩
        rcases h0 with h | h
        · left; exact ⟨h, by omega⟩
        · right; exact ⟨h, by omega⟩
      refine ⟨?_, ?_⟩
      · rw [walk_count_one _ _ _ _ hs, if_pos hadj]
        exact Nat.one_pos
      · intro j hj
        have : j = 0 := by omega
        subst this
        exact hc0
    · rw [if_neg h0]
      push_neg at h0
      have hnadj : ¬ (star n).A.has s t = true := by
        rw [star_has]
        rintro ⟨-, h | h⟩
        · exact h0.1 h.1
        · exact h0.2 h.1
      have hc1 : walk_count (star n).A.has (n + 1) s 1 t = 0 := by
        rw [walk_count_one _ _ _ _ hs, if_neg hnadj]
      refine ⟨?_, ?_⟩
      · apply walk_count_edge (star n).A.has (n + 1) s (u := 0) (by omega)
        · rw [star_has]
          exact ⟨⟨by omega, ht⟩, Or.inl ⟨rfl, by omega⟩⟩
        · rw [walk_count_one _ _ _ _ hs, if_pos]
          · exact Nat.one_pos
          · rw [star_has]
            exact ⟨⟨hs, by omega⟩, Or.inr ⟨rfl, by omega⟩⟩
      · intro j hj
        have : j = 0 ∨ j = 1 := by omega
        rcases this with rfl | rfl
        · exact hc0
        · exact hc1

theorem star_first_at_iff (n s t k : Nat) (hs : s < n + 1) (ht : t < n + 1) :
    first_at (star n).A.has (n + 1) s k t ↔ k = star_level s t := by
  constructor
  · intro h
    exact first_at_unique _ _ _ h (star_first_at n s t hs ht)
  · intro h
    rw [h]
    exact star_first_at n s t hs ht

/-- In a star no shortest path passes through a leaf other than its end points. -/
theorem star_leaf_dependency (n s v : Nat) (hs : s < n + 1) (hv : v < n + 1) (hv0 : v ≠ 0) :
    dependency (star n).A.has (n + 1) s v = 0 := by
  by_cases hvs : v = s
  · rw [hvs]; exact dependency_self _ _ _
  · rw [dependency_eq_sum _ _ _ hvs,
      dependency_sum_split _ _ _ (star_first_at n s v hs hv) hv]
    apply Finset.sum_eq_zero
    intro w hw
    have hwn := Finset.mem_range.mp hw
    have : edge_share (star n).A.has (n + 1) s (star_level s v) v w = 0 := by
      by_contra hne
      obtain ⟨hf, hadj⟩ := edge_share_ne_zero _ _ _ hne
      rw [star_has] at hadj
      have hw0 : w = 0 := by
        rcases hadj.2 with h | h
        · exact absurd h.1 hv0
        · exact h.1
      have hk := (star_first_at_iff n s w _ hs hwn).mp hf
      unfold star_level at hk
      rw [if_neg hvs] at hk
      subst hw0
      by_cases hs0 : s = 0
      · simp [hs0] at hk
      · have h0s : ¬ (0 = s) := fun h => hs0 h.symm
        simp [hs0, h0s, hv0] at hk
    rw [this]
    simp

theorem star_leaf_dependency_sum (n s v : Nat) (hs : s < n + 1) (hv : v < n + 1) (hv0 : v ≠ 0)
    (hvs : v ≠ s) : dependency_sum (star n).A.has (n + 1) s v = 0 := by
  rw [← dependency_eq_sum _ _ _ hvs]
  exact star_leaf_dependency n s v hs hv hv0

theorem sum_two_holes (n i : Nat) (hi : i < n + 1) (hi0 : i ≠ 0) :
    (∑ v ∈ Finset.range (n + 1), if v ≠ i ∧ v ≠ 0 then (1 : ℚ) else 0) = (n : ℚ) - 1 := by
  have h : ∀ v, v ∈ Finset.range (n + 1) →
      (if v ≠ i ∧ v ≠ 0 then (1 : ℚ) else 0)
        = 1 - (if v = i then 1 else 0) - (if v = 0 then 1 else 0) := by
    intro v _
    by_cases h1 : v = i
    · have : v ≠ 0 := by rw [h1]; exact hi0
      simp [h1, hi0]
    · by_cases h2 : v = 0
      · have h3 : ¬ (0 = i) := fun h => hi0 h.symm
        simp [h2, h3]
      · simp [h1, h2]
  rw [Finset.sum_congr rfl h, Finset.sum_sub_distrib, Finset.sum_sub_distrib,
    Finset.sum_ite_eq' (Finset.range (n + 1)) i (fun _ => (1 : ℚ)),
    Finset.sum_ite_eq' (Finset.range (n + 1)) 0 (fun _ => (1 : ℚ))]
  simp [hi]

/-- In a star with `n` leaves the hub lies on the shortest paths from a leaf to each of
the other `n - 1` leaves. -/
theorem star_hub_dependency (n i : Nat) (hi : i < n + 1) (hi0 : i ≠ 0) :
    dependency (star n).A.has (n + 1) i 0 = (n : ℚ) - 1 := by
  have h0i : (0 : Nat) ≠ i := fun h => hi0 h.symm
  have hlev : star_level i 0 = 1 := by
    unfold star_level
    simp [h0i]
  have hf := star_first_at n i 0 hi (by omega)
  rw [hlev] at hf
  rw [dependency_eq_sum _ _ _ h0i, dependency_sum_split _ _ _ hf (by omega),
    ← sum_two_holes n i hi hi0]
  apply Finset.sum_congr rfl
  intro v hv
  have hvn := Finset.mem_range.mp hv
  unfold edge_share
  by_cases hc : v ≠ i ∧ v ≠ 0
  · have hlv : star_level i v = 2 := by
      unfold star_level
      simp [hc.1, hc.2, hi0]
    have hfv := star_first_at n i v hi hvn
    rw [hlv] at hfv
    have hadj : (star n).A.has 0 v = true := by
      rw [star_has]
      exact ⟨⟨by omega, hvn⟩, Or.inl ⟨rfl, by omega⟩⟩
    have hc1 : walk_count (star n).A.has (n + 1) i 1 0 = 1 := by
      rw [walk_count_one _ _ _ _ hi, if_pos]
      rw [star_has]
      exact ⟨⟨hi, by omega⟩, Or.inr ⟨rfl, by omega⟩⟩
    have hc2 : walk_count (star n).A.has (n + 1) i 2 v = 1 := by
      rw [walk_count_succ, Finset.sum_eq_single 0]
      · rw [if_pos hadj, hc1]
      · intro u _ hu0
        have : ¬ (star n).A.has u v = true := by
          rw [star_has]
          rintro ⟨-, h | h⟩
          · exact hu0 h.1
          · exact hc.2 h.1
        rw [if_neg this]
      · intro h
        exact absurd (Finset.mem_range.mpr (by omega)) h
    rw [if_pos ⟨hfv, hadj⟩, if_pos hc, hc1, hc2,
      star_leaf_dependency_sum n i v hi hvn hc.2 hc.1]
    norm_num
  · rw [if_neg hc, if_neg]
    · simp
    · rintro ⟨hfv, -⟩
      have hk := (star_first_at_iff n i v 2 hi hvn).mp hfv
      unfold star_level at hk
      apply hc
      by_cases h1 : v = i
      · simp [h1] at hk
      · by_cases h2 : v = 0
        · simp [h2, h0i] at hk
        · exact ⟨h1, h2⟩

theorem star_betweenness (n v : Nat) (hv : v < n + 1) :
    betweenness (star n).A.has (n + 1) (List.range (n + 1)) v
      = if v = 0 then (n : ℚ) * ((n : ℚ) - 1) else 0 := by
  rw [betweenness_eq, List.length_range]
  by_cases hv0 : v = 0
  · rw [if_pos hv0, hv0, Finset.sum_range_succ']
    have h1 : ∀ r, r ∈ Finset.range n →
        dependency (star n).A.has (n + 1) ((List.range (n + 1)).getD (r + 1) 0) 0
          = (n : ℚ) - 1 := by
      intro r hr
      have hrn := Finset.mem_range.mp hr
      rw [range_getD _ _ (by omega)]
      exact star_hub_dependency n (r + 1) (by omega) (by omega)
    rw [Finset.sum_congr rfl h1, range_getD _ _ (by omega), dependency_self]
    simp
  · rw [if_neg hv0]
    apply Finset.sum_eq_zero
    intro r hr
    have hrn := Finset.mem_range.mp hr
    rw [range_getD _ _ hrn]
    exact star_leaf_dependency n r v hrn hv hv0

/-! ### The bound on the passes of the forward loop is never what ends it -/

theorem bfs_step_depth (p : Policy) (A AT : Matrix α) (ns n : Nat) (st st2 : BFSState)
    (h : bfs_step p A AT ns n st = .ok st2) : st2.depth = st.depth + 1 := by
  unfold bfs_step at h
  cases ha : GrB_assign st.paths (some fun x1 x2 => x1 + x2) st.frontier with
  | error e => rw [ha] at h; cases h
  | ok paths =>
    rw [ha] at h
    simp only [bind, Except.bind] at h
    split at h
    · cases hm : GrB_mxm st.frontier (some paths) st.frontier AT GrB_DESC_RSCT1 with
      | error e => rw [hm] at h; cases h
      | ok fr =>
        rw [hm] at h
        simp only [pure, Except.pure, Except.ok.injEq] at h
        rw [← h]
    · cases hm : GrB_mxm st.frontier (some paths) st.frontier A GrB_DESC_RSC with
      | error e => rw [hm] at h; cases h
      | ok fr =>
        rw [hm] at h
        simp only [pure, Except.pure, Except.ok.injEq] at h
        rw [← h]

theorem bfs_loop_guard (p : Policy) (A AT : Matrix α) (ns n : Nat) (fuel : Nat) :
    ∀ st st2 : BFSState, st.depth + fuel = n →
      bfs_loop p A AT ns n fuel st = .ok st2 →
      ¬ (st2.frontier_size > 0 ∧ st2.depth < n) := by
  induction fuel with
  | zero =>
    intro st st2 hd h
    simp only [bfs_loop, Except.ok.injEq] at h
    subst h
    omega
  | succ k ih =>
    intro st st2 hd h
    unfold bfs_loop at h
    split at h
    · cases hs : bfs_step p A AT ns n st with
      | error e => rw [hs] at h; cases h
      | ok s1 =>
        rw [hs] at h
        have := bfs_step_depth p A AT ns n st s1 hs
        exact ih s1 st2 (by omega) h
    · rename_i hg
      simp only [Except.ok.injEq] at h
      subst h
      exact hg

/-- Whenever the forward sweep returns, its loop was left because the guard
`frontier_size > 0 && depth < n` failed, for every input. -/
theorem bfs_stage_guard (p : Policy) (A AT : Matrix α) (sources : List Nat) (st : BFSState)
    (h : bfs_stage p A AT sources = .ok st) :
    ¬ (st.frontier_size > 0 ∧ st.depth < A.nrows) := by
  unfold bfs_stage at h
  cases hi : bfs_init A sources with
  | error e => rw [hi] at h; cases h
  | ok st0 =>
    rw [hi] at h
    have hd : st0.depth = 0 := by
      rw [bfs_init_unfold] at hi
      cases h1 : init_sources sources 0 (GrB_Matrix_new sources.length A.nrows)
          (GrB_Matrix_new sources.length A.nrows) with
      | error e => rw [h1] at hi; cases hi
      | ok pf =>
        rw [h1] at hi
        simp only [Except.bind] at hi
        cases h2 : GrB_mxm pf.2 (some pf.1) pf.2 A GrB_DESC_RSC with
        | error e => rw [h2] at hi; cases hi
        | ok fr =>
          rw [h2] at hi
          simp only [Except.ok.injEq] at hi
          rw [← hi]
    exact bfs_loop_guard p A AT _ _ _ st0 st (by omega) h

/-! ### Concrete inputs -/

theorem transpose_pattern_build (n : Nat) (f : Nat → Nat → Option α) :
    transpose_pattern (Matrix.build n n f) (Matrix.build n n fun i j => f j i) := by
  refine ⟨rfl, rfl, ?_⟩
  intro i j
  simp only [Matrix.has, Matrix.get_build]
  by_cases h : i < n ∧ j < n
  · simp [h, h.symm]
  · have h2 : ¬ (j < n ∧ i < n) := fun hc => h hc.symm
    simp [h, h2]

theorem bfs_init_error (A : Matrix α) (sources : List Nat)
    (h : ∃ s ∈ sources, A.nrows ≤ s) : bfs_init A sources = .error .GrB_INVALID_INDEX := by
  rw [bfs_init_unfold, init_sources_error sources 0 _ _ h]
  rfl

theorem compute_error (p : Policy) (A AT : Matrix α) (sources : List Nat)
    (h : ∃ s ∈ sources, A.nrows ≤ s) : compute p A AT sources = .error .GrB_INVALID_INDEX := by
  unfold compute bfs_stage
  rw [bfs_init_error A sources h]
  rfl

theorem same_pattern_build (r c : Nat) (f : Nat → Nat → Option α) (g : Nat → Nat → Option β)
    (h : ∀ i j, (f i j).isSome = (g i j).isSome) :
    same_pattern (Matrix.build r c f) (Matrix.build r c g) := by
  refine ⟨rfl, rfl, ?_⟩
  intro i j
  simp only [Matrix.has, Matrix.get_build]
  split
  · exact h i j
  · rfl

theorem same_off_diagonal_build (r c : Nat) (f : Nat → Nat → Option α)
    (g : Nat → Nat → Option β) (h : ∀ i j, i ≠ j → (f i j).isSome = (g i j).isSome) :
    same_off_diagonal (Matrix.build r c f) (Matrix.build r c g) := by
  refine ⟨rfl, rfl, ?_⟩
  intro i j hij
  simp only [Matrix.has, Matrix.get_build]
  split
  · exact h i j hij
  · rfl

theorem one_edge_same_pattern (w w2 : ℚ) (loops : Bool) :
    same_pattern (one_edge w loops).A (one_edge w2 loops).A
      ∧ ∃ X Y, (one_edge w loops).AT = some X ∧ (one_edge w2 loops).AT = some Y
          ∧ same_pattern X Y := by
  refine ⟨?_, _, _, rfl, rfl, ?_⟩
  · apply same_pattern_build
    intro i j
    split <;> rfl
  · apply same_pattern_build
    intro i j
    split <;> rfl

theorem one_edge_same_off_diagonal (w : ℚ) :
    same_off_diagonal (one_edge w false).A (one_edge w true).A
      ∧ ∃ X Y, (one_edge w false).AT = some X ∧ (one_edge w true).AT = some Y
          ∧ same_off_diagonal X Y := by
  refine ⟨?_, _, _, rfl, rfl, ?_⟩
  · apply same_off_diagonal_build
    intro i j hij
    simp [hij]
  · apply same_off_diagonal_build
    intro i j hij
    simp [hij]

theorem transpose_pattern_of_build (n : Nat) (f g : Nat → Nat → Option α)
    (h : ∀ i j, (g i j).isSome = (f j i).isSome) :
    transpose_pattern (Matrix.build n n f) (Matrix.build n n g) := by
  refine ⟨rfl, rfl, ?_⟩
  intro i j
  simp only [Matrix.has, Matrix.get_build]
  by_cases hij : i < n ∧ j < n
  · rw [if_pos hij, if_pos hij.symm]
    exact h i j
  · rw [if_neg hij, if_neg (fun hc => hij hc.symm)]

theorem one_edge_well_formed (w : ℚ) (loops : Bool) :
    ∃ AT, select_AT (one_edge w loops) = some AT
      ∧ WellFormed (one_edge w loops).A AT [0, 1] := by
  refine ⟨_, rfl, rfl, ?_, ?_⟩
  · apply transpose_pattern_of_build
    intro i j
    by_cases h1 : j = 0 ∧ i = 1
    · simp [h1]
    · by_cases h2 : loops = true ∧ i = j
      · simp [h2]
      · have h3 : ¬ (loops = true ∧ j = i) := fun hc => h2 ⟨hc.1, hc.2.symm⟩
        simp [h1, h2, h3]
  · intro s hs
    have : s = 0 ∨ s = 1 := by simpa using hs
    show s < 2
    omega

/-- The shape of a successful pass of the forward loop. -/
theorem bfs_step_cases (p : Policy) (A AT : Matrix α) (ns n : Nat) (st st2 : BFSState)
    (hs : bfs_step p A AT ns n st = .ok st2) :
    ∃ (paths fr : Matrix ℚ) (B : Matrix α) (desc : GrB_Descriptor) (lw : Bool),
      GrB_assign st.paths (some (· + ·)) st.frontier = .ok paths
      ∧ desc.replace = true ∧ desc.comp = true
      ∧ GrB_mxm st.frontier (some paths) st.frontier B desc = .ok fr
      ∧ st2 = { frontier := fr, paths := paths, S := st.S ++ [LAGraph_Pattern st.frontier],
                depth := st.depth + 1, frontier_size := GrB_Matrix_nvals fr,
                last_frontier_size := st.frontier_size, last_was_pull := lw } := by
  unfold bfs_step at hs
  cases ha : GrB_assign st.paths (some fun x1 x2 => x1 + x2) st.frontier with
  | error e => rw [ha] at hs; cases hs
  | ok paths =>
    rw [ha] at hs
    simp only [bind, Except.bind] at hs
    split at hs
    · cases hm : GrB_mxm st.frontier (some paths) st.frontier AT GrB_DESC_RSCT1 with
      | error e => rw [hm] at hs; cases hs
      | ok fr =>
        rw [hm] at hs
        simp only [pure, Except.pure, Except.ok.injEq] at hs
        exact ⟨paths, fr, AT, _, _, rfl, rfl, rfl, hm, hs.symm⟩
    · cases hm : GrB_mxm st.frontier (some paths) st.frontier A GrB_DESC_RSC with
      | error e => rw [hm] at hs; cases hs
      | ok fr =>
        rw [hm] at hs
        simp only [pure, Except.pure, Except.ok.injEq] at hs
        exact ⟨paths, fr, A, _, _, rfl, rfl, rfl, hm, hs.symm⟩

/-- The shape of a successful initialisation. -/
theorem bfs_init_cases (A : Matrix α) (sources : List Nat) (st0 : BFSState)
    (h : bfs_init A sources = .ok st0) :
    ∃ P F fr, init_sources sources 0 (GrB_Matrix_new sources.length A.nrows)
        (GrB_Matrix_new sources.length A.nrows) = .ok (P, F)
      ∧ GrB_mxm F (some P) F A GrB_DESC_RSC = .ok fr
      ∧ st0 = { frontier := fr, paths := P, S := [], depth := 0,
                frontier_size := GrB_Matrix_nvals fr, last_frontier_size := 0,
                last_was_pull := false } := by
  rw [bfs_init_unfold] at h
  cases hi : init_sources sources 0 (GrB_Matrix_new sources.length A.nrows)
      (GrB_Matrix_new sources.length A.nrows) with
  | error e => rw [hi] at h; cases h
  | ok pf =>
    rw [hi] at h
    simp only [Except.bind] at h
    cases hm : GrB_mxm pf.2 (some pf.1) pf.2 A GrB_DESC_RSC with
    | error e => rw [hm] at h; cases h
    | ok fr =>
      rw [hm] at h
      simp only [Except.bind, Except.ok.injEq] at h
      exact ⟨pf.1, pf.2, fr, rfl, hm, h.symm⟩

/-- Induction over the forward loop: a property kept by every pass taken under the loop
guard holds of the state the loop ends in. -/
theorem bfs_loop_induct (p : Policy) (A AT : Matrix α) (ns n : Nat) (I : BFSState → Prop)
    (hstep : ∀ st st2, I st → st.frontier_size > 0 ∧ st.depth < n →
      bfs_step p A AT ns n st = .ok st2 → I st2) (fuel : Nat) :
    ∀ st st2 : BFSState, I st → bfs_loop p A AT ns n fuel st = .ok st2 → I st2 := by
  induction fuel with
  | zero =>
    intro st st2 h1 hs
    simp only [bfs_loop, Except.ok.injEq] at hs
    subst hs
    exact h1
  | succ k ih =>
    intro st st2 h1 hs
    unfold bfs_loop at hs
    split at hs
    · rename_i hg
      cases hstep1 : bfs_step p A AT ns n st with
      | error e => rw [hstep1] at hs; cases hs
      | ok s1 =>
        rw [hstep1] at hs
        exact ih s1 st2 (hstep st s1 h1 hg hstep1) hs
    · simp only [Except.ok.injEq] at hs
      subst hs
      exact h1

theorem list_sum_ge_one (l : List ℚ) (hne : l ≠ []) (h : ∀ x ∈ l, 1 ≤ x) : 1 ≤ l.sum := by
  cases l with
  | nil => exact absurd rfl hne
  | cons a rest =>
    have hrest : 0 ≤ rest.sum := by
      apply List.sum_nonneg
      intro x hx
      have := h x (List.mem_cons_of_mem _ hx)
      linarith
    have ha := h a (List.mem_cons_self _ _)
    rw [List.sum_cons]
    linarith

theorem plus_first_dot_ge_one (F : Matrix ℚ) (B : Nat → Nat → Bool) (i j : Nat) (x : ℚ)
    (hF : entries_ge_one F) (h : plus_first_dot F B i j = some x) : 1 ≤ x := by
  unfold plus_first_dot at h
  simp only at h
  split at h
  · cases h
  · rename_i hne
    simp only [Option.some.injEq] at h
    rw [← h]
    apply list_sum_ge_one
    · intro he
      rw [he] at hne
      simp at hne
    · intro t ht
      rw [List.mem_filterMap] at ht
      obtain ⟨k, _, hk⟩ := ht
      unfold plus_first_term at hk
      cases hg : F.get i k with
      | none => rw [hg] at hk; cases hk
      | some a =>
        rw [hg] at hk
        simp only at hk
        split at hk
        · simp only [Option.some.injEq] at hk
          rw [← hk]
          exact hF i k a hg
        · cases hk

theorem mxm_get {C F R : Matrix ℚ} {M : Option (Matrix μ)} {B : Matrix β}
    {desc : GrB_Descriptor} (h : GrB_mxm C M F B desc = .ok R) (i j : Nat) :
    R.nrows = C.nrows ∧ R.ncols = C.ncols ∧
    R.get i j = if i < C.nrows ∧ j < C.ncols then
      write_entry (mask_allows M desc i j) desc.replace (C.get i j)
        (plus_first_dot F (B.has_t desc.tran1) i j) else none := by
  unfold GrB_mxm at h
  split at h
  · simp only [Except.ok.injEq] at h
    subst h
    exact ⟨rfl, rfl, Matrix.get_build _ _ _ _ _⟩
  · cases h

theorem assign_get {P F P2 : Matrix ℚ} {accum : Option (ℚ → ℚ → ℚ)}
    (h : GrB_assign P accum F = .ok P2) (i j : Nat) :
    P2.nrows = P.nrows ∧ P2.ncols = P.ncols ∧ P.nrows = F.nrows ∧ P.ncols = F.ncols ∧
    P2.get i j = if i < P.nrows ∧ j < P.ncols then accum_entry accum (P.get i j) (F.get i j)
      else none := by
  unfold GrB_assign at h
  split at h
  · rename_i hd
    simp only [Except.ok.injEq] at h
    subst h
    exact ⟨rfl, rfl, hd.1, hd.2, Matrix.get_build _ _ _ _ _⟩
  · cases h

theorem mxm_entries_ge_one {C F R : Matrix ℚ} {M : Option (Matrix μ)} {B : Matrix β}
    {desc : GrB_Descriptor} (hr : desc.replace = true) (hF : entries_ge_one F)
    (h : GrB_mxm C M F B desc = .ok R) : entries_ge_one R := by
  intro i j x hx
  rw [(mxm_get h i j).2.2] at hx
  split at hx
  · unfold write_entry at hx
    rw [hr] at hx
    split at hx
    · exact plus_first_dot_ge_one F _ i j x hF hx
    · simp at hx
  · cases hx

/-- After `paths += frontier`: an entry of the result is an entry of `paths`, an entry of
the frontier, or the sum of both. -/
theorem assign_plus_has {P F P2 : Matrix ℚ}
    (h : GrB_assign P (some (· + ·)) F = .ok P2) (i j : Nat) :
    P2.has i j = (P.has i j || F.has i j) := by
  have hg := assign_get h i j
  show (P2.get i j).isSome = ((P.get i j).isSome || (F.get i j).isSome)
  rw [hg.2.2.2.2]
  split
  · unfold accum_entry
    cases P.get i j <;> cases F.get i j <;> rfl
  · rename_i hn
    rw [Matrix.get_of_not_lt P i j hn,
      Matrix.get_of_not_lt F i j (by rw [← hg.2.2.1, ← hg.2.2.2.1]; exact hn)]
    rfl

theorem assign_plus_ge_one {P F P2 : Matrix ℚ} (hP : entries_ge_one P)
    (hF : entries_ge_one F) (h : GrB_assign P (some (· + ·)) F = .ok P2) :
    entries_ge_one P2 := by
  intro i j x hx
  rw [(assign_get h i j).2.2.2.2] at hx
  split at hx
  · unfold accum_entry at hx
    cases hp : P.get i j with
    | none =>
      rw [hp] at hx
      exact hF i j x hx
    | some a =>
      rw [hp] at hx
      have ha := hP i j a hp
      cases hf : F.get i j with
      | none =>
        rw [hf] at hx
        simp only [Option.some.injEq] at hx
        rw [← hx]; exact ha
      | some b =>
        rw [hf] at hx
        have hb := hF i j b hf
        simp only [Option.some.injEq] at hx
        rw [← hx]; linarith
  · cases hx

theorem mxm_fresh {C F R P : Matrix ℚ} {B : Matrix β} {desc : GrB_Descriptor}
    (hr : desc.replace = true) (hc : desc.comp = true)
    (h : GrB_mxm C (some P) F B desc = .ok R) (i j : Nat) (hij : R.has i j = true) :
    P.has i j = false := by
  have := mxm_masked hr h i j hij
  simp only [mask_allows, hc] at this
  cases hpp : P.has i j <;> simp [hpp] at this ⊢

theorem nvals_pos_iff (M : Matrix α) : 0 < GrB_Matrix_nvals M ↔ ∃ i j, M.has i j = true := by
  rw [Nat.pos_iff_ne_zero, Ne, nvals_eq_zero_iff]
  constructor
  · intro h
    by_contra hn
    apply h
    intro i j
    cases hh : M.has i j
    · rfl
    · exact absurd ⟨i, j, hh⟩ hn
  · rintro ⟨i, j, hij⟩ h
    rw [h i j] at hij
    cases hij

theorem init_sources_ge_one (sources : List Nat) :
    ∀ (i : Nat) (P F P2 F2 : Matrix ℚ), entries_ge_one P → entries_ge_one F →
      init_sources sources i P F = .ok (P2, F2) → entries_ge_one P2 ∧ entries_ge_one F2 := by
  induction sources with
  | nil =>
    intro i P F P2 F2 hP hF h
    simp only [init_sources, Except.ok.injEq, Prod.mk.injEq] at h
    rw [← h.1, ← h.2]
    exact ⟨hP, hF⟩
  | cons s rest ih =>
    intro i P F P2 F2 hP hF h
    unfold init_sources at h
    cases h1 : GrB_Matrix_setElement P 1 i s with
    | error e => rw [h1] at h; cases h
    | ok P1 =>
      cases h2 : GrB_Matrix_setElement F 1 i s with
      | error e => rw [h1, h2] at h; cases h
      | ok F1 =>
        rw [h1, h2] at h
        simp only [bind, Except.bind] at h
        have e1 := setElement_get h1
        have e2 := setElement_get h2
        have key : ∀ (C : Matrix ℚ), entries_ge_one C →
            entries_ge_one (Matrix.build C.nrows C.ncols fun a b =>
              if a = i ∧ b = s then some (1 : ℚ) else C.get a b) := by
          intro C hC a b x hx
          rw [Matrix.get_build] at hx
          split at hx
          · split at hx
            · simp only [Option.some.injEq] at hx
              rw [← hx]
            · exact hC a b x hx
          · cases hx
        apply ih (i + 1) P1 F1 P2 F2 _ _ h
        · rw [e1]; exact key P hP
        · rw [e2]; exact key F hF

theorem entries_ge_one_new (r c : Nat) : entries_ge_one (GrB_Matrix_new r c : Matrix ℚ) := by
  intro i j x hx
  rw [new_get] at hx
  cases hx

theorem bfs_init_safe (A : Matrix α) (sources : List Nat) (st0 : BFSState)
    (h : bfs_init A sources = .ok st0) : FwdSafe st0 := by
  obtain ⟨P, F, fr, hi, hm, hst⟩ := bfs_init_cases A sources st0 h
  obtain ⟨hP, hF⟩ := init_sources_ge_one sources 0 _ _ P F (entries_ge_one_new _ _)
    (entries_ge_one_new _ _) hi
  subst hst
  refine ⟨?_, ?_, ?_, hP, ?_, ?_, rfl, rfl⟩
  · intro i j hij
    exact mxm_fresh rfl rfl hm i j hij
  · intro d i j hd
    rw [level_ge [] d (by simp)] at hd
    cases hd
  · intro d d2 i j _ hd
    rw [level_ge [] d (by simp)] at hd
    cases hd
  · exact mxm_entries_ge_one rfl hF hm
  · intro d hd
    simp at hd

theorem bfs_step_safe (p : Policy) (A AT : Matrix α) (ns n : Nat) (st st2 : BFSState)
    (hI : FwdSafe st) (hpos : 0 < st.frontier_size)
    (hs : bfs_step p A AT ns n st = .ok st2) : FwdSafe st2 := by
  obtain ⟨paths, fr, B, desc, lw, ha, hr, hc, hm, hst⟩ := bfs_step_cases p A AT ns n st st2 hs
  subst hst
  have hlev : ∀ d i j, (level (st.S ++ [LAGraph_Pattern st.frontier]) d).has i j = true →
      (d < st.S.length ∧ (level st.S d).has i j = true)
        ∨ (d = st.S.length ∧ st.frontier.has i j = true) := by
    intro d i j hd
    rcases Nat.lt_trichotomy d st.S.length with hlt | heq | hgt
    · rw [level_append_lt _ _ _ hlt] at hd
      exact Or.inl ⟨hlt, hd⟩
    · subst heq
      rw [level_append_eq, pattern_has] at hd
      exact Or.inr ⟨rfl, hd⟩
    · rw [level_ge _ d (by simp; omega)] at hd
      cases hd
  refine ⟨?_, ?_, ?_, ?_, ?_, ?_, rfl, ?_⟩
  · intro i j hij
    exact mxm_fresh hr hc hm i j hij
  · intro d i j hd
    show paths.has i j = true
    rw [assign_plus_has ha]
    rcases hlev d i j hd with ⟨_, h1⟩ | ⟨_, h1⟩
    · rw [hI.recorded d i j h1]; rfl
    · rw [h1]; simp
  · intro d d2 i j hne hd
    show (level (st.S ++ [LAGraph_Pattern st.frontier]) d2).has i j = false
    cases h2 : (level (st.S ++ [LAGraph_Pattern st.frontier]) d2).has i j
    · rfl
    · exfalso
      rcases hlev d i j hd with ⟨_, h1⟩ | ⟨e1, h1⟩
      · rcases hlev d2 i j h2 with ⟨_, h3⟩ | ⟨_, h3⟩
        · rw [hI.disjoint d d2 i j hne h1] at h3
          cases h3
        · have := hI.fresh i j h3
          rw [hI.recorded d i j h1] at this
          cases this
      · rcases hlev d2 i j h2 with ⟨_, h3⟩ | ⟨e2, _⟩
        · have := hI.fresh i j h1
          rw [hI.recorded d2 i j h3] at this
          cases this
        · omega
  · exact assign_plus_ge_one hI.paths_pos hI.frontier_pos ha
  · exact mxm_entries_ge_one hr hI.frontier_pos hm
  · intro d hd
    show 0 < GrB_Matrix_nvals (level (st.S ++ [LAGraph_Pattern st.frontier]) d)
    simp only [List.length_append, List.length_singleton] at hd
    rcases Nat.lt_or_ge d st.S.length with hlt | hge
    · rw [level_append_lt _ _ _ hlt]
      exact hI.nonempty d hlt
    · have hd2 : d = st.S.length := by omega
      subst hd2
      rw [level_append_eq, nvals_pos_iff]
      rw [hI.size_eq, nvals_pos_iff] at hpos
      obtain ⟨i, j, hij⟩ := hpos
      exact ⟨i, j, by rw [pattern_has]; exact hij⟩
  · show (st.S ++ [LAGraph_Pattern st.frontier]).length = st.depth + 1
    rw [List.length_append, hI.S_length]
    rfl

theorem bfs_loop_safe (p : Policy) (A AT : Matrix α) (ns n : Nat) (fuel : Nat)
    (st st2 : BFSState) (hI : FwdSafe st) (h : bfs_loop p A AT ns n fuel st = .ok st2) :
    FwdSafe st2 :=
  bfs_loop_induct p A AT ns n FwdSafe
    (fun s s2 hs hg hstep => bfs_step_safe p A AT ns n s s2 hs hg.1 hstep) fuel st st2 hI h

theorem bfs_stage_cases (p : Policy) (A AT : Matrix α) (sources : List Nat) (st : BFSState)
    (h : bfs_stage p A AT sources = .ok st) :
    ∃ st0, bfs_init A sources = .ok st0
      ∧ bfs_loop p A AT sources.length A.nrows A.nrows st0 = .ok st := by
  unfold bfs_stage at h
  cases hi : bfs_init A sources with
  | error e => rw [hi] at h; cases h
  | ok st0 =>
    rw [hi] at h
    exact ⟨st0, rfl, h⟩

/-- On every input the forward sweep, when it succeeds, ends in a safe state. -/
theorem bfs_stage_safe (p : Policy) (A AT : Matrix α) (sources : List Nat) (st : BFSState)
    (h : bfs_stage p A AT sources = .ok st) : FwdSafe st := by
  obtain ⟨st0, hi, hl⟩ := bfs_stage_cases p A AT sources st h
  exact bfs_loop_safe p A AT _ _ _ st0 st (bfs_init_safe A sources st0 hi) hl

theorem nvals_no_rows (M : Matrix α) (h : M.nrows = 0) : GrB_Matrix_nvals M = 0 := by
  unfold GrB_Matrix_nvals
  rw [h]
  rfl

theorem bfs_loop_done (p : Policy) (A AT : Matrix α) (ns n fuel : Nat) (st : BFSState)
    (h : st.frontier_size = 0) : bfs_loop p A AT ns n fuel st = .ok st := by
  cases fuel with
  | zero => rfl
  | succ k =>
    unfold bfs_loop
    rw [if_neg]
    omega

/-- With no source the forward sweep makes no pass: the frontier is empty from the
start. -/
theorem bfs_stage_no_sources (p : Policy) (A AT : Matrix α) (h : A.ncols = A.nrows) :
    ∃ st, bfs_stage p A AT [] = .ok st ∧ st.depth = 0 ∧ st.S = [] ∧ st.frontier_size = 0 := by
  have hm := mxm_ok (GrB_Matrix_new 0 A.nrows : Matrix ℚ) (GrB_Matrix_new 0 A.nrows : Matrix ℚ)
    (GrB_Matrix_new 0 A.nrows : Matrix ℚ) A GrB_DESC_RSC rfl h.symm rfl rfl rfl
  have hi : bfs_init A [] = .ok
      { frontier := Matrix.build 0 A.nrows fun i j =>
          write_entry ((GrB_Matrix_new 0 A.nrows : Matrix ℚ).has i j != GrB_DESC_RSC.comp)
            GrB_DESC_RSC.replace ((GrB_Matrix_new 0 A.nrows : Matrix ℚ).get i j)
            (plus_first_dot (GrB_Matrix_new 0 A.nrows : Matrix ℚ)
              (A.has_t GrB_DESC_RSC.tran1) i j),
        paths := GrB_Matrix_new 0 A.nrows, S := [], depth := 0,
        frontier_size := 0, last_frontier_size := 0, last_was_pull := false } := by
    rw [bfs_init_unfold]
    show (Except.ok ((GrB_Matrix_new 0 A.nrows : Matrix ℚ), (GrB_Matrix_new 0 A.nrows : Matrix ℚ))
      : Except GrB_Info _).bind _ = _
    simp only [Except.bind]
    have hm2 : GrB_mxm (GrB_Matrix_new 0 A.nrows : Matrix ℚ)
        (some (GrB_Matrix_new 0 A.nrows : Matrix ℚ)) (GrB_Matrix_new 0 A.nrows : Matrix ℚ) A
        GrB_DESC_RSC = _ := hm
    rw [hm2]
    simp only [Except.bind]
    congr 2
  have hs : ∀ st0 : BFSState, bfs_init A [] = .ok st0 → st0.frontier_size = 0 →
      st0.depth = 0 → st0.S = [] →
      ∃ st, bfs_stage p A AT [] = .ok st ∧ st.depth = 0 ∧ st.S = [] ∧ st.frontier_size = 0 := by
    intro st0 h0 h1 h2 h3
    refine ⟨st0, ?_, h2, h3, h1⟩
    unfold bfs_stage
    rw [h0]
    exact bfs_loop_done p A AT _ _ _ _ h1
  exact hs _ hi rfl rfl rfl

/-- With no source and a square `A` every engine call succeeds and the result is the
vector of `n` zeros. -/
theorem compute_no_sources (p : Policy) (A AT : Matrix α) (h : A.ncols = A.nrows) :
    compute p A AT [] = .ok ((List.range A.nrows).map fun _ => some 0) := by
  obtain ⟨st, hst, hd, _, _⟩ := bfs_stage_no_sources p A AT h
  unfold compute
  rw [hst]
  show bc_stage p A AT 0 st = _
  unfold bc_stage
  rw [hd]
  show finalize 0 A.nrows (bc_init 0 A.nrows).bc_update = _
  unfold finalize GrB_reduce
  have hlen : (GrB_Vector_assign_scalar (GrB_Vector_new A.nrows) (-((0 : Nat) : ℚ))).length
      = A.nrows := by
    simp [GrB_Vector_assign_scalar, GrB_Vector_new]
  rw [if_pos (by rw [hlen]; rfl), hlen]
  congr 1
  apply List.map_congr_left
  intro j hj
  rw [List.mem_range] at hj
  have hw : (GrB_Vector_assign_scalar (GrB_Vector_new A.nrows) (-((0 : Nat) : ℚ))).getD j none
      = some 0 := by
    simp [GrB_Vector_assign_scalar, GrB_Vector_new, List.getD_eq_getElem?_getD, hj]
  have hc : (bc_init 0 A.nrows).bc_update.ncols_t GrB_DESC_T0.tran0 = 0 := rfl
  rw [hw, hc]
  rfl

/-- When a square `A` is not given, the initial product reports a dimension mismatch
with no source as with any. -/
theorem compute_no_sources_not_square (p : Policy) (A AT : Matrix α) (h : A.ncols ≠ A.nrows) :
    compute p A AT [] = .error .GrB_DIMENSION_MISMATCH := by
  have hm : GrB_mxm (GrB_Matrix_new 0 A.nrows : Matrix ℚ)
      (some (GrB_Matrix_new 0 A.nrows : Matrix ℚ)) (GrB_Matrix_new 0 A.nrows : Matrix ℚ) A
      GrB_DESC_RSC = .error .GrB_DIMENSION_MISMATCH := by
    unfold GrB_mxm
    rw [if_neg]
    rintro ⟨_, h2, _⟩
    exact h (Eq.symm h2)
  unfold compute bfs_stage
  rw [bfs_init_unfold]
  simp only [init_sources, Except.bind, List.length_nil]
  rw [hm]

theorem path5_well_formed (sources : List Nat) (h : ∀ s, s ∈ sources → s < 5) :
    select_AT path5 = some path5.A ∧ WellFormed path5.A path5.A sources := by
  refine ⟨rfl, rfl, ?_, h⟩
  apply transpose_pattern_of_build
  intro i j
  by_cases h1 : i + 1 = j ∨ j + 1 = i
  · have h2 : j + 1 = i ∨ i + 1 = j := h1.symm
    simp [h1, h2]
  · have h2 : ¬ (j + 1 = i ∨ i + 1 = j) := fun h => h1 h.symm
    simp [h1, h2]

/-- A vertex is first reached with one edge exactly when it is a successor of the source
other than the source itself. -/
theorem first_at_one_iff (adj : Nat → Nat → Bool) (n s t : Nat) (hs : s < n) :
    first_at adj n s 1 t ↔ (adj s t = true ∧ t ≠ s) := by
  unfold first_at
  rw [walk_count_one adj n s t hs]
  constructor
  · rintro ⟨h1, h2⟩
    have h0 := h2 0 (by omega)
    rw [walk_count_zero] at h0
    constructor
    · by_contra hc
      rw [if_neg hc] at h1
      omega
    · intro hts
      rw [if_pos hts] at h0
      omega
  · rintro ⟨h1, h2⟩
    refine ⟨by rw [if_pos h1]; omega, ?_⟩
    intro j hj
    have hj0 : j = 0 := by omega
    subst hj0
    rw [walk_count_zero, if_neg h2]

/-- On well-formed inputs the level pattern `S[d]` stores exactly the vertices at distance
`d+1` from the source of its row. -/
theorem level_dist {A : Matrix α} {sources : List Nat} {d : Nat} {st : BFSState}
    (h : FwdInv A sources d st) {j i v : Nat} (hj : j < d) (hi : i < sources.length)
    (hv : v < A.nrows) :
    (level st.S j).has i v = true
      ↔ dist? A.has A.nrows (sources.getD i 0) v = some (j + 1) := by
  rw [(h.S_ok j hj).2.2 i v hi hv, dist?_eq_some_iff]
  constructor
  · intro hf
    exact ⟨first_at_lt _ _ _ hf hv, hf⟩
  · exact fun hf => hf.2

theorem bfs_step_fresh (p : Policy) (A AT : Matrix α) (ns n : Nat) (st st2 : BFSState)
    (hs : bfs_step p A AT ns n st = .ok st2) (i j : Nat) (hij : st2.frontier.has i j = true) :
    st2.paths.has i j = false := by
  obtain ⟨paths, fr, B, desc, lw, _, hr, hc, hm, hst⟩ := bfs_step_cases p A AT ns n st st2 hs
  subst hst
  exact mxm_fresh hr hc hm i j hij

theorem ok_and_iff {ε σ : Type} (e : Except ε σ) (P : σ → Bool) :
    ok_and e P = true ↔ ∃ s, e = .ok s ∧ P s = true := by
  cases e with
  | error x => simp [ok_and]
  | ok s => simp [ok_and]

/-- On well-formed inputs with at least one vertex the forward loop is left with an empty
frontier, before `depth` reaches `n`, and every recorded level is non-empty. -/
theorem forward_ends_empty (p : Policy) {A AT : Matrix α} {sources : List Nat}
    (hwf : WellFormed A AT sources) (hn : 0 < A.nrows) :
    ∃ st, bfs_stage p A AT sources = .ok st
      ∧ st.frontier_size = 0 ∧ GrB_Matrix_nvals st.frontier = 0
      ∧ st.depth < A.nrows ∧ st.S.length = st.depth
      ∧ ∀ d, d < st.depth → 0 < GrB_Matrix_nvals (level st.S d) := by
  obtain ⟨st, d, hstage, hfwd, _, hend⟩ := bfs_stage_inv p hwf
  have hsafe := bfs_stage_safe p A AT sources st hstage
  have hsize : st.frontier_size = 0 := by
    rcases hend with h | h
    · exact h
    · rw [hsafe.size_eq, nvals_eq_zero_iff]
      intro i j
      cases hh : st.frontier.has i j
      · rfl
      · exfalso
        obtain ⟨hi, hj⟩ := Matrix.has_lt hh
        rw [hfwd.frontier_ok.1] at hi
        rw [hfwd.frontier_ok.2.1] at hj
        have hg := hfwd.frontier_ok.2.2 i j hi hj
        have hf : first_at A.has A.nrows (sources.getD i 0) (d + 1) j := by
          by_contra hc
          rw [if_neg hc] at hg
          have : st.frontier.has i j = false := by
            show (st.frontier.get i j).isSome = false
            rw [hg]; rfl
          rw [this] at hh
          cases hh
        have := first_at_lt _ _ _ hf hj
        omega
  refine ⟨st, hstage, hsize, ?_, ?_, hsafe.S_length, ?_⟩
  · rw [← hsafe.size_eq]; exact hsize
  · rw [hfwd.depth_eq]
    cases d with
    | zero => exact hn
    | succ k =>
      have hpos := hsafe.nonempty k (by rw [hfwd.S_length]; omega)
      rw [nvals_pos_iff] at hpos
      obtain ⟨i, j, hij⟩ := hpos
      have hk := hfwd.S_ok k (by omega)
      obtain ⟨hi, hj⟩ := Matrix.has_lt hij
      rw [hk.1] at hi
      rw [hk.2.1] at hj
      have hf := (hk.2.2 i j hi hj).mp hij
      exact first_at_lt _ _ _ hf hj
  · intro k hk
    exact hsafe.nonempty k (by rw [hsafe.S_length]; exact hk)

theorem bc_loop_eq_run (p : Policy) (A AT : Matrix α) (paths : Matrix ℚ)
    (S : List (Matrix Bool)) (ns n : Nat) (i : Nat) :
    ∀ st, bc_loop p A AT paths S ns n i st = bc_run p A AT paths S ns n i i st := by
  induction i with
  | zero => intro st; rfl
  | succ k ih =>
    intro st
    show (bc_step p A AT paths S ns n (k + 1) st).bind (bc_loop p A AT paths S ns n k)
      = (bc_step p A AT paths S ns n (k + 1) st).bind (bc_run p A AT paths S ns n (k + 1 - 1) k)
    have : bc_loop p A AT paths S ns n k = bc_run p A AT paths S ns n (k + 1 - 1) k := by
      funext s
      rw [Nat.add_sub_cancel]
      exact ih s
    rw [this]

/-- The shape of a successful pass of the backward loop. -/
theorem bc_step_cases (p : Policy) (A AT : Matrix α) (paths : Matrix ℚ)
    (S : List (Matrix Bool)) (ns n i : Nat) (st st2 : BCState)
    (hs : bc_step p A AT paths S ns n i st = .ok st2) :
    ∃ (W1 W2 bc2 : Matrix ℚ) (B : Matrix α) (desc : GrB_Descriptor),
      GrB_eWiseMult st.W (some (level S i)) none (· / ·) st.bc_update paths GrB_DESC_RS = .ok W1
      ∧ desc.replace = true ∧ desc.comp = false
      ∧ GrB_mxm W1 (some (level S (i - 1))) W1 B desc = .ok W2
      ∧ GrB_eWiseMult st.bc_update (none : Option (Matrix Bool)) (some (· + ·)) (· * ·) W2 paths
          GrB_DESC_NULL = .ok bc2
      ∧ st2 = { bc_update := bc2, W := W2 } := by
  unfold bc_step at hs
  cases h1 : GrB_eWiseMult st.W (some (level S i)) none (fun x1 x2 => x1 / x2) st.bc_update paths
      GrB_DESC_RS with
  | error e => rw [h1] at hs; cases hs
  | ok W1 =>
    rw [h1] at hs
    simp only [bind, Except.bind] at hs
    split at hs
    · cases h2 : GrB_mxm W1 (some (level S (i - 1))) W1 A GrB_DESC_RST1 with
      | error e => rw [h2] at hs; cases hs
      | ok W2 =>
        rw [h2] at hs
        simp only at hs
        cases h3 : GrB_eWiseMult st.bc_update (none : Option (Matrix Bool))
            (some fun x1 x2 => x1 + x2) (fun x1 x2 => x1 * x2) W2 paths GrB_DESC_NULL with
        | error e => rw [h3] at hs; cases hs
        | ok bc2 =>
          rw [h3] at hs
          simp only [pure, Except.pure, Except.ok.injEq] at hs
          exact ⟨W1, W2, bc2, A, _, rfl, rfl, rfl, h2, h3, hs.symm⟩
    · cases h2 : GrB_mxm W1 (some (level S (i - 1))) W1 AT GrB_DESC_RS with
      | error e => rw [h2] at hs; cases hs
      | ok W2 =>
        rw [h2] at hs
        simp only at hs
        cases h3 : GrB_eWiseMult st.bc_update (none : Option (Matrix Bool))
            (some fun x1 x2 => x1 + x2) (fun x1 x2 => x1 * x2) W2 paths GrB_DESC_NULL with
        | error e => rw [h3] at hs; cases hs
        | ok bc2 =>
          rw [h3] at hs
          simp only [pure, Except.pure, Except.ok.injEq] at hs
          exact ⟨W1, W2, bc2, AT, _, rfl, rfl, rfl, h2, h3, hs.symm⟩

theorem eWiseMult_get {C A B R : Matrix ℚ} {M : Option (Matrix μ)}
    {accum : Option (ℚ → ℚ → ℚ)} {op : ℚ → ℚ → ℚ} {desc : GrB_Descriptor}
    (h : GrB_eWiseMult C M accum op A B desc = .ok R) (i j : Nat) :
    R.nrows = C.nrows ∧ R.ncols = C.ncols ∧ C.nrows = A.nrows ∧ C.ncols = A.ncols
      ∧ C.nrows = B.nrows ∧ C.ncols = B.ncols ∧ mask_fits M C.nrows C.ncols = true
      ∧ R.get i j = if i < C.nrows ∧ j < C.ncols then
          write_entry (mask_allows M desc i j) desc.replace (C.get i j)
            (accum_entry accum (C.get i j) (ewise_entry op (A.get i j) (B.get i j)))
        else none := by
  unfold GrB_eWiseMult at h
  split at h
  · rename_i hd
    simp only [Except.ok.injEq] at h
    subst h
    exact ⟨rfl, rfl, hd.1, hd.2.1, hd.2.2.1, hd.2.2.2.1, hd.2.2.2.2, Matrix.get_build _ _ _ _ _⟩
  · cases h

theorem bc_init_full (ns n : Nat) : matrix_full (bc_init ns n).bc_update := by
  intro r v hr hv
  show ((Matrix.build ns n fun _ _ => some (1 : ℚ)).get r v).isSome = true
  rw [Matrix.get_build, if_pos ⟨hr, hv⟩]
  rfl

/-- `bc_update += W .* paths` keeps every entry of `bc_update`. -/
theorem update_full {bc W paths bc2 : Matrix ℚ} (hfull : matrix_full bc)
    (h : GrB_eWiseMult bc (none : Option (Matrix Bool)) (some (· + ·)) (· * ·) W paths
      GrB_DESC_NULL = .ok bc2) : matrix_full bc2 := by
  intro r v hr hv
  have hg := eWiseMult_get h r v
  rw [hg.1] at hr
  rw [hg.2.1] at hv
  show (bc2.get r v).isSome = true
  rw [hg.2.2.2.2.2.2.2, if_pos ⟨hr, hv⟩]
  have hb := hfull r v hr hv
  cases hc : bc.get r v with
  | none =>
    have : bc.has r v = false := by
      show (bc.get r v).isSome = false
      rw [hc]; rfl
    rw [this] at hb
    cases hb
  | some c =>
    unfold write_entry mask_allows accum_entry
    simp only [if_true]
    cases ewise_entry (fun x1 x2 => x1 * x2) (W.get r v) (paths.get r v) <;> rfl

theorem bc_step_full (p : Policy) (A AT : Matrix α) (paths : Matrix ℚ)
    (S : List (Matrix Bool)) (ns n i : Nat) (st st2 : BCState)
    (hfull : matrix_full st.bc_update)
    (hs : bc_step p A AT paths S ns n i st = .ok st2) : matrix_full st2.bc_update := by
  obtain ⟨W1, W2, bc2, B, desc, _, _, _, _, h3, hst⟩ := bc_step_cases p A AT paths S ns n i st st2 hs
  subst hst
  exact update_full hfull h3

theorem bc_run_full (p : Policy) (A AT : Matrix α) (paths : Matrix ℚ)
    (S : List (Matrix Bool)) (ns n : Nat) (k : Nat) :
    ∀ (i : Nat) (st st2 : BCState), matrix_full st.bc_update →
      bc_run p A AT paths S ns n i k st = .ok st2 → matrix_full st2.bc_update := by
  induction k with
  | zero =>
    intro i st st2 hfull h
    simp only [bc_run, Except.ok.injEq] at h
    subst h
    exact hfull
  | succ k ih =>
    intro i st st2 hfull h
    unfold bc_run at h
    cases hs : bc_step p A AT paths S ns n i st with
    | error e => rw [hs] at h; cases h
    | ok s1 =>
      rw [hs] at h
      exact ih (i - 1) s1 st2 (bc_step_full p A AT paths S ns n i st s1 hfull hs) h

/-- After the masked division `W<Sx> = bc ./ paths` with a full `bc` and a mask inside the
pattern of `paths`, the pattern of `W` is exactly that of the mask. -/
theorem division_pattern {W bc paths W1 : Matrix ℚ} {Sx : Matrix Bool}
    (hfull : matrix_full bc) (hrec : ∀ r v, Sx.has r v = true → paths.has r v = true)
    (h : GrB_eWiseMult W (some Sx) none (· / ·) bc paths GrB_DESC_RS = .ok W1) (r v : Nat) :
    W1.has r v = true ↔ Sx.has r v = true := by
  constructor
  · intro hw
    have := eWiseMult_masked rfl h r v hw
    simp only [mask_allows] at this
    cases hs : Sx.has r v
    · rw [hs] at this
      cases this
    · rfl
  · intro hs
    have hg := eWiseMult_get h r v
    have hfit := hg.2.2.2.2.2.2.1
    simp only [mask_fits, decide_eq_true_eq] at hfit
    obtain ⟨hr, hv⟩ := Matrix.has_lt hs
    rw [hfit.1] at hr
    rw [hfit.2] at hv
    have hb := hfull r v (by rw [← hg.2.2.1]; exact hr) (by rw [← hg.2.2.2.1]; exact hv)
    have hp := hrec r v hs
    show (W1.get r v).isSome = true
    rw [hg.2.2.2.2.2.2.2, if_pos ⟨hr, hv⟩]
    have hb2 : (bc.get r v).isSome = true := hb
    have hp2 : (paths.get r v).isSome = true := hp
    cases hbc : bc.get r v with
    | none => rw [hbc] at hb2; cases hb2
    | some b =>
      cases hpp : paths.get r v with
      | none => rw [hpp] at hp2; cases hp2
      | some x =>
        simp [write_entry, mask_allows, hs, GrB_DESC_RS, accum_entry, ewise_entry]

/-- After a masked product with replace and a mask that is not complemented the result
lies inside the mask. -/
theorem mxm_inside {C F R : Matrix ℚ} {Sx : Matrix Bool} {B : Matrix β}
    {desc : GrB_Descriptor} (hr : desc.replace = true) (hc : desc.comp = false)
    (h : GrB_mxm C (some Sx) F B desc = .ok R) (r v : Nat) (hw : R.has r v = true) :
    Sx.has r v = true := by
  have := mxm_masked hr h r v hw
  simp only [mask_allows, hc] at this
  cases hs : Sx.has r v
  · rw [hs] at this
    cases this
  · rfl

theorem except_bind_eq_ok {ε σ τ : Type} (e : Except ε σ) (f : σ → Except ε τ) (y : τ) :
    e.bind f = .ok y ↔ ∃ x, e = .ok x ∧ f x = .ok y := by
  cases e with
  | error x => simp [Except.bind]
  | ok s => simp [Except.bind]

theorem GrB_TRY_eq_ok {σ : Type} (fault : Option GrB_Info) (call : Except GrB_Info σ) (x : σ) :
    GrB_TRY fault call = .ok x ↔ fault = none ∧ call = .ok x := by
  cases fault with
  | some info => simp [GrB_TRY]
  | none =>
    cases call with
    | error e => simp [GrB_TRY]
    | ok s => simp [GrB_TRY]

theorem LAGraph_TRY_eq_ok {σ : Type} (fault : Option GrB_Info) (r x : σ) :
    LAGraph_TRY fault r = .ok x ↔ fault = none ∧ r = x := by
  cases fault with
  | some info => simp [LAGraph_TRY]
  | none => simp [LAGraph_TRY]

theorem init_sources_detail_ok (fault : Site → Option GrB_Info) (sources : List Nat) :
    ∀ (i : Nat) (P F : Matrix ℚ) (pf : Matrix ℚ × Matrix ℚ),
      init_sources_detail fault sources i P F = .ok pf → init_sources sources i P F = .ok pf := by
  induction sources with
  | nil =>
    intro i P F pf h
    simp only [init_sources_detail, Except.ok.injEq] at h
    simp only [init_sources, h]
  | cons s rest ih =>
    intro i P F pf h
    unfold init_sources_detail at h
    simp only [except_bind_eq_ok, GrB_TRY_eq_ok] at h
    obtain ⟨P1, ⟨_, h1⟩, F1, ⟨_, h2⟩, h3⟩ := h
    unfold init_sources
    rw [h1, h2]
    exact ih (i + 1) P1 F1 pf h3

/-- A successful initialisation of the function with its resources is a successful
initialisation of the first transcription, with `S` freshly allocated and `S [0] = NULL`. -/
theorem bfs_init_detail_ok (fault : Site → Option GrB_Info) (A : Matrix α) (sources : List Nat)
    (d : BFSDetail) (h : bfs_init_detail fault A sources = .ok d) :
    bfs_init A sources = .ok d.st
      ∧ d.S_array = (List.replicate (A.nrows + 1) Slot.unwritten).set 0 .null
      ∧ d.writes = [0] := by
  unfold bfs_init_detail at h
  simp only [except_bind_eq_ok, GrB_TRY_eq_ok, Except.ok.injEq] at h
  obtain ⟨n, ⟨_, hn⟩, P0, ⟨_, hP0⟩, F0, ⟨_, hF0⟩, _, _, pf, hpf, fr, ⟨_, hm⟩, S, hS, fs,
    ⟨_, hfs⟩, hd⟩ := h
  subst hn hP0 hF0 hfs hd
  have hS2 : S = List.replicate (A.nrows + 1) Slot.unwritten := by
    split at hS
    · cases hS
    · simp only [Except.ok.injEq] at hS
      exact hS.symm
  subst hS2
  refine ⟨?_, rfl, rfl⟩
  rw [bfs_init_unfold, init_sources_detail_ok fault sources 0 _ _ pf hpf]
  simp only [Except.bind]
  rw [hm]

/-- A successful pass of the function with its resources is a successful pass of the
first transcription, with the two writes `S [depth+1] = NULL` and `S [depth] = pattern`. -/
theorem bfs_step_detail_ok (fault : Site → Option GrB_Info) (p : Policy) (A AT : Matrix α)
    (ns n : Nat) (d d2 : BFSDetail) (h : bfs_step_detail fault p A AT ns n d = .ok d2) :
    bfs_step p A AT ns n d.st = .ok d2.st
      ∧ d2.S_array = (d.S_array.set (d.st.depth + 1) .null).set d.st.depth
          (.pattern (LAGraph_Pattern d.st.frontier))
      ∧ d2.writes = d.writes ++ [d.st.depth + 1, d.st.depth] := by
  unfold bfs_step_detail at h
  simp only [except_bind_eq_ok, GrB_TRY_eq_ok, LAGraph_TRY_eq_ok, Except.ok.injEq] at h
  obtain ⟨Sd, ⟨_, hSd⟩, paths, ⟨_, ha⟩, _, _, fr, ⟨_, hm⟩, fs, ⟨_, hfs⟩, hd⟩ := h
  subst hSd hfs hd
  refine ⟨?_, rfl, rfl⟩
  unfold bfs_step
  rw [ha]
  simp only [bind, Except.bind]
  split
  · rename_i hp
    rw [if_pos hp] at hm
    rw [hm]
    rfl
  · rename_i hp
    rw [if_neg hp] at hm
    rw [hm]
    rfl

theorem bfs_loop_detail_ok (fault : Site → Option GrB_Info) (p : Policy) (A AT : Matrix α)
    (ns n : Nat) (fuel : Nat) :
    ∀ d d2 : BFSDetail, bfs_loop_detail fault p A AT ns n fuel d = .ok d2 →
      bfs_loop p A AT ns n fuel d.st = .ok d2.st := by
  induction fuel with
  | zero =>
    intro d d2 h
    simp only [bfs_loop_detail, Except.ok.injEq] at h
    subst h
    rfl
  | succ k ih =>
    intro d d2 h
    unfold bfs_loop_detail at h
    unfold bfs_loop
    split at h
    · rename_i hg
      rw [if_pos hg]
      rw [except_bind_eq_ok] at h
      obtain ⟨d1, h1, h2⟩ := h
      rw [(bfs_step_detail_ok fault p A AT ns n d d1 h1).1]
      exact ih d1 d2 h2
    · rename_i hg
      rw [if_neg hg]
      simp only [Except.ok.injEq] at h
      subst h
      rfl

theorem bfs_stage_detail_ok (fault : Site → Option GrB_Info) (p : Policy) (A AT : Matrix α)
    (sources : List Nat) (d : BFSDetail) (h : bfs_stage_detail fault p A AT sources = .ok d) :
    bfs_stage p A AT sources = .ok d.st := by
  unfold bfs_stage_detail at h
  rw [except_bind_eq_ok] at h
  obtain ⟨d0, h0, h1⟩ := h
  unfold bfs_stage
  rw [(bfs_init_detail_ok fault A sources d0 h0).1]
  exact bfs_loop_detail_ok fault p A AT _ _ _ d0 d h1

theorem bfs_init_detail_inv (fault : Site → Option GrB_Info) (A : Matrix α)
    (sources : List Nat) (d : BFSDetail) (h : bfs_init_detail fault A sources = .ok d) :
    ArrayInv A.nrows d := by
  obtain ⟨h1, h2, h3⟩ := bfs_init_detail_ok fault A sources d h
  obtain ⟨P, F, fr, _, _, hst⟩ := bfs_init_cases A sources d.st h1
  have hdepth : d.st.depth = 0 := by rw [hst]
  have hS : d.st.S = [] := by rw [hst]
  refine ⟨?_, ?_, ?_, ?_, ?_, ?_⟩
  · rw [h2]; simp
  · rw [hdepth]; omega
  · intro j hj
    rw [hdepth] at hj
    omega
  · rw [hdepth, h2]
    simp [List.get?_eq_getElem?]
  · intro w hw
    rw [h3] at hw
    simp only [List.mem_singleton] at hw
    omega
  · rw [hS, hdepth]; rfl

theorem bfs_step_detail_inv (fault : Site → Option GrB_Info) (p : Policy) (A AT : Matrix α)
    (ns n : Nat) (d d2 : BFSDetail) (hI : ArrayInv n d) (hg : d.st.depth < n)
    (h : bfs_step_detail fault p A AT ns n d = .ok d2) : ArrayInv n d2 := by
  obtain ⟨h1, h2, h3⟩ := bfs_step_detail_ok fault p A AT ns n d d2 h
  obtain ⟨paths, fr, B, desc, lw, _, _, _, _, hst⟩ := bfs_step_cases p A AT ns n d.st d2.st h1
  have hdepth : d2.st.depth = d.st.depth + 1 := by rw [hst]
  have hS : d2.st.S = d.st.S ++ [LAGraph_Pattern d.st.frontier] := by rw [hst]
  have hsize := hI.size
  refine ⟨?_, ?_, ?_, ?_, ?_, ?_⟩
  · rw [h2]; simp [hsize]
  · rw [hdepth]; omega
  · intro j hj
    rw [hdepth] at hj
    rw [h2, hS]
    rcases Nat.lt_or_ge j d.st.depth with hlt | hge
    · rw [level_append_lt _ _ _ (by rw [hI.S_length]; exact hlt), ← hI.recorded j hlt]
      simp only [List.get?_eq_getElem?]
      rw [List.getElem?_set_ne (by omega), List.getElem?_set_ne (by omega)]
    · have hj2 : j = d.st.depth := by omega
      subst hj2
      have := level_append_eq d.st.S (LAGraph_Pattern d.st.frontier)
      rw [hI.S_length] at this
      rw [this]
      simp only [List.get?_eq_getElem?]
      rw [List.getElem?_set_self (by simp [hsize]; omega)]
  · rw [hdepth, h2]
    simp only [List.get?_eq_getElem?]
    rw [List.getElem?_set_ne (by omega), List.getElem?_set_self (by rw [hsize]; omega)]
  · intro w hw
    rw [h3] at hw
    simp only [List.mem_append, List.mem_cons, List.mem_singleton, List.not_mem_nil,
      or_false] at hw
    rcases hw with hw | hw | hw
    · exact hI.writes_le w hw
    · omega
    · omega
  · rw [hS, hdepth, List.length_append, hI.S_length]
    rfl

theorem bfs_loop_detail_inv (fault : Site → Option GrB_Info) (p : Policy) (A AT : Matrix α)
    (ns n : Nat) (fuel : Nat) :
    ∀ d d2 : BFSDetail, ArrayInv n d → bfs_loop_detail fault p A AT ns n fuel d = .ok d2 →
      ArrayInv n d2 := by
  induction fuel with
  | zero =>
    intro d d2 hI h
    simp only [bfs_loop_detail, Except.ok.injEq] at h
    subst h
    exact hI
  | succ k ih =>
    intro d d2 hI h
    unfold bfs_loop_detail at h
    split at h
    · rename_i hg
      rw [except_bind_eq_ok] at h
      obtain ⟨d1, h1, h2⟩ := h
      exact ih d1 d2 (bfs_step_detail_inv fault p A AT ns n d d1 hI hg.2 h1) h2
    · simp only [Except.ok.injEq] at h
      subst h
      exact hI

theorem bfs_stage_detail_inv (fault : Site → Option GrB_Info) (p : Policy) (A AT : Matrix α)
    (sources : List Nat) (d : BFSDetail) (h : bfs_stage_detail fault p A AT sources = .ok d) :
    ArrayInv A.nrows d := by
  unfold bfs_stage_detail at h
  rw [except_bind_eq_ok] at h
  obtain ⟨d0, h0, h1⟩ := h
  exact bfs_loop_detail_inv fault p A AT _ _ _ d0 d (bfs_init_detail_inv fault A sources d0 h0) h1

/-- On an array whose slots below `depth` hold patterns and whose slot `depth` holds
NULL, the release loop entered at `i <= depth` frees the indices `i .. depth-1` and reads
no other slot. -/
theorem release_loop_from (S : List Slot) (n depth : Nat)
    (hrec : ∀ j, j < depth → ∃ M, S.get? j = some (.pattern M))
    (hnull : S.get? depth = some .null) (fuel : Nat) :
    ∀ i, i ≤ depth → depth ≤ n → i + fuel = n →
      release_loop S fuel i = some ((List.range (depth - i)).map fun k => i + k) := by
  induction fuel with
  | zero =>
    intro i hi hd hn
    have : depth - i = 0 := by omega
    rw [this]
    rfl
  | succ k ih =>
    intro i hi hd hn
    unfold release_loop
    rcases Nat.lt_or_ge i depth with hlt | hge
    · obtain ⟨M, hM⟩ := hrec i hlt
      rw [hM]
      simp only
      rw [ih (i + 1) (by omega) hd (by omega)]
      have : depth - i = (depth - (i + 1)) + 1 := by omega
      rw [this, List.range_succ_eq_map]
      show some (i :: (List.range (depth - (i + 1))).map fun k => i + 1 + k)
        = some ((0 :: (List.range (depth - (i + 1))).map Nat.succ).map fun k => i + k)
      simp only [List.map_cons, List.map_map, Nat.add_zero, Option.some.injEq,
        List.cons.injEq, true_and]
      apply List.map_congr_left
      intro a _
      simp only [Function.comp]
      omega
    · have hid : i = depth := by omega
      subst hid
      rw [hnull]
      simp

/-- The release loop run from index 0 with bound `n` frees exactly the indices below
`depth`. -/
theorem release_loop_all (S : List Slot) (n depth : Nat) (hd : depth ≤ n)
    (hrec : ∀ j, j < depth → ∃ M, S.get? j = some (.pattern M))
    (hnull : S.get? depth = some .null) :
    release_loop S n 0 = some (List.range depth) := by
  rw [release_loop_from S n depth hrec hnull n 0 (by omega) hd (by omega)]
  simp

theorem GrB_TRY_none_ok {σ : Type} (x : σ) :
    GrB_TRY none (.ok x : Except GrB_Info σ) = .ok x := rfl

theorem GrB_TRY_none_error {σ : Type} (e : GrB_Info) :
    GrB_TRY none (.error e : Except GrB_Info σ) = .error (.grb_try e) := rfl

theorem GrB_TRY_none_bind {σ τ : Type} (e : Except GrB_Info σ) (f : σ → Except GrB_Info τ) :
    GrB_TRY none (e.bind f) = (GrB_TRY none e).bind fun x => GrB_TRY none (f x) := by
  cases e <;> rfl

theorem no_fault_apply (s : Site) : no_fault s = none := rfl

theorem init_sources_detail_no_fault (sources : List Nat) :
    ∀ (i : Nat) (P F : Matrix ℚ),
      init_sources_detail no_fault sources i P F = GrB_TRY none (init_sources sources i P F) := by
  induction sources with
  | nil => intro i P F; rfl
  | cons s rest ih =>
    intro i P F
    unfold init_sources_detail init_sources
    simp only [no_fault_apply, bind]
    cases h1 : GrB_Matrix_setElement P 1 i s with
    | error e => rfl
    | ok P1 =>
      cases h2 : GrB_Matrix_setElement F 1 i s with
      | error e => rfl
      | ok F1 =>
        simp only [GrB_TRY_none_ok, Except.bind]
        exact ih (i + 1) P1 F1

theorem bfs_init_detail_no_fault (A : Matrix α) (sources : List Nat) :
    bfs_init_detail no_fault A sources
      = (GrB_TRY none (bfs_init A sources)).bind fun st =>
          .ok { st := st, S_array := (List.replicate (A.nrows + 1) Slot.unwritten).set 0 .null,
                writes := [0] } := by
  unfold bfs_init_detail
  rw [bfs_init_unfold]
  simp only [no_fault_apply, GrB_TRY_none_ok, Except.bind, Option.isSome_none,
    Bool.false_eq_true, if_false]
  rw [init_sources_detail_no_fault]
  cases hi : init_sources sources 0 (GrB_Matrix_new sources.length A.nrows)
      (GrB_Matrix_new sources.length A.nrows) with
  | error e => rfl
  | ok pf =>
    simp only [GrB_TRY_none_ok, Except.bind]
    cases hm : GrB_mxm pf.2 (some pf.1) pf.2 A GrB_DESC_RSC with
    | error e => rfl
    | ok fr => rfl

theorem bfs_step_detail_no_fault (p : Policy) (A AT : Matrix α) (ns n : Nat) (d : BFSDetail) :
    bfs_step_detail no_fault p A AT ns n d
      = (GrB_TRY none (bfs_step p A AT ns n d.st)).bind fun st2 =>
          .ok { st := st2,
                S_array := (d.S_array.set (d.st.depth + 1) .null).set d.st.depth
                  (.pattern (LAGraph_Pattern d.st.frontier)),
                writes := d.writes ++ [d.st.depth + 1, d.st.depth] } := by
  unfold bfs_step_detail bfs_step
  simp only [no_fault_apply, LAGraph_TRY, GrB_TRY_none_ok, Except.bind, bind]
  cases ha : GrB_assign d.st.paths (some fun x1 x2 => x1 + x2) d.st.frontier with
  | error e => rfl
  | ok paths =>
    simp only [GrB_TRY_none_ok, Except.bind]
    by_cases hp : p.choose (forward_do_pull d.st.frontier_size ns n d.st.last_was_pull) = true
    · simp only [hp, if_true]
      cases hm : GrB_mxm d.st.frontier (some paths) d.st.frontier AT GrB_DESC_RSCT1 with
      | error e => rfl
      | ok fr => rfl
    · simp only [hp, Bool.false_eq_true, if_false]
      cases hm : GrB_mxm d.st.frontier (some paths) d.st.frontier A GrB_DESC_RSC with
      | error e => rfl
      | ok fr => rfl

/-- With no fault the forward loop of the function with its resources does what the
first transcription does, as far as any later use of the forward state can tell. -/
theorem bfs_loop_detail_no_fault {τ : Type} (p : Policy) (A AT : Matrix α) (ns n : Nat)
    (k : BFSState → Except Failure τ) (fuel : Nat) :
    ∀ d : BFSDetail,
      (bfs_loop_detail no_fault p A AT ns n fuel d).bind (fun d2 => k d2.st)
        = (GrB_TRY none (bfs_loop p A AT ns n fuel d.st)).bind k := by
  induction fuel with
  | zero => intro d; rfl
  | succ f ih =>
    intro d
    unfold bfs_loop_detail bfs_loop
    split
    · rw [bfs_step_detail_no_fault]
      cases hs : bfs_step p A AT ns n d.st with
      | error e => rfl
      | ok st2 =>
        simp only [GrB_TRY_none_ok, Except.bind]
        exact ih _
    · rfl

theorem bfs_stage_detail_no_fault {τ : Type} (p : Policy) (A AT : Matrix α)
    (sources : List Nat) (k : BFSState → Except Failure τ) :
    (bfs_stage_detail no_fault p A AT sources).bind (fun d2 => k d2.st)
      = (GrB_TRY none (bfs_stage p A AT sources)).bind k := by
  unfold bfs_stage_detail bfs_stage
  rw [bfs_init_detail_no_fault]
  cases hi : bfs_init A sources with
  | error e => rfl
  | ok st0 =>
    simp only [GrB_TRY_none_ok, Except.bind]
    exact bfs_loop_detail_no_fault p A AT _ _ k _ _

theorem bc_step_detail_no_fault (p : Policy) (A AT : Matrix α) (paths : Matrix ℚ)
    (S : List (Matrix Bool)) (ns n i : Nat) (st : BCState) :
    bc_step_detail no_fault p A AT paths S ns n i st
      = GrB_TRY none (bc_step p A AT paths S ns n i st) := by
  unfold bc_step_detail bc_step
  simp only [no_fault_apply, GrB_TRY_none_ok, Except.bind, bind]
  cases h1 : GrB_eWiseMult st.W (some (level S i)) none (fun x1 x2 => x1 / x2) st.bc_update paths
      GrB_DESC_RS with
  | error e => rfl
  | ok W1 =>
    simp only [GrB_TRY_none_ok, Except.bind]
    by_cases hp : p.choose (backward_do_pull (GrB_Matrix_nvals W1)
        (GrB_Matrix_nvals (level S (i - 1))) ns n) = true
    · simp only [hp, if_true]
      cases h2 : GrB_mxm W1 (some (level S (i - 1))) W1 A GrB_DESC_RST1 with
      | error e => rfl
      | ok W2 =>
        simp only [GrB_TRY_none_ok, Except.bind]
        cases h3 : GrB_eWiseMult st.bc_update (none : Option (Matrix Bool))
            (some fun x1 x2 => x1 + x2) (fun x1 x2 => x1 * x2) W2 paths GrB_DESC_NULL with
        | error e => rfl
        | ok bc2 => rfl
    · simp only [hp, Bool.false_eq_true, if_false]
      cases h2 : GrB_mxm W1 (some (level S (i - 1))) W1 AT GrB_DESC_RS with
      | error e => rfl
      | ok W2 =>
        simp only [GrB_TRY_none_ok, Except.bind]
        cases h3 : GrB_eWiseMult st.bc_update (none : Option (Matrix Bool))
            (some fun x1 x2 => x1 + x2) (fun x1 x2 => x1 * x2) W2 paths GrB_DESC_NULL with
        | error e => rfl
        | ok bc2 => rfl

theorem bc_loop_detail_no_fault (p : Policy) (A AT : Matrix α) (paths : Matrix ℚ)
    (S : List (Matrix Bool)) (ns n : Nat) (i : Nat) :
    ∀ st, bc_loop_detail no_fault p A AT paths S ns n i st
      = GrB_TRY none (bc_loop p A AT paths S ns n i st) := by
  induction i with
  | zero => intro st; rfl
  | succ k ih =>
    intro st
    unfold bc_loop_detail bc_loop
    rw [bc_step_detail_no_fault]
    cases hs : bc_step p A AT paths S ns n (k + 1) st with
    | error e => rfl
    | ok s1 =>
      simp only [GrB_TRY_none_ok, Except.bind]
      exact ih s1

theorem compute_detail_no_fault (p : Policy) (A AT : Matrix α) (sources : List Nat) :
    compute_detail no_fault p A AT sources
      = (GrB_TRY none (bfs_stage p A AT sources)).bind fun fwd =>
          (GrB_TRY none (bc_loop p A AT fwd.paths fwd.S sources.length A.nrows (fwd.depth - 1)
            (bc_init sources.length A.nrows))).bind fun st => .ok st.bc_update := by
  have key := bfs_stage_detail_no_fault p A AT sources (fun st =>
    (bc_loop_detail no_fault p A AT st.paths st.S sources.length A.nrows (st.depth - 1)
      { bc_update := GrB_assign_scalar (GrB_Matrix_new sources.length A.nrows) 1,
        W := GrB_Matrix_new sources.length A.nrows }).bind fun st => .ok st.bc_update)
  unfold compute_detail
  simp only [no_fault_apply, GrB_TRY_none_ok, Except.bind] at key ⊢
  rw [key]
  cases hs : bfs_stage p A AT sources with
  | error e => rfl
  | ok fwd =>
    simp only [GrB_TRY_none_ok]
    rw [bc_loop_detail_no_fault]
    rfl

theorem finalize_detail_no_fault (ns n : Nat) (bc : Matrix ℚ) :
    finalize_detail no_fault ns n bc none
      = Exit.of_outcome (Outcome.of_compute (finalize ns n bc)) := by
  unfold finalize_detail finalize
  simp only [no_fault_apply, GrB_TRY_none_ok]
  cases GrB_reduce (GrB_Vector_assign_scalar (GrB_Vector_new n) (-(ns : ℚ)))
      (some fun x1 x2 => x1 + x2) bc GrB_DESC_T0 with
  | error e => rfl
  | ok c => rfl

/-- With no fault the function with its resources ends as the first transcription does:
the same status, and the handle holds the returned vector, or NULL on a failure. -/
theorem detail_no_fault (p : Policy) (chk : LAGraph_Graph α → Int) (cnull : Bool)
    (G : LAGraph_Graph α) (sources : List Nat) :
    LAGraph_VertexCentrality_Betweenness_detail no_fault p chk cnull G sources
      = Exit.of_outcome (LAGraph_VertexCentrality_Betweenness_with p chk cnull G sources) := by
  unfold LAGraph_VertexCentrality_Betweenness_detail LAGraph_VertexCentrality_Betweenness_with
  cases cnull with
  | true => rfl
  | false =>
    simp only [Bool.false_eq_true, if_false]
    by_cases hc : chk G = 0
    · simp only [hc, ne_eq, not_true_eq_false, if_false]
      cases hsel : select_AT G with
      | none => rfl
      | some AT =>
        simp only
        rw [compute_detail_no_fault]
        unfold compute
        cases hs : bfs_stage p G.A AT sources with
        | error e => rfl
        | ok fwd =>
          simp only [GrB_TRY_none_ok, Except.bind]
          unfold bc_stage
          cases hb : bc_loop p G.A AT fwd.paths fwd.S sources.length G.A.nrows (fwd.depth - 1)
              (bc_init sources.length G.A.nrows) with
          | error e => rfl
          | ok st =>
            simp only [GrB_TRY_none_ok, Except.bind]
            exact finalize_detail_no_fault _ _ _
    · simp only [ne_eq, hc, not_false_eq_true, if_true]
      rfl

theorem fail_centrality (f : Failure) (c : Option GrB_Vector) :
    (Exit.fail f c).centrality = none := rfl

theorem fail_failure (f : Failure) (c : Option GrB_Vector) :
    (Exit.fail f c).failure = some f := rfl

/-- The finalisation either fails and leaves the handle NULL, or returns 0 with a
vector. -/
theorem finalize_detail_exit (fault : Site → Option GrB_Info) (ns n : Nat) (bc : Matrix ℚ)
    (c : Option GrB_Vector) :
    ((finalize_detail fault ns n bc c).failure ≠ none
        ∧ (finalize_detail fault ns n bc c).centrality = none)
      ∨ ((finalize_detail fault ns n bc c).failure = none
        ∧ (finalize_detail fault ns n bc c).centrality ≠ none) := by
  unfold finalize_detail
  cases h1 : GrB_TRY (fault .vector_new) (.ok (GrB_Vector_new n)) with
  | error f => left; exact ⟨by simp [fail_failure], rfl⟩
  | ok c0 =>
    simp only
    cases h2 : GrB_TRY (fault .vector_assign)
        (.ok (GrB_Vector_assign_scalar c0 (-(ns : ℚ)))) with
    | error f => left; exact ⟨by simp [fail_failure], rfl⟩
    | ok c1 =>
      simp only
      cases h3 : GrB_TRY (fault .reduce)
          (GrB_reduce c1 (some fun x1 x2 => x1 + x2) bc GrB_DESC_T0) with
      | error f => left; exact ⟨by simp [fail_failure], rfl⟩
      | ok c2 => right; exact ⟨rfl, by simp⟩

/-- Every exit of the function with its resources, the output pointer not NULL: a failure
with the handle NULL, or `return (0)` with a vector in the handle. -/
theorem detail_exit (fault : Site → Option GrB_Info) (p : Policy)
    (chk : LAGraph_Graph α → Int) (G : LAGraph_Graph α) (sources : List Nat) :
    ((LAGraph_VertexCentrality_Betweenness_detail fault p chk false G sources).failure ≠ none
        ∧ (LAGraph_VertexCentrality_Betweenness_detail fault p chk false G sources).centrality
            = none)
      ∨ ((LAGraph_VertexCentrality_Betweenness_detail fault p chk false G sources).failure = none
        ∧ (LAGraph_VertexCentrality_Betweenness_detail fault p chk false G sources).centrality
            ≠ none) := by
  unfold LAGraph_VertexCentrality_Betweenness_detail
  simp only [Bool.false_eq_true, if_false]
  by_cases hc : chk G = 0
  · simp only [hc, ne_eq, not_true_eq_false, if_false]
    cases hsel : select_AT G with
    | none => left; exact ⟨by simp [fail_failure], rfl⟩
    | some AT =>
      simp only
      cases hcomp : compute_detail fault p G.A AT sources with
      | error f => left; exact ⟨by simp [fail_failure], rfl⟩
      | ok bc => exact finalize_detail_exit fault _ _ bc none
  · simp only [ne_eq, hc, not_false_eq_true, if_true]
    left
    exact ⟨by simp [fail_failure], rfl⟩

/-- A run in which the last engine call fails for want of memory, after the output vector
was created and filled: the call returns a nonzero status and the handle is NULL. -/
theorem reduce_fault_example :
    LAGraph_VertexCentrality_Betweenness_detail
        (fun s => if s = Site.reduce then some .GrB_OUT_OF_MEMORY else none) .adaptive
        (fun _ => 0) false path5 [0, 1, 2, 3, 4]
      = { failure := some (.grb_try .GrB_OUT_OF_MEMORY), centrality := none } := by
  decide!

/-- A run in which the allocation of `S` fails: the LG_CHECK exit, the handle is NULL. -/
theorem malloc_fault_example :
    LAGraph_VertexCentrality_Betweenness_detail
        (fun s => if s = Site.malloc_S then some .GrB_OUT_OF_MEMORY else none) .adaptive
        (fun _ => 0) false path5 [0, 1, 2, 3, 4]
      = { failure := some (.lg_check (-1) "out of memory"), centrality := none } := by
  decide!

/-- Every index of `S` written so far lies inside the array. -/
theorem writes_lt_of_inv {n : Nat} {d : BFSDetail} (h : ArrayInv n d) :
    ∀ w, w ∈ d.writes → w < d.S_array.length := by
  intro w hw
  have := h.writes_le w hw
  rw [h.size]
  omega

theorem bfs_loop_detail_writes (fault : Site → Option GrB_Info) (p : Policy) (A AT : Matrix α)
    (ns n : Nat) (fuel : Nat) :
    ∀ d d2 : BFSDetail,
      d.writes = 0 :: (List.range d.st.depth).flatMap (fun k => [k + 1, k]) →
      bfs_loop_detail fault p A AT ns n fuel d = .ok d2 →
      d2.writes = 0 :: (List.range d2.st.depth).flatMap (fun k => [k + 1, k]) := by
  induction fuel with
  | zero =>
    intro d d2 hI h
    simp only [bfs_loop_detail, Except.ok.injEq] at h
    subst h
    exact hI
  | succ k ih =>
    intro d d2 hI h
    unfold bfs_loop_detail at h
    split at h
    · rw [except_bind_eq_ok] at h
      obtain ⟨d1, h1, h2⟩ := h
      apply ih d1 d2 _ h2
      obtain ⟨hs, _, hw⟩ := bfs_step_detail_ok fault p A AT ns n d d1 h1
      have hdepth := bfs_step_depth p A AT ns n d.st d1.st hs
      rw [hw, hdepth, hI, List.range_succ]
      simp
    · simp only [Except.ok.injEq] at h
      subst h
      exact hI

/-- The writes to `S` made up to the end of the forward loop, in order: `S [0]`, then
`S [k+1]` and `S [k]` in pass `k`, for the `depth` passes made. -/
theorem bfs_stage_detail_writes (fault : Site → Option GrB_Info) (p : Policy) (A AT : Matrix α)
    (sources : List Nat) (d : BFSDetail) (h : bfs_stage_detail fault p A AT sources = .ok d) :
    d.writes = 0 :: (List.range d.st.depth).flatMap (fun k => [k + 1, k]) := by
  unfold bfs_stage_detail at h
  rw [except_bind_eq_ok] at h
  obtain ⟨d0, h0, h1⟩ := h
  apply bfs_loop_detail_writes fault p A AT _ _ _ d0 d _ h1
  obtain ⟨hi, _, hw⟩ := bfs_init_detail_ok fault A sources d0 h0
  obtain ⟨P, F, fr, _, _, hst⟩ := bfs_init_cases A sources d0.st hi
  rw [hw, hst]
  rfl

theorem sum3_congr (n : Nat) (F G : Nat → Nat → Nat → Nat) (h : ∀ i j k, F i j k = G i j k) :
    sum3 n F = sum3 n G := by
  unfold sum3
  apply Finset.sum_congr rfl
  intro i _
  apply Finset.sum_congr rfl
  intro j _
  apply Finset.sum_congr rfl
  intro k _
  exact h i j k

theorem sum3_add (n : Nat) (F G : Nat → Nat → Nat → Nat) :
    sum3 n (fun i j k => F i j k + G i j k) = sum3 n F + sum3 n G := by
  unfold sum3
  simp only [Finset.sum_add_distrib]

theorem sum3_swap12 (n : Nat) (F : Nat → Nat → Nat → Nat) :
    sum3 n (fun i j k => F j i k) = sum3 n F := by
  unfold sum3
  exact Finset.sum_comm

theorem sum3_swap23 (n : Nat) (F : Nat → Nat → Nat → Nat) :
    sum3 n (fun i j k => F i k j) = sum3 n F := by
  unfold sum3
  apply Finset.sum_congr rfl
  intro i _
  exact Finset.sum_comm

theorem sum3_rot1 (n : Nat) (F : Nat → Nat → Nat → Nat) :
    sum3 n (fun i j k => F j k i) = sum3 n F := by
  rw [← sum3_swap23 n F]
  exact sum3_swap12 n (fun a b c => F a c b)

theorem sum3_rot2 (n : Nat) (F : Nat → Nat → Nat → Nat) :
    sum3 n (fun i j k => F k i j) = sum3 n F := by
  rw [← sum3_swap12 n F]
  exact sum3_swap23 n (fun a b c => F b a c)

theorem sum3_swap13 (n : Nat) (F : Nat → Nat → Nat → Nat) :
    sum3 n (fun i j k => F k j i) = sum3 n F := by
  rw [← sum3_rot2 n F]
  exact sum3_swap12 n (fun a b c => F c a b)

theorem masked_product_sum_eq (n : Nat) (X Y M : Nat → Nat → Bool) :
    masked_product_sum n X Y M
      = sum3 n fun i j k => if M i j = true ∧ X i k = true ∧ Y k j = true then 1 else 0 := by
  unfold masked_product_sum sum3 product_entry
  apply Finset.sum_congr rfl
  intro i _
  apply Finset.sum_congr rfl
  intro j _
  cases hM : M i j
  · rw [if_neg (by simp)]
    symm
    apply Finset.sum_eq_zero
    intro k _
    show (if M i j = true ∧ X i k = true ∧ Y k j = true then 1 else 0) = 0
    rw [if_neg]
    rintro ⟨h, _⟩
    rw [hM] at h
    cases h
  · rw [if_pos rfl]
    apply Finset.sum_congr rfl
    intro k _
    show (if (X i k && Y k j) = true then 1 else 0)
      = (if M i j = true ∧ X i k = true ∧ Y k j = true then 1 else 0)
    by_cases h : X i k = true ∧ Y k j = true
    · rw [if_pos (by simp [h.1, h.2]), if_pos ⟨hM, h⟩]
    · rw [if_neg (by simpa [Bool.and_eq_true] using h), if_neg (fun hh => h hh.2)]

theorem triangle_count_eq (n : Nat) (adj : Nat → Nat → Bool) :
    triangle_count n adj = sum3 n (ordered3 adj) := rfl

theorem ordered3_eq (adj : Nat → Nat → Bool) (a b c : Nat) :
    ordered3 adj a b c = (if a < b ∧ b < c then 1 else 0) * adjacent3 adj a b c := by
  unfold ordered3 adjacent3
  by_cases h1 : a < b ∧ b < c
  · by_cases h2 : adj a b = true ∧ adj b c = true ∧ adj a c = true
    · rw [if_pos ⟨h1.1, h1.2, h2⟩, if_pos h1, if_pos h2]
    · rw [if_neg (fun h => h2 h.2.2), if_neg h2, Nat.mul_zero]
  · rw [if_neg (fun h => h1 ⟨h.1, h.2.1⟩), if_neg h1, Nat.zero_mul]

theorem adjacent3_swap12 {adj : Nat → Nat → Bool} (hsym : ∀ i j, adj i j = adj j i)
    (i j k : Nat) : adjacent3 adj j i k = adjacent3 adj i j k := by
  unfold adjacent3
  rw [hsym j i]
  by_cases h : adj i j = true ∧ adj j k = true ∧ adj i k = true
  · rw [if_pos h, if_pos ⟨h.1, h.2.2, h.2.1⟩]
  · rw [if_neg h, if_neg (fun hh => h ⟨hh.1, hh.2.2, hh.2.1⟩)]

theorem adjacent3_swap23 {adj : Nat → Nat → Bool} (hsym : ∀ i j, adj i j = adj j i)
    (i j k : Nat) : adjacent3 adj i k j = adjacent3 adj i j k := by
  unfold adjacent3
  rw [hsym k j]
  by_cases h : adj i j = true ∧ adj j k = true ∧ adj i k = true
  · rw [if_pos h, if_pos ⟨h.2.2, h.2.1, h.1⟩]
  · rw [if_neg h, if_neg (fun hh => h ⟨hh.2.2, hh.2.1, hh.1⟩)]

theorem adjacent3_ne {adj : Nat → Nat → Bool} (hdiag : ∀ i, adj i i = false) (i j k : Nat)
    (h : adjacent3 adj i j k ≠ 0) : i ≠ j ∧ j ≠ k ∧ i ≠ k := by
  unfold adjacent3 at h
  by_cases hc : adj i j = true ∧ adj j k = true ∧ adj i k = true
  · refine ⟨?_, ?_, ?_⟩
    · intro e; subst e; rw [hdiag] at hc; exact absurd hc.1 (by simp)
    · intro e; subst e; rw [hdiag] at hc; exact absurd hc.2.1 (by simp)
    · intro e; subst e; rw [hdiag] at hc; exact absurd hc.2.2 (by simp)
  · rw [if_neg hc] at h
    exact absurd rfl h

theorem adjacent3_le_one (adj : Nat → Nat → Bool) (i j k : Nat) : adjacent3 adj i j k ≤ 1 := by
  unfold adjacent3
  split <;> omega

/-- Three pairwise adjacent vertices of a graph without self-edges are in exactly one of
the six strict orders. -/
theorem adjacent3_split {adj : Nat → Nat → Bool} (hsym : ∀ i j, adj i j = adj j i)
    (hdiag : ∀ i, adj i i = false) (i j k : Nat) :
    adjacent3 adj i j k
      = ordered3 adj i j k + ordered3 adj i k j + ordered3 adj j i k
        + ordered3 adj j k i + ordered3 adj k i j + ordered3 adj k j i := by
  have e1 : adjacent3 adj i k j = adjacent3 adj i j k := adjacent3_swap23 hsym i j k
  have e2 : adjacent3 adj j i k = adjacent3 adj i j k := adjacent3_swap12 hsym i j k
  have e3 : adjacent3 adj j k i = adjacent3 adj i j k := by
    rw [adjacent3_swap23 hsym j i k, e2]
  have e4 : adjacent3 adj k i j = adjacent3 adj i j k := by
    rw [adjacent3_swap12 hsym i k j, e1]
  have e5 : adjacent3 adj k j i = adjacent3 adj i j k := by
    rw [adjacent3_swap23 hsym k i j, e4]
  simp only [ordered3_eq, e1, e2, e3, e4, e5]
  by_cases h0 : adjacent3 adj i j k = 0
  · rw [h0]
    simp only [Nat.mul_zero, Nat.add_zero]
  · obtain ⟨h1, h2, h3⟩ := adjacent3_ne hdiag i j k h0
    have hle := adjacent3_le_one adj i j k
    have hg : adjacent3 adj i j k = 1 := by omega
    rw [hg]
    simp only [Nat.mul_one]
    split_ifs <;> omega

theorem sum3_adjacent3 {adj : Nat → Nat → Bool} (hsym : ∀ i j, adj i j = adj j i)
    (hdiag : ∀ i, adj i i = false) (n : Nat) :
    sum3 n (adjacent3 adj) = 6 * triangle_count n adj := by
  rw [triangle_count_eq]
  have h := sum3_congr n (adjacent3 adj) _ (adjacent3_split hsym hdiag)
  rw [h]
  simp only [sum3_add]
  rw [sum3_swap23 n (ordered3 adj), sum3_swap12 n (ordered3 adj), sum3_rot1 n (ordered3 adj),
    sum3_rot2 n (ordered3 adj), sum3_swap13 n (ordered3 adj)]
  have : sum3 n (fun i j k => ordered3 adj i j k) = sum3 n (ordered3 adj) := rfl
  rw [this]
  omega

theorem burkhardt_sum {adj : Nat → Nat → Bool} (hsym : ∀ i j, adj i j = adj j i)
    (hdiag : ∀ i, adj i i = false) (n : Nat) :
    masked_product_sum n adj adj adj = 6 * triangle_count n adj := by
  rw [masked_product_sum_eq, ← sum3_adjacent3 hsym hdiag n]
  apply sum3_congr
  intro i j k
  unfold adjacent3
  rw [hsym k j]
  by_cases a : adj i j = true <;> by_cases b : adj j k = true <;> by_cases c : adj i k = true <;>
    simp [a, b, c]

theorem sandia_sum {adj : Nat → Nat → Bool} (hsym : ∀ i j, adj i j = adj j i) (n : Nat) :
    masked_product_sum n (tril adj) (tril adj) (tril adj) = triangle_count n adj := by
  rw [masked_product_sum_eq, triangle_count_eq, ← sum3_rot1 n (ordered3 adj)]
  apply sum3_congr
  intro i j k
  unfold ordered3 tril
  rw [hsym k i, hsym j i, hsym k j]
  simp only [Bool.and_eq_true, decide_eq_true_eq]
  by_cases a : adj i j = true <;> by_cases b : adj j k = true <;> by_cases c : adj i k = true <;>
    simp only [a, b, c, Bool.false_eq_true, and_true, and_false, true_and, false_and, if_false]
  split_ifs <;> omega

theorem sandia2_sum {adj : Nat → Nat → Bool} (hsym : ∀ i j, adj i j = adj j i) (n : Nat) :
    masked_product_sum n (triu adj) (triu adj) (triu adj) = triangle_count n adj := by
  rw [masked_product_sum_eq, triangle_count_eq, ← sum3_swap23 n (ordered3 adj)]
  apply sum3_congr
  intro i j k
  unfold ordered3 triu
  rw [hsym k j]
  simp only [Bool.and_eq_true, decide_eq_true_eq]
  by_cases a : adj i j = true <;> by_cases b : adj j k = true <;> by_cases c : adj i k = true <;>
    simp only [a, b, c, Bool.false_eq_true, and_true, and_false, true_and, false_and, if_false]
  split_ifs <;> omega

theorem sandia_dot_sum {adj : Nat → Nat → Bool} (hsym : ∀ i j, adj i j = adj j i) (n : Nat) :
    masked_product_sum n (tril adj) (transposed (triu adj)) (tril adj)
      = triangle_count n adj := by
  rw [masked_product_sum_eq, triangle_count_eq, ← sum3_rot1 n (ordered3 adj)]
  apply sum3_congr
  intro i j k
  unfold ordered3 tril triu transposed
  rw [hsym k i, hsym j i]
  simp only [Bool.and_eq_true, decide_eq_true_eq]
  by_cases a : adj i j = true <;> by_cases b : adj j k = true <;> by_cases c : adj i k = true <;>
    simp only [a, b, c, Bool.false_eq_true, and_true, and_false, true_and, false_and, if_false]
  split_ifs <;> omega

theorem sandia_dot2_sum {adj : Nat → Nat → Bool} (hsym : ∀ i j, adj i j = adj j i) (n : Nat) :
    masked_product_sum n (triu adj) (transposed (tril adj)) (triu adj)
      = triangle_count n adj := by
  rw [masked_product_sum_eq, triangle_count_eq, ← sum3_swap23 n (ordered3 adj)]
  apply sum3_congr
  intro i j k
  unfold ordered3 tril triu transposed
  rw [hsym k j]
  simp only [Bool.and_eq_true, decide_eq_true_eq]
  by_cases a : adj i j = true <;> by_cases b : adj j k = true <;> by_cases c : adj i k = true <;>
    simp only [a, b, c, Bool.false_eq_true, and_true, and_false, true_and, false_and, if_false]
  split_ifs <;> omega

theorem cohen_sum {adj : Nat → Nat → Bool} (hsym : ∀ i j, adj i j = adj j i)
    (hdiag : ∀ i, adj i i = false) (n : Nat) :
    masked_product_sum n (tril adj) (triu adj) adj = 2 * triangle_count n adj := by
  rw [masked_product_sum_eq, triangle_count_eq]
  have h : sum3 n (fun i j k => ordered3 adj k i j + ordered3 adj k j i)
      = 2 * sum3 n (ordered3 adj) := by
    rw [sum3_add, sum3_rot2 n (ordered3 adj), sum3_swap13 n (ordered3 adj)]
    omega
  rw [← h]
  apply sum3_congr
  intro i j k
  unfold ordered3 tril triu
  rw [hsym k i, hsym j i, hsym k j]
  simp only [Bool.and_eq_true, decide_eq_true_eq]
  by_cases hij : i = j
  · subst hij
    simp [hdiag]
  · by_cases a : adj i j = true <;> by_cases b : adj j k = true <;>
      by_cases c : adj i k = true <;>
      simp only [a, b, c, Bool.false_eq_true, and_true, and_false, true_and, false_and, if_false]
    split_ifs <;> omega

/-- On a symmetric pattern without self-edges each of the six formulas gives the number
of triangles. -/
theorem count_by_method_eq {adj : Nat → Nat → Bool} (hsym : ∀ i j, adj i j = adj j i)
    (hdiag : ∀ i, adj i i = false) (n : Nat) (method : LAGraph_TriangleCount_Method) :
    count_by_method n adj method = triangle_count n adj := by
  cases method with
  | Burkhardt =>
    show masked_product_sum n adj adj adj / 6 = _
    rw [burkhardt_sum hsym hdiag]
    omega
  | Cohen =>
    show masked_product_sum n (tril adj) (triu adj) adj / 2 = _
    rw [cohen_sum hsym hdiag]
    omega
  | Sandia => exact sandia_sum hsym n
  | Sandia2 => exact sandia2_sum hsym n
  | SandiaDot => exact sandia_dot_sum hsym n
  | SandiaDot2 => exact sandia_dot2_sum hsym n

theorem list_sum_map_getD_nat (l : List Nat) (f : Nat → Nat) :
    (l.map f).sum = ∑ r ∈ Finset.range l.length, f (l.getD r 0) := by
  induction l with
  | nil => simp
  | cons a l ih =>
    rw [List.map_cons, List.sum_cons, List.length_cons, Finset.sum_range_succ', ih]
    simp only [List.getD_cons_succ, List.getD_cons_zero]
    omega

/-- Summing over the vertices in the order of a renumbering is summing over the
vertices. -/
theorem sum_relabel (order : List Nat) (n : Nat) (hperm : order.Perm (List.range n))
    (f : Nat → Nat) :
    ∑ i ∈ Finset.range n, f (order.getD i 0) = ∑ i ∈ Finset.range n, f i := by
  have hlen : order.length = n := by
    rw [hperm.length_eq, List.length_range]
  have h1 := list_sum_map_getD_nat order f
  rw [hlen] at h1
  rw [← h1, (hperm.map f).sum_eq, list_sum_map_range]

theorem sum3_relabel (order : List Nat) (n : Nat) (hperm : order.Perm (List.range n))
    (F : Nat → Nat → Nat → Nat) :
    sum3 n (fun i j k => F (order.getD i 0) (order.getD j 0) (order.getD k 0)) = sum3 n F := by
  unfold sum3
  rw [sum_relabel order n hperm fun a =>
    ∑ j ∈ Finset.range n, ∑ k ∈ Finset.range n, F a (order.getD j 0) (order.getD k 0)]
  apply Finset.sum_congr rfl
  intro i _
  rw [sum_relabel order n hperm fun b => ∑ k ∈ Finset.range n, F i b (order.getD k 0)]
  apply Finset.sum_congr rfl
  intro j _
  exact sum_relabel order n hperm fun c => F i j c

theorem relabel_symm {adj : Nat → Nat → Bool} (hsym : ∀ i j, adj i j = adj j i)
    (order : List Nat) (i j : Nat) : relabel order adj i j = relabel order adj j i :=
  hsym _ _

theorem relabel_diag {adj : Nat → Nat → Bool} (hdiag : ∀ i, adj i i = false)
    (order : List Nat) (i : Nat) : relabel order adj i i = false :=
  hdiag _

/-- Renumbering the vertices does not change the number of triangles. -/
theorem triangle_count_relabel {adj : Nat → Nat → Bool} (hsym : ∀ i j, adj i j = adj j i)
    (hdiag : ∀ i, adj i i = false) (order : List Nat) (n : Nat)
    (hperm : order.Perm (List.range n)) :
    triangle_count n (relabel order adj) = triangle_count n adj := by
  have h1 := sum3_adjacent3 (relabel_symm hsym order) (relabel_diag hdiag order) n
  have h2 := sum3_adjacent3 hsym hdiag n
  have h3 : sum3 n (adjacent3 (relabel order adj)) = sum3 n (adjacent3 adj) :=
    sum3_relabel order n hperm (adjacent3 adj)
  omega

theorem presort_order_perm
    (auto : Nat → (Nat → Nat → Bool) → LAGraph_TriangleCount_Method →
      LAGraph_TriangleCount_Presort)
    (n : Nat) (adj : Nat → Nat → Bool) (method : LAGraph_TriangleCount_Method)
    (presort : LAGraph_TriangleCount_Presort) :
    (presort_order auto n adj method presort).Perm (List.range n) := by
  cases presort with
  | NoSort => exact List.Perm.refl _
  | Ascending => exact List.mergeSort_perm _ _
  | Descending => exact List.mergeSort_perm _ _
  | AutoSort =>
    unfold presort_order
    cases auto n adj method with
    | NoSort => exact List.Perm.refl _
    | Ascending => exact List.mergeSort_perm _ _
    | Descending => exact List.mergeSort_perm _ _
    | AutoSort => exact List.Perm.refl _

/-- Every method, after any presort, counts the triangles of the graph. -/
theorem triangle_methods_eq
    (auto : Nat → (Nat → Nat → Bool) → LAGraph_TriangleCount_Method →
      LAGraph_TriangleCount_Presort)
    (G : LAGraph_Graph α) (hsym : ∀ i j, G.A.has i j = G.A.has j i)
    (hdiag : ∀ i, G.A.has i i = false) (method : LAGraph_TriangleCount_Method)
    (presort : LAGraph_TriangleCount_Presort) :
    LAGraph_TriangleCount_Methods auto G method presort
      = triangle_count G.A.nrows G.A.has := by
  unfold LAGraph_TriangleCount_Methods
  rw [count_by_method_eq (relabel_symm hsym _) (relabel_diag hdiag _)]
  exact triangle_count_relabel hsym hdiag _ _ (presort_order_perm auto _ _ method presort)

theorem triangle3_symm (i j : Nat) : triangle3.A.has i j = triangle3.A.has j i := by
  show ((Matrix.build 3 3 fun i j => if i ≠ j then some true else none).get i j).isSome
    = ((Matrix.build 3 3 fun i j => if i ≠ j then some true else none).get j i).isSome
  rw [Matrix.get_build, Matrix.get_build]
  by_cases h1 : i < 3 <;> by_cases h2 : j < 3 <;> by_cases h3 : i = j <;>
    simp [h1, h2, h3, Ne.symm, eq_comm]

theorem triangle3_diag (i : Nat) : triangle3.A.has i i = false := by
  show ((Matrix.build 3 3 fun i j => if i ≠ j then some true else none).get i i).isSome = false
  rw [Matrix.get_build]
  simp

theorem init_sources_dims (sources : List Nat) :
    ∀ (i : Nat) (P F P2 F2 : Matrix ℚ), init_sources sources i P F = .ok (P2, F2) →
      P2.nrows = P.nrows ∧ P2.ncols = P.ncols ∧ F2.nrows = F.nrows ∧ F2.ncols = F.ncols := by
  induction sources with
  | nil =>
    intro i P F P2 F2 h
    simp only [init_sources, Except.ok.injEq, Prod.mk.injEq] at h
    rw [← h.1, ← h.2]
    exact ⟨rfl, rfl, rfl, rfl⟩
  | cons s rest ih =>
    intro i P F P2 F2 h
    unfold init_sources at h
    cases h1 : GrB_Matrix_setElement P 1 i s with
    | error e => rw [h1] at h; cases h
    | ok P1 =>
      cases h2 : GrB_Matrix_setElement F 1 i s with
      | error e => rw [h1, h2] at h; cases h
      | ok F1 =>
        rw [h1, h2] at h
        simp only [bind, Except.bind] at h
        obtain ⟨a1, a2, a3, a4⟩ := ih (i + 1) P1 F1 P2 F2 h
        have e1 := setElement_ncols h1
        have e2 := setElement_ncols h2
        exact ⟨a1.trans e1.2.1, a2.trans e1.1, a3.trans e2.2.1, a4.trans e2.1⟩

theorem bfs_init_dims (A : Matrix α) (sources : List Nat) (st0 : BFSState)
    (h : bfs_init A sources = .ok st0) : FwdDims sources.length A.nrows st0 := by
  obtain ⟨P, F, fr, hi, hm, hst⟩ := bfs_init_cases A sources st0 h
  obtain ⟨a1, a2, a3, a4⟩ := init_sources_dims sources 0 _ _ P F hi
  have hg := mxm_get hm 0 0
  subst hst
  exact ⟨hg.1.trans a3, hg.2.1.trans a4, a1, a2⟩

theorem bfs_step_dims (p : Policy) (A AT : Matrix α) (ns n : Nat) (N M : Nat)
    (st st2 : BFSState) (hI : FwdDims N M st) (hs : bfs_step p A AT ns n st = .ok st2) :
    FwdDims N M st2 := by
  obtain ⟨paths, fr, B, desc, lw, ha, _, _, hm, hst⟩ := bfs_step_cases p A AT ns n st st2 hs
  have hg := mxm_get hm 0 0
  have hp := assign_get ha 0 0
  subst hst
  exact ⟨hg.1.trans hI.1, hg.2.1.trans hI.2.1, hp.1.trans hI.2.2.1, hp.2.1.trans hI.2.2.2⟩

theorem bfs_loop_dims (p : Policy) (A AT : Matrix α) (ns n : Nat) (N M : Nat) (fuel : Nat)
    (st st2 : BFSState) (hI : FwdDims N M st) (h : bfs_loop p A AT ns n fuel st = .ok st2) :
    FwdDims N M st2 :=
  bfs_loop_induct p A AT ns n (FwdDims N M)
    (fun s s2 hs _ hstep => bfs_step_dims p A AT ns n N M s s2 hs hstep) fuel st st2 hI h

/-- A non-empty matrix has a row and a column. -/
theorem dims_pos_of_nvals_pos (M : Matrix α) (h : 0 < GrB_Matrix_nvals M) :
    0 < M.nrows ∧ 0 < M.ncols := by
  rw [nvals_pos_iff] at h
  obtain ⟨i, j, hij⟩ := h
  obtain ⟨hi, hj⟩ := Matrix.has_lt hij
  omega

theorem forward_do_pull_iff (frontier_size ns n : Nat) (last_was_pull : Bool) :
    forward_do_pull frontier_size ns n last_was_pull = true
      ↔ ((frontier_size : ℚ) / ((ns * n : Nat) : ℚ) > 1 / 10
          ∨ ((frontier_size : ℚ) / ((ns * n : Nat) : ℚ) > 6 / 100 ∧ last_was_pull = true)) := by
  unfold forward_do_pull
  simp only [Bool.or_eq_true, Bool.and_eq_true, decide_eq_true_eq]
  norm_num

theorem backward_do_pull_iff (wsize ssize ns n : Nat) :
    backward_do_pull wsize ssize ns n = true
      ↔ (((wsize : ℚ) / ((ns * n : Nat) : ℚ) > 1 / 10 ∧ (wsize : ℚ) / (ssize : ℚ) > 1)
          ∨ ((wsize : ℚ) / ((ns * n : Nat) : ℚ) > 1 / 100 ∧ (wsize : ℚ) / (ssize : ℚ) > 10)) := by
  unfold backward_do_pull
  simp only [Bool.or_eq_true, Bool.and_eq_true, decide_eq_true_eq]

/-- The direction taken by a successful forward pass under the policy of the source. -/
theorem bfs_step_direction (A AT : Matrix α) (ns n : Nat) (st st2 : BFSState)
    (hs : bfs_step .adaptive A AT ns n st = .ok st2) :
    st2.last_was_pull = forward_do_pull st.frontier_size ns n st.last_was_pull
      ∧ (st2.last_was_pull = true →
          GrB_mxm st.frontier (some st2.paths) st.frontier AT GrB_DESC_RSCT1 = .ok st2.frontier)
      ∧ (st2.last_was_pull = false →
          GrB_mxm st.frontier (some st2.paths) st.frontier A GrB_DESC_RSC = .ok st2.frontier) := by
  unfold bfs_step at hs
  cases ha : GrB_assign st.paths (some fun x1 x2 => x1 + x2) st.frontier with
  | error e => rw [ha] at hs; cases hs
  | ok paths =>
    rw [ha] at hs
    simp only [bind, Except.bind, Policy.choose] at hs
    by_cases hp : forward_do_pull st.frontier_size ns n st.last_was_pull = true
    · simp only [hp, if_true] at hs
      cases hm : GrB_mxm st.frontier (some paths) st.frontier AT GrB_DESC_RSCT1 with
      | error e => rw [hm] at hs; cases hs
      | ok fr =>
        rw [hm] at hs
        simp only [pure, Except.pure, Except.ok.injEq] at hs
        subst hs
        exact ⟨hp.symm, fun _ => hm, fun h => by cases h⟩
    · have hp2 : forward_do_pull st.frontier_size ns n st.last_was_pull = false := by
        cases hh : forward_do_pull st.frontier_size ns n st.last_was_pull
        · rfl
        · exact absurd hh hp
      simp only [hp2, Bool.false_eq_true, if_false] at hs
      cases hm : GrB_mxm st.frontier (some paths) st.frontier A GrB_DESC_RSC with
      | error e => rw [hm] at hs; cases hs
      | ok fr =>
        rw [hm] at hs
        simp only [pure, Except.pure, Except.ok.injEq] at hs
        subst hs
        exact ⟨hp2.symm, (fun h => by cases h), fun _ => hm⟩

/-- The direction taken by a successful backward pass under the policy of the source. -/
theorem bc_step_direction (A AT : Matrix α) (paths : Matrix ℚ) (S : List (Matrix Bool))
    (ns n i : Nat) (st st2 : BCState)
    (hs : bc_step .adaptive A AT paths S ns n i st = .ok st2) :
    ∃ W1, GrB_eWiseMult st.W (some (level S i)) none (· / ·) st.bc_update paths GrB_DESC_RS
        = .ok W1
      ∧ (backward_do_pull (GrB_Matrix_nvals W1) (GrB_Matrix_nvals (level S (i - 1))) ns n = true →
          GrB_mxm W1 (some (level S (i - 1))) W1 A GrB_DESC_RST1 = .ok st2.W)
      ∧ (backward_do_pull (GrB_Matrix_nvals W1) (GrB_Matrix_nvals (level S (i - 1))) ns n = false →
          GrB_mxm W1 (some (level S (i - 1))) W1 AT GrB_DESC_RS = .ok st2.W) := by
  unfold bc_step at hs
  cases h1 : GrB_eWiseMult st.W (some (level S i)) none (fun x1 x2 => x1 / x2) st.bc_update paths
      GrB_DESC_RS with
  | error e => rw [h1] at hs; cases hs
  | ok W1 =>
    rw [h1] at hs
    simp only [bind, Except.bind, Policy.choose] at hs
    refine ⟨W1, rfl, ?_, ?_⟩
    · intro hp
      simp only [hp, if_true] at hs
      cases h2 : GrB_mxm W1 (some (level S (i - 1))) W1 A GrB_DESC_RST1 with
      | error e => rw [h2] at hs; cases hs
      | ok W2 =>
        rw [h2] at hs
        simp only at hs
        cases h3 : GrB_eWiseMult st.bc_update (none : Option (Matrix Bool))
            (some fun x1 x2 => x1 + x2) (fun x1 x2 => x1 * x2) W2 paths GrB_DESC_NULL with
        | error e => rw [h3] at hs; cases hs
        | ok bc2 =>
          rw [h3] at hs
          simp only [pure, Except.pure, Except.ok.injEq] at hs
          subst hs
          rfl
    · intro hp
      simp only [hp, Bool.false_eq_true, if_false] at hs
      cases h2 : GrB_mxm W1 (some (level S (i - 1))) W1 AT GrB_DESC_RS with
      | error e => rw [h2] at hs; cases hs
      | ok W2 =>
        rw [h2] at hs
        simp only at hs
        cases h3 : GrB_eWiseMult st.bc_update (none : Option (Matrix Bool))
            (some fun x1 x2 => x1 + x2) (fun x1 x2 => x1 * x2) W2 paths GrB_DESC_NULL with
        | error e => rw [h3] at hs; cases hs
        | ok bc2 =>
          rw [h3] at hs
          simp only [pure, Except.pure, Except.ok.injEq] at hs
          subst hs
          rfl

theorem bfs_stage_dims (p : Policy) (A AT : Matrix α) (sources : List Nat) (st : BFSState)
    (h : bfs_stage p A AT sources = .ok st) : FwdDims sources.length A.nrows st := by
  obtain ⟨st0, hi, hl⟩ := bfs_stage_cases p A AT sources st h
  exact bfs_loop_dims p A AT _ _ _ _ _ st0 st (bfs_init_dims A sources st0 hi) hl

/-- When the body of the forward loop runs the frontier is not empty, so there is a
source and a vertex. -/
theorem forward_sizes_pos (p : Policy) (A AT : Matrix α) (sources : List Nat)
    (st0 : BFSState) (h0 : bfs_init A sources = .ok st0) (k : Nat) (st : BFSState)
    (hk : bfs_loop p A AT sources.length A.nrows k st0 = .ok st)
    (hg : st.frontier_size > 0) : 0 < sources.length ∧ 0 < A.nrows := by
  have hsafe := bfs_loop_safe p A AT _ _ k st0 st (bfs_init_safe A sources st0 h0) hk
  have hdims := bfs_loop_dims p A AT _ _ _ _ k st0 st (bfs_init_dims A sources st0 h0) hk
  rw [hsafe.size_eq] at hg
  have := dims_pos_of_nvals_pos st.frontier hg
  rw [hdims.1, hdims.2.1] at this
  exact this

/-- When the backward loop has a pass to make, every level it divides by is not empty,
and there is a source and a vertex. -/
theorem backward_sizes_pos (p : Policy) (A AT : Matrix α) (sources : List Nat)
    (fwd : BFSState) (h : bfs_stage p A AT sources = .ok fwd) (i : Nat) (h1 : 1 ≤ i)
    (h2 : i ≤ fwd.depth - 1) :
    0 < sources.length ∧ 0 < A.nrows ∧ 0 < GrB_Matrix_nvals (level fwd.S (i - 1)) := by
  have hsafe := bfs_stage_safe p A AT sources fwd h
  have hdims := bfs_stage_dims p A AT sources fwd h
  have hpos := hsafe.nonempty (i - 1) (by rw [hsafe.S_length]; omega)
  have hpos2 := hpos
  rw [nvals_pos_iff] at hpos2
  obtain ⟨r, v, hrv⟩ := hpos2
  have hp := hsafe.recorded (i - 1) r v hrv
  obtain ⟨hr, hv⟩ := Matrix.has_lt hp
  rw [hdims.2.2.1] at hr
  rw [hdims.2.2.2] at hv
  exact ⟨by omega, by omega, hpos⟩

theorem well_formed_single {A AT : Matrix α} {sources : List Nat}
    (hwf : WellFormed A AT sources) (i : Nat) (hi : i < sources.length) :
    WellFormed A AT [sources.getD i 0] := by
  refine ⟨hwf.square, hwf.transposed, ?_⟩
  intro s hs
  simp only [List.mem_singleton] at hs
  subst hs
  apply hwf.in_range
  rw [List.getD_eq_getElem _ _ hi]
  exact List.getElem_mem _

theorem well_formed_perm {A AT : Matrix α} {sources sources2 : List Nat}
    (hwf : WellFormed A AT sources) (hp : sources.Perm sources2) :
    WellFormed A AT sources2 :=
  ⟨hwf.square, hwf.transposed, fun s hs => hwf.in_range s (hp.mem_iff.mpr hs)⟩

theorem betweenness_perm (adj : Nat → Nat → Bool) (n : Nat) {sources sources2 : List Nat}
    (hp : sources.Perm sources2) (v : Nat) :
    betweenness adj n sources v = betweenness adj n sources2 v := by
  unfold betweenness
  exact (hp.map _).sum_eq

theorem betweenness_single (adj : Nat → Nat → Bool) (n s v : Nat) :
    betweenness adj n [s] v = dependency adj n s v := by
  unfold betweenness
  simp

/-- The call on well-formed input, as an outcome. -/
theorem call_correct (p : Policy) (chk : LAGraph_Graph α → Int) (G : LAGraph_Graph α)
    (AT : Matrix α) (sources : List Nat) (hchk : chk G = 0) (hsel : select_AT G = some AT)
    (hwf : WellFormed G.A AT sources) :
    LAGraph_VertexCentrality_Betweenness_with p chk false G sources
      = .returned_ok ((List.range G.A.nrows).map fun v =>
          some (betweenness G.A.has G.A.nrows sources v)) := by
  unfold LAGraph_VertexCentrality_Betweenness_with
  rw [hsel]
  simp only [hchk, compute_correct p hwf, Outcome.of_compute, Bool.false_eq_true,
    if_false, ne_eq, not_true_eq_false]

theorem entry_returned_ok (n : Nat) (f : Nat → ℚ) (v : Nat) (hv : v < n) :
    (Outcome.returned_ok ((List.range n).map fun u => some (f u))).entry v = f v := by
  unfold Outcome.entry
  simp [List.getD_eq_getElem?_getD, hv]

theorem only_minus_one_ok {σ : Type} (x : σ) : only_minus_one (.ok x : Except Failure σ) := by
  intro e h
  cases h

theorem only_minus_one_error {σ : Type} (msg : String) :
    only_minus_one (.error (.lg_check (-1) msg) : Except Failure σ) := by
  intro e h
  simp only [Except.error.injEq] at h
  exact ⟨msg, h.symm⟩

theorem only_minus_one_bind {σ τ : Type} (r : Except Failure σ) (f : σ → Except Failure τ)
    (h1 : only_minus_one r) (h2 : ∀ x, only_minus_one (f x)) : only_minus_one (r.bind f) := by
  intro e h
  cases r with
  | error e1 =>
    simp only [Except.bind, Except.error.injEq] at h
    subst h
    exact h1 e1 rfl
  | ok x => exact h2 x e h

theorem LG_CHECK_only_minus_one (c : Bool) (msg : String) :
    only_minus_one (LG_CHECK c (-1) msg) := by
  unfold LG_CHECK
  split
  · exact only_minus_one_error _
  · exact only_minus_one_ok _

/-- An LG_CHECK whose condition is `false` does nothing. -/
theorem LG_CHECK_false (error_id : Int) (msg : String) : LG_CHECK false error_id msg = .ok () :=
  rfl

theorem LG_CHECK_eq_ok (c : Bool) (error_id : Int) (msg : String) (u : Unit) :
    LG_CHECK c error_id msg = .ok u ↔ c = false := by
  unfold LG_CHECK
  cases c <;> simp

theorem FREAD_only_minus_one (f : List (Fin 256)) (s n : Nat) :
    only_minus_one (FREAD f s n) := by
  unfold FREAD
  simp only
  apply only_minus_one_bind _ _ (LG_CHECK_only_minus_one _ _)
  intro _
  exact only_minus_one_ok _

/-- A read that succeeds has taken `s*n` bytes from the file. -/
theorem FREAD_length (f : List (Fin 256)) (s n : Nat) (r : List (Fin 256) × List (Fin 256))
    (h : FREAD f s n = .ok r) : f.length = s * n + r.2.length := by
  unfold FREAD at h
  simp only [except_bind_eq_ok, LG_CHECK_eq_ok, Except.ok.injEq, bne_eq_false_iff_eq] at h
  obtain ⟨_, hn, h⟩ := h
  subst h
  unfold fread at hn ⊢
  simp only at hn ⊢
  simp only [List.length_drop]
  by_cases hs : s = 0
  · subst hs
    simp
  · rw [if_neg hs] at hn ⊢
    have hle : n ≤ f.length / s := by
      rw [← hn]
      exact Nat.min_le_right _ _
    rw [hn]
    have : n * s ≤ f.length := by
      have := Nat.mul_le_mul_right s hle
      have h2 := Nat.div_mul_le_self f.length s
      omega
    rw [Nat.mul_comm s n]
    omega

/-- A read of no item succeeds and takes nothing. -/
theorem FREAD_zero (f : List (Fin 256)) (s : Nat) : FREAD f s 0 = .ok ([], f) := by
  unfold FREAD fread
  by_cases hs : s = 0
  · subst hs
    rfl
  · simp only [if_neg hs, Nat.zero_min, Nat.zero_mul, List.take_zero, List.drop_zero]
    rfl

theorem read_scalars_only_minus_one (f : List (Fin 256)) :
    only_minus_one (read_scalars f) := by
  unfold read_scalars
  repeat (first
    | exact only_minus_one_ok _
    | (apply only_minus_one_bind _ _ (FREAD_only_minus_one _ _ _); intro _))

theorem read_scalars_length (f : List (Fin 256)) (sf : BinScalars × List (Fin 256))
    (h : read_scalars f = .ok sf) : f.length = 68 + sf.2.length := by
  unfold read_scalars at h
  simp only [except_bind_eq_ok, Except.ok.injEq] at h
  obtain ⟨r1, h1, r2, h2, r3, h3, r4, h4, r5, h5, r6, h6, r7, h7, r8, h8, r9, h9, r10, h10,
    hsf⟩ := h
  have e1 := FREAD_length _ _ _ _ h1
  have e2 := FREAD_length _ _ _ _ h2
  have e3 := FREAD_length _ _ _ _ h3
  have e4 := FREAD_length _ _ _ _ h4
  have e5 := FREAD_length _ _ _ _ h5
  have e6 := FREAD_length _ _ _ _ h6
  have e7 := FREAD_length _ _ _ _ h7
  have e8 := FREAD_length _ _ _ _ h8
  have e9 := FREAD_length _ _ _ _ h9
  have e10 := FREAD_length _ _ _ _ h10
  rw [← hsf]
  simp only
  omega

theorem ite_step {σ : Type} {c : Prop} [Decidable c] {a b : σ} (P : σ → Prop)
    (ha : c → P a) (hb : ¬ c → P b) : P (if c then a else b) := by
  by_cases h : c
  · rw [if_pos h]; exact ha h
  · rw [if_neg h]; exact hb h

theorem type_of_typecode_only_minus_one (typecode : Int) :
    only_minus_one (type_of_typecode typecode) := by
  unfold type_of_typecode
  repeat (refine ite_step only_minus_one (fun _ => only_minus_one_ok _) (fun _ => ?_))
  exact only_minus_one_ok _

/-- The switch never ends the function: a typecode outside 0..12 leaves `type`
unassigned. -/
theorem type_of_typecode_unknown (typecode : Int) (h : ¬ (0 ≤ typecode ∧ typecode ≤ 12)) :
    type_of_typecode typecode = .ok none := by
  unfold type_of_typecode
  repeat
    refine ite_step (fun r => r = Except.ok none) (fun hc => absurd ⟨by omega, by omega⟩ h)
      (fun _ => ?_)
  rfl

theorem type_of_typecode_total (typecode : Int) :
    ∃ t, type_of_typecode typecode = .ok t := by
  unfold type_of_typecode
  repeat (refine ite_step (fun r => ∃ t, r = Except.ok t) (fun _ => ⟨_, rfl⟩) (fun _ => ?_))
  exact ⟨_, rfl⟩

theorem array_lengths_only_minus_one (env : BinEnv) (sc : BinScalars) :
    only_minus_one (array_lengths env sc) := by
  unfold array_lengths
  repeat (refine ite_step only_minus_one (fun _ => only_minus_one_ok _) (fun _ => ?_))
  exact only_minus_one_ok _

theorem read_index_arrays_only_minus_one (env : BinEnv) (sc : BinScalars)
    (a b c d : Nat) (f : List (Fin 256)) :
    only_minus_one (read_index_arrays env sc a b c d f) := by
  unfold read_index_arrays
  split
  · repeat (first
      | exact only_minus_one_ok _
      | (apply only_minus_one_bind _ _ (FREAD_only_minus_one _ _ _); intro _))
  · split
    · repeat (first
        | exact only_minus_one_ok _
        | (apply only_minus_one_bind _ _ (FREAD_only_minus_one _ _ _); intro _))
    · split
      · repeat (first
          | exact only_minus_one_ok _
          | (apply only_minus_one_bind _ _ (FREAD_only_minus_one _ _ _); intro _))
      · exact only_minus_one_ok _

/-- Up to `fclose (f)` the function can fail only with status -1. -/
theorem BinRead_contents_only_minus_one (env : BinEnv) (f : List (Fin 256)) :
    only_minus_one (BinRead_contents env f) := by
  unfold BinRead_contents
  apply only_minus_one_bind _ _ (FREAD_only_minus_one _ _ _)
  intro header
  apply only_minus_one_bind _ _ (read_scalars_only_minus_one _)
  intro sf
  apply only_minus_one_bind _ _ (type_of_typecode_only_minus_one _)
  intro type
  apply only_minus_one_bind _ _ (array_lengths_only_minus_one _ _)
  intro len
  simp only
  apply only_minus_one_bind _ _ (LG_CHECK_only_minus_one _ _)
  intro _
  apply only_minus_one_bind _ _ (read_index_arrays_only_minus_one _ _ _ _ _ _ _)
  intro idx
  apply only_minus_one_bind _ _ (FREAD_only_minus_one _ _ _)
  intro Ax
  exact only_minus_one_ok _

/-- The bytes of the index arrays and of the bitmap, for given lengths. -/
theorem read_index_arrays_length (env : BinEnv) (sc : BinScalars) (a b c d : Nat)
    (f : List (Fin 256))
    (idx : List (Fin 256) × List (Fin 256) × List (Fin 256) × List (Fin 256) × List (Fin 256))
    (h : read_index_arrays env sc a b c d f = .ok idx) :
    f.length
      = (if is_hyper sc = true then 8 * a + 8 * b + 8 * d
          else if is_sparse env sc = true then 8 * a + 8 * d
          else if is_bitmap env sc = true then c else 0) + idx.2.2.2.2.length := by
  unfold read_index_arrays at h
  by_cases h1 : is_hyper sc = true
  · rw [if_pos h1] at h ⊢
    simp only [except_bind_eq_ok, Except.ok.injEq] at h
    obtain ⟨r1, e1, r2, e2, r3, e3, hidx⟩ := h
    have l1 := FREAD_length _ _ _ _ e1
    have l2 := FREAD_length _ _ _ _ e2
    have l3 := FREAD_length _ _ _ _ e3
    rw [← hidx]
    simp only
    omega
  · rw [if_neg h1] at h ⊢
    by_cases h2 : is_sparse env sc = true
    · rw [if_pos h2] at h ⊢
      simp only [except_bind_eq_ok, Except.ok.injEq] at h
      obtain ⟨r1, e1, r2, e2, hidx⟩ := h
      have l1 := FREAD_length _ _ _ _ e1
      have l2 := FREAD_length _ _ _ _ e2
      rw [← hidx]
      simp only
      omega
    · rw [if_neg h2] at h ⊢
      by_cases h3 : is_bitmap env sc = true
      · rw [if_pos h3] at h ⊢
        simp only [except_bind_eq_ok, Except.ok.injEq] at h
        obtain ⟨r1, e1, hidx⟩ := h
        have l1 := FREAD_length _ _ _ _ e1
        rw [← hidx]
        simp only
        omega
      · rw [if_neg h3] at h ⊢
        simp only [Except.ok.injEq] at h
        rw [← h]
        simp

/-- The lengths the function forms are those the count of the bytes of the arrays
uses. -/
theorem array_lengths_ok (env : BinEnv) (sc : BinScalars)
    (len : Nat × Nat × Nat × Nat × Nat × Bool) (h : array_lengths env sc = .ok len) :
    array_bytes env sc
        = (if is_hyper sc = true then 8 * len.1 + 8 * len.2.1 + 8 * len.2.2.2.1
            else if is_sparse env sc = true then 8 * len.1 + 8 * len.2.2.2.1
            else if is_bitmap env sc = true then len.2.2.1 else 0)
          + sc.typesize * len.2.2.2.2.1 := by
  unfold array_lengths at h
  unfold array_bytes
  by_cases h1 : is_hyper sc = true
  · rw [if_pos h1] at h
    simp only [Except.ok.injEq] at h
    rw [if_pos h1, if_pos h1, ← h]
  · rw [if_neg h1] at h
    by_cases h2 : is_sparse env sc = true
    · rw [if_pos h2] at h
      simp only [Except.ok.injEq] at h
      rw [if_neg h1, if_neg h1, if_pos h2, if_pos h2, ← h]
    · rw [if_neg h2] at h
      by_cases h3 : is_bitmap env sc = true
      · rw [if_pos h3] at h
        simp only [Except.ok.injEq] at h
        rw [if_neg h1, if_neg h1, if_neg h2, if_neg h2, if_pos h3, if_pos h3, ← h]
      · rw [if_neg h3] at h
        by_cases h4 : is_full env sc = true
        · rw [if_pos h4] at h
          simp only [Except.ok.injEq] at h
          rw [if_neg h1, if_neg h1, if_neg h2, if_neg h2, if_neg h3, if_neg h3, if_pos h4, ← h]
          first | rfl | (simp only; omega)
        · rw [if_neg h4] at h
          simp only [LG_CHECK_false, Except.bind, Except.ok.injEq] at h
          rw [if_neg h1, if_neg h1, if_neg h2, if_neg h2, if_neg h3, if_neg h3, if_neg h4, ← h]
          rfl

/-- The kind is none of hypersparse, sparse, bitmap and full. -/
theorem unknown_kind_flags (env : BinEnv) (sc : BinScalars)
    (h : ¬ (sc.kind = 0 ∨ sc.kind = 1 ∨ sc.kind = env.GxB_SPARSE ∨ sc.kind = env.GxB_BITMAP
        ∨ sc.kind = env.GxB_FULL)) :
    is_hyper sc = false ∧ is_sparse env sc = false ∧ is_bitmap env sc = false
      ∧ is_full env sc = false := by
  simp only [not_or] at h
  obtain ⟨h0, h1, h2, h3, h4⟩ := h
  refine ⟨?_, ?_, ?_, ?_⟩
  · simp [is_hyper, h1]
  · simp [is_sparse, h0, h2]
  · simp [is_bitmap, h3]
  · simp [is_full, h4]

/-- An unknown kind does not end the function: it goes on with all lengths 0. -/
theorem array_lengths_unknown (env : BinEnv) (sc : BinScalars)
    (h : ¬ (sc.kind = 0 ∨ sc.kind = 1 ∨ sc.kind = env.GxB_SPARSE ∨ sc.kind = env.GxB_BITMAP
        ∨ sc.kind = env.GxB_FULL)) :
    array_lengths env sc = .ok (0, 0, 0, 0, 0, true) := by
  obtain ⟨h1, h2, h3, h4⟩ := unknown_kind_flags env sc h
  unfold array_lengths
  rw [h1, h2, h3, h4]
  rfl

/-- What the function has read when it closes the file: the header, the ten scalars and
the arrays of the kind. -/
theorem BinRead_contents_ok (env : BinEnv) (f : List (Fin 256)) (c : BinContents)
    (h : BinRead_contents env f = .ok c) :
    scalars_of env f = some c.scalars
      ∧ env.LAGRAPH_BIN_HEADER + 68 + array_bytes env c.scalars ≤ f.length := by
  unfold BinRead_contents at h
  simp only [except_bind_eq_ok, Except.ok.injEq] at h
  obtain ⟨header, h1, sf, h2, type, h3, len, h4, u, _, idx, h6, Ax, h7, hc⟩ := h
  have hsc : c.scalars = sf.1 := by rw [← hc]
  rw [hsc]
  have l1 := FREAD_length _ _ _ _ h1
  have l2 := read_scalars_length _ _ h2
  have l3 := read_index_arrays_length _ _ _ _ _ _ _ _ h6
  have l4 := FREAD_length _ _ _ _ h7
  have hb := array_lengths_ok env sf.1 len h4
  refine ⟨?_, ?_⟩
  · unfold scalars_of
    rw [h1]
    simp only [Except.bind]
    rw [h2]
  · rw [hb]
    omega

/-- With an unknown kind nothing is read after the scalars: when the block of no entry
can be allocated, the function closes the file with empty arrays, whatever follows the
scalars in the file. -/
theorem BinRead_contents_unknown_kind (env : BinEnv) (f : List (Fin 256)) (sc : BinScalars)
    (hsc : scalars_of env f = some sc)
    (hk : ¬ (sc.kind = 0 ∨ sc.kind = 1 ∨ sc.kind = env.GxB_SPARSE ∨ sc.kind = env.GxB_BITMAP
        ∨ sc.kind = env.GxB_FULL))
    (hm : env.LAGraph_Malloc 0 sc.typesize = true) :
    ∃ type, BinRead_contents env f
      = .ok { scalars := sc, type := type,
              arrays := { Ap_len := 0, Ah_len := 0, Ab_len := 0, Ai_len := 0, Ax_len := 0,
                          Ap := [], Ah := [], Ab := [], Ai := [], Ax := [] } } := by
  unfold scalars_of at hsc
  cases h1 : FREAD f 1 env.LAGRAPH_BIN_HEADER with
  | error e => rw [h1] at hsc; cases hsc
  | ok header =>
    rw [h1] at hsc
    simp only [Except.bind] at hsc
    cases h2 : read_scalars header.2 with
    | error e => rw [h2] at hsc; cases hsc
    | ok sf =>
      rw [h2] at hsc
      simp only [Option.some.injEq] at hsc
      obtain ⟨type, ht⟩ := type_of_typecode_total sc.typecode
      obtain ⟨k1, k2, k3, k4⟩ := unknown_kind_flags env sc hk
      refine ⟨type, ?_⟩
      unfold BinRead_contents
      rw [h1]
      simp only [Except.bind]
      rw [h2]
      simp only [hsc, ht, array_lengths_unknown env sc hk, hm, Bool.not_true, Bool.or_self,
        LG_CHECK_false, read_index_arrays, k1, k2, k3, Bool.false_eq_true, if_false,
        FREAD_zero]

theorem import_routine_only_minus_one (env : BinEnv) (sc : BinScalars) :
    only_minus_one (import_routine env sc) := by
  unfold import_routine
  repeat (refine ite_step only_minus_one (fun _ => only_minus_one_ok _) (fun _ => ?_))
  exact only_minus_one_ok _

/-- The dispatch never ends the function: with an unknown kind no routine is chosen. -/
theorem import_routine_unknown_kind (env : BinEnv) (sc : BinScalars)
    (h : ¬ (sc.kind = 0 ∨ sc.kind = 1 ∨ sc.kind = env.GxB_SPARSE ∨ sc.kind = env.GxB_BITMAP
        ∨ sc.kind = env.GxB_FULL)) :
    import_routine env sc = .ok none := by
  obtain ⟨h1, h2, h3, h4⟩ := unknown_kind_flags env sc h
  unfold import_routine
  simp only [h1, h2, h3, h4, Bool.false_eq_true, and_false, if_false]
  rfl

/-- With an unknown format no routine is chosen either. -/
theorem import_routine_unknown_fmt (env : BinEnv) (sc : BinScalars)
    (h : ¬ (sc.fmt = env.GxB_BY_ROW ∨ sc.fmt = env.GxB_BY_COL)) :
    import_routine env sc = .ok none := by
  simp only [not_or] at h
  unfold import_routine
  simp only [h.1, h.2, false_and, if_false]
  rfl

/-- After the file is closed the function calls `GxB_set` on a NULL matrix when the kind
or the format is unknown. -/
theorem BinRead_import_unknown (env : BinEnv) (c : BinContents)
    (h : import_routine env c.scalars = .ok none) :
    BinRead_import env c
      = (GrB_TRY (env.GxB_set_hyper none) (.ok ())).bind fun _ => .ok none := by
  unfold BinRead_import
  rw [h]
  rfl

/-- Unless LAGraph_BinRead fails with status -1, it has opened the file and read the
header, the ten scalars and all the arrays of the kind. -/
theorem BinRead_reaches_import (env : BinEnv) (an fn : Bool) (file : Option (List (Fin 256)))
    (h : ¬ ∃ msg, LAGraph_BinRead env an fn file = .error (.lg_check (-1) msg)) :
    ∃ f sc, file = some f ∧ scalars_of env f = some sc
      ∧ env.LAGRAPH_BIN_HEADER + 68 + array_bytes env sc ≤ f.length := by
  unfold LAGraph_BinRead at h
  cases an with
  | true => exact absurd ⟨_, rfl⟩ h
  | false =>
    cases fn with
    | true => exact absurd ⟨_, rfl⟩ h
    | false =>
      cases file with
      | none => exact absurd ⟨_, rfl⟩ h
      | some f =>
        simp only [LG_CHECK_false, Except.bind, Option.isNone_some, Option.getD_some] at h
        cases hc : BinRead_contents env f with
        | error e =>
          exfalso
          obtain ⟨msg, hmsg⟩ := BinRead_contents_only_minus_one env f e hc
          apply h
          rw [hc, hmsg]
          exact ⟨msg, rfl⟩
        | ok c =>
          obtain ⟨h1, h4⟩ := BinRead_contents_ok env f c hc
          exact ⟨f, c.scalars, rfl, h1, h4⟩

/-- A file that ends before the header, the ten scalars and the arrays of the kind are
read makes the function return -1. -/
theorem BinRead_short_file (env : BinEnv) (an fn : Bool) (f : List (Fin 256))
    (h : ∀ sc, scalars_of env f = some sc →
      f.length < env.LAGRAPH_BIN_HEADER + 68 + array_bytes env sc) :
    returns (LAGraph_BinRead env an fn (some f)) (-1) := by
  by_cases hm : ∃ msg, LAGraph_BinRead env an fn (some f) = .error (.lg_check (-1) msg)
  · obtain ⟨msg, hmsg⟩ := hm
    rw [hmsg]
    rfl
  · exfalso
    obtain ⟨f2, sc, e1, e2, e3⟩ := BinRead_reaches_import env an fn (some f) hm
    simp only [Option.some.injEq] at e1
    subst e1
    have := h sc e2
    omega

/-- A file with an unknown kind is not rejected: whatever follows the ten scalars, the
function goes on to `GxB_set (*A, GxB_HYPER_SWITCH, hyper)` with `*A` still NULL, and
what it returns is what GrB_TRY makes of the answer of the engine. -/
theorem BinRead_unknown_kind (env : BinEnv) (f : List (Fin 256)) (sc : BinScalars)
    (hsc : scalars_of env f = some sc)
    (hk : ¬ (sc.kind = 0 ∨ sc.kind = 1 ∨ sc.kind = env.GxB_SPARSE ∨ sc.kind = env.GxB_BITMAP
        ∨ sc.kind = env.GxB_FULL))
    (hm : env.LAGraph_Malloc 0 sc.typesize = true) :
    LAGraph_BinRead env false false (some f)
      = (GrB_TRY (env.GxB_set_hyper none) (.ok ())).bind fun _ => .ok none := by
  obtain ⟨type, hc⟩ := BinRead_contents_unknown_kind env f sc hsc hk hm
  unfold LAGraph_BinRead
  simp only [LG_CHECK_false, Except.bind, Option.isNone_some, Option.getD_some]
  rw [hc]
  exact BinRead_import_unknown env _ (import_routine_unknown_kind env sc hk)

/-- The call from the contents of the file on: the import, if a routine is chosen, and
`GxB_set`. -/
theorem BinRead_of_contents (env : BinEnv) (f : List (Fin 256)) (c : BinContents)
    (r : Option ImportRoutine) (hc : BinRead_contents env f = .ok c)
    (hr : import_routine env c.scalars = .ok r) :
    LAGraph_BinRead env false false (some f)
      = (import_matrix env c r).bind fun A =>
          (GrB_TRY (env.GxB_set_hyper A) (.ok ())).bind fun _ => .ok A := by
  unfold LAGraph_BinRead
  simp only [LG_CHECK_false, Except.bind, Option.isNone_some, Option.getD_some]
  rw [hc]
  simp only [BinRead_import, hr, Except.bind]

/-- The reads do not depend on the answers of the engine. -/
theorem BinRead_contents_engine (imp : BinImport → Option GrB_Info)
    (set : Option BinImport → Option GrB_Info) (f : List (Fin 256)) :
    BinRead_contents (engine_env imp set) f = BinRead_contents example_env f :=
  rfl

theorem import_routine_engine (imp : BinImport → Option GrB_Info)
    (set : Option BinImport → Option GrB_Info) (sc : BinScalars) :
    import_routine (engine_env imp set) sc = import_routine example_env sc :=
  rfl

theorem scalars_of_length (env : BinEnv) (f : List (Fin 256)) (sc : BinScalars)
    (h : scalars_of env f = some sc) : env.LAGRAPH_BIN_HEADER + 68 ≤ f.length := by
  unfold scalars_of at h
  cases h1 : FREAD f 1 env.LAGRAPH_BIN_HEADER with
  | error e => rw [h1] at h; cases h
  | ok header =>
    rw [h1] at h
    simp only [Except.bind] at h
    cases h2 : read_scalars header.2 with
    | error e => rw [h2] at h; cases h
    | ok sf =>
      have l1 := FREAD_length _ _ _ _ h1
      have l2 := read_scalars_length _ _ h2
      omega

/-! ### Rounding to double -/

theorem pow2_pos (e : Int) : 0 < pow2 e := by
  unfold pow2
  split <;> positivity

theorem round_half_even_intCast (z : Int) : round_half_even (z : ℚ) = z := by
  unfold round_half_even
  simp

/-- A number that is a whole multiple of its unit in the last place is a double. -/
theorem fp64_round_eq_self (q : ℚ) (z : Int)
    (h : q / pow2 (floor_log2 |q| - 52) = z) : fp64_round q = q := by
  unfold fp64_round
  simp only
  rw [h, round_half_even_intCast, ← h]
  exact div_mul_cancel₀ _ (pow2_pos _).ne'

theorem log2_halving_spec (fuel : Nat) :
    ∀ n, n ≤ fuel → n ≠ 0 →
      2 ^ log2_halving fuel n ≤ n ∧ n < 2 ^ (log2_halving fuel n + 1) := by
  induction fuel with
  | zero =>
    intro n h hn
    omega
  | succ k ih =>
    intro n h hn
    unfold log2_halving
    by_cases h2 : n < 2
    · rw [if_pos h2]
      have : n = 1 := by omega
      subst this
      decide
    · rw [if_neg h2]
      obtain ⟨h3, h4⟩ := ih (n / 2) (by omega) (by omega)
      rw [pow_succ, pow_succ]
      rw [pow_succ] at h4
      constructor <;> omega

theorem log2_halving_one : log2_halving 1 1 = 0 := by
  decide

theorem floor_log2_natCast (n : Nat) (hn : n ≠ 0) :
    floor_log2 (n : ℚ) = log2_halving n n := by
  unfold floor_log2
  simp only [Rat.num_natCast, Int.natAbs_ofNat, Rat.den_natCast, log2_halving_one,
    Int.Nat.cast_ofNat_Int, sub_zero]
  rw [if_neg]
  unfold pow2
  rw [if_pos (Int.natCast_nonneg _)]
  simp only [Int.toNat_ofNat, not_lt]
  exact_mod_cast (log2_halving_spec n n (le_refl n) hn).1

theorem fp64_round_zero : fp64_round 0 = 0 := by
  unfold fp64_round
  simp [round_half_even]

/-- Every natural number up to `2^53` is a double. -/
theorem fp64_round_natCast (n : Nat) (h : n ≤ 2 ^ 53) : fp64_round (n : ℚ) = n := by
  by_cases hn : n = 0
  · subst hn
    simpa using fp64_round_zero
  have hlog : log2_halving n n ≤ 53 := by
    by_contra hgt
    have h1 : 2 ^ 54 ≤ 2 ^ log2_halving n n := Nat.pow_le_pow_right (by norm_num) (by omega)
    have h2 := (log2_halving_spec n n (le_refl n) hn).1
    have : (2 : Nat) ^ 53 < 2 ^ 54 := by norm_num
    omega
  have habs : |(n : ℚ)| = n := abs_of_nonneg (Nat.cast_nonneg n)
  rcases Nat.lt_or_ge (log2_halving n n) 53 with hlt | hge
  · -- the unit in the last place is `1 / 2^(52 - log2 n)`
    apply fp64_round_eq_self (n : ℚ) ((n * 2 ^ (52 - log2_halving n n) : Nat) : Int)
    rw [habs, floor_log2_natCast n hn]
    unfold pow2
    by_cases h0 : (0 : Int) ≤ (log2_halving n n : Int) - 52
    · have : log2_halving n n = 52 := by omega
      rw [if_pos h0, this]
      simp
    · rw [if_neg h0]
      have : (-((log2_halving n n : Int) - 52)).toNat = 52 - log2_halving n n := by omega
      rw [this]
      simp
  · -- `n = 2^53`
    have hl : log2_halving n n = 53 := by omega
    have hn53 : n = 2 ^ 53 := by
      have := (log2_halving_spec n n (le_refl n) hn).1
      rw [hl] at this
      omega
    apply fp64_round_eq_self (n : ℚ) ((2 ^ 52 : Nat) : Int)
    rw [habs, floor_log2_natCast n hn, hl]
    subst hn53
    unfold pow2
    norm_num

/-- Sums of natural numbers that stay within `2^53` are exact in doubles. -/
theorem foldl_plus_fp64 (ns : List Nat) :
    ∀ acc : Nat, acc + ns.sum ≤ 2 ^ 53 →
      (ns.map (Nat.cast : Nat → ℚ)).foldl GrB_PLUS_FP64 (acc : ℚ) = ((acc + ns.sum : Nat) : ℚ) := by
  induction ns with
  | nil =>
    intro acc _
    simp
  | cons a l ih =>
    intro acc h
    simp only [List.sum_cons] at h
    simp only [List.map_cons, List.foldl_cons, List.sum_cons]
    have h1 : GrB_PLUS_FP64 (acc : ℚ) (a : ℚ) = ((acc + a : Nat) : ℚ) := by
      unfold GrB_PLUS_FP64
      rw [← Nat.cast_add]
      exact fp64_round_natCast (acc + a) (by omega)
    rw [h1, ih (acc + a) (by omega)]
    congr 1
    omega

theorem fp64_sum_natCast (ns : List Nat) (h : ns.sum ≤ 2 ^ 53) :
    (fp64_sum (ns.map (Nat.cast : Nat → ℚ))).getD 0 = (ns.sum : ℚ) := by
  cases ns with
  | nil => simp [fp64_sum]
  | cons a l =>
    simp only [List.map_cons, fp64_sum, Option.getD_some]
    rw [foldl_plus_fp64 l a (by simpa using h)]
    simp

theorem fp64_sum_eq_none (ts : List ℚ) : fp64_sum ts = none ↔ ts = [] := by
  cases ts <;> simp [fp64_sum]

theorem fp64_sum_some_getD (ts : List ℚ) (h : ts ≠ []) :
    fp64_sum ts = some ((fp64_sum ts).getD 0) := by
  cases ts with
  | nil => exact absurd rfl h
  | cons a l => rfl

/-! ### The forward sweep in doubles -/

theorem plus_first_dot_fp64_none (F : Matrix ℚ) (B : Nat → Nat → Bool) (i j : Nat)
    (h : ∀ k, k < F.ncols → ¬ (F.has i k = true ∧ B k j = true)) :
    plus_first_dot_fp64 F B i j = none := by
  unfold plus_first_dot_fp64
  have : (List.range F.ncols).filterMap (plus_first_term F B i j) = [] := by
    rw [List.filterMap_eq_nil_iff]
    intro k hk
    exact (plus_first_term_eq_none F B i j k).mpr (h k (List.mem_range.mp hk))
  rw [this]
  rfl

theorem mxm_fp64_ok (C : Matrix ℚ) (M : Matrix μ) (F : Matrix ℚ) (B : Matrix β)
    (desc : GrB_Descriptor) (h1 : C.nrows = F.nrows) (h2 : C.ncols = B.ncols_t desc.tran1)
    (h3 : F.ncols = B.nrows_t desc.tran1) (h4 : M.nrows = C.nrows) (h5 : M.ncols = C.ncols) :
    GrB_mxm_fp64 C (some M) F B desc
      = .ok (Matrix.build C.nrows C.ncols fun i j =>
          write_entry (M.has i j != desc.comp) desc.replace (C.get i j)
            (plus_first_dot_fp64 F (B.has_t desc.tran1) i j)) := by
  unfold GrB_mxm_fp64
  rw [if_pos]
  · rfl
  · refine ⟨h1, h2, h3, ?_⟩
    simp [mask_fits, h4, h5]

theorem mxm_fp64_pull_eq_push (C : Matrix ℚ) (Mask : Option (Matrix μ)) (F : Matrix ℚ)
    {A AT : Matrix α} (h : transpose_pattern A AT) :
    GrB_mxm_fp64 C Mask F AT GrB_DESC_RSCT1 = GrB_mxm_fp64 C Mask F A GrB_DESC_RSC := by
  obtain ⟨h1, h2, h3⟩ := h
  unfold GrB_mxm_fp64 Matrix.nrows_t Matrix.ncols_t Matrix.has_t GrB_DESC_RSCT1 GrB_DESC_RSC
  simp only [h1, h2, h3, if_true, Bool.false_eq_true, if_false]
  rfl

theorem holds_upto_fp64_none_of_get {A : Matrix α} {sources : List Nat} {m : Nat}
    {P : Matrix ℚ} (hP : holds_upto_fp64 A sources m P) {i t : Nat}
    (hi : i < sources.length) (ht : t < A.nrows) (hg : P.get i t = none) :
    ∀ k, k ≤ m → walk_count A.has A.nrows (sources.getD i 0) k t = 0 := by
  intro k hk
  by_contra hne
  obtain ⟨j, hj, hf⟩ := first_at_of_pos A.has A.nrows (sources.getD i 0) (Nat.pos_of_ne_zero hne)
  have := (hP.2.2 i t hi ht).1 j (by omega) hf
  rw [hg] at this
  cases this

/-- The update `paths += frontier` in doubles adds no two numbers: the frontier and
`paths` share no position. -/
theorem accumulate_level_fp64 {A : Matrix α} {sources : List Nat} {m : Nat} {P F : Matrix ℚ}
    (hP : holds_upto_fp64 A sources m P) (hF : holds_level_fp64 A sources (m + 1) F) :
    ∃ P2, GrB_assign P (some GrB_PLUS_FP64) F = .ok P2
      ∧ holds_upto_fp64 A sources (m + 1) P2 := by
  obtain ⟨hPr, hPc, hPe⟩ := hP
  obtain ⟨hFr, hFc, hFe⟩ := hF
  refine ⟨_, assign_ok P _ F (by rw [hPr, hFr]) (by rw [hPc, hFc]), hPr, hPc, ?_⟩
  intro i t hi ht
  have hlt : i < P.nrows ∧ t < P.ncols := by rw [hPr, hPc]; exact ⟨hi, ht⟩
  rw [Matrix.get_build, if_pos hlt, hFe i t hi ht]
  constructor
  · intro k hk hf
    rcases Nat.lt_or_ge k (m + 1) with hlt2 | hge
    · have hne : ¬ first_at A.has A.nrows (sources.getD i 0) (m + 1) t := by
        intro hf2
        have := first_at_unique _ _ _ hf hf2
        omega
      rw [if_neg hne, (hPe i t hi ht).1 k (by omega) hf]
      rfl
    · have hk2 : k = m + 1 := by omega
      subst hk2
      rw [if_pos hf, (hPe i t hi ht).2 (fun j hj => hf.2 j (by omega))]
      rfl
  · intro h0
    have hne : ¬ first_at A.has A.nrows (sources.getD i 0) (m + 1) t := by
      intro hf2
      have := hf2.1
      have := h0 (m + 1) (le_refl _)
      omega
    rw [if_neg hne, (hPe i t hi ht).2 (fun j hj => h0 j (by omega))]
    rfl

theorem holds_level_fp64_has {A : Matrix α} {sources : List Nat} {m : Nat} {F : Matrix ℚ}
    (hF : holds_level_fp64 A sources m F) {i t : Nat} (hi : i < sources.length)
    (ht : t < A.nrows) :
    F.has i t = true ↔ first_at A.has A.nrows (sources.getD i 0) m t := by
  show (F.get i t).isSome = true ↔ _
  rw [hF.2.2 i t hi ht]
  by_cases h : first_at A.has A.nrows (sources.getD i 0) m t
  · rw [if_pos h]; simpa using h
  · rw [if_neg h]; simpa using h

/-- The terms of the dot product for the vertex `t` are the doubles held for its
predecessors in the frontier. -/
theorem dot_terms_fp64 {A : Matrix α} {sources : List Nat} {m : Nat} {F : Matrix ℚ}
    (hF : holds_level_fp64 A sources m F) {i : Nat} (hi : i < sources.length) (t : Nat) :
    (List.range F.ncols).filterMap (plus_first_term F A.has i t)
      = (List.range A.nrows).filterMap fun u =>
          if A.has u t = true ∧ first_at A.has A.nrows (sources.getD i 0) m u then
            some (fp64_walks A.has A.nrows (sources.getD i 0) m u)
          else none := by
  rw [hF.2.1]
  apply List.filterMap_congr
  intro u hu
  have hu2 := List.mem_range.mp hu
  unfold plus_first_term
  rw [hF.2.2 i u hi hu2]
  by_cases hf : first_at A.has A.nrows (sources.getD i 0) m u
  · by_cases he : A.has u t = true
    · rw [if_pos hf, if_pos ⟨he, hf⟩]
      simp only [he, if_true]
    · rw [if_pos hf, if_neg (fun h => he h.1)]
      simp only [he, Bool.false_eq_true, if_false]
  · rw [if_neg hf, if_neg (fun h => hf h.2)]

theorem expand_level_fp64 {A AT : Matrix α} {sources : List Nat}
    (hwf : WellFormed A AT sources) {m : Nat} {P F : Matrix ℚ}
    (hP : holds_upto_fp64 A sources m P) (hF : holds_level_fp64 A sources m F) :
    ∃ F2, GrB_mxm_fp64 F (some P) F A GrB_DESC_RSC = .ok F2
      ∧ holds_level_fp64 A sources (m + 1) F2 := by
  have hPr := hP.1
  have hPc := hP.2.1
  have hFr := hF.1
  have hFc := hF.2.1
  refine ⟨_, mxm_fp64_ok F P F A GrB_DESC_RSC rfl ?_ ?_ (by rw [hPr, hFr]) (by rw [hPc, hFc]),
    hFr, hFc, ?_⟩
  · simp [Matrix.ncols_t, GrB_DESC_RSC, hFc, hwf.square]
  · simp [Matrix.nrows_t, GrB_DESC_RSC, hFc]
  intro i t hi ht
  have hlt : i < F.nrows ∧ t < F.ncols := by rw [hFr, hFc]; exact ⟨hi, ht⟩
  rw [Matrix.get_build, if_pos hlt]
  have hB : A.has_t GrB_DESC_RSC.tran1 = A.has := by
    funext k l
    simp [Matrix.has_t, GrB_DESC_RSC]
  rw [hB]
  by_cases hf : first_at A.has A.nrows (sources.getD i 0) (m + 1) t
  · rw [if_pos hf]
    have h0 : ∀ j, j ≤ m → walk_count A.has A.nrows (sources.getD i 0) j t = 0 :=
      fun j hj => hf.2 j (by omega)
    have hPg := (hP.2.2 i t hi ht).2 h0
    obtain ⟨u, hu, hfu, he⟩ := (level_step_iff A.has A.nrows (sources.getD i 0) h0).mpr hf
    have hne : (List.range F.ncols).filterMap (plus_first_term F A.has i t) ≠ [] := by
      intro hnil
      rw [List.filterMap_eq_nil_iff] at hnil
      exact (plus_first_term_eq_none F A.has i t u).mp
        (hnil u (List.mem_range.mpr (by rw [hFc]; exact hu)))
        ⟨(holds_level_fp64_has hF hi hu).mpr hfu, he⟩
    have hdot : plus_first_dot_fp64 F A.has i t
        = some (fp64_walks A.has A.nrows (sources.getD i 0) (m + 1) t) := by
      unfold plus_first_dot_fp64
      rw [fp64_sum_some_getD _ hne, dot_terms_fp64 hF hi t]
      rfl
    rw [hdot]
    simp [Matrix.has, hPg, write_entry, GrB_DESC_RSC]
  · rw [if_neg hf]
    cases hPg : P.get i t with
    | some x => simp [Matrix.has, hPg, write_entry, GrB_DESC_RSC]
    | none =>
      have h0 := holds_upto_fp64_none_of_get hP hi ht hPg
      have hdot := plus_first_dot_fp64_none F A.has i t (by
        rintro k hk ⟨hFk, hBk⟩
        rw [hFc] at hk
        apply hf
        apply (level_step_iff A.has A.nrows (sources.getD i 0) h0).mp
        exact ⟨k, hk, (holds_level_fp64_has hF hi hk).mp hFk, hBk⟩)
      rw [hdot]
      simp [write_entry, GrB_DESC_RSC]

theorem fp64_walks_zero (adj : Nat → Nat → Bool) (n s t : Nat) :
    fp64_walks adj n s 0 t = (walk_count adj n s 0 t : ℚ) := by
  rw [walk_count_zero]
  unfold fp64_walks
  split <;> simp

theorem holds_upto_zero_fp64 {A : Matrix α} {sources : List Nat} {P : Matrix ℚ}
    (h : holds_upto A sources 0 P) : holds_upto_fp64 A sources 0 P := by
  refine ⟨h.1, h.2.1, ?_⟩
  intro i t hi ht
  refine ⟨?_, (h.2.2 i t hi ht).2⟩
  intro k hk hf
  have hk0 : k = 0 := by omega
  subst hk0
  rw [(h.2.2 i t hi ht).1 0 hk hf, fp64_walks_zero]

theorem holds_level_zero_fp64 {A : Matrix α} {sources : List Nat} {F : Matrix ℚ}
    (h : holds_level A sources 0 F) : holds_level_fp64 A sources 0 F := by
  refine ⟨h.1, h.2.1, ?_⟩
  intro i t hi ht
  rw [h.2.2 i t hi ht, fp64_walks_zero]

theorem bfs_init_fp64_unfold (A : Matrix α) (sources : List Nat) :
    bfs_init_fp64 A sources
      = (init_sources sources 0 (GrB_Matrix_new sources.length A.nrows)
          (GrB_Matrix_new sources.length A.nrows)).bind fun pf =>
        (GrB_mxm_fp64 pf.2 (some pf.1) pf.2 A GrB_DESC_RSC).bind fun frontier =>
          .ok { frontier := frontier, paths := pf.1, S := [], depth := 0,
                frontier_size := GrB_Matrix_nvals frontier, last_frontier_size := 0,
                last_was_pull := false } := by
  rfl

theorem bfs_init_fp64_inv {A AT : Matrix α} {sources : List Nat}
    (hwf : WellFormed A AT sources) :
    ∃ st0, bfs_init_fp64 A sources = .ok st0 ∧ FwdInv_fp64 A sources 0 st0 := by
  obtain ⟨P, F, hrun, hP, hF⟩ := init_sources_levels hwf
  obtain ⟨F2, hm, hF2⟩ :=
    expand_level_fp64 hwf (holds_upto_zero_fp64 hP) (holds_level_zero_fp64 hF)
  refine ⟨{ frontier := F2, paths := P, S := [], depth := 0,
            frontier_size := GrB_Matrix_nvals F2, last_frontier_size := 0,
            last_was_pull := false }, ?_, ?_⟩
  · rw [bfs_init_fp64_unfold, hrun]
    simp only [Except.bind, hm]
  · exact ⟨rfl, holds_upto_zero_fp64 hP, hF2, rfl⟩

theorem bfs_step_fp64_inv (p : Policy) {A AT : Matrix α} {sources : List Nat}
    (hwf : WellFormed A AT sources) {d : Nat} {st : BFSState}
    (h : FwdInv_fp64 A sources d st) :
    ∃ st2, bfs_step_fp64 p A AT sources.length A.nrows st = .ok st2
      ∧ FwdInv_fp64 A sources (d + 1) st2 := by
  obtain ⟨P2, ha, hP2⟩ := accumulate_level_fp64 h.paths_ok h.frontier_ok
  obtain ⟨F2, hm, hF2⟩ := expand_level_fp64 hwf hP2 h.frontier_ok
  refine ⟨{ frontier := F2, paths := P2, S := st.S ++ [LAGraph_Pattern st.frontier],
            depth := st.depth + 1, frontier_size := GrB_Matrix_nvals F2,
            last_frontier_size := st.frontier_size,
            last_was_pull := p.choose (forward_do_pull st.frontier_size sources.length A.nrows
              st.last_was_pull) }, ?_, ?_⟩
  · unfold bfs_step_fp64
    simp only [mxm_fp64_pull_eq_push _ _ _ hwf.transposed, ite_self, ha, bind, Except.bind, hm]
    rfl
  · exact ⟨by simp [h.depth_eq], hP2, hF2, rfl⟩

theorem bfs_loop_fp64_inv (p : Policy) {A AT : Matrix α} {sources : List Nat}
    (hwf : WellFormed A AT sources) (fuel : Nat) :
    ∀ (d : Nat) (st : BFSState), FwdInv_fp64 A sources d st → d + fuel = A.nrows →
      ∃ st2 d2, bfs_loop_fp64 p A AT sources.length A.nrows fuel st = .ok st2
        ∧ FwdInv_fp64 A sources d2 st2 ∧ d2 ≤ A.nrows
        ∧ (st2.frontier_size = 0 ∨ d2 = A.nrows) := by
  induction fuel with
  | zero =>
    intro d st h hd
    exact ⟨st, d, rfl, h, by omega, Or.inr (by omega)⟩
  | succ k ih =>
    intro d st h hd
    unfold bfs_loop_fp64
    by_cases hg : st.frontier_size > 0 ∧ st.depth < A.nrows
    · rw [if_pos hg]
      obtain ⟨st1, hs, h1⟩ := bfs_step_fp64_inv p hwf h
      rw [hs]
      exact ih (d + 1) st1 h1 (by omega)
    · rw [if_neg hg]
      refine ⟨st, d, rfl, h, by omega, Or.inl ?_⟩
      have hdep := h.depth_eq
      by_contra hne
      apply hg
      exact ⟨Nat.pos_of_ne_zero hne, by omega⟩

theorem bfs_stage_fp64_inv (p : Policy) {A AT : Matrix α} {sources : List Nat}
    (hwf : WellFormed A AT sources) :
    ∃ st d, bfs_stage_fp64 p A AT sources = .ok st
      ∧ FwdInv_fp64 A sources d st ∧ d ≤ A.nrows ∧ (st.frontier_size = 0 ∨ d = A.nrows) := by
  obtain ⟨st0, hi, h0⟩ := bfs_init_fp64_inv hwf
  obtain ⟨st2, d2, hl, h2, hle, hend⟩ := bfs_loop_fp64_inv p hwf A.nrows 0 st0 h0 (by omega)
  refine ⟨st2, d2, ?_, h2, hle, hend⟩
  unfold bfs_stage_fp64
  rw [hi]
  exact hl

theorem no_level_beyond_fp64 {A : Matrix α} {sources : List Nat} {d : Nat} {st : BFSState}
    (h : FwdInv_fp64 A sources d st) (hend : st.frontier_size = 0 ∨ d = A.nrows)
    {i t k : Nat} (hi : i < sources.length) (ht : t < A.nrows)
    (hf : first_at A.has A.nrows (sources.getD i 0) k t) : k ≤ d := by
  rcases hend with h0 | hn
  · by_contra hgt
    obtain ⟨u, hu, hfu⟩ := first_at_below A.has A.nrows (sources.getD i 0) hf ht (d + 1) (by omega)
    have hhas := (holds_level_fp64_has h.frontier_ok hi hu).mpr hfu
    rw [h.size_eq] at h0
    rw [(nvals_eq_zero_iff st.frontier).mp h0 i u] at hhas
    cases hhas
  · have := first_at_lt A.has A.nrows (sources.getD i 0) hf ht
    omega

/-- The paths matrix when the forward sweep in doubles ends: a vertex first reached
with `k` edges holds the double `fp64_walks`, an unreachable vertex holds nothing. -/
theorem final_paths_fp64 {A : Matrix α} {sources : List Nat} {d : Nat} {st : BFSState}
    (h : FwdInv_fp64 A sources d st) (hend : st.frontier_size = 0 ∨ d = A.nrows)
    {i t : Nat} (hi : i < sources.length) (ht : t < A.nrows) :
    (∀ k, first_at A.has A.nrows (sources.getD i 0) k t →
        st.paths.get i t = some (fp64_walks A.has A.nrows (sources.getD i 0) k t))
      ∧ (reachable A.has A.nrows (sources.getD i 0) t = false → st.paths.get i t = none) := by
  constructor
  · intro k hf
    exact (h.paths_ok.2.2 i t hi ht).1 k (no_level_beyond_fp64 h hend hi ht hf) hf
  · intro hr
    apply (h.paths_ok.2.2 i t hi ht).2
    intro k _
    by_contra hne
    obtain ⟨j, _, hfj⟩ := first_at_of_pos A.has A.nrows (sources.getD i 0)
      (Nat.pos_of_ne_zero hne)
    have := (reachable_iff A.has A.nrows (sources.getD i 0) t).mpr
      ⟨j, first_at_lt _ _ _ hfj ht, hfj⟩
    rw [this] at hr
    cases hr

theorem filterMap_sum_nat (l : List Nat) (g : Nat → Option Nat) :
    (l.filterMap g).sum = (l.map fun k => (g k).getD 0).sum := by
  induction l with
  | nil => rfl
  | cons a l ih =>
    cases h : g a <;> simp [List.filterMap_cons, h, ih]

theorem filterMap_map_cast (l : List Nat) (g : Nat → Option Nat) :
    l.filterMap (fun u => (g u).map (Nat.cast : Nat → ℚ))
      = (l.filterMap g).map (Nat.cast : Nat → ℚ) := by
  induction l with
  | nil => rfl
  | cons a l ih =>
    cases h : g a <;> simp [List.filterMap_cons, h, ih]

/-- A vertex with an edge to `t` has no more walks with `m` edges than `t` has with
`m+1`. -/
theorem walk_count_pred_le (adj : Nat → Nat → Bool) (n s : Nat) {m t u : Nat}
    (hu : u < n) (he : adj u t = true) :
    walk_count adj n s m u ≤ walk_count adj n s (m + 1) t := by
  rw [walk_count_succ]
  have := Finset.single_le_sum (f := fun u => if adj u t = true then walk_count adj n s m u else 0)
    (fun _ _ => Nat.zero_le _) (Finset.mem_range.mpr hu)
  simpa [he] using this

/-- A count of at most `2^53` is held exactly: the doubles added on the way to it are
counts no larger. -/
theorem fp64_walks_exact (adj : Nat → Nat → Bool) (n s : Nat) :
    ∀ k t, first_at adj n s k t → walk_count adj n s k t ≤ 2 ^ 53 →
      fp64_walks adj n s k t = (walk_count adj n s k t : ℚ) := by
  intro k
  induction k with
  | zero =>
    intro t _ _
    exact fp64_walks_zero adj n s t
  | succ m ih =>
    intro t hf hb
    have h0 : ∀ j, j ≤ m → walk_count adj n s j t = 0 := fun j hj => hf.2 j (by omega)
    unfold fp64_walks
    have hterms : ((List.range n).filterMap fun u =>
          if adj u t = true ∧ first_at adj n s m u then some (fp64_walks adj n s m u) else none)
        = ((List.range n).filterMap fun u =>
            if adj u t = true ∧ first_at adj n s m u then some (walk_count adj n s m u)
            else none).map (Nat.cast : Nat → ℚ) := by
      rw [← filterMap_map_cast]
      apply List.filterMap_congr
      intro u hu
      have hu2 := List.mem_range.mp hu
      by_cases hc : adj u t = true ∧ first_at adj n s m u
      · rw [if_pos hc, if_pos hc, ih u hc.2 (le_trans (walk_count_pred_le adj n s hu2 hc.1) hb)]
        rfl
      · rw [if_neg hc, if_neg hc]
        rfl
    have hsum : ((List.range n).filterMap fun u =>
          if adj u t = true ∧ first_at adj n s m u then some (walk_count adj n s m u)
          else none).sum = walk_count adj n s (m + 1) t := by
      rw [filterMap_sum_nat, list_sum_map_range, ← level_step_sum adj n s h0]
      apply Finset.sum_congr rfl
      intro u _
      by_cases he : adj u t = true
      · by_cases hfu : first_at adj n s m u
        · rw [if_pos ⟨he, hfu⟩, if_pos he, if_pos hfu]
          rfl
        · rw [if_neg (fun h => hfu h.2), if_pos he, if_neg hfu]
          rfl
      · rw [if_neg (fun h => he h.1), if_neg he]
        rfl
    rw [hterms, fp64_sum_natCast _ (by rw [hsum]; exact hb), hsum]

/-! ### The layered graph -/

theorem layered_nrows (L : Nat) : (layered L).nrows = 3 * L + 2 :=
  rfl

theorem layered_has (L u t : Nat) (hu : u < 3 * L + 2) (ht : t < 3 * L + 2) :
    (layered L).has u t = layered_adj L u t := by
  unfold layered Matrix.has
  rw [Matrix.get_build, if_pos ⟨hu, ht⟩]
  cases layered_adj L u t <;> rfl

theorem layered_well_formed (L : Nat) : WellFormed (layered L) (layered_T L) [0] := by
  refine ⟨rfl, ?_, ?_⟩
  · apply transpose_pattern_of_build
    intro i j
    rfl
  · intro s hs
    simp only [List.mem_singleton] at hs
    subst hs
    rw [layered_nrows]
    omega

set_option maxRecDepth 100000 in
theorem layered_pred_34 :
    ∀ t, t < 104 → (List.range 104).filter (fun u => layered_adj 34 u t) = layered_pred 34 t := by
  decide!

set_option maxRecDepth 100000 in
theorem layered_walks_step_34 :
    ∀ k, k < 35 → ∀ t, t < 104 →
      ((layered_pred 34 t).map (layered_walks 34 k)).sum = layered_walks 34 (k + 1) t := by
  decide!

theorem layered_filter_34 (t : Nat) (ht : t < 104) :
    (List.range 104).filter (fun u => (layered 34).has u t) = layered_pred 34 t := by
  rw [← layered_pred_34 t ht]
  apply List.filter_congr
  intro u hu
  exact layered_has 34 u t (List.mem_range.mp hu) ht

theorem layered_pred_lt (t : Nat) (ht : t < 104) : ∀ u ∈ layered_pred 34 t, u < 104 := by
  intro u hu
  rw [← layered_pred_34 t ht] at hu
  exact List.mem_range.mp (List.mem_filter.mp hu).1

/-- The walks of the layered graph with 34 layers, counted. -/
theorem layered_walk_count :
    ∀ k, k ≤ 35 → ∀ t, t < 104 →
      walk_count (layered 34).has 104 0 k t = layered_walks 34 k t := by
  intro k
  induction k with
  | zero =>
    intro _ t _
    rw [walk_count_zero]
    rfl
  | succ m ih =>
    intro hm t ht
    rw [walk_count_succ, ← list_sum_filter_range (fun u => (layered 34).has u t),
      layered_filter_34 t ht, ← layered_walks_step_34 m (by omega) t ht]
    congr 1
    apply List.map_congr_left
    intro u hu
    exact ih (by omega) u (layered_pred_lt t ht u hu)

theorem layered_first_at (k t : Nat) (hk : k ≤ 35) (ht : t < 104) :
    first_at (layered 34).has 104 0 k t
      ↔ 0 < layered_walks 34 k t ∧ ∀ j, j < k → layered_walks 34 j t = 0 := by
  unfold first_at
  rw [layered_walk_count k hk t ht]
  constructor
  · rintro ⟨h1, h2⟩
    refine ⟨h1, fun j hj => ?_⟩
    rw [← layered_walk_count j (by omega) t ht]
    exact h2 j hj
  · rintro ⟨h1, h2⟩
    refine ⟨h1, fun j hj => ?_⟩
    rw [layered_walk_count j (by omega) t ht]
    exact h2 j hj

theorem layered_first_at_last : first_at (layered 34).has 104 0 35 103 :=
  (layered_first_at 35 103 (by decide) (by decide)).mpr (by decide!)

theorem layered_first_at_34 (u : Nat) (hu : u < 104) :
    first_at (layered 34).has 104 0 34 u ↔ 100 ≤ u ∧ u ≤ 102 := by
  rw [layered_first_at 34 u (by decide) hu]
  revert u
  decide!

/-- The number of shortest paths from vertex 0 to the last vertex is `3^34`. -/
theorem layered_sigma : sigma (layered 34).has 104 0 103 = 3 ^ 34 := by
  rw [(sigma_of_first_at _ _ _ layered_first_at_last (by decide)).1,
    layered_walk_count 35 (by decide) 103 (by decide)]
  rfl

theorem filterMap_and (l : List Nat) (p : Nat → Bool) (Q : Nat → Prop) [DecidablePred Q]
    (f : Nat → ℚ) :
    l.filterMap (fun u => if p u = true ∧ Q u then some (f u) else none)
      = (l.filter p).filterMap (fun u => if Q u then some (f u) else none) := by
  induction l with
  | nil => rfl
  | cons a l ih =>
    by_cases hp : p a = true
    · by_cases hq : Q a
      · simp [List.filterMap_cons, List.filter_cons, hp, hq, ih]
      · simp [List.filterMap_cons, List.filter_cons, hp, hq, ih]
    · simp [List.filterMap_cons, List.filter_cons, hp, ih]

theorem fp64_walks_succ (adj : Nat → Nat → Bool) (n s k t : Nat) :
    fp64_walks adj n s (k + 1) t
      = (fp64_sum ((List.range n).filterMap fun u =>
          if adj u t = true ∧ first_at adj n s k u then some (fp64_walks adj n s k u)
          else none)).getD 0 := by
  rw [fp64_walks]

theorem filterMap_if_all (l : List Nat) (Q : Nat → Prop) [DecidablePred Q] (f : Nat → ℚ)
    (h : ∀ u ∈ l, Q u) :
    l.filterMap (fun u => if Q u then some (f u) else none) = l.map f := by
  induction l with
  | nil => rfl
  | cons a l ih =>
    have ha : Q a := h a (List.mem_cons_self a l)
    simp only [List.filterMap_cons, if_pos ha, List.map_cons]
    rw [ih (fun u hu => h u (List.mem_cons_of_mem a hu))]

/-- The vertices of the last layer hold their count `3^33` exactly. -/
theorem layered_fp64_walks_34 (u : Nat) (h : 100 ≤ u ∧ u ≤ 102) :
    fp64_walks (layered 34).has 104 0 34 u = 3 ^ 33 := by
  have hu : u < 104 := by omega
  have hw : walk_count (layered 34).has 104 0 34 u = 3 ^ 33 := by
    rw [layered_walk_count 34 (by decide) u hu]
    obtain ⟨h1, h2⟩ := h
    interval_cases u <;> rfl
  rw [fp64_walks_exact _ _ _ 34 u ((layered_first_at_34 u hu).mpr h) (by rw [hw]; norm_num), hw]
  norm_num

/-- The double held for the last vertex is `3^34 - 1`: the third addition of `3^33`
gives an odd number above `2^53`, which is rounded to the even neighbour. -/
theorem layered_fp64_walks_last :
    fp64_walks (layered 34).has 104 0 35 103 = 3 ^ 34 - 1 := by
  have hterms : ((List.range 104).filterMap fun u =>
        if (layered 34).has u 103 = true ∧ first_at (layered 34).has 104 0 34 u then
          some (fp64_walks (layered 34).has 104 0 34 u) else none)
      = [3 ^ 33, 3 ^ 33, 3 ^ 33] := by
    rw [filterMap_and (List.range 104) (fun u => (layered 34).has u 103)
      (fun u => first_at (layered 34).has 104 0 34 u), layered_filter_34 103 (by decide)]
    have hp : layered_pred 34 103 = [100, 101, 102] := by decide
    rw [hp, filterMap_if_all _ _ _ (by
      intro u hu
      simp only [List.mem_cons, List.mem_singleton, List.not_mem_nil, or_false] at hu
      exact (layered_first_at_34 u (by omega)).mpr (by omega))]
    have hmap : ∀ u ∈ [100, 101, 102],
        fp64_walks (layered 34).has 104 0 34 u = (fun _ => (3 : ℚ) ^ 33) u := by
      intro u hu
      simp only [List.mem_cons, List.mem_singleton, List.not_mem_nil, or_false] at hu
      exact layered_fp64_walks_34 u (by omega)
    rw [List.map_congr_left hmap]
    rfl
  rw [show (35 : Nat) = 34 + 1 from rfl, fp64_walks_succ]
  rw [hterms]
  decide!

/-! ## The claims -/

/-- C1: for a graph that passes the graph check, with a square `A`, with `AT` (which is
`A` itself for an undirected graph or a pattern flagged symmetric, `G->AT` otherwise)
having the transposed pattern of `A`, and with source vertices in range (distinct or
not), the call succeeds and, in exact arithmetic, `centrality[v]` is the sum over the
sources `s_i` of the sum over all `t` reachable from `s_i` with `t != s_i`, `t != v`,
`v != s_i` of `sigma(s_i,t | v) / sigma(s_i,t)`, where `sigma` counts shortest paths by
enumeration. -/
theorem C1_betweenness_formula (chk : LAGraph_Graph α → Int) (G : LAGraph_Graph α)
    (AT : Matrix α) (sources : List Nat) (hchk : chk G = 0) (hsel : select_AT G = some AT)
    (hwf : WellFormed G.A AT sources) :
    LAGraph_VertexCentrality_Betweenness chk false G sources
      = .returned_ok ((List.range G.A.nrows).map fun v =>
          some (betweenness G.A.has G.A.nrows sources v)) := by
  unfold LAGraph_VertexCentrality_Betweenness LAGraph_VertexCentrality_Betweenness_with
  rw [hsel]
  simp only [hchk, compute_correct .adaptive hwf, Outcome.of_compute, Bool.false_eq_true,
    if_false, ne_eq, not_true_eq_false]

theorem C1_witness :
    (∃ AT, select_AT (one_edge 1 false) = some AT ∧ WellFormed (one_edge 1 false).A AT [0, 1])
      ∧ LAGraph_VertexCentrality_Betweenness (fun _ => 0) false (one_edge 1 false) [0, 1]
        = .returned_ok ((List.range (one_edge 1 false).A.nrows).map fun v =>
            some (betweenness (one_edge 1 false).A.has (one_edge 1 false).A.nrows [0, 1] v)) :=
  ⟨one_edge_well_formed 1 false,
   (one_edge_well_formed 1 false).elim fun AT h =>
     C1_betweenness_formula (fun _ => 0) (one_edge 1 false) AT [0, 1] rfl h.1 h.2⟩

/-- C2 as stated fails in the doubles the function computes with.  In the layered graph
on 104 vertices (vertex 0, then 34 layers of three vertices, each vertex pointing to all
vertices of the next layer, then vertex 103) there are `3^34 = 16677181699666569`
shortest paths from 0 to 103, an odd number above `2^53`; the entry of `paths` at
`(0,103)` is the double sum `3^33 + 3^33 + 3^33 = 16677181699666568`. -/
theorem C2_counterexample :
    WellFormed (layered 34) (layered_T 34) [0]
      ∧ reachable (layered 34).has (layered 34).nrows 0 103 = true
      ∧ sigma (layered 34).has (layered 34).nrows 0 103 = 16677181699666569
      ∧ ∃ st, bfs_stage_fp64 .adaptive (layered 34) (layered_T 34) [0] = .ok st
          ∧ st.paths.get 0 103 = some 16677181699666568
          ∧ st.paths.get 0 103
              ≠ some (sigma (layered 34).has (layered 34).nrows 0 103 : ℚ) := by
  obtain ⟨st, d, hstage, hinv, -, hend⟩ :=
    bfs_stage_fp64_inv .adaptive (layered_well_formed 34)
  have hf : first_at (layered 34).has (layered 34).nrows ([0].getD 0 0) 35 103 :=
    layered_first_at_last
  have hget : st.paths.get 0 103 = some 16677181699666568 := by
    rw [(final_paths_fp64 hinv hend (i := 0) (t := 103) (by decide) (by decide)).1 35 hf]
    show some (fp64_walks (layered 34).has 104 0 35 103) = _
    rw [layered_fp64_walks_last]
    norm_num
  have hsig : sigma (layered 34).has (layered 34).nrows 0 103 = 16677181699666569 := by
    show sigma (layered 34).has 104 0 103 = _
    rw [layered_sigma]
    norm_num
  refine ⟨layered_well_formed 34, ?_, hsig, st, hstage, hget, ?_⟩
  · exact (reachable_iff (layered 34).has (layered 34).nrows 0 103).mpr
      ⟨35, by decide, layered_first_at_last⟩
  · rw [hget, hsig]
    norm_num

/-- C2 (amended): on well-formed inputs the forward sweep ends with its loop guard false
and, for every source row `i` and vertex `v`, the paths matrix has an entry at `(i,v)`
exactly when `v` is reachable from `sources[i]` (there is a walk of some length).
Evaluated in exact (rational) arithmetic, that entry is the number of shortest paths from
`sources[i]` to `v` counted by enumeration, 1 at the source itself.  In the doubles the
function computes with, the sweep ends in the same way with entries at the same
positions, the entry at the source is 1, and the entry at `(i,v)` is the number of
shortest paths whenever that number is at most `2^53`. -/
theorem C2_paths_count (A AT : Matrix α) (sources : List Nat)
    (hwf : WellFormed A AT sources) :
    (∃ st, bfs_stage .adaptive A AT sources = .ok st
      ∧ ¬ (st.frontier_size > 0 ∧ st.depth < A.nrows)
      ∧ ∀ i v, i < sources.length → v < A.nrows →
          (st.paths.has i v = true ↔ ∃ k, walksTo A.has A.nrows (sources.getD i 0) k v ≠ [])
          ∧ (st.paths.has i v = true ↔ reachable A.has A.nrows (sources.getD i 0) v = true)
          ∧ st.paths.get i v
              = (if reachable A.has A.nrows (sources.getD i 0) v = true then
                  some (sigma A.has A.nrows (sources.getD i 0) v : ℚ) else none)
          ∧ st.paths.get i (sources.getD i 0) = some 1)
    ∧ (∃ st, bfs_stage_fp64 .adaptive A AT sources = .ok st
      ∧ ¬ (st.frontier_size > 0 ∧ st.depth < A.nrows)
      ∧ ∀ i v, i < sources.length → v < A.nrows →
          (st.paths.has i v = true ↔ ∃ k, walksTo A.has A.nrows (sources.getD i 0) k v ≠ [])
          ∧ (st.paths.has i v = true ↔ reachable A.has A.nrows (sources.getD i 0) v = true)
          ∧ (sigma A.has A.nrows (sources.getD i 0) v ≤ 2 ^ 53 →
              st.paths.get i v
                = (if reachable A.has A.nrows (sources.getD i 0) v = true then
                    some (sigma A.has A.nrows (sources.getD i 0) v : ℚ) else none))
          ∧ st.paths.get i (sources.getD i 0) = some 1) := by
  constructor
  · obtain ⟨st, d, hstage, hfwd, hle, hend⟩ := bfs_stage_inv .adaptive hwf
    refine ⟨st, hstage, ?_, ?_⟩
    · rw [hfwd.depth_eq]
      rintro ⟨h1, h2⟩
      rcases hend with h | h <;> omega
    · intro i v hi hv
      have hget := final_paths hfwd hend hi hv
      have hhas : st.paths.has i v = true
          ↔ reachable A.has A.nrows (sources.getD i 0) v = true := by
        show (st.paths.get i v).isSome = true ↔ _
        rw [hget]
        cases reachable A.has A.nrows (sources.getD i 0) v <;> simp
      have hs : sources.getD i 0 < A.nrows := by
        apply hwf.in_range
        rw [List.getD_eq_getElem _ _ hi]
        exact List.getElem_mem _
      refine ⟨?_, hhas, hget, ?_⟩
      · rw [hhas]
        exact reachable_iff_walk A.has A.nrows (sources.getD i 0) v hv
      · rw [final_paths hfwd hend hi hs]
        have hr : reachable A.has A.nrows (sources.getD i 0) (sources.getD i 0) = true :=
          (reachable_iff _ _ _ _).mpr ⟨0, by omega, (first_at_zero_iff _ _ _ _).mpr rfl⟩
        rw [hr, if_pos rfl, sigma_self _ _ _ hs]
        simp
  · obtain ⟨st, d, hstage, hfwd, hle, hend⟩ := bfs_stage_fp64_inv .adaptive hwf
    refine ⟨st, hstage, ?_, ?_⟩
    · rw [hfwd.depth_eq]
      rintro ⟨h1, h2⟩
      rcases hend with h | h <;> omega
    · intro i v hi hv
      have hfin := final_paths_fp64 hfwd hend hi hv
      have hhas : st.paths.has i v = true
          ↔ reachable A.has A.nrows (sources.getD i 0) v = true := by
        show (st.paths.get i v).isSome = true ↔ _
        rcases reachable_or A.has A.nrows (sources.getD i 0) v with hr | ⟨k, hk, hf⟩
        · rw [hfin.2 hr, hr]
          simp
        · rw [hfin.1 k hf, (reachable_iff A.has A.nrows (sources.getD i 0) v).mpr ⟨k, hk, hf⟩]
          simp
      have hs : sources.getD i 0 < A.nrows := by
        apply hwf.in_range
        rw [List.getD_eq_getElem _ _ hi]
        exact List.getElem_mem _
      refine ⟨?_, hhas, ?_, ?_⟩
      · rw [hhas]
        exact reachable_iff_walk A.has A.nrows (sources.getD i 0) v hv
      · intro hb
        rcases reachable_or A.has A.nrows (sources.getD i 0) v with hr | ⟨k, hk, hf⟩
        · rw [hfin.2 hr, hr]
          simp
        · have hsig := (sigma_of_first_at _ _ _ hf hv).1
          rw [hfin.1 k hf, (reachable_iff A.has A.nrows (sources.getD i 0) v).mpr ⟨k, hk, hf⟩,
            if_pos rfl, fp64_walks_exact _ _ _ k v hf (by rw [← hsig]; exact hb), hsig]
      · rw [(final_paths_fp64 hfwd hend hi hs).1 0 ((first_at_zero_iff _ _ _ _).mpr rfl)]
        simp [fp64_walks]

theorem C2_witness :
    (∃ AT, select_AT (one_edge 1 true) = some AT ∧ WellFormed (one_edge 1 true).A AT [0, 1])
      ∧ ∃ AT st st2, bfs_stage .adaptive (one_edge 1 true).A AT [0, 1] = .ok st
          ∧ st.paths.get 1 1 = some 1
          ∧ bfs_stage_fp64 .adaptive (one_edge 1 true).A AT [0, 1] = .ok st2
          ∧ st2.paths.get 1 1 = some 1 :=
  ⟨one_edge_well_formed 1 true,
   (one_edge_well_formed 1 true).elim fun AT h =>
     (C2_paths_count (one_edge 1 true).A AT [0, 1] h.2).1.elim fun st hst =>
       (C2_paths_count (one_edge 1 true).A AT [0, 1] h.2).2.elim fun st2 hst2 =>
         ⟨AT, st, st2, hst.1, (hst.2.2 1 1 (by decide) (by decide)).2.2.2,
           hst2.1, (hst2.2.2 1 1 (by decide) (by decide)).2.2.2⟩⟩

/-- C3 (direction transparency): when the pattern of `AT` is the transpose of the pattern
of `A`, running with any direction policy (always push, always pull) gives the same
level patterns `S[d]`, the same paths matrix, the same centrality vector and the same
outcome of the call as the adaptive policy, for every graph and source list. -/
theorem C3_direction_transparency (p : Policy) (A AT : Matrix α) (sources : List Nat)
    (h : transpose_pattern A AT) :
    (bfs_stage p A AT sources).map (fun st => (st.S, st.paths, st.depth))
        = (bfs_stage .adaptive A AT sources).map (fun st => (st.S, st.paths, st.depth))
      ∧ compute p A AT sources = compute .adaptive A AT sources
      ∧ ∀ (chk : LAGraph_Graph α → Int) (cnull : Bool) (G : LAGraph_Graph α),
          G.A = A → select_AT G = some AT →
            LAGraph_VertexCentrality_Betweenness_with p chk cnull G sources
              = LAGraph_VertexCentrality_Betweenness chk cnull G sources := by
  refine ⟨?_, compute_policy p .adaptive h sources, ?_⟩
  · have hs := bfs_stage_forget p .adaptive h sources
    cases h1 : bfs_stage p A AT sources with
    | error e =>
      cases h2 : bfs_stage .adaptive A AT sources with
      | error e2 =>
        rw [h1, h2] at hs
        simpa [Except.map] using hs
      | ok s2 => rw [h1, h2] at hs; simp [Except.map] at hs
    | ok s1 =>
      cases h2 : bfs_stage .adaptive A AT sources with
      | error e2 => rw [h1, h2] at hs; simp [Except.map] at hs
      | ok s2 =>
        rw [h1, h2] at hs
        simp only [Except.map, Except.ok.injEq] at hs
        obtain ⟨-, e2, e3, e4, -⟩ := forget_fields hs
        simp [Except.map, e2, e3, e4]
  · intro chk cnull G hGA hsel
    unfold LAGraph_VertexCentrality_Betweenness LAGraph_VertexCentrality_Betweenness_with
    rw [hsel, hGA]
    simp only [compute_policy p .adaptive h sources]

theorem C3_witness :
    transpose_pattern
        (Matrix.build 3 3 fun i j => if i + 1 = j then some true else none)
        (Matrix.build 3 3 fun i j => if j + 1 = i then some true else none)
      ∧ compute .always_pull
          (Matrix.build 3 3 fun i j => if i + 1 = j then some true else none)
          (Matrix.build 3 3 fun i j => if j + 1 = i then some true else none) [0, 1]
        = compute .adaptive
          (Matrix.build 3 3 fun i j => if i + 1 = j then some true else none)
          (Matrix.build 3 3 fun i j => if j + 1 = i then some true else none) [0, 1] :=
  ⟨transpose_pattern_build 3 _,
   (C3_direction_transparency .always_pull _ _ [0, 1] (transpose_pattern_build 3 _)).2.1⟩

/-- C4 as stated fails: on the star with 3 leaves and all 4 vertices as sources the hub
gets centrality 6, not (3-1)(3-2)/2 = 1. -/
theorem C4_counterexample :
    LAGraph_VertexCentrality_Betweenness (fun _ => 0) false (star 3) (List.range (3 + 1))
        = .returned_ok [some 6, some 0, some 0, some 0]
      ∧ (6 : ℚ) ≠ (3 - 1) * (3 - 2) / 2 := by
  decide!

/-- C4 (amended): for every `n`, on the undirected star with `n` leaves and one hub,
with all `n+1` vertices as sources, the call returns hub centrality `n (n - 1)` (every
ordered pair of distinct leaves counts once) and centrality 0 for every leaf. -/
theorem C4_star_graph (n : Nat) :
    LAGraph_VertexCentrality_Betweenness (fun _ => 0) false (star n) (List.range (n + 1))
      = .returned_ok ((List.range (n + 1)).map fun v =>
          some (if v = 0 then (n : ℚ) * ((n : ℚ) - 1) else 0)) := by
  have hc := compute_correct .adaptive (star_well_formed n)
  have hmap : ((List.range (star n).A.nrows).map fun v =>
        some (betweenness (star n).A.has (star n).A.nrows (List.range (n + 1)) v))
      = (List.range (n + 1)).map fun v =>
          some (if v = 0 then (n : ℚ) * ((n : ℚ) - 1) else 0) := by
    show ((List.range (n + 1)).map fun v =>
        some (betweenness (star n).A.has (n + 1) (List.range (n + 1)) v)) = _
    apply List.map_congr_left
    intro v hv
    rw [star_betweenness n v (List.mem_range.mp hv)]
  rw [hmap] at hc
  unfold LAGraph_VertexCentrality_Betweenness LAGraph_VertexCentrality_Betweenness_with
  have hsel : select_AT (star n) = some (star n).A := rfl
  rw [hsel]
  simp only [hc, Outcome.of_compute, Bool.false_eq_true, if_false, ne_eq, not_true_eq_false]

/-- C5: on the undirected path graph 0-1-2-3-4 with sources [0,1,2,3,4] the call
succeeds; the centrality of the endpoints 0 and 4 is 0 and no entry is lower, and the
centrality of vertex 2 is strictly greater than every other entry.  The vector is
[0, 6, 8, 6, 0]: each unordered pair of endpoints is counted in both directions. -/
theorem C5_path_graph :
    ∃ c0 c1 c2 c3 c4 : ℚ,
      LAGraph_VertexCentrality_Betweenness (fun _ => 0) false path5 [0, 1, 2, 3, 4]
        = .returned_ok [some c0, some c1, some c2, some c3, some c4]
      ∧ c0 = 0 ∧ c4 = 0 ∧ 0 ≤ c1 ∧ 0 ≤ c2 ∧ 0 ≤ c3
      ∧ c0 < c2 ∧ c1 < c2 ∧ c3 < c2 ∧ c4 < c2
      ∧ c1 = 6 ∧ c2 = 8 ∧ c3 = 6 := by
  refine ⟨0, 6, 8, 6, 0, ?_⟩
  decide!

/-- C6: for the graph with one vertex and no edges and sources = [0], the initial
frontier is empty, the forward loop is left at once (its guard fails on entry, depth 0,
no level recorded), the backward loop returns its initial state untouched, and the call
returns the centrality vector [0]. -/
theorem C6_single_vertex :
    ∃ st0 : BFSState,
      bfs_init single_vertex.A [0] = .ok st0
      ∧ GrB_Matrix_nvals st0.frontier = 0
      ∧ ¬ (st0.frontier_size > 0 ∧ st0.depth < single_vertex.A.nrows)
      ∧ bfs_stage .adaptive single_vertex.A single_vertex.A [0] = .ok st0
      ∧ st0.depth = 0 ∧ st0.S = []
      ∧ bc_loop .adaptive single_vertex.A single_vertex.A st0.paths st0.S 1 1 (st0.depth - 1)
          (bc_init 1 1) = .ok (bc_init 1 1)
      ∧ LAGraph_VertexCentrality_Betweenness (fun _ => 0) false single_vertex [0]
          = .returned_ok [some 0] := by
  refine ⟨_, rfl, ?_⟩
  decide!

/-- C7: the result depends only on the patterns of `G->A` and `G->AT`.  Two graphs with
the same kind and symmetry flag, the same answer of the graph check, adjacency matrices
with the same stored positions (any stored values, of any type) and transposes that are
both NULL or have the same stored positions: the call ends the same way (same status,
same centrality vector) and the forward sweep ends in the same state (same paths
matrix, same levels). -/
theorem C7_pattern_only (chk : LAGraph_Graph α → Int) (chk2 : LAGraph_Graph β → Int)
    (cnull : Bool) (G : LAGraph_Graph α) (G2 : LAGraph_Graph β) (sources : List Nat)
    (hchk : chk G = chk2 G2) (hkind : G.kind = G2.kind)
    (hsym : G.A_pattern_is_symmetric = G2.A_pattern_is_symmetric)
    (hA : same_pattern G.A G2.A)
    (hAT : (G.AT = none ∧ G2.AT = none)
      ∨ ∃ X Y, G.AT = some X ∧ G2.AT = some Y ∧ same_pattern X Y) :
    LAGraph_VertexCentrality_Betweenness chk cnull G sources
        = LAGraph_VertexCentrality_Betweenness chk2 cnull G2 sources
      ∧ ∀ AT AT2, select_AT G = some AT → select_AT G2 = some AT2 →
          bfs_stage .adaptive G.A AT sources = bfs_stage .adaptive G2.A AT2 sources := by
  have hsel : (select_AT G = none ∧ select_AT G2 = none)
      ∨ ∃ X Y, select_AT G = some X ∧ select_AT G2 = some Y ∧ same_pattern X Y := by
    unfold select_AT
    rw [← hkind, ← hsym]
    split
    · exact Or.inr ⟨_, _, rfl, rfl, hA⟩
    · exact hAT
  constructor
  · unfold LAGraph_VertexCentrality_Betweenness LAGraph_VertexCentrality_Betweenness_with
    rw [hchk]
    rcases hsel with ⟨h1, h2⟩ | ⟨X, Y, h1, h2, hXY⟩
    · rw [h1, h2]
    · rw [h1, h2]
      simp only [compute_same_pattern .adaptive hA hXY]
  · intro AT AT2 h1 h2
    rcases hsel with ⟨g1, -⟩ | ⟨X, Y, g1, g2, hXY⟩
    · rw [g1] at h1; cases h1
    · rw [g1] at h1; rw [g2] at h2
      cases h1; cases h2
      exact bfs_stage_same_pattern .adaptive hA hXY sources

theorem C7_witness :
    same_pattern (one_edge 0 false).A (one_edge 5 false).A
      ∧ LAGraph_VertexCentrality_Betweenness (fun _ => 0) false (one_edge 0 false) [0, 1]
        = LAGraph_VertexCentrality_Betweenness (fun _ => 0) false (one_edge 5 false) [0, 1] :=
  ⟨(one_edge_same_pattern 0 5 false).1,
   (C7_pattern_only (fun _ => 0) (fun _ => 0) false (one_edge 0 false) (one_edge 5 false) [0, 1]
      rfl rfl rfl (one_edge_same_pattern 0 5 false).1
      (Or.inr (one_edge_same_pattern 0 5 false).2)).1⟩

/-- C8: self-edges are harmless.  Two graphs with the same kind and symmetry flag, the
same answer of the graph check, whose adjacency matrices store the same positions off
the diagonal, and whose transposes are both NULL or store the same positions off the
diagonal: the call ends the same way (same centrality vector) and the forward sweep ends
in the same state (same level patterns `S[d]`, same paths matrix). -/
theorem C8_self_edges (chk : LAGraph_Graph α → Int) (chk2 : LAGraph_Graph β → Int)
    (cnull : Bool) (G : LAGraph_Graph α) (G2 : LAGraph_Graph β) (sources : List Nat)
    (hchk : chk G = chk2 G2) (hkind : G.kind = G2.kind)
    (hsym : G.A_pattern_is_symmetric = G2.A_pattern_is_symmetric)
    (hA : same_off_diagonal G.A G2.A)
    (hAT : (G.AT = none ∧ G2.AT = none)
      ∨ ∃ X Y, G.AT = some X ∧ G2.AT = some Y ∧ same_off_diagonal X Y) :
    LAGraph_VertexCentrality_Betweenness chk cnull G sources
        = LAGraph_VertexCentrality_Betweenness chk2 cnull G2 sources
      ∧ ∀ AT AT2, select_AT G = some AT → select_AT G2 = some AT2 →
          bfs_stage .adaptive G.A AT sources = bfs_stage .adaptive G2.A AT2 sources := by
  have hsel : (select_AT G = none ∧ select_AT G2 = none)
      ∨ ∃ X Y, select_AT G = some X ∧ select_AT G2 = some Y ∧ same_off_diagonal X Y := by
    unfold select_AT
    rw [← hkind, ← hsym]
    split
    · exact Or.inr ⟨_, _, rfl, rfl, hA⟩
    · exact hAT
  constructor
  · unfold LAGraph_VertexCentrality_Betweenness LAGraph_VertexCentrality_Betweenness_with
    rw [hchk]
    rcases hsel with ⟨h1, h2⟩ | ⟨X, Y, h1, h2, hXY⟩
    · rw [h1, h2]
    · rw [h1, h2]
      simp only [compute_off_diagonal .adaptive hA hXY]
  · intro AT AT2 h1 h2
    rcases hsel with ⟨g1, -⟩ | ⟨X, Y, g1, g2, hXY⟩
    · rw [g1] at h1; cases h1
    · rw [g1] at h1; rw [g2] at h2
      cases h1; cases h2
      exact bfs_stage_off_diagonal .adaptive hA hXY sources

theorem C8_witness :
    same_off_diagonal (one_edge 1 false).A (one_edge 1 true).A
      ∧ LAGraph_VertexCentrality_Betweenness (fun _ => 0) false (one_edge 1 false) [0, 1]
        = LAGraph_VertexCentrality_Betweenness (fun _ => 0) false (one_edge 1 true) [0, 1] :=
  ⟨(one_edge_same_off_diagonal 1).1,
   (C8_self_edges (fun _ => 0) (fun _ => 0) false (one_edge 1 false) (one_edge 1 true) [0, 1]
      rfl rfl rfl (one_edge_same_off_diagonal 1).1
      (Or.inr (one_edge_same_off_diagonal 1).2)).1⟩

/-- C9: with a non-NULL output pointer and a graph that passes the graph check, the call
ends with the error "G->AT is required" exactly when the graph is not undirected, its
pattern is not known to be symmetric (unknown included) and `G->AT` is NULL; when the
graph is undirected or its pattern is known symmetric, `G->A` serves as both `A` and
`AT` and the call does what the computation on `(A, A)` does, whatever `G->AT` is. -/
theorem C9_AT_required (chk : LAGraph_Graph α → Int) (G : LAGraph_Graph α) (sources : List Nat)
    (hchk : chk G = 0) :
    (LAGraph_VertexCentrality_Betweenness chk false G sources
        = .lg_check (-1) "G->AT is required"
      ↔ (G.kind ≠ .LAGRAPH_ADJACENCY_UNDIRECTED
          ∧ G.A_pattern_is_symmetric ≠ .LAGRAPH_TRUE ∧ G.AT = none))
    ∧ ((G.kind = .LAGRAPH_ADJACENCY_UNDIRECTED ∨ G.A_pattern_is_symmetric = .LAGRAPH_TRUE) →
        LAGraph_VertexCentrality_Betweenness chk false G sources
          = Outcome.of_compute (compute .adaptive G.A G.A sources)) := by
  unfold LAGraph_VertexCentrality_Betweenness LAGraph_VertexCentrality_Betweenness_with select_AT
  constructor
  · by_cases hk : G.kind = .LAGRAPH_ADJACENCY_UNDIRECTED ∨ G.A_pattern_is_symmetric = .LAGRAPH_TRUE
    · have hne : ¬ (G.kind ≠ .LAGRAPH_ADJACENCY_UNDIRECTED
          ∧ G.A_pattern_is_symmetric ≠ .LAGRAPH_TRUE ∧ G.AT = none) := by
        rintro ⟨h1, h2, -⟩
        rcases hk with hk | hk
        · exact h1 hk
        · exact h2 hk
      simp only [hchk, if_pos hk, hne, iff_false]
      simp only [Bool.false_eq_true, if_false, ne_eq, not_true_eq_false]
      cases compute .adaptive G.A G.A sources <;> simp [Outcome.of_compute]
    · have hk1 : G.kind ≠ .LAGRAPH_ADJACENCY_UNDIRECTED := fun h => hk (Or.inl h)
      have hk2 : G.A_pattern_is_symmetric ≠ .LAGRAPH_TRUE := fun h => hk (Or.inr h)
      simp only [hchk, if_neg hk, Bool.false_eq_true, if_false, ne_eq, not_true_eq_false]
      cases hAT : G.AT with
      | none => simp [hk1, hk2]
      | some AT =>
        simp only [hk1, hk2, not_false_eq_true, true_and]
        cases compute .adaptive G.A AT sources <;> simp [Outcome.of_compute]
  · intro hk
    simp only [hchk, if_pos hk, Bool.false_eq_true, if_false, ne_eq, not_true_eq_false]

theorem C9_witness :
    (fun _ => 0 : LAGraph_Graph Bool → Int) path5 = 0
      ∧ LAGraph_VertexCentrality_Betweenness (fun _ => 0) false path5 [0]
          = Outcome.of_compute (compute .adaptive path5.A path5.A [0]) :=
  ⟨rfl, (C9_AT_required (fun _ => 0) path5 [0] rfl).2 (Or.inl rfl)⟩

/-- C10: if some `sources[i]` with `i < ns` is not a vertex (`sources[i] >= n`), the call
returns a nonzero status and hands back no centrality vector; when the input checks
pass, it is the engine error GrB_INVALID_INDEX of the first GrB_Matrix_setElement that
ends the call. -/
theorem C10_source_out_of_range (chk : LAGraph_Graph α → Int) (cnull : Bool)
    (G : LAGraph_Graph α) (sources : List Nat) (h : ∃ s ∈ sources, G.A.nrows ≤ s) :
    (LAGraph_VertexCentrality_Betweenness chk cnull G sources).status_nonzero = true
      ∧ (LAGraph_VertexCentrality_Betweenness chk cnull G sources).centrality = none
      ∧ (cnull = false → chk G = 0 → select_AT G ≠ none →
          LAGraph_VertexCentrality_Betweenness chk cnull G sources
            = .grb_try .GrB_INVALID_INDEX) := by
  unfold LAGraph_VertexCentrality_Betweenness LAGraph_VertexCentrality_Betweenness_with
  cases cnull with
  | true => simp [Outcome.status_nonzero, Outcome.centrality]
  | false =>
    by_cases hc : chk G = 0
    · cases hsel : select_AT G with
      | none => simp [hc, Outcome.status_nonzero, Outcome.centrality]
      | some AT =>
        simp [hc, compute_error .adaptive G.A AT sources h, Outcome.of_compute,
          Outcome.status_nonzero, Outcome.centrality]
    · simp [hc, Outcome.status_nonzero, Outcome.centrality]

theorem C10_witness :
    (∃ s ∈ [0, 7], path5.A.nrows ≤ s)
      ∧ LAGraph_VertexCentrality_Betweenness (fun _ => 0) false path5 [0, 7]
          = .grb_try .GrB_INVALID_INDEX :=
  ⟨⟨7, by simp, by decide⟩,
   (C10_source_out_of_range (fun _ => 0) false path5 [0, 7] ⟨7, by simp, by decide⟩).2.2
      rfl rfl (by decide)⟩

/-- C11 as stated fails: with an empty source list the call on the path graph 0-1-2-3-4
returns status 0 and the vector of five zeros. -/
theorem C11_counterexample :
    LAGraph_VertexCentrality_Betweenness (fun _ => 0) false path5 []
        = .returned_ok [some 0, some 0, some 0, some 0, some 0]
      ∧ (LAGraph_VertexCentrality_Betweenness (fun _ => 0) false path5 []).status_nonzero
          = false := by
  decide!

/-- C11 (amended): the function makes no check on `ns`.  With an empty source list, a
non-NULL output pointer, a graph that passes the graph check, an `AT` to use and a square
`A`, every engine call succeeds (the matrices with zero rows are accepted) and the call
returns status 0 with the centrality vector of `n` zeros. -/
theorem C11_no_sources (chk : LAGraph_Graph α → Int) (G : LAGraph_Graph α) (AT : Matrix α)
    (hchk : chk G = 0) (hsel : select_AT G = some AT) (hsq : G.A.ncols = G.A.nrows) :
    LAGraph_VertexCentrality_Betweenness chk false G []
        = .returned_ok ((List.range G.A.nrows).map fun _ => some 0)
      ∧ (LAGraph_VertexCentrality_Betweenness chk false G []).status_nonzero = false := by
  have h : LAGraph_VertexCentrality_Betweenness chk false G []
      = .returned_ok ((List.range G.A.nrows).map fun _ => some 0) := by
    unfold LAGraph_VertexCentrality_Betweenness LAGraph_VertexCentrality_Betweenness_with
    rw [hsel]
    simp only [hchk, compute_no_sources .adaptive G.A AT hsq, Outcome.of_compute,
      Bool.false_eq_true, if_false, ne_eq, not_true_eq_false]
  rw [h]
  exact ⟨rfl, rfl⟩

theorem C11_witness :
    ((fun _ => 0 : LAGraph_Graph Bool → Int) path5 = 0 ∧ select_AT path5 = some path5.A
        ∧ path5.A.ncols = path5.A.nrows)
      ∧ LAGraph_VertexCentrality_Betweenness (fun _ => 0) false path5 []
          = .returned_ok ((List.range path5.A.nrows).map fun _ => some 0) :=
  ⟨⟨rfl, rfl, rfl⟩, (C11_no_sources (fun _ => 0) path5 path5.A rfl rfl rfl).1⟩

/-- C12 as stated fails: with the source list [0, 0] the call on the path graph 0-1-2-3-4
returns status 0 and the vector [0, 6, 4, 2, 0], twice the dependencies of the source 0. -/
theorem C12_counterexample :
    LAGraph_VertexCentrality_Betweenness (fun _ => 0) false path5 [0, 0]
        = .returned_ok [some 0, some 6, some 4, some 2, some 0]
      ∧ (LAGraph_VertexCentrality_Betweenness (fun _ => 0) false path5 [0, 0]).status_nonzero
          = false := by
  decide!

/-- C12 (amended): a source list in which a vertex appears more than once is not
rejected.  On well-formed input (graph check passed, square `A`, `AT` with the transposed
pattern, sources in range) the call returns status 0 and, evaluated in exact (rational)
arithmetic, every position of the list contributes the dependency of its source:
`centrality[v]` is the sum over the positions `i < ns` of the dependency of `sources[i]`
on `v`, a repeated source counting once per occurrence. -/
theorem C12_duplicate_sources (chk : LAGraph_Graph α → Int) (G : LAGraph_Graph α)
    (AT : Matrix α) (sources : List Nat) (_hdup : ¬ sources.Nodup) (hchk : chk G = 0)
    (hsel : select_AT G = some AT) (hwf : WellFormed G.A AT sources) :
    LAGraph_VertexCentrality_Betweenness chk false G sources
        = .returned_ok ((List.range G.A.nrows).map fun v =>
            some (((List.range sources.length).map fun i =>
              dependency G.A.has G.A.nrows (sources.getD i 0) v).sum))
      ∧ (LAGraph_VertexCentrality_Betweenness chk false G sources).status_nonzero = false := by
  have hsum : ∀ v, betweenness G.A.has G.A.nrows sources v
      = ((List.range sources.length).map fun i =>
          dependency G.A.has G.A.nrows (sources.getD i 0) v).sum := by
    intro v
    unfold betweenness
    rw [list_sum_map_getD, list_sum_map_range]
  have h : LAGraph_VertexCentrality_Betweenness chk false G sources
      = .returned_ok ((List.range G.A.nrows).map fun v =>
          some (((List.range sources.length).map fun i =>
            dependency G.A.has G.A.nrows (sources.getD i 0) v).sum)) := by
    unfold LAGraph_VertexCentrality_Betweenness LAGraph_VertexCentrality_Betweenness_with
    rw [hsel]
    simp only [hchk, compute_correct .adaptive hwf, Outcome.of_compute, Bool.false_eq_true,
      if_false, ne_eq, not_true_eq_false, hsum]
  rw [h]
  exact ⟨rfl, rfl⟩

theorem C12_witness :
    (¬ [0, 0].Nodup ∧ WellFormed path5.A path5.A [0, 0])
      ∧ (LAGraph_VertexCentrality_Betweenness (fun _ => 0) false path5 [0, 0]).status_nonzero
          = false :=
  ⟨⟨by decide, (path5_well_formed [0, 0] (by simp)).2⟩,
   (C12_duplicate_sources (fun _ => 0) path5 path5.A [0, 0] (by decide) rfl rfl
      (path5_well_formed [0, 0] (by simp)).2).2⟩

/-- C13 (no partial results): in the function with its resources, whatever calls fail
(an allocation, or any engine call at any step, the three calls after the output vector
was created included), for every call with a non-NULL centrality pointer: if the status
is nonzero, or any check failed, `*centrality` is NULL on return; a non-NULL vector comes
only with `return (0)`.  Every exit is one of the two; and when no call fails for an
outside reason the exit is that of `LAGraph_VertexCentrality_Betweenness`. -/
theorem C13_no_partial_results (fault : Site → Option GrB_Info)
    (chk : LAGraph_Graph α → Int) (G : LAGraph_Graph α) (sources : List Nat) :
    ((LAGraph_VertexCentrality_Betweenness_detail fault .adaptive chk false G
          sources).status_nonzero = true →
        (LAGraph_VertexCentrality_Betweenness_detail fault .adaptive chk false G
          sources).centrality = none)
      ∧ ((LAGraph_VertexCentrality_Betweenness_detail fault .adaptive chk false G
            sources).failure ≠ none →
          (LAGraph_VertexCentrality_Betweenness_detail fault .adaptive chk false G
            sources).centrality = none)
      ∧ ((LAGraph_VertexCentrality_Betweenness_detail fault .adaptive chk false G
            sources).centrality ≠ none →
          (LAGraph_VertexCentrality_Betweenness_detail fault .adaptive chk false G
              sources).failure = none
            ∧ (LAGraph_VertexCentrality_Betweenness_detail fault .adaptive chk false G
              sources).status_nonzero = false)
      ∧ LAGraph_VertexCentrality_Betweenness_detail no_fault .adaptive chk false G sources
          = Exit.of_outcome (LAGraph_VertexCentrality_Betweenness chk false G sources) := by
  have hz : ∀ e : Exit, e.failure = none → e.status_nonzero = false := by
    intro e he
    unfold Exit.status_nonzero
    rw [he]
  refine ⟨?_, ?_, ?_, detail_no_fault .adaptive chk false G sources⟩
  · intro hs
    rcases detail_exit fault .adaptive chk G sources with h | h
    · exact h.2
    · rw [hz _ h.1] at hs
      cases hs
  · intro hf
    rcases detail_exit fault .adaptive chk G sources with h | h
    · exact h.2
    · exact absurd h.1 hf
  · intro hc
    rcases detail_exit fault .adaptive chk G sources with h | h
    · exact absurd h.2 hc
    · exact ⟨h.1, hz _ h.1⟩

/-- C14: for every graph whose adjacency pattern is symmetric with an empty diagonal, with
`L` and `U` its strictly lower and upper triangular parts, each of the six methods,
whatever the presort option (and whatever the automatic option picks), gives the number
of triangles of the graph, so any two of them agree: sum(sum((A^2).*A))/6 (Burkhardt),
sum(sum((L*U).*A))/2 (Cohen), sum(sum((L*L).*L)) (Sandia), sum(sum((U*U).*U)) (Sandia2),
sum(sum((L*U').*L)) (SandiaDot), sum(sum((U*L').*U)) (SandiaDot2).  The two divisions are
exact: the sums are 6 times and 2 times the number of triangles. -/
theorem C14_triangle_methods
    (auto : Nat → (Nat → Nat → Bool) → LAGraph_TriangleCount_Method →
      LAGraph_TriangleCount_Presort)
    (G : LAGraph_Graph α) (hsym : ∀ i j, G.A.has i j = G.A.has j i)
    (hdiag : ∀ i, G.A.has i i = false)
    (method method2 : LAGraph_TriangleCount_Method)
    (presort presort2 : LAGraph_TriangleCount_Presort) :
    LAGraph_TriangleCount_Methods auto G method presort = triangle_count G.A.nrows G.A.has
      ∧ LAGraph_TriangleCount_Methods auto G method presort
          = LAGraph_TriangleCount_Methods auto G method2 presort2
      ∧ masked_product_sum G.A.nrows G.A.has G.A.has G.A.has
          = 6 * triangle_count G.A.nrows G.A.has
      ∧ masked_product_sum G.A.nrows (tril G.A.has) (triu G.A.has) G.A.has
          = 2 * triangle_count G.A.nrows G.A.has := by
  refine ⟨triangle_methods_eq auto G hsym hdiag method presort, ?_,
    burkhardt_sum hsym hdiag _, cohen_sum hsym hdiag _⟩
  rw [triangle_methods_eq auto G hsym hdiag method presort,
    triangle_methods_eq auto G hsym hdiag method2 presort2]

theorem C14_witness :
    ((∀ i j, triangle3.A.has i j = triangle3.A.has j i) ∧ (∀ i, triangle3.A.has i i = false))
      ∧ LAGraph_TriangleCount_Methods (fun _ _ _ => .Ascending) triangle3 .Burkhardt .AutoSort
          = triangle_count triangle3.A.nrows triangle3.A.has
      ∧ triangle_count triangle3.A.nrows triangle3.A.has = 1 :=
  ⟨⟨triangle3_symm, triangle3_diag⟩,
   (C14_triangle_methods (fun _ _ _ => .Ascending) triangle3 triangle3_symm triangle3_diag
      .Burkhardt .Cohen .AutoSort .NoSort).1, by decide!⟩

/-- C15 as stated fails: on the path graph 0-1-2-3-4 with the single source 0 the forward
sweep records levels, and `S[0]` has no entry at `(0, sources[0]) = (0,0)` but has one at
`(0,1)`: it is the pattern of the first expansion, not of the sources. -/
theorem C15_counterexample :
    ∃ st : BFSState,
      bfs_stage .adaptive path5.A path5.A [0] = .ok st
      ∧ 0 < st.S.length
      ∧ (level st.S 0).has 0 ([0].getD 0 0) = false
      ∧ (level st.S 0).has 0 1 = true := by
  have h : ok_and (bfs_stage .adaptive path5.A path5.A [0]) (fun st =>
      decide (0 < st.S.length) && (decide ((level st.S 0).has 0 ([0].getD 0 0) = false)
        && (level st.S 0).has 0 1)) = true := by
    decide!
  obtain ⟨st, hst, hp⟩ := (ok_and_iff _ _).mp h
  simp only [Bool.and_eq_true, decide_eq_true_eq] at hp
  exact ⟨st, hst, hp.1, hp.2.1, hp.2.2⟩

/-- C15 (amended): the initial frontier is expanded once before the loop, so the recorded
levels start at distance 1.  On well-formed inputs, for every recorded level `d`, source
row `i` and vertex `v`: `(i,v)` is in `S[d]` exactly when `v` is at distance `d+1` from
`sources[i]`; in particular `S[0]` holds the pairs `(i,v)` with an edge
`sources[i] -> v` and `v != sources[i]`, and no recorded level holds `(i, sources[i])`. -/
theorem C15_first_level (p : Policy) (A AT : Matrix α) (sources : List Nat)
    (hwf : WellFormed A AT sources) :
    ∃ st, bfs_stage p A AT sources = .ok st
      ∧ ∀ d i v, d < st.S.length → i < sources.length → v < A.nrows →
          ((level st.S d).has i v = true
            ↔ dist? A.has A.nrows (sources.getD i 0) v = some (d + 1))
          ∧ (d = 0 → ((level st.S d).has i v = true
                ↔ (A.has (sources.getD i 0) v = true ∧ v ≠ sources.getD i 0)))
          ∧ (level st.S d).has i (sources.getD i 0) = false := by
  obtain ⟨st, k, hstage, hfwd, _, _⟩ := bfs_stage_inv p hwf
  refine ⟨st, hstage, ?_⟩
  intro d i v hd hi hv
  rw [hfwd.S_length] at hd
  have hs : sources.getD i 0 < A.nrows := by
    apply hwf.in_range
    rw [List.getD_eq_getElem _ _ hi]
    exact List.getElem_mem _
  refine ⟨level_dist hfwd hd hi hv, ?_, ?_⟩
  · intro hd0
    subst hd0
    rw [(hfwd.S_ok 0 hd).2.2 i v hi hv]
    exact first_at_one_iff A.has A.nrows (sources.getD i 0) v hs
  · cases hh : (level st.S d).has i (sources.getD i 0)
    · rfl
    · exfalso
      have h1 := ((hfwd.S_ok d hd).2.2 i _ hi hs).mp hh
      have h0 : first_at A.has A.nrows (sources.getD i 0) 0 (sources.getD i 0) :=
        (first_at_zero_iff _ _ _ _).mpr rfl
      have := first_at_unique _ _ _ h1 h0
      omega

theorem C15_witness :
    WellFormed path5.A path5.A [0]
      ∧ ∃ st, bfs_stage .adaptive path5.A path5.A [0] = .ok st
          ∧ ∀ d i v, d < st.S.length → i < [0].length → v < path5.A.nrows →
              ((level st.S d).has i v = true
                ↔ dist? path5.A.has path5.A.nrows ([0].getD i 0) v = some (d + 1))
              ∧ (d = 0 → ((level st.S d).has i v = true
                    ↔ (path5.A.has ([0].getD i 0) v = true ∧ v ≠ [0].getD i 0)))
              ∧ (level st.S d).has i ([0].getD i 0) = false :=
  ⟨(path5_well_formed [0] (by simp)).2,
   C15_first_level .adaptive path5.A path5.A [0] (path5_well_formed [0] (by simp)).2⟩

/-- C16: on every graph and source list, when the forward sweep succeeds the recorded
levels are pairwise disjoint (no `(source index, vertex)` pair is in both `S[d]` and
`S[d2]` for `d != d2`), and after every masked frontier update, the initial one and the
one of every pass, the new frontier has no entry at a position present in `paths`. -/
theorem C16_levels_disjoint (p : Policy) (A AT : Matrix α) (sources : List Nat)
    (st : BFSState) (h : bfs_stage p A AT sources = .ok st) :
    (∀ d d2 i v, d ≠ d2 → (level st.S d).has i v = true → (level st.S d2).has i v = false)
      ∧ (∀ i v, st.frontier.has i v = true → st.paths.has i v = false)
      ∧ (∀ st0, bfs_init A sources = .ok st0 →
          ∀ i v, st0.frontier.has i v = true → st0.paths.has i v = false)
      ∧ (∀ s s2, bfs_step p A AT sources.length A.nrows s = .ok s2 →
          ∀ i v, s2.frontier.has i v = true → s2.paths.has i v = false) := by
  have hsafe := bfs_stage_safe p A AT sources st h
  refine ⟨hsafe.disjoint, hsafe.fresh, ?_, ?_⟩
  · intro st0 h0
    exact (bfs_init_safe A sources st0 h0).fresh
  · intro s s2 hs
    exact bfs_step_fresh p A AT _ _ s s2 hs

theorem C16_witness :
    ∃ st, bfs_stage .adaptive path5.A path5.A [0, 1, 2, 3, 4] = .ok st
      ∧ 1 < st.S.length
      ∧ ∀ d d2 i v, d ≠ d2 → (level st.S d).has i v = true → (level st.S d2).has i v = false :=
  ((ok_and_iff (bfs_stage .adaptive path5.A path5.A [0, 1, 2, 3, 4])
      (fun st => decide (1 < st.S.length))).mp (by decide!)).elim fun st h =>
    ⟨st, h.1, of_decide_eq_true h.2,
     (C16_levels_disjoint .adaptive path5.A path5.A [0, 1, 2, 3, 4] st h.1).1⟩

/-- C17 (division safety): on every graph and source list, when the forward sweep
succeeds, every position `(s,v)` present in a recorded level `S[i]` has an entry in
`paths`, and that entry is at least 1; these are the `paths` and `S` the backward loop
divides by, under the mask `S[i]`. -/
theorem C17_division_safety (p : Policy) (A AT : Matrix α) (sources : List Nat)
    (st : BFSState) (h : bfs_stage p A AT sources = .ok st) (i s v : Nat)
    (hsv : (level st.S i).has s v = true) :
    ∃ x, st.paths.get s v = some x ∧ 1 ≤ x ∧ x ≠ 0 := by
  have hsafe := bfs_stage_safe p A AT sources st h
  have hp := hsafe.recorded i s v hsv
  cases hg : st.paths.get s v with
  | none =>
    have : st.paths.has s v = false := by
      show (st.paths.get s v).isSome = false
      rw [hg]; rfl
    rw [this] at hp
    cases hp
  | some x =>
    have hx := hsafe.paths_pos s v x hg
    exact ⟨x, rfl, hx, by linarith⟩

theorem C17_witness :
    ∃ st, bfs_stage .adaptive path5.A path5.A [0] = .ok st
      ∧ (level st.S 1).has 0 2 = true
      ∧ ∃ x, st.paths.get 0 2 = some x ∧ 1 ≤ x ∧ x ≠ 0 :=
  ((ok_and_iff (bfs_stage .adaptive path5.A path5.A [0])
      (fun st => (level st.S 1).has 0 2)).mp (by decide!)).elim fun st h =>
    ⟨st, h.1, h.2, C17_division_safety .adaptive path5.A path5.A [0] st h.1 1 0 2 h.2⟩

/-- C18 (masking correctness): on every graph and source list, take the state `st` the
backward loop is in after any number `k` of its passes (the whole loop is the run of
`depth-1` passes) and a pass at index `i` from that state that succeeds.  Immediately
after the masked division `W<S[i]> = bc_update ./ paths` the pattern of `W` is exactly
that of `S[i]`, and after the masked multiply of the same pass `W` has no entry outside
`S[i-1]`. -/
theorem C18_masking (p : Policy) (A AT : Matrix α) (sources : List Nat) (fwd : BFSState)
    (h : bfs_stage p A AT sources = .ok fwd) (k i : Nat) (st st2 : BCState)
    (hrun : bc_run p A AT fwd.paths fwd.S sources.length A.nrows (fwd.depth - 1) k
      (bc_init sources.length A.nrows) = .ok st)
    (hs : bc_step p A AT fwd.paths fwd.S sources.length A.nrows i st = .ok st2) :
    bc_loop p A AT fwd.paths fwd.S sources.length A.nrows (fwd.depth - 1)
        (bc_init sources.length A.nrows)
      = bc_run p A AT fwd.paths fwd.S sources.length A.nrows (fwd.depth - 1) (fwd.depth - 1)
          (bc_init sources.length A.nrows)
    ∧ ∃ W1, GrB_eWiseMult st.W (some (level fwd.S i)) none (· / ·) st.bc_update fwd.paths
          GrB_DESC_RS = .ok W1
        ∧ (∀ r v, W1.has r v = true ↔ (level fwd.S i).has r v = true)
        ∧ (∀ r v, st2.W.has r v = true → (level fwd.S (i - 1)).has r v = true) := by
  refine ⟨bc_loop_eq_run p A AT _ _ _ _ _ _, ?_⟩
  have hsafe := bfs_stage_safe p A AT sources fwd h
  have hfull := bc_run_full p A AT fwd.paths fwd.S sources.length A.nrows k _ _ st
    (bc_init_full _ _) hrun
  obtain ⟨W1, W2, bc2, B, desc, h1, hr, hc, h2, _, hst⟩ :=
    bc_step_cases p A AT fwd.paths fwd.S _ _ i st st2 hs
  subst hst
  refine ⟨W1, h1, ?_, ?_⟩
  · intro r v
    exact division_pattern hfull (hsafe.recorded i) h1 r v
  · intro r v hw
    exact mxm_inside hr hc h2 r v hw

theorem C18_witness :
    ∃ fwd st2, bfs_stage .adaptive path5.A path5.A [0] = .ok fwd
      ∧ bc_step .adaptive path5.A path5.A fwd.paths fwd.S 1 5 3 (bc_init 1 5) = .ok st2
      ∧ ∀ r v, st2.W.has r v = true → (level fwd.S (3 - 1)).has r v = true :=
  ((ok_and_iff (bfs_stage .adaptive path5.A path5.A [0]) (fun fwd =>
      ok_and (bc_step .adaptive path5.A path5.A fwd.paths fwd.S 1 5 3 (bc_init 1 5))
        (fun _ => true))).mp (by decide!)).elim fun fwd h =>
    ((ok_and_iff _ _).mp h.2).elim fun st2 h2 =>
      ⟨fwd, st2, h.1, h2.1,
       (C18_masking .adaptive path5.A path5.A [0] fwd h.1 0 3 (bc_init 1 5) st2 rfl
          h2.1).2.elim fun _ hw => hw.2.2⟩

/-- C19: for every well-formed input (square `A`, `AT` with the transposed pattern,
sources in range) with `n >= 1` vertices, under every direction policy, the forward loop
ends, and it ends because the frontier became empty: on exit `frontier_size = 0` and the
frontier has no entry, every earlier frontier, recorded as `S[d]` for `d < depth_max`, is
non-empty, so `depth_max` is the first depth whose frontier is empty, and
`depth_max < n`, hence `depth_max <= n`: the guard `depth < n` still holds on exit and is
never what stops the loop. -/
theorem C19_forward_termination (p : Policy) (A AT : Matrix α) (sources : List Nat)
    (hwf : WellFormed A AT sources) (hn : 1 ≤ A.nrows) :
    ∃ st, bfs_stage p A AT sources = .ok st
      ∧ st.frontier_size = 0 ∧ GrB_Matrix_nvals st.frontier = 0
      ∧ (∀ d, d < st.depth → 0 < GrB_Matrix_nvals (level st.S d))
      ∧ st.S.length = st.depth
      ∧ st.depth ≤ A.nrows ∧ st.depth < A.nrows := by
  obtain ⟨st, h1, h2, h3, h4, h5, h6⟩ := forward_ends_empty p hwf hn
  exact ⟨st, h1, h2, h3, h6, h5, Nat.le_of_lt h4, h4⟩

theorem C19_witness :
    (WellFormed path5.A path5.A [0, 4] ∧ 1 ≤ path5.A.nrows)
      ∧ ∃ st, bfs_stage .adaptive path5.A path5.A [0, 4] = .ok st
          ∧ st.frontier_size = 0 ∧ GrB_Matrix_nvals st.frontier = 0
          ∧ (∀ d, d < st.depth → 0 < GrB_Matrix_nvals (level st.S d))
          ∧ st.S.length = st.depth
          ∧ st.depth ≤ path5.A.nrows ∧ st.depth < path5.A.nrows :=
  ⟨⟨(path5_well_formed [0, 4] (by simp)).2, by decide⟩,
   C19_forward_termination .adaptive path5.A path5.A [0, 4]
     (path5_well_formed [0, 4] (by simp)).2 (by decide)⟩

/-- C20 (sentinel and bounds of the level array): in the function with its resources,
whatever calls fail, when the forward loop ends: `S` has `n+1` slots; the indices written
are `0` and then `depth+1` and `depth` in each pass, all of them at most `n`;
`depth_max <= n`; `S[d]` is the recorded pattern of level `d` for every `d < depth_max`
and `S[depth_max]` is NULL; so the release loop of LAGRAPH_FREE_WORK, run with bound
`n`, reads no slot that was never written and frees exactly the indices
`0 .. depth_max-1`.  The forward state is that of the first transcription. -/
theorem C20_level_array (fault : Site → Option GrB_Info) (p : Policy) (A AT : Matrix α)
    (sources : List Nat) (d : BFSDetail)
    (h : bfs_stage_detail fault p A AT sources = .ok d) :
    d.S_array.length = A.nrows + 1
      ∧ d.writes = 0 :: (List.range d.st.depth).flatMap (fun k => [k + 1, k])
      ∧ (∀ w, w ∈ d.writes → w ≤ A.nrows)
      ∧ d.st.depth ≤ A.nrows
      ∧ (∀ j, j < d.st.depth → d.S_array.get? j = some (.pattern (level d.st.S j)))
      ∧ d.S_array.get? d.st.depth = some .null
      ∧ release_loop d.S_array A.nrows 0 = some (List.range d.st.depth)
      ∧ bfs_stage p A AT sources = .ok d.st := by
  have hI := bfs_stage_detail_inv fault p A AT sources d h
  refine ⟨hI.size, bfs_stage_detail_writes fault p A AT sources d h, hI.writes_le,
    hI.depth_le, hI.recorded, hI.sentinel, ?_, bfs_stage_detail_ok fault p A AT sources d h⟩
  apply release_loop_all _ _ _ hI.depth_le _ hI.sentinel
  intro j hj
  exact ⟨_, hI.recorded j hj⟩

theorem C20_witness :
    ∃ d, bfs_stage_detail no_fault .adaptive path5.A path5.A [0] = .ok d
      ∧ d.st.depth = 4
      ∧ release_loop d.S_array path5.A.nrows 0 = some (List.range d.st.depth) :=
  ((ok_and_iff (bfs_stage_detail no_fault .adaptive path5.A path5.A [0])
      (fun d => decide (d.st.depth = 4))).mp (by decide!)).elim fun d h =>
    ⟨d, h.1, of_decide_eq_true h.2,
     (C20_level_array no_fault .adaptive path5.A path5.A [0] d h.1).2.2.2.2.2.2.1⟩

/-- C21 (forward direction rule): take the state `st` of the forward loop after any
number `k` of passes and a pass from it that succeeds.  With `density` the number of
entries of the frontier of that pass, the one recorded as `S[depth]`, divided by `ns*n`,
the pull branch (`frontier*AT'`) is taken if and only if `density > 0.10`, or
`density > 0.06` and the previous pass took the pull branch; otherwise the push branch
(`frontier*A`) is taken.  Before the first pass the previous direction is push, and the
pass does not depend on `last_frontier_size`, the only input of `growing`.  The doubles
are compared as exact rationals. -/
theorem C21_forward_direction (A AT : Matrix α) (sources : List Nat) (st0 : BFSState)
    (h0 : bfs_init A sources = .ok st0) (k : Nat) (st st2 : BFSState)
    (hk : bfs_loop .adaptive A AT sources.length A.nrows k st0 = .ok st)
    (hs : bfs_step .adaptive A AT sources.length A.nrows st = .ok st2) :
    st0.last_was_pull = false
      ∧ level st2.S st.depth = LAGraph_Pattern st.frontier
      ∧ (st2.last_was_pull = true ↔
          ((GrB_Matrix_nvals st.frontier : ℚ) / ((sources.length * A.nrows : Nat) : ℚ) > 1 / 10
            ∨ ((GrB_Matrix_nvals st.frontier : ℚ) / ((sources.length * A.nrows : Nat) : ℚ)
                  > 6 / 100
                ∧ st.last_was_pull = true)))
      ∧ (st2.last_was_pull = true →
          GrB_mxm st.frontier (some st2.paths) st.frontier AT GrB_DESC_RSCT1 = .ok st2.frontier)
      ∧ (st2.last_was_pull = false →
          GrB_mxm st.frontier (some st2.paths) st.frontier A GrB_DESC_RSC = .ok st2.frontier)
      ∧ (∀ x, bfs_step .adaptive A AT sources.length A.nrows
            { st with last_frontier_size := x } = .ok st2) := by
  have hsafe := bfs_loop_safe .adaptive A AT _ _ k st0 st (bfs_init_safe A sources st0 h0) hk
  obtain ⟨d1, d2, d3⟩ := bfs_step_direction A AT _ _ st st2 hs
  obtain ⟨P, F, fr, _, _, hst0⟩ := bfs_init_cases A sources st0 h0
  obtain ⟨paths, fr2, B, desc, lw, _, _, _, _, hst2⟩ :=
    bfs_step_cases .adaptive A AT _ _ st st2 hs
  refine ⟨by rw [hst0], ?_, ?_, d2, d3, fun x => hs⟩
  · rw [hst2, ← hsafe.S_length]
    exact level_append_eq _ _
  · rw [d1, forward_do_pull_iff, hsafe.size_eq]

theorem C21_witness :
    ∃ st0 st2, bfs_init path5.A [0, 1, 2, 3, 4] = .ok st0
      ∧ bfs_step .adaptive path5.A path5.A 5 5 st0 = .ok st2
      ∧ st2.last_was_pull = true
      ∧ ((GrB_Matrix_nvals st0.frontier : ℚ) / ((5 * 5 : Nat) : ℚ) > 1 / 10
          ∨ ((GrB_Matrix_nvals st0.frontier : ℚ) / ((5 * 5 : Nat) : ℚ) > 6 / 100
              ∧ st0.last_was_pull = true)) :=
  ((ok_and_iff (bfs_init path5.A [0, 1, 2, 3, 4]) (fun st0 =>
      ok_and (bfs_step .adaptive path5.A path5.A 5 5 st0) (fun st2 => st2.last_was_pull))).mp
      (by decide!)).elim fun st0 h =>
    ((ok_and_iff _ _).mp h.2).elim fun st2 h2 =>
      ⟨st0, st2, h.1, h2.1, h2.2,
       (C21_forward_direction path5.A path5.A [0, 1, 2, 3, 4] st0 h.1 0 st0 st2 rfl
          h2.1).2.2.1.mp h2.2⟩

/-- C22 (backward direction rule): in every backward pass that succeeds, at any index `i`
and from any state, with `W` the result of the masked division, `w_density` its number
of entries divided by `ns*n` and `ratio` its number of entries divided by that of
`S[i-1]`: if `w_density > 0.10` and `ratio > 1`, or `w_density > 0.01` and `ratio > 10`,
the pull branch is taken (`W<S[i-1]> = W*A'`), otherwise the push branch
(`W<S[i-1]> = W*AT`).  The condition reads nothing but `W`, `S[i-1]`, `ns` and `n`: no
direction taken elsewhere enters it.  The doubles are compared as exact rationals. -/
theorem C22_backward_direction (A AT : Matrix α) (paths : Matrix ℚ) (S : List (Matrix Bool))
    (ns n i : Nat) (st st2 : BCState)
    (hs : bc_step .adaptive A AT paths S ns n i st = .ok st2) :
    ∃ W, GrB_eWiseMult st.W (some (level S i)) none (· / ·) st.bc_update paths GrB_DESC_RS
        = .ok W
      ∧ ((((GrB_Matrix_nvals W : ℚ) / ((ns * n : Nat) : ℚ) > 1 / 10
              ∧ (GrB_Matrix_nvals W : ℚ) / (GrB_Matrix_nvals (level S (i - 1)) : ℚ) > 1)
            ∨ ((GrB_Matrix_nvals W : ℚ) / ((ns * n : Nat) : ℚ) > 1 / 100
              ∧ (GrB_Matrix_nvals W : ℚ) / (GrB_Matrix_nvals (level S (i - 1)) : ℚ) > 10)) →
          GrB_mxm W (some (level S (i - 1))) W A GrB_DESC_RST1 = .ok st2.W)
      ∧ (¬ (((GrB_Matrix_nvals W : ℚ) / ((ns * n : Nat) : ℚ) > 1 / 10
              ∧ (GrB_Matrix_nvals W : ℚ) / (GrB_Matrix_nvals (level S (i - 1)) : ℚ) > 1)
            ∨ ((GrB_Matrix_nvals W : ℚ) / ((ns * n : Nat) : ℚ) > 1 / 100
              ∧ (GrB_Matrix_nvals W : ℚ) / (GrB_Matrix_nvals (level S (i - 1)) : ℚ) > 10)) →
          GrB_mxm W (some (level S (i - 1))) W AT GrB_DESC_RS = .ok st2.W) := by
  obtain ⟨W, h1, h2, h3⟩ := bc_step_direction A AT paths S ns n i st st2 hs
  refine ⟨W, h1, ?_, ?_⟩
  · intro hc
    exact h2 ((backward_do_pull_iff _ _ _ _).mpr hc)
  · intro hc
    apply h3
    cases hb : backward_do_pull (GrB_Matrix_nvals W) (GrB_Matrix_nvals (level S (i - 1))) ns n
    · rfl
    · exact absurd ((backward_do_pull_iff _ _ _ _).mp hb) hc

theorem C22_witness :
    ∃ fwd st2, bfs_stage .adaptive path5.A path5.A [0] = .ok fwd
      ∧ bc_step .adaptive path5.A path5.A fwd.paths fwd.S 1 5 3 (bc_init 1 5) = .ok st2
      ∧ ∃ W, GrB_eWiseMult (bc_init 1 5).W (some (level fwd.S 3)) none (· / ·)
          (bc_init 1 5).bc_update fwd.paths GrB_DESC_RS = .ok W :=
  ((ok_and_iff (bfs_stage .adaptive path5.A path5.A [0]) (fun fwd =>
      ok_and (bc_step .adaptive path5.A path5.A fwd.paths fwd.S 1 5 3 (bc_init 1 5))
        (fun _ => true))).mp (by decide!)).elim fun fwd h =>
    ((ok_and_iff _ _).mp h.2).elim fun st2 h2 =>
      ⟨fwd, st2, h.1, h2.1,
       (C22_backward_direction path5.A path5.A fwd.paths fwd.S 1 5 3 (bc_init 1 5) st2
          h2.1).elim fun W hW => ⟨W, hW.1⟩⟩

/-- C23 (additivity over sources): on well-formed input (graph check passed, square `A`,
`AT` with the transposed pattern of `A`, source ids in range, repeated or not), the call
on each single-source list `[L[i]]` returns the dependencies of `L[i]`, the call on `L`
returns at every vertex the sum over the positions `i` of `L` of the entries returned
for `[L[i]]`, and the call on any permutation of `L` returns what the call on `L`
returns. -/
theorem C23_additivity (chk : LAGraph_Graph α → Int) (G : LAGraph_Graph α) (AT : Matrix α)
    (L : List Nat) (hchk : chk G = 0) (hsel : select_AT G = some AT)
    (hwf : WellFormed G.A AT L) :
    (∀ i, i < L.length →
        LAGraph_VertexCentrality_Betweenness chk false G [L.getD i 0]
          = .returned_ok ((List.range G.A.nrows).map fun v =>
              some (dependency G.A.has G.A.nrows (L.getD i 0) v)))
      ∧ LAGraph_VertexCentrality_Betweenness chk false G L
          = .returned_ok ((List.range G.A.nrows).map fun v =>
              some (∑ i ∈ Finset.range L.length,
                (LAGraph_VertexCentrality_Betweenness chk false G [L.getD i 0]).entry v))
      ∧ (∀ L2, L.Perm L2 →
          LAGraph_VertexCentrality_Betweenness chk false G L2
            = LAGraph_VertexCentrality_Betweenness chk false G L) := by
  have hsingle : ∀ i, i < L.length →
      LAGraph_VertexCentrality_Betweenness chk false G [L.getD i 0]
        = .returned_ok ((List.range G.A.nrows).map fun v =>
            some (dependency G.A.has G.A.nrows (L.getD i 0) v)) := by
    intro i hi
    unfold LAGraph_VertexCentrality_Betweenness
    rw [call_correct .adaptive chk G AT _ hchk hsel (well_formed_single hwf i hi)]
    congr 1
    apply List.map_congr_left
    intro v _
    rw [betweenness_single]
  refine ⟨hsingle, ?_, ?_⟩
  · unfold LAGraph_VertexCentrality_Betweenness
    rw [call_correct .adaptive chk G AT L hchk hsel hwf]
    congr 1
    apply List.map_congr_left
    intro v hv
    rw [List.mem_range] at hv
    rw [betweenness_eq]
    congr 1
    apply Finset.sum_congr rfl
    intro i hi
    rw [Finset.mem_range] at hi
    have := hsingle i hi
    unfold LAGraph_VertexCentrality_Betweenness at this
    rw [this, entry_returned_ok _ _ v hv]
  · intro L2 hp
    unfold LAGraph_VertexCentrality_Betweenness
    rw [call_correct .adaptive chk G AT L hchk hsel hwf,
      call_correct .adaptive chk G AT L2 hchk hsel (well_formed_perm hwf hp)]
    congr 1
    apply List.map_congr_left
    intro v _
    rw [betweenness_perm _ _ hp v]

theorem C23_witness :
    WellFormed path5.A path5.A [0, 2, 0]
      ∧ LAGraph_VertexCentrality_Betweenness (fun _ => 0) false path5 [0, 2, 0]
          = .returned_ok ((List.range path5.A.nrows).map fun v =>
              some (∑ i ∈ Finset.range [0, 2, 0].length,
                (LAGraph_VertexCentrality_Betweenness (fun _ => 0) false path5
                  [[0, 2, 0].getD i 0]).entry v))
      ∧ LAGraph_VertexCentrality_Betweenness (fun _ => 0) false path5 [2, 0, 0]
          = LAGraph_VertexCentrality_Betweenness (fun _ => 0) false path5 [0, 2, 0] :=
  ⟨(path5_well_formed [0, 2, 0] (by simp)).2,
   (C23_additivity (fun _ => 0) path5 path5.A [0, 2, 0] rfl rfl
      (path5_well_formed [0, 2, 0] (by simp)).2).2.1,
   (C23_additivity (fun _ => 0) path5 path5.A [0, 2, 0] rfl rfl
      (path5_well_formed [0, 2, 0] (by simp)).2).2.2 [2, 0, 0] (by decide)⟩

/-- C24: neither divisor is zero.  On every graph and source list: whenever the body of
the forward loop runs (the guard `frontier_size > 0 && depth < n` holds in the state
after any number of passes), `ns*n > 0`; and when the forward sweep has succeeded, in
every backward iteration `i` with `1 <= i <= depth_max-1`, `ns*n > 0` and
`nnz(S[i-1]) > 0`, a level being recorded only from a non-empty frontier.  The sizes
are natural numbers here; the product the source forms in 64 bits is the same number as
long as `ns*n < 2^64`. -/
theorem C24_no_division_by_zero (p : Policy) (A AT : Matrix α) (sources : List Nat) :
    (∀ st0 k st, bfs_init A sources = .ok st0 →
        bfs_loop p A AT sources.length A.nrows k st0 = .ok st →
        st.frontier_size > 0 ∧ st.depth < A.nrows →
        0 < sources.length * A.nrows
          ∧ ((sources.length * A.nrows : Nat) : ℚ) ≠ 0
          ∧ (sources.length * A.nrows < 2 ^ 64 → 0 < (sources.length * A.nrows) % 2 ^ 64))
      ∧ (∀ fwd, bfs_stage p A AT sources = .ok fwd →
          ∀ i, 1 ≤ i → i ≤ fwd.depth - 1 →
            0 < sources.length * A.nrows
              ∧ ((sources.length * A.nrows : Nat) : ℚ) ≠ 0
              ∧ (sources.length * A.nrows < 2 ^ 64 → 0 < (sources.length * A.nrows) % 2 ^ 64)
              ∧ 0 < GrB_Matrix_nvals (level fwd.S (i - 1))
              ∧ (GrB_Matrix_nvals (level fwd.S (i - 1)) : ℚ) ≠ 0) := by
  have key : ∀ a b : Nat, 0 < a → 0 < b →
      0 < a * b ∧ ((a * b : Nat) : ℚ) ≠ 0 ∧ (a * b < 2 ^ 64 → 0 < (a * b) % 2 ^ 64) := by
    intro a b ha hb
    have hab : 0 < a * b := Nat.mul_pos ha hb
    refine ⟨hab, ?_, ?_⟩
    · exact_mod_cast Nat.pos_iff_ne_zero.mp hab
    · intro hlt
      rw [Nat.mod_eq_of_lt hlt]
      exact hab
  constructor
  · intro st0 k st h0 hk hg
    obtain ⟨h1, h2⟩ := forward_sizes_pos p A AT sources st0 h0 k st hk hg.1
    exact key _ _ h1 h2
  · intro fwd h i hi1 hi2
    obtain ⟨h1, h2, h3⟩ := backward_sizes_pos p A AT sources fwd h i hi1 hi2
    obtain ⟨k1, k2, k3⟩ := key _ _ h1 h2
    refine ⟨k1, k2, k3, h3, ?_⟩
    exact_mod_cast Nat.pos_iff_ne_zero.mp h3

theorem C24_witness :
    ∃ fwd, bfs_stage .adaptive path5.A path5.A [0] = .ok fwd
      ∧ 2 ≤ fwd.depth - 1
      ∧ 0 < [0].length * path5.A.nrows
      ∧ 0 < GrB_Matrix_nvals (level fwd.S (2 - 1)) :=
  ((ok_and_iff (bfs_stage .adaptive path5.A path5.A [0])
      (fun fwd => decide (2 ≤ fwd.depth - 1))).mp (by decide!)).elim fun fwd h =>
    ⟨fwd, h.1, of_decide_eq_true h.2,
     ((C24_no_division_by_zero .adaptive path5.A path5.A [0]).2 fwd h.1 2 (by decide)
        (of_decide_eq_true h.2)).1,
     ((C24_no_division_by_zero .adaptive path5.A path5.A [0]).2 fwd h.1 2 (by decide)
        (of_decide_eq_true h.2)).2.2.2.1⟩

/-- C25 (code bug): the three places where LAGraph_BinRead means to reject a file,
`LG_CHECK (false, -1, "unknown type")`, `LG_CHECK (false, -1, "unknown matrix format")`
and `LG_CHECK (false, -1, "unknown format")`, pass `false` as the condition of the error
and never fire.  With the constants of SuiteSparse:GraphBLAS and any answers of the
engine: a file with the unknown kind 3 and a file with the unknown format 2 reach
`GxB_set (*A, GxB_HYPER_SWITCH, hyper)` with `*A` still NULL, and the call ends as
GrB_TRY makes of the answer (GrB_NULL_POINTER from SuiteSparse), not with -1; a file with
the unknown typecode 13 reaches GxB_Matrix_import_FullR with `type` never assigned, and
the call returns 0 when the engine accepts that. -/
theorem C25_BinRead_falls_through (imp : BinImport → Option GrB_Info)
    (set : Option BinImport → Option GrB_Info) :
    (scalars_of example_env (scalar_file 0 3 0) = some (scalar_contents 0 3 0 none).scalars
        ∧ ¬ known_scalars example_env (scalar_contents 0 3 0 none).scalars
        ∧ LAGraph_BinRead (engine_env imp set) false false (some (scalar_file 0 3 0))
            = ((GrB_TRY (set none) (.ok ())).bind fun _ => .ok none)
        ∧ LAGraph_BinRead example_env false false (some (scalar_file 0 3 0))
            = .error (.grb_try .GrB_NULL_POINTER))
      ∧ (scalars_of example_env (scalar_file 2 8 0) = some (scalar_contents 2 8 0 none).scalars
        ∧ ¬ known_scalars example_env (scalar_contents 2 8 0 none).scalars
        ∧ LAGraph_BinRead (engine_env imp set) false false (some (scalar_file 2 8 0))
            = ((GrB_TRY (set none) (.ok ())).bind fun _ => .ok none)
        ∧ LAGraph_BinRead example_env false false (some (scalar_file 2 8 0))
            = .error (.grb_try .GrB_NULL_POINTER))
      ∧ (scalars_of example_env (scalar_file 0 8 13) = some (scalar_contents 0 8 13 none).scalars
        ∧ ¬ known_scalars example_env (scalar_contents 0 8 13 none).scalars
        ∧ LAGraph_BinRead (engine_env imp set) false false (some (scalar_file 0 8 13))
            = ((GrB_TRY (imp ⟨.FullR, scalar_contents 0 8 13 none⟩) (.ok ())).bind fun _ =>
                (GrB_TRY (set (some ⟨.FullR, scalar_contents 0 8 13 none⟩)) (.ok ())).bind
                  fun _ => .ok (some ⟨.FullR, scalar_contents 0 8 13 none⟩))
        ∧ LAGraph_BinRead example_env false false (some (scalar_file 0 8 13))
            = .ok (some ⟨.FullR, scalar_contents 0 8 13 none⟩)
        ∧ returns (LAGraph_BinRead example_env false false (some (scalar_file 0 8 13))) 0) := by
  refine ⟨⟨by decide!, ?_, ?_, by decide!⟩, ⟨by decide!, ?_, ?_, by decide!⟩,
    ⟨by decide!, ?_, ?_, by decide!, ?_⟩⟩
  · unfold known_scalars
    decide!
  · exact BinRead_of_contents (engine_env imp set) (scalar_file 0 3 0)
      (scalar_contents 0 3 0 (some .GrB_BOOL)) none
      ((BinRead_contents_engine imp set _).trans (by decide!))
      ((import_routine_engine imp set _).trans (by decide!))
  · unfold known_scalars
    decide!
  · exact BinRead_of_contents (engine_env imp set) (scalar_file 2 8 0)
      (scalar_contents 2 8 0 (some .GrB_BOOL)) none
      ((BinRead_contents_engine imp set _).trans (by decide!))
      ((import_routine_engine imp set _).trans (by decide!))
  · unfold known_scalars
    decide!
  · rw [BinRead_of_contents (engine_env imp set) (scalar_file 0 8 13)
      (scalar_contents 0 8 13 none) (some .FullR)
      ((BinRead_contents_engine imp set _).trans (by decide!))
      ((import_routine_engine imp set _).trans (by decide!))]
    show ((GrB_TRY (imp ⟨.FullR, scalar_contents 0 8 13 none⟩) (.ok ())).bind _).bind _ = _
    generalize imp ⟨.FullR, scalar_contents 0 8 13 none⟩ = answer
    cases answer <;> rfl
  · rw [show LAGraph_BinRead example_env false false (some (scalar_file 0 8 13))
        = .ok (some ⟨.FullR, scalar_contents 0 8 13 none⟩) from by decide!]
    rfl

end LAGraph
